import Mathlib

/-!
The nghttp2 stream dependency core (`lib/nghttp2_stream.c`)

A shallow embedding of the stream module of nghttp2.  Memory is modelled
field by field: every field of `nghttp2_stream`, `nghttp2_stream_group` and
`nghttp2_outbound_item` is a map from addresses (natural numbers) to values,
a nullable pointer is an `Option Nat`.  Loops and recursions over the pointer
structure take a `fuel` argument; dereferencing a null pointer and a failing
`assert` are faults.

`num_substreams` (`ssize_t`) and `num_streams` (`size_t`) are modelled as
unbounded integers: both only ever count streams that exist in memory.
-/

set_option autoImplicit false

/-- Ways in which a run of the C code produces no result. -/
inductive Fault
  | out_of_fuel
  | null_deref
  | assert_fail
  deriving DecidableEq, Repr

/-- The enum `nghttp2_stream_dpri`. -/
inductive nghttp2_stream_dpri
  | NGHTTP2_STREAM_DPRI_NO_DATA
  | NGHTTP2_STREAM_DPRI_REST
  | NGHTTP2_STREAM_DPRI_TOP
  deriving DecidableEq, Repr

open nghttp2_stream_dpri

/-- Modelled from the spec: the external priority queue, of which the module
uses only `push`.  `q` lists the pushed items in push order, `room` is the
number of further pushes the allocator will grant. -/
structure nghttp2_pq where
  q : List Nat
  room : Nat
  deriving DecidableEq, Repr

/-- The memory: one map per struct field, and the priority queue. -/
structure Mem where
  stream_id : Nat → Int
  flags : Nat → Nat
  state : Nat → Nat
  shut_flags : Nat → Nat
  stream_user_data : Nat → Option Nat
  data : Nat → Option Nat
  deferred_data : Nat → Option Nat
  deferred_flags : Nat → Nat
  remote_window_size : Nat → Int
  local_window_size : Nat → Int
  recv_window_size : Nat → Int
  recv_reduction : Nat → Int
  dep_prev : Nat → Option Nat
  dep_next : Nat → Option Nat
  sib_prev : Nat → Option Nat
  sib_next : Nat → Option Nat
  stream_group : Nat → Option Nat
  dpri : Nat → nghttp2_stream_dpri
  num_substreams : Nat → Int
  num_streams : Nat → Int
  pri_group_id : Nat → Int
  weight : Nat → Int
  queued : Nat → Nat
  pq : nghttp2_pq

def INT32_MIN : Int := -2147483648

def INT32_MAX : Int := 2147483647

/-- Modelled from the spec: `NGHTTP2_MAX_WINDOW_SIZE` is `2^31 - 1`. -/
def NGHTTP2_MAX_WINDOW_SIZE : Int := 2147483647

/-- Modelled from the spec: the error code of a failed allocation. -/
def NGHTTP2_ERR_NOMEM : Int := -901

def NGHTTP2_SHUT_NONE : Nat := 0

def NGHTTP2_DEFERRED_NONE : Nat := 0

/-- Modelled from the spec: the value of the state `OPENED`. -/
def NGHTTP2_STREAM_OPENED : Nat := 1

/-- Two's complement reduction to `int64_t`. -/
def wrap_int64 (x : Int) : Int := (x + 2 ^ 63) % 2 ^ 64 - 2 ^ 63

/-- Two's complement reduction to `int32_t`. -/
def wrap_int32 (x : Int) : Int := (x + 2 ^ 31) % 2 ^ 32 - 2 ^ 31

/-- Modelled from the spec: `nghttp2_pq_push`, which fails with
`NGHTTP2_ERR_NOMEM` when the allocator grants no more room. -/
def nghttp2_pq_push (pq : nghttp2_pq) (item : Nat) : nghttp2_pq × Int :=
  if pq.room = 0 then (pq, NGHTTP2_ERR_NOMEM)
  else ({ q := pq.q ++ [item], room := pq.room - 1 }, 0)

def nghttp2_stream_init (m : Mem) (stream : Nat) (stream_id : Int) (flags : Nat)
    (initial_state : Nat) (remote_initial_window_size local_initial_window_size : Int)
    (stream_user_data : Option Nat) : Mem :=
  { m with
    stream_id := Function.update m.stream_id stream stream_id
    flags := Function.update m.flags stream flags
    state := Function.update m.state stream initial_state
    shut_flags := Function.update m.shut_flags stream NGHTTP2_SHUT_NONE
    stream_user_data := Function.update m.stream_user_data stream stream_user_data
    data := Function.update m.data stream none
    deferred_data := Function.update m.deferred_data stream none
    deferred_flags := Function.update m.deferred_flags stream NGHTTP2_DEFERRED_NONE
    remote_window_size := Function.update m.remote_window_size stream remote_initial_window_size
    local_window_size := Function.update m.local_window_size stream local_initial_window_size
    recv_window_size := Function.update m.recv_window_size stream 0
    recv_reduction := Function.update m.recv_reduction stream 0
    dep_prev := Function.update m.dep_prev stream none
    dep_next := Function.update m.dep_next stream none
    sib_prev := Function.update m.sib_prev stream none
    sib_next := Function.update m.sib_next stream none
    stream_group := Function.update m.stream_group stream none
    dpri := Function.update m.dpri stream NGHTTP2_STREAM_DPRI_NO_DATA
    num_substreams := Function.update m.num_substreams stream 1 }

def nghttp2_stream_shutdown (m : Mem) (stream : Nat) (flag : Nat) : Mem :=
  { m with shut_flags := Function.update m.shut_flags stream (m.shut_flags stream ||| flag) }

def stream_first_sib : Nat → Mem → Nat → Except Fault Nat
  | 0, _, _ => .error .out_of_fuel
  | fuel + 1, m, stream =>
    match m.sib_prev stream with
    | some prev => stream_first_sib fuel m prev
    | none => .ok stream

def stream_last_sib : Nat → Mem → Nat → Except Fault Nat
  | 0, _, _ => .error .out_of_fuel
  | fuel + 1, m, stream =>
    match m.sib_next stream with
    | some next => stream_last_sib fuel m next
    | none => .ok stream

def stream_update_dep_length : Nat → Mem → Nat → Int → Except Fault (Mem × Nat)
  | 0, _, _, _ => .error .out_of_fuel
  | fuel + 1, m, stream, delta =>
    let m1 : Mem := { m with
      num_substreams := Function.update m.num_substreams stream (m.num_substreams stream + delta) }
    match stream_first_sib (fuel + 1) m1 stream with
    | .error e => .error e
    | .ok first =>
      match m1.dep_prev first with
      | some parent => stream_update_dep_length fuel m1 parent delta
      | none => .ok (m1, first)

def nghttp2_stream_group_init (m : Mem) (stream_group : Nat) (pri_group_id weight : Int) : Mem :=
  { m with
    num_streams := Function.update m.num_streams stream_group 0
    pri_group_id := Function.update m.pri_group_id stream_group pri_group_id
    weight := Function.update m.weight stream_group weight }

def nghttp2_stream_group_add_stream (m : Mem) (stream_group : Option Nat) (stream : Nat) :
    Except Fault Mem :=
  match stream_group with
  | none => .error .null_deref
  | some g =>
    .ok { m with
      stream_group := Function.update m.stream_group stream (some g)
      num_streams := Function.update m.num_streams g (m.num_streams g + 1) }

def nghttp2_stream_group_remove_stream (m : Mem) (stream_group : Option Nat) (stream : Nat) :
    Except Fault Mem :=
  match stream_group with
  | none => .error .null_deref
  | some g =>
    .ok { m with
      stream_group := Function.update m.stream_group stream none
      num_streams := Function.update m.num_streams g (m.num_streams g - 1) }

def stream_update_dep_set_rest_stream_group :
    Nat → Mem → Option Nat → Option Nat → Except Fault Mem
  | _, m, none, _ => .ok m
  | 0, _, some _, _ => .error .out_of_fuel
  | fuel + 1, m, some stream, stream_group =>
    match nghttp2_stream_group_remove_stream m (m.stream_group stream) stream with
    | .error e => .error e
    | .ok m1 =>
      match nghttp2_stream_group_add_stream m1 stream_group stream with
      | .error e => .error e
      | .ok m2 =>
        let m3 : Mem :=
          if m2.dpri stream = NGHTTP2_STREAM_DPRI_TOP then
            { m2 with dpri := Function.update m2.dpri stream NGHTTP2_STREAM_DPRI_REST }
          else m2
        match stream_update_dep_set_rest_stream_group fuel m3 (m3.sib_next stream)
            stream_group with
        | .error e => .error e
        | .ok m4 =>
          stream_update_dep_set_rest_stream_group fuel m4 (m4.dep_next stream) stream_group

def stream_update_dep_set_rest : Nat → Mem → Option Nat → Except Fault Mem
  | _, m, none => .ok m
  | 0, _, some _ => .error .out_of_fuel
  | fuel + 1, m, some stream =>
    match m.dpri stream with
    | NGHTTP2_STREAM_DPRI_REST => .ok m
    | NGHTTP2_STREAM_DPRI_TOP =>
      let m1 : Mem := { m with dpri := Function.update m.dpri stream NGHTTP2_STREAM_DPRI_REST }
      stream_update_dep_set_rest fuel m1 (m1.sib_next stream)
    | NGHTTP2_STREAM_DPRI_NO_DATA =>
      match stream_update_dep_set_rest fuel m (m.sib_next stream) with
      | .error e => .error e
      | .ok m1 => stream_update_dep_set_rest fuel m1 (m1.dep_next stream)

def stream_update_dep_set_top : Nat → Mem → Option Nat → Except Fault (Mem × Int)
  | _, m, none => .ok (m, 0)
  | 0, _, some _ => .error .out_of_fuel
  | fuel + 1, m, some stream =>
    match m.dpri stream with
    | NGHTTP2_STREAM_DPRI_TOP => stream_update_dep_set_top fuel m (m.sib_next stream)
    | NGHTTP2_STREAM_DPRI_REST =>
      match m.data stream with
      | none => .error .null_deref
      | some d =>
        if m.queued d = 0 then
          let r := nghttp2_pq_push m.pq d
          if r.2 ≠ 0 then .ok ({ m with pq := r.1 }, r.2)
          else
            let m1 : Mem := { m with pq := r.1, queued := Function.update m.queued d 1 }
            let m2 : Mem :=
              { m1 with dpri := Function.update m1.dpri stream NGHTTP2_STREAM_DPRI_TOP }
            stream_update_dep_set_top fuel m2 (m2.sib_next stream)
        else
          let m2 : Mem :=
            { m with dpri := Function.update m.dpri stream NGHTTP2_STREAM_DPRI_TOP }
          stream_update_dep_set_top fuel m2 (m2.sib_next stream)
    | NGHTTP2_STREAM_DPRI_NO_DATA =>
      match stream_update_dep_set_top fuel m (m.sib_next stream) with
      | .error e => .error e
      | .ok (m1, rv) =>
        if rv ≠ 0 then .ok (m1, rv)
        else stream_update_dep_set_top fuel m1 (m1.dep_next stream)

def nghttp2_stream_get_dep_root : Nat → Mem → Nat → Except Fault Nat
  | 0, _, _ => .error .out_of_fuel
  | fuel + 1, m, stream =>
    match m.sib_prev stream with
    | some prev => nghttp2_stream_get_dep_root fuel m prev
    | none =>
      match m.dep_prev stream with
      | some prev => nghttp2_stream_get_dep_root fuel m prev
      | none => .ok stream

def stream_update_dep_on_attach_data (fuel : Nat) (m : Mem) (stream : Nat) :
    Except Fault (Mem × Int) :=
  let m1 : Mem := { m with dpri := Function.update m.dpri stream NGHTTP2_STREAM_DPRI_REST }
  match stream_update_dep_set_rest fuel m1 (m1.dep_next stream) with
  | .error e => .error e
  | .ok m2 =>
    match nghttp2_stream_get_dep_root fuel m2 stream with
    | .error e => .error e
    | .ok root_stream =>
      match stream_update_dep_set_top fuel m2 (some root_stream) with
      | .error e => .error e
      | .ok (m3, rv) => if rv ≠ 0 then .ok (m3, rv) else .ok (m3, 0)

def stream_update_dep_on_detach_data (fuel : Nat) (m : Mem) (stream : Nat) :
    Except Fault (Mem × Int) :=
  if m.dpri stream ≠ NGHTTP2_STREAM_DPRI_TOP then
    .ok ({ m with dpri := Function.update m.dpri stream NGHTTP2_STREAM_DPRI_NO_DATA }, 0)
  else
    let m1 : Mem := { m with dpri := Function.update m.dpri stream NGHTTP2_STREAM_DPRI_NO_DATA }
    stream_update_dep_set_top fuel m1 (m1.dep_next stream)

def nghttp2_stream_attach_data (fuel : Nat) (m : Mem) (stream : Nat) (data : Option Nat) :
    Except Fault (Mem × Int) :=
  if m.data stream ≠ none then .error .assert_fail
  else if m.deferred_data stream ≠ none then .error .assert_fail
  else
    let m1 : Mem := { m with data := Function.update m.data stream data }
    stream_update_dep_on_attach_data fuel m1 stream

def nghttp2_stream_detach_data (fuel : Nat) (m : Mem) (stream : Nat) :
    Except Fault (Mem × Int) :=
  let m1 : Mem := { m with data := Function.update m.data stream none }
  stream_update_dep_on_detach_data fuel m1 stream

def nghttp2_stream_defer_data (m : Mem) (stream : Nat) (data : Option Nat) (flags : Nat) :
    Except Fault Mem :=
  if m.data stream = none then .error .assert_fail
  else if m.data stream ≠ data then .error .assert_fail
  else if m.deferred_data stream ≠ none then .error .assert_fail
  else
    .ok { m with
      deferred_data := Function.update m.deferred_data stream data
      deferred_flags := Function.update m.deferred_flags stream flags
      data := Function.update m.data stream none }

def nghttp2_stream_detach_deferred_data (fuel : Nat) (m : Mem) (stream : Nat) :
    Except Fault (Mem × Int) :=
  if m.data stream ≠ none then .error .assert_fail
  else if m.deferred_data stream = none then .error .assert_fail
  else
    let data := m.deferred_data stream
    let m1 : Mem :=
      { m with
        deferred_data := Function.update m.deferred_data stream none
        deferred_flags := Function.update m.deferred_flags stream NGHTTP2_DEFERRED_NONE }
    nghttp2_stream_attach_data fuel m1 stream data

/-- The body of `update_initial_window_size`: the new content of
`*window_size_ptr` and the return value. -/
def update_initial_window_size (window_size new_initial_window_size
    old_initial_window_size : Int) : Int × Int :=
  let new_window_size : Int :=
    wrap_int64 (wrap_int64 (wrap_int64 window_size + new_initial_window_size)
      - old_initial_window_size)
  if INT32_MIN > new_window_size ∨ new_window_size > NGHTTP2_MAX_WINDOW_SIZE then
    (window_size, -1)
  else (wrap_int32 new_window_size, 0)

def nghttp2_stream_update_remote_initial_window_size (m : Mem) (stream : Nat)
    (new_initial_window_size old_initial_window_size : Int) : Mem × Int :=
  let r := update_initial_window_size (m.remote_window_size stream)
    new_initial_window_size old_initial_window_size
  ({ m with remote_window_size := Function.update m.remote_window_size stream r.1 }, r.2)

def nghttp2_stream_update_local_initial_window_size (m : Mem) (stream : Nat)
    (new_initial_window_size old_initial_window_size : Int) : Mem × Int :=
  let r := update_initial_window_size (m.local_window_size stream)
    new_initial_window_size old_initial_window_size
  ({ m with local_window_size := Function.update m.local_window_size stream r.1 }, r.2)

def nghttp2_stream_promise_fulfilled (m : Mem) (stream : Nat) : Mem :=
  { m with state := Function.update m.state stream NGHTTP2_STREAM_OPENED }

def nghttp2_stream_dep_subtree_find : Nat → Mem → Option Nat → Nat → Except Fault Bool
  | _, _, none, _ => .ok false
  | 0, _, some _, _ => .error .out_of_fuel
  | fuel + 1, m, some stream, target =>
    if stream = target then .ok true
    else
      match nghttp2_stream_dep_subtree_find fuel m (m.sib_next stream) target with
      | .error e => .error e
      | .ok true => .ok true
      | .ok false => nghttp2_stream_dep_subtree_find fuel m (m.dep_next stream) target

/-- The loop `for(si = ...; si; si = si->sib_next) stream->num_substreams +=
si->num_substreams` of `dep_insert` and `dep_insert_subtree`. -/
def dep_insert_sum_loop : Nat → Mem → Nat → Option Nat → Except Fault Mem
  | _, m, _, none => .ok m
  | 0, _, _, some _ => .error .out_of_fuel
  | fuel + 1, m, stream, some si =>
    let m1 : Mem := { m with
      num_substreams := Function.update m.num_substreams stream (m.num_substreams stream + m.num_substreams si) }
    dep_insert_sum_loop fuel m1 stream (m1.sib_next si)

def nghttp2_stream_dep_insert (fuel : Nat) (m : Mem) (dep_stream stream : Nat) :
    Except Fault Mem :=
  if m.data stream ≠ none then .error .assert_fail
  else
    let r : Except Fault Mem :=
      match m.dep_next dep_stream with
      | some first =>
        match dep_insert_sum_loop fuel m stream (some first) with
        | .error e => .error e
        | .ok m1 =>
          let m2 : Mem := { m1 with
            dep_next := Function.update m1.dep_next stream (m1.dep_next dep_stream) }
          match m2.dep_next stream with
          | none => .error .null_deref
          | some c =>
            .ok { m2 with dep_prev := Function.update m2.dep_prev c (some stream) }
      | none => .ok m
    match r with
    | .error e => .error e
    | .ok m3 =>
      let m4 : Mem := { m3 with dep_next := Function.update m3.dep_next dep_stream (some stream) }
      let m5 : Mem := { m4 with dep_prev := Function.update m4.dep_prev stream (some dep_stream) }
      match stream_update_dep_length fuel m5 dep_stream 1 with
      | .error e => .error e
      | .ok (m6, _) => .ok m6

def nghttp2_stream_dep_add (fuel : Nat) (m : Mem) (dep_stream stream : Nat) :
    Except Fault Mem :=
  if m.data stream ≠ none then .error .assert_fail
  else
    match stream_update_dep_length fuel m dep_stream 1 with
    | .error e => .error e
    | .ok (m1, _) =>
      match m1.dep_next dep_stream with
      | none =>
        let m2 : Mem := { m1 with
          dep_next := Function.update m1.dep_next dep_stream (some stream) }
        .ok { m2 with dep_prev := Function.update m2.dep_prev stream (some dep_stream) }
      | some first =>
        match stream_last_sib fuel m1 first with
        | .error e => .error e
        | .ok last_sib =>
          let m2 : Mem := { m1 with
            sib_next := Function.update m1.sib_next last_sib (some stream) }
          .ok { m2 with sib_prev := Function.update m2.sib_prev stream (some last_sib) }

/-- The loop of `dep_remove` that turns every child of a removed root into a
root. -/
def dep_remove_root_loop : Nat → Mem → Option Nat → Except Fault Mem
  | _, m, none => .ok m
  | 0, _, some _ => .error .out_of_fuel
  | fuel + 1, m, some si =>
    let next := m.sib_next si
    let m1 : Mem := { m with dep_prev := Function.update m.dep_prev si none }
    let m2 : Mem := { m1 with sib_prev := Function.update m1.sib_prev si none }
    let m3 : Mem := { m2 with sib_next := Function.update m2.sib_next si none }
    dep_remove_root_loop fuel m3 next

/-- The three-way case distinction of `dep_remove` on the position of
`stream`; returns the memory and the local variable `dep_next`. -/
def dep_remove_unlink (fuel : Nat) (m : Mem) (stream : Nat) :
    Except Fault (Mem × Option Nat) :=
  match m.sib_prev stream with
  | some prev =>
    match m.dep_next stream with
    | some dep_next =>
      let m1 : Mem := { m with dep_prev := Function.update m.dep_prev dep_next none }
      let m2 : Mem := { m1 with sib_next := Function.update m1.sib_next prev (some dep_next) }
      .ok ({ m2 with sib_prev := Function.update m2.sib_prev dep_next (some prev) },
        some dep_next)
    | none =>
      let next := m.sib_next stream
      let m1 : Mem := { m with sib_next := Function.update m.sib_next prev next }
      match next with
      | some n => .ok ({ m1 with sib_prev := Function.update m1.sib_prev n (some prev) }, none)
      | none => .ok (m1, none)
  | none =>
    match m.dep_prev stream with
    | some prev =>
      match m.dep_next stream with
      | some dep_next =>
        let m1 : Mem := { m with dep_next := Function.update m.dep_next prev (some dep_next) }
        .ok ({ m1 with dep_prev := Function.update m1.dep_prev dep_next (some prev) },
          some dep_next)
      | none =>
        match m.sib_next stream with
        | some next =>
          let m1 : Mem := { m with dep_next := Function.update m.dep_next prev (some next) }
          let m2 : Mem := { m1 with dep_prev := Function.update m1.dep_prev next (some prev) }
          .ok ({ m2 with sib_prev := Function.update m2.sib_prev next none }, none)
        | none =>
          .ok ({ m with dep_next := Function.update m.dep_next prev none }, none)
    | none =>
      match dep_remove_root_loop fuel m (m.dep_next stream) with
      | .error e => .error e
      | .ok m1 => .ok (m1, none)

def nghttp2_stream_dep_remove (fuel : Nat) (m : Mem) (stream : Nat) : Except Fault Mem :=
  match stream_first_sib fuel m stream with
  | .error e => .error e
  | .ok prev =>
    let r0 : Except Fault Mem :=
      match m.dep_prev prev with
      | some parent =>
        match stream_update_dep_length fuel m parent (-1) with
        | .error e => .error e
        | .ok (m1, _) => .ok m1
      | none => .ok m
    match r0 with
    | .error e => .error e
    | .ok m1 =>
      match dep_remove_unlink fuel m1 stream with
      | .error e => .error e
      | .ok (m2, dep_next) =>
        let r1 : Except Fault Mem :=
          match dep_next, m2.sib_next stream with
          | some dn, some next =>
            match stream_last_sib fuel m2 dn with
            | .error e => .error e
            | .ok last =>
              let m3 : Mem := { m2 with
                sib_next := Function.update m2.sib_next last (some next) }
              .ok { m3 with sib_prev := Function.update m3.sib_prev next (some last) }
          | _, _ => .ok m2
        match r1 with
        | .error e => .error e
        | .ok m4 =>
          .ok { m4 with
            num_substreams := Function.update m4.num_substreams stream 1
            dep_prev := Function.update m4.dep_prev stream none
            dep_next := Function.update m4.dep_next stream none
            sib_prev := Function.update m4.sib_prev stream none
            sib_next := Function.update m4.sib_next stream none }

def nghttp2_stream_dep_insert_subtree (fuel : Nat) (m : Mem) (dep_stream stream : Nat) :
    Except Fault (Mem × Int) :=
  let delta_substreams := m.num_substreams stream
  match stream_update_dep_set_rest_stream_group fuel m (some stream)
      (m.stream_group dep_stream) with
  | .error e => .error e
  | .ok m1 =>
    let r : Except Fault Mem :=
      match m1.dep_next dep_stream with
      | some dep_next =>
        match dep_insert_sum_loop fuel m1 stream (some dep_next) with
        | .error e => .error e
        | .ok m2 =>
          match stream_update_dep_set_rest fuel m2 (some dep_next) with
          | .error e => .error e
          | .ok m3 =>
            let m4 : Mem := { m3 with
              dep_next := Function.update m3.dep_next dep_stream (some stream) }
            let m5 : Mem := { m4 with
              dep_prev := Function.update m4.dep_prev stream (some dep_stream) }
            match m5.dep_next stream with
            | some first =>
              match stream_last_sib fuel m5 first with
              | .error e => .error e
              | .ok last_sib =>
                let m6 : Mem := { m5 with
                  sib_next := Function.update m5.sib_next last_sib (some dep_next) }
                let m7 : Mem := { m6 with
                  sib_prev := Function.update m6.sib_prev dep_next (some last_sib) }
                .ok { m7 with dep_prev := Function.update m7.dep_prev dep_next none }
            | none =>
              let m6 : Mem := { m5 with
                dep_next := Function.update m5.dep_next stream (some dep_next) }
              .ok { m6 with dep_prev := Function.update m6.dep_prev dep_next (some stream) }
      | none =>
        let m2 : Mem := { m1 with
          dep_next := Function.update m1.dep_next dep_stream (some stream) }
        .ok { m2 with dep_prev := Function.update m2.dep_prev stream (some dep_stream) }
    match r with
    | .error e => .error e
    | .ok m8 =>
      match stream_update_dep_length fuel m8 dep_stream delta_substreams with
      | .error e => .error e
      | .ok (m9, root_stream) => stream_update_dep_set_top fuel m9 (some root_stream)

def nghttp2_stream_dep_add_subtree (fuel : Nat) (m : Mem) (dep_stream stream : Nat) :
    Except Fault (Mem × Int) :=
  match stream_update_dep_set_rest_stream_group fuel m (some stream)
      (m.stream_group dep_stream) with
  | .error e => .error e
  | .ok m1 =>
    let r : Except Fault Mem :=
      match m1.dep_next dep_stream with
      | some first =>
        match stream_last_sib fuel m1 first with
        | .error e => .error e
        | .ok last_sib =>
          let m2 : Mem := { m1 with
            sib_next := Function.update m1.sib_next last_sib (some stream) }
          .ok { m2 with sib_prev := Function.update m2.sib_prev stream (some last_sib) }
      | none =>
        let m2 : Mem := { m1 with
          dep_next := Function.update m1.dep_next dep_stream (some stream) }
        .ok { m2 with dep_prev := Function.update m2.dep_prev stream (some dep_stream) }
    match r with
    | .error e => .error e
    | .ok m3 =>
      match stream_update_dep_length fuel m3 dep_stream (m3.num_substreams stream) with
      | .error e => .error e
      | .ok (m4, root_stream) => stream_update_dep_set_top fuel m4 (some root_stream)

def nghttp2_stream_dep_remove_subtree (fuel : Nat) (m : Mem) (stream : Nat) :
    Except Fault Mem :=
  let r : Except Fault Mem :=
    match m.sib_prev stream with
    | some prev =>
      let m1 : Mem := { m with sib_next := Function.update m.sib_next prev (m.sib_next stream) }
      let m2 : Mem :=
        match m1.sib_next prev with
        | some n => { m1 with sib_prev := Function.update m1.sib_prev n (some prev) }
        | none => m1
      match stream_first_sib fuel m2 prev with
      | .error e => .error e
      | .ok first =>
        match m2.dep_prev first with
        | some parent =>
          match stream_update_dep_length fuel m2 parent (-(m2.num_substreams stream)) with
          | .error e => .error e
          | .ok (m3, _) => .ok m3
        | none => .ok m2
    | none =>
      match m.dep_prev stream with
      | some prev =>
        let next := m.sib_next stream
        let m1 : Mem := { m with dep_next := Function.update m.dep_next prev next }
        let m2 : Mem :=
          match next with
          | some n =>
            let m1a : Mem := { m1 with dep_prev := Function.update m1.dep_prev n (some prev) }
            { m1a with sib_prev := Function.update m1a.sib_prev n none }
          | none => m1
        match stream_update_dep_length fuel m2 prev (-(m2.num_substreams stream)) with
        | .error e => .error e
        | .ok (m3, _) => .ok m3
      | none => .ok m
  match r with
  | .error e => .error e
  | .ok m4 =>
    .ok { m4 with
      sib_prev := Function.update m4.sib_prev stream none
      sib_next := Function.update m4.sib_next stream none
      dep_prev := Function.update m4.dep_prev stream none }

def nghttp2_stream_dep_make_root (fuel : Nat) (m : Mem) (stream_group : Option Nat)
    (stream : Nat) : Except Fault (Mem × Int) :=
  match stream_update_dep_set_rest_stream_group fuel m (some stream) stream_group with
  | .error e => .error e
  | .ok m1 => stream_update_dep_set_top fuel m1 (some stream)

/-! ## Well-formed forests

The link fields of a well-formed memory lay out a forest that is described by
its children map `kids : Nat → List Nat` (the children of every stream, in
sibling order).  -/

/-- Head of `l`, or `nx` when `l` is empty. -/
def headOr (l : List Nat) (nx : Option Nat) : Option Nat :=
  match l with
  | [] => nx
  | c :: _ => some c

/-- Last element of `l`, or `sp` when `l` is empty. -/
def lastOr : List Nat → Option Nat → Option Nat
  | [], sp => sp
  | c :: cs, _ => lastOr cs (some c)

/-- The streams of `l` are linked, in order, as a run of siblings: the first
has `dep_prev = dp` and `sib_prev = sp`, every later one has `dep_prev = null`
and `sib_prev` its predecessor, `sib_next` is the successor, and the `sib_next`
of the last one is `nx`. -/
def LinkChain (m : Mem) : Option Nat → Option Nat → List Nat → Option Nat → Prop
  | _, _, [], _ => True
  | dp, sp, c :: cs, nx =>
    m.dep_prev c = dp ∧ m.sib_prev c = sp ∧ m.sib_next c = headOr cs nx ∧
      LinkChain m none (some c) cs nx

/-- Stream `x` is the child of no stream. -/
def IsRoot (kids : Nat → List Nat) (x : Nat) : Prop := ∀ n, x ∉ kids n

/-- The link fields of `m` lay out the forest with children map `kids`. -/
structure Links (m : Mem) (kids : Nat → List Nat) : Prop where
  nodup : ∀ n, (kids n).Nodup
  uniq : ∀ n n' c, c ∈ kids n → c ∈ kids n' → n = n'
  dep_next : ∀ n, m.dep_next n = (kids n).head?
  chain : ∀ n, LinkChain m (some n) none (kids n) none
  root : ∀ x, IsRoot kids x → m.dep_prev x = none ∧ m.sib_prev x = none ∧ m.sib_next x = none

/-- The function `num` counts the streams of every subtree of the forest
`kids`, and no tree has more than `N` streams. -/
structure Counts (num : Nat → Int) (kids : Nat → List Nat) (N : Nat) : Prop where
  eq : ∀ n, num n = 1 + ((kids n).map num).sum
  pos : ∀ n, 1 ≤ num n
  bound : ∀ n, num n ≤ (N : Int)

/-- Well-formed forest: the links lay out `kids` (invariants 1 and 2 of the
data model), `num_substreams` is the size of every subtree (invariant 3), and
no tree has more than `N` streams. -/
structure WF (m : Mem) (kids : Nat → List Nat) (N : Nat) : Prop where
  links : Links m kids
  counts : Counts m.num_substreams kids N

/-- `Above kids x a`: stream `a` is `x` or an ancestor of `x`. -/
inductive Above (kids : Nat → List Nat) (x : Nat) : Nat → Prop
  | self : Above kids x x
  | up (y n : Nat) : Above kids x y → y ∈ kids n → Above kids x n

/-- `Anc kids x a`: stream `a` is a proper ancestor of `x`. -/
def Anc (kids : Nat → List Nat) (x a : Nat) : Prop := ∃ n, x ∈ kids n ∧ Above kids n a

/-- A stream without parent and without children. -/
def Isolated (kids : Nat → List Nat) (x : Nat) : Prop := IsRoot kids x ∧ kids x = []

/-- Last element of `l`, or `d` when `l` is empty. -/
def lastD : List Nat → Nat → Nat
  | [], d => d
  | c :: cs, _ => lastD cs c

/-- What `stream_update_dep_length` reads on its way up from `x`: the walks to
the first sibling and the parent pointers of the streams above `x`. -/
structure UpOK (m : Mem) (kids : Nat → List Nat) (x : Nat) : Prop where
  root : ∀ y, Above kids x y → IsRoot kids y → m.sib_prev y = none ∧ m.dep_prev y = none
  child : ∀ y n L R, Above kids x y → kids n = L ++ y :: R →
    (∀ fuel, L.length < fuel → stream_first_sib fuel m y = .ok (L.headD y)) ∧
      m.dep_prev (L.headD y) = some n

/-- The memories `m` and `m'` differ at most in the link fields and in
`num_substreams`. -/
def SameData (m m' : Mem) : Prop :=
  m' = { m with
    dep_prev := m'.dep_prev
    dep_next := m'.dep_next
    sib_prev := m'.sib_prev
    sib_next := m'.sib_next
    num_substreams := m'.num_substreams }

/-- The children map after `s` has become the only child of `p` and has
adopted the former children of `p`. -/
def kidsInsert (kids : Nat → List Nat) (p s : Nat) : Nat → List Nat :=
  Function.update (Function.update kids p [s]) s (kids s ++ kids p)

/-- The children map after the child `s` of `p` has been removed and its
children `K` have taken its place in `L ++ s :: R`. -/
def kidsRemove (kids : Nat → List Nat) (p s : Nat) (L R : List Nat) : Nat → List Nat :=
  Function.update (Function.update kids p (L ++ (kids s ++ R))) s []

/-- `InSub kids l y`: stream `y` lies in the subtree of some stream of `l`. -/
def InSub (kids : Nat → List Nat) (l : List Nat) (y : Nat) : Prop := ∃ c ∈ l, Above kids y c

/-- `TopReach kids d l y`: the top-search started on the sibling run `l`
visits `y`: it visits every stream of `l` and descends below the streams
without data. -/
inductive TopReach (kids : Nat → List Nat) (d : Nat → nghttp2_stream_dpri) :
    List Nat → Nat → Prop
  | head (c : Nat) (cs : List Nat) : TopReach kids d (c :: cs) c
  | sib (c : Nat) (cs : List Nat) (y : Nat) : TopReach kids d cs y → TopReach kids d (c :: cs) y
  | child (c : Nat) (cs : List Nat) (y : Nat) : d c = NGHTTP2_STREAM_DPRI_NO_DATA →
      TopReach kids d (kids c) y → TopReach kids d (c :: cs) y

/-- `RestVisit kids d l y`: the demotion pass started on the sibling run `l`
visits `y`: it stops at a REST stream, goes on to the next sibling after a TOP
stream, and to the siblings and the children after a stream without data. -/
inductive RestVisit (kids : Nat → List Nat) (d : Nat → nghttp2_stream_dpri) :
    List Nat → Nat → Prop
  | head (c : Nat) (cs : List Nat) : RestVisit kids d (c :: cs) c
  | sib (c : Nat) (cs : List Nat) (y : Nat) : d c ≠ NGHTTP2_STREAM_DPRI_REST →
      RestVisit kids d cs y → RestVisit kids d (c :: cs) y
  | child (c : Nat) (cs : List Nat) (y : Nat) : d c = NGHTTP2_STREAM_DPRI_NO_DATA →
      RestVisit kids d (kids c) y → RestVisit kids d (c :: cs) y

/-- The subtrees of the streams of `l` are pairwise disjoint. -/
def Disj (kids : Nat → List Nat) (l : List Nat) : Prop :=
  l.Nodup ∧ ∀ c ∈ l, ∀ d ∈ l, c ≠ d → ∀ y, Above kids y c → ¬ Above kids y d

/-- The memories `m` and `m'` agree on every field that the subtree
operations never write. -/
def SameUser (m m' : Mem) : Prop :=
  m' = { m with
    dep_prev := m'.dep_prev
    dep_next := m'.dep_next
    sib_prev := m'.sib_prev
    sib_next := m'.sib_next
    num_substreams := m'.num_substreams
    stream_group := m'.stream_group
    num_streams := m'.num_streams
    dpri := m'.dpri
    queued := m'.queued
    pq := m'.pq }

/-! ## Sequences of structural operations: vocabulary -/

/-- The run `run`, given enough fuel, returns `r`. -/
def Returns {α : Type} (run : Nat → Except Fault α) (r : α) : Prop :=
  ∃ F, ∀ fuel, F ≤ fuel → run fuel = .ok r

/-- The four link fields of `x` are null. -/
def NoLinks (m : Mem) (x : Nat) : Prop :=
  m.dep_prev x = none ∧ m.dep_next x = none ∧ m.sib_prev x = none ∧ m.sib_next x = none

/-- Every stream is as `nghttp2_stream_init` leaves it, as far as the
dependency fields go: no links, and `num_substreams = 1`. -/
def AllIsolated (m : Mem) : Prop := ∀ x, NoLinks m x ∧ m.num_substreams x = 1

/-- One structural operation applied to valid arguments, taking `m` to `m'`:
`dep_insert` and `dep_add` attach a stream without links under another stream;
the subtree variants attach the root of a tree under a stream of another tree;
the removals apply to any stream. -/
inductive StructOp (m m' : Mem) : Prop
  | dep_insert (p s : Nat) : p ≠ s → NoLinks m s →
      Returns (fun fuel => nghttp2_stream_dep_insert fuel m p s) m' → StructOp m m'
  | dep_add (p s : Nat) : p ≠ s → NoLinks m s →
      Returns (fun fuel => nghttp2_stream_dep_add fuel m p s) m' → StructOp m m'
  | dep_remove (s : Nat) :
      Returns (fun fuel => nghttp2_stream_dep_remove fuel m s) m' → StructOp m m'
  | dep_insert_subtree (p s r : Nat) (rv : Int) : m.dep_prev s = none → m.sib_prev s = none →
      Returns (fun fuel => nghttp2_stream_get_dep_root fuel m p) r → r ≠ s →
      Returns (fun fuel => nghttp2_stream_dep_insert_subtree fuel m p s) (m', rv) →
      StructOp m m'
  | dep_add_subtree (p s r : Nat) (rv : Int) : m.dep_prev s = none → m.sib_prev s = none →
      Returns (fun fuel => nghttp2_stream_get_dep_root fuel m p) r → r ≠ s →
      Returns (fun fuel => nghttp2_stream_dep_add_subtree fuel m p s) (m', rv) →
      StructOp m m'
  | dep_remove_subtree (s : Nat) :
      Returns (fun fuel => nghttp2_stream_dep_remove_subtree fuel m s) m' → StructOp m m'

/-- The memory `m` is reached from `m0` by a sequence of structural
operations. -/
inductive Reachable (m0 : Mem) : Mem → Prop
  | init : Reachable m0 m0
  | step (m m' : Mem) : Reachable m0 m → StructOp m m' → Reachable m0 m'

/-! ## Concrete memories: definitions -/

/-- A memory in which every stream is as `nghttp2_stream_init` leaves it (no
links, no data, no group, `num_substreams = 1`) and the queue is empty with
room for four pushes. -/
def mem_init : Mem :=
  { stream_id := fun _ => 0
    flags := fun _ => 0
    state := fun _ => NGHTTP2_STREAM_OPENED
    shut_flags := fun _ => NGHTTP2_SHUT_NONE
    stream_user_data := fun _ => none
    data := fun _ => none
    deferred_data := fun _ => none
    deferred_flags := fun _ => NGHTTP2_DEFERRED_NONE
    remote_window_size := fun _ => 65535
    local_window_size := fun _ => 2147483638
    recv_window_size := fun _ => 0
    recv_reduction := fun _ => 0
    dep_prev := fun _ => none
    dep_next := fun _ => none
    sib_prev := fun _ => none
    sib_next := fun _ => none
    stream_group := fun _ => none
    dpri := fun _ => NGHTTP2_STREAM_DPRI_NO_DATA
    num_substreams := fun _ => 1
    num_streams := fun _ => 0
    pri_group_id := fun _ => 0
    weight := fun _ => 16
    queued := fun _ => 0
    pq := { q := [], room := 4 } }

/-- The memory of a successful run, `d` otherwise. -/
def okOr (r : Except Fault Mem) (d : Mem) : Mem :=
  match r with
  | .ok m => m
  | .error _ => d

/-- The forest in which stream 2 is the only child of stream 1 and every other
stream is isolated. -/
def memA : Mem := okOr (nghttp2_stream_dep_add 1 mem_init 1 2) mem_init

/-- The children map of `memA`. -/
def kidsA : Nat → List Nat := Function.update (fun _ => []) 1 [2]

/-- The memory `mem_init` with every stream assigned to the stream group 0. -/
def memG : Mem := { mem_init with stream_group := fun _ => some 0 }

/-- The forest in which stream 2 is the only child of stream 1, every other
stream is isolated, and every stream is in the stream group 0. -/
def memGA : Mem := okOr (nghttp2_stream_dep_add 1 memG 1 2) memG

/-- The forest in which stream 1 has the children 2 and 3, in this order, and
every other stream is isolated. -/
def memB : Mem := okOr (nghttp2_stream_dep_add 2 memA 1 3) mem_init

/-- The children map of `memB`. -/
def kidsB : Nat → List Nat := Function.update kidsA 1 [2, 3]

/-! ## Children lists and the scheduling invariant: definitions -/

/-- The list `l` is the run of siblings that starts at `o` and follows
`sib_next` up to the null pointer. -/
def SibList (m : Mem) : Option Nat → List Nat → Prop
  | o, [] => o = none
  | o, c :: cs => o = some c ∧ SibList m (m.sib_next c) cs

/-- P3 at stream `y`, for the `dpri` field `d`: a TOP stream has no TOP proper
ancestor, and a REST stream has exactly one TOP proper ancestor. -/
def P3 (kids : Nat → List Nat) (d : Nat → nghttp2_stream_dpri) (y : Nat) : Prop :=
  (d y = NGHTTP2_STREAM_DPRI_TOP → ∀ a, Anc kids y a → d a ≠ NGHTTP2_STREAM_DPRI_TOP) ∧
  (d y = NGHTTP2_STREAM_DPRI_REST →
    ∃ a, (Anc kids y a ∧ d a = NGHTTP2_STREAM_DPRI_TOP) ∧
      ∀ b, Anc kids y b ∧ d b = NGHTTP2_STREAM_DPRI_TOP → b = a)

/-- The working form of P3 at stream `y`: every proper ancestor of a TOP
stream has no data, and a REST stream has a TOP proper ancestor. -/
def Sched (kids : Nat → List Nat) (d : Nat → nghttp2_stream_dpri) (y : Nat) : Prop :=
  (d y = NGHTTP2_STREAM_DPRI_TOP → ∀ a, Anc kids y a → d a = NGHTTP2_STREAM_DPRI_NO_DATA) ∧
  (d y = NGHTTP2_STREAM_DPRI_REST → ∃ a, Anc kids y a ∧ d a = NGHTTP2_STREAM_DPRI_TOP)

/-- Stream `y` is in the tree of stream `p`. -/
def InTree (kids : Nat → List Nat) (p y : Nat) : Prop :=
  ∃ r, IsRoot kids r ∧ Above kids p r ∧ Above kids y r

/-! ## The scheduler fields along a run -/

/-- The memory `m'` differs from `m`, as far as the scheduler sees, at most in
TOP streams that became REST: data, deferred data, the queued flags and the
queue are the same. -/
def Demoted (m m' : Mem) : Prop :=
  m'.data = m.data ∧ m'.deferred_data = m.deferred_data ∧
    m'.deferred_flags = m.deferred_flags ∧ m'.queued = m.queued ∧ m'.pq = m.pq ∧
    ∀ y, m'.dpri y = m.dpri y ∨
      (m.dpri y = NGHTTP2_STREAM_DPRI_TOP ∧ m'.dpri y = NGHTTP2_STREAM_DPRI_REST)

/-- The effect of a top-search that took `m` to `m'` with result `rv`:
`pushed` lists the items it pushed, in order. -/
structure Promoted (m m' : Mem) (rv : Int) (pushed : List Nat) : Prop where
  data : m'.data = m.data
  deferred_data : m'.deferred_data = m.deferred_data
  deferred_flags : m'.deferred_flags = m.deferred_flags
  q : m'.pq.q = m.pq.q ++ pushed
  room : m'.pq.room + pushed.length = m.pq.room
  nodup : pushed.Nodup
  queued : ∀ d, m'.queued d = if d ∈ pushed then 1 else m.queued d
  fresh : ∀ d ∈ pushed, m.queued d = 0
  owner : ∀ d ∈ pushed, ∃ s, m.dpri s = NGHTTP2_STREAM_DPRI_REST ∧
    m'.dpri s = NGHTTP2_STREAM_DPRI_TOP ∧ m.data s = some d
  mono : ∀ y, m'.dpri y = m.dpri y ∨
    (m.dpri y = NGHTTP2_STREAM_DPRI_REST ∧ m'.dpri y = NGHTTP2_STREAM_DPRI_TOP)
  promoted : ∀ s, m.dpri s = NGHTTP2_STREAM_DPRI_REST → m'.dpri s = NGHTTP2_STREAM_DPRI_TOP →
    ∃ d, m.data s = some d ∧ m'.queued d ≠ 0
  fail : rv ≠ 0 → ∃ s d, m.dpri s = NGHTTP2_STREAM_DPRI_REST ∧
    m'.dpri s = NGHTTP2_STREAM_DPRI_REST ∧ m.data s = some d ∧ m'.queued d = 0 ∧
    nghttp2_pq_push m'.pq d = (m'.pq, rv)

/-! ## Sequences of public operations -/

/-- The change that `attach_data` and `detach_data` make to their stream
before the scheduler runs (`idle` for the other operations). -/
inductive Setup (m : Mem) : Mem → Prop
  | idle : Setup m m
  | attach (x d : Nat) : m.data x = none → m.deferred_data x = none →
      Setup m { m with
        data := Function.update m.data x (some d)
        dpri := Function.update m.dpri x NGHTTP2_STREAM_DPRI_REST }
  | detach (x : Nat) :
      Setup m { m with
        data := Function.update m.data x none
        dpri := Function.update m.dpri x NGHTTP2_STREAM_DPRI_NO_DATA }

/-- The change that `defer_data` and `detach_deferred_data` make to their
stream before the scheduler runs. -/
inductive SetupDeferred (m : Mem) : Mem → Prop
  | defer (x d flags : Nat) : m.data x = some d → m.deferred_data x = none →
      SetupDeferred m { m with
        deferred_data := Function.update m.deferred_data x (some d)
        deferred_flags := Function.update m.deferred_flags x flags
        data := Function.update m.data x none }
  | resume (x d : Nat) : m.data x = none → m.deferred_data x = some d →
      SetupDeferred m { m with
        deferred_data := Function.update m.deferred_data x none
        deferred_flags := Function.update m.deferred_flags x NGHTTP2_DEFERRED_NONE
        data := Function.update m.data x (some d)
        dpri := Function.update m.dpri x NGHTTP2_STREAM_DPRI_REST }

/-- One successful operation of the dependency and scheduling interface,
taking `m` to `m'`: the operation returns, with result 0 where it has one.
`attach_data` is given a non-null item. -/
inductive SchedOp (m m' : Mem) : Prop
  | attach_data (x d : Nat) :
      Returns (fun fuel => nghttp2_stream_attach_data fuel m x (some d)) (m', 0) → SchedOp m m'
  | detach_data (x : Nat) :
      Returns (fun fuel => nghttp2_stream_detach_data fuel m x) (m', 0) → SchedOp m m'
  | dep_insert (p s : Nat) :
      Returns (fun fuel => nghttp2_stream_dep_insert fuel m p s) m' → SchedOp m m'
  | dep_add (p s : Nat) :
      Returns (fun fuel => nghttp2_stream_dep_add fuel m p s) m' → SchedOp m m'
  | dep_remove (s : Nat) :
      Returns (fun fuel => nghttp2_stream_dep_remove fuel m s) m' → SchedOp m m'
  | dep_insert_subtree (p s : Nat) :
      Returns (fun fuel => nghttp2_stream_dep_insert_subtree fuel m p s) (m', 0) →
      SchedOp m m'
  | dep_add_subtree (p s : Nat) :
      Returns (fun fuel => nghttp2_stream_dep_add_subtree fuel m p s) (m', 0) → SchedOp m m'
  | dep_remove_subtree (s : Nat) :
      Returns (fun fuel => nghttp2_stream_dep_remove_subtree fuel m s) m' → SchedOp m m'
  | dep_make_root (g : Option Nat) (s : Nat) :
      Returns (fun fuel => nghttp2_stream_dep_make_root fuel m g s) (m', 0) → SchedOp m m'

/-- The memory `m` is reached from `m0` by a sequence of successful
operations of the dependency and scheduling interface. -/
inductive SchedReach (m0 : Mem) : Mem → Prop
  | init : SchedReach m0 m0
  | step (m m' : Mem) : SchedReach m0 m → SchedOp m m' → SchedReach m0 m'

/-- One public operation that returns, with any result, taking `m` to `m'`;
every operation is called within its asserted preconditions, since a failing
`assert` is a fault.  `attach_data` and `defer_data` are given a non-null
item. -/
inductive PublicOp (m m' : Mem) : Prop
  | attach_data (x d : Nat) (rv : Int) :
      Returns (fun fuel => nghttp2_stream_attach_data fuel m x (some d)) (m', rv) →
      PublicOp m m'
  | detach_data (x : Nat) (rv : Int) :
      Returns (fun fuel => nghttp2_stream_detach_data fuel m x) (m', rv) → PublicOp m m'
  | defer_data (x d flags : Nat) :
      nghttp2_stream_defer_data m x (some d) flags = .ok m' → PublicOp m m'
  | detach_deferred_data (x : Nat) (rv : Int) :
      Returns (fun fuel => nghttp2_stream_detach_deferred_data fuel m x) (m', rv) →
      PublicOp m m'
  | dep_insert (p s : Nat) :
      Returns (fun fuel => nghttp2_stream_dep_insert fuel m p s) m' → PublicOp m m'
  | dep_add (p s : Nat) :
      Returns (fun fuel => nghttp2_stream_dep_add fuel m p s) m' → PublicOp m m'
  | dep_remove (s : Nat) :
      Returns (fun fuel => nghttp2_stream_dep_remove fuel m s) m' → PublicOp m m'
  | dep_insert_subtree (p s : Nat) (rv : Int) :
      Returns (fun fuel => nghttp2_stream_dep_insert_subtree fuel m p s) (m', rv) →
      PublicOp m m'
  | dep_add_subtree (p s : Nat) (rv : Int) :
      Returns (fun fuel => nghttp2_stream_dep_add_subtree fuel m p s) (m', rv) →
      PublicOp m m'
  | dep_remove_subtree (s : Nat) :
      Returns (fun fuel => nghttp2_stream_dep_remove_subtree fuel m s) m' → PublicOp m m'
  | dep_make_root (g : Option Nat) (s : Nat) (rv : Int) :
      Returns (fun fuel => nghttp2_stream_dep_make_root fuel m g s) (m', rv) → PublicOp m m'

/-- The memory `m` is reached from `m0` by a sequence of public operations. -/
inductive PublicReach (m0 : Mem) : Mem → Prop
  | init : PublicReach m0 m0
  | step (m m' : Mem) : PublicReach m0 m → PublicOp m m' → PublicReach m0 m'

/-- Every stream is as `nghttp2_stream_init` leaves it, as far as the
scheduler goes (no data, no deferred data, `dpri = NO_DATA`), and no item is
queued. -/
def AllFresh (m : Mem) : Prop :=
  (∀ x, m.data x = none ∧ m.deferred_data x = none ∧
    m.dpri x = NGHTTP2_STREAM_DPRI_NO_DATA) ∧ ∀ d, m.queued d = 0

/-- Every TOP stream holds an item whose queued flag is 1, and every queued
flag is 0 or 1. -/
def TopQueued (m : Mem) : Prop :=
  (∀ d, m.queued d ≤ 1) ∧
    ∀ s, m.dpri s = NGHTTP2_STREAM_DPRI_TOP → ∃ d, m.data s = some d ∧ m.queued d = 1

/-- A stream with data is not NO_DATA, and a stream that is not NO_DATA has
data or deferred data. -/
def DataDpri (m : Mem) : Prop :=
  ∀ s, (m.data s ≠ none → m.dpri s ≠ NGHTTP2_STREAM_DPRI_NO_DATA) ∧
    (m.dpri s ≠ NGHTTP2_STREAM_DPRI_NO_DATA → m.data s ≠ none ∨ m.deferred_data s ≠ none)

/-- The memory after `dep_add(1, 2)`, `attach_data(2, item 12)` and
`attach_data(1, item 11)` on `mem_init`. -/
def memQ : Mem :=
  match nghttp2_stream_attach_data 2 memA 2 (some 12) with
  | .error _ => mem_init
  | .ok (m1, _) =>
    match nghttp2_stream_attach_data 2 m1 1 (some 11) with
    | .error _ => mem_init
    | .ok (m2, _) => m2

/-- The memory after `dep_add(1, 2)`, `attach_data(2, item 12)` on `mem_init`. -/
def memQ1 : Mem :=
  match nghttp2_stream_attach_data 2 memA 2 (some 12) with
  | .error _ => mem_init
  | .ok (m1, _) => m1

/-- The memory after `attach_data(1, item 11)` and `defer_data(1, item 11, 1)`
on `mem_init`. -/
def memD : Mem :=
  match nghttp2_stream_attach_data 1 mem_init 1 (some 11) with
  | .error _ => mem_init
  | .ok (m1, _) => okOr (nghttp2_stream_defer_data m1 1 (some 11) 1) mem_init

/-- The memory after `attach_data(1, item 11)` on `mem_init`. -/
def memD1 : Mem :=
  match nghttp2_stream_attach_data 1 mem_init 1 (some 11) with
  | .error _ => mem_init
  | .ok (m1, _) => m1

/-- The memory after `dep_add(1, 2)`, `attach_data(1, item 11)`,
`attach_data(2, item 12)` and `defer_data(2, item 12, 1)` on `mem_init`. -/
def memE : Mem :=
  match nghttp2_stream_attach_data 2 memA 1 (some 11) with
  | .error _ => mem_init
  | .ok (m1, _) =>
    match nghttp2_stream_attach_data 2 m1 2 (some 12) with
    | .error _ => mem_init
    | .ok (m2, _) => okOr (nghttp2_stream_defer_data m2 2 (some 12) 1) mem_init

/-- The memory after `dep_add(1, 2)`, `attach_data(1, item 11)` on `mem_init`. -/
def memE1 : Mem :=
  match nghttp2_stream_attach_data 2 memA 1 (some 11) with
  | .error _ => mem_init
  | .ok (m1, _) => m1

/-- The memory after `dep_add(1, 2)`, `attach_data(1, item 11)` and
`attach_data(2, item 12)` on `mem_init`. -/
def memE2 : Mem :=
  match nghttp2_stream_attach_data 2 memE1 2 (some 12) with
  | .error _ => mem_init
  | .ok (m1, _) => m1

/-! ## The queue: no duplicate enqueue, failure propagation -/

/-- The streams that a complete top-search from `l` looks at, read off the
link fields: the start stream, the streams searched from its next sibling,
and, when it is NO_DATA, the streams searched from its first child. -/
inductive Searched (m : Mem) : Option Nat → Nat → Prop
  | head (c : Nat) : Searched m (some c) c
  | sib (c y : Nat) : Searched m (m.sib_next c) y → Searched m (some c) y
  | child (c y : Nat) : m.dpri c = NGHTTP2_STREAM_DPRI_NO_DATA →
      Searched m (m.dep_next c) y → Searched m (some c) y

/-- Every item in the queue has its queued flag set to 1. -/
def QueuedFlags (m : Mem) : Prop := ∀ d ∈ m.pq.q, m.queued d = 1

/-- The memory in which the top-search of `attach_data(1, item 11)` on `memQ1`
starts: stream 1 has its item and is REST, and stream 2 was demoted. -/
def memS : Mem :=
  okOr (stream_update_dep_set_rest 2
    { memQ1 with
      data := Function.update memQ1.data 1 (some 11)
      dpri := Function.update memQ1.dpri 1 NGHTTP2_STREAM_DPRI_REST } (some 2)) mem_init

/-! ## Stream groups -/

/-- The log entry `e` is a promotion that holds in `m'`: no push of the item
failed (none was attempted, or it returned 0), and the stream is TOP with its
item flagged as queued. -/
def Promotion (m' : Mem) (e : Nat × Nat × Option Int) : Prop :=
  (e.2.2 = none ∨ e.2.2 = some 0) ∧ m'.dpri e.1 = NGHTTP2_STREAM_DPRI_TOP ∧
    m'.data e.1 = some e.2.1 ∧ m'.queued e.2.1 = 1

/-- Failure propagation for a search that ended in `m'` with result `rv` and
the log `log`: the result is non-zero if and only if a push of the log
failed; when the result is 0 every entry of the log is a promotion; when it
is not, the failed push is the last entry, the result is its error code, its
stream is still REST with `queued = 0` on the item, and every earlier entry
is a promotion. -/
def PushLog (m' : Mem) (rv : Int) (log : List (Nat × Nat × Option Int)) : Prop :=
  (rv ≠ 0 ↔ ∃ e ∈ log, ∃ c, e.2.2 = some c ∧ c ≠ 0) ∧
  ((rv = 0 ∧ ∀ e ∈ log, Promotion m' e) ∨
    (rv ≠ 0 ∧ ∃ pre s d, log = pre ++ [(s, d, some rv)] ∧ (∀ e ∈ pre, Promotion m' e) ∧
      m'.dpri s = NGHTTP2_STREAM_DPRI_REST ∧ m'.data s = some d ∧ m'.queued d = 0))

theorem wrap_int64_eq (x : Int) (h1 : -9223372036854775808 ≤ x) (h2 : x ≤ 9223372036854775807) :
    wrap_int64 x = x := by
  unfold wrap_int64
  norm_num
  omega

theorem wrap_int32_eq (x : Int) (h1 : -2147483648 ≤ x) (h2 : x ≤ 2147483647) :
    wrap_int32 x = x := by
  unfold wrap_int32
  norm_num
  omega

theorem update_initial_window_size_eq (w n o : Int)
    (hw : INT32_MIN ≤ w ∧ w ≤ INT32_MAX) (hn : INT32_MIN ≤ n ∧ n ≤ INT32_MAX)
    (ho : INT32_MIN ≤ o ∧ o ≤ INT32_MAX) :
    update_initial_window_size w n o =
      if INT32_MIN ≤ w + n - o ∧ w + n - o ≤ 2 ^ 31 - 1 then (w + n - o, 0) else (w, -1) := by
  unfold INT32_MIN INT32_MAX at *
  have e1 : wrap_int64 w = w := wrap_int64_eq w (by omega) (by omega)
  have e2 : wrap_int64 (w + n) = w + n := wrap_int64_eq _ (by omega) (by omega)
  have e3 : wrap_int64 (w + n - o) = w + n - o := wrap_int64_eq _ (by omega) (by omega)
  unfold update_initial_window_size
  simp only [e1, e2, e3, INT32_MIN, NGHTTP2_MAX_WINDOW_SIZE]
  by_cases h : (-2147483648 : Int) ≤ w + n - o ∧ w + n - o ≤ 2147483647
  · have e4 : wrap_int32 (w + n - o) = w + n - o := wrap_int32_eq _ h.1 h.2
    have h5 : ¬ ((-2147483648 : Int) > w + n - o ∨ w + n - o > 2147483647) := by omega
    have h6 : (-2147483648 : Int) ≤ w + n - o ∧ w + n - o ≤ 2 ^ 31 - 1 := by
      norm_num; omega
    rw [if_neg h5, if_pos h6, e4]
  · have h5 : ((-2147483648 : Int) > w + n - o ∨ w + n - o > 2147483647) := by omega
    have h6 : ¬ ((-2147483648 : Int) ≤ w + n - o ∧ w + n - o ≤ 2 ^ 31 - 1) := by
      norm_num; omega
    rw [if_pos h5, if_neg h6]

/-- C1: for int32 values of the window, `new_iws` and `old_iws`, both window
updates compute `w' = window + new_iws - old_iws` exactly; when
`INT32_MIN <= w' <= 2^31 - 1` they return 0 and store `w'` in the window
(nothing else changes), and otherwise they return -1 and leave the whole memory
unchanged. -/
theorem C1_update_initial_window_size (m : Mem) (stream : Nat) (new_iws old_iws : Int)
    (hr : INT32_MIN ≤ m.remote_window_size stream ∧ m.remote_window_size stream ≤ INT32_MAX)
    (hl : INT32_MIN ≤ m.local_window_size stream ∧ m.local_window_size stream ≤ INT32_MAX)
    (hn : INT32_MIN ≤ new_iws ∧ new_iws ≤ INT32_MAX)
    (ho : INT32_MIN ≤ old_iws ∧ old_iws ≤ INT32_MAX) :
    nghttp2_stream_update_remote_initial_window_size m stream new_iws old_iws =
      (if INT32_MIN ≤ m.remote_window_size stream + new_iws - old_iws ∧
          m.remote_window_size stream + new_iws - old_iws ≤ 2 ^ 31 - 1 then
        ({ m with
            remote_window_size := Function.update m.remote_window_size stream
              (m.remote_window_size stream + new_iws - old_iws) }, 0)
      else (m, -1)) ∧
    nghttp2_stream_update_local_initial_window_size m stream new_iws old_iws =
      (if INT32_MIN ≤ m.local_window_size stream + new_iws - old_iws ∧
          m.local_window_size stream + new_iws - old_iws ≤ 2 ^ 31 - 1 then
        ({ m with
            local_window_size := Function.update m.local_window_size stream
              (m.local_window_size stream + new_iws - old_iws) }, 0)
      else (m, -1)) := by
  constructor
  · unfold nghttp2_stream_update_remote_initial_window_size
    rw [update_initial_window_size_eq _ _ _ hr hn ho]
    split_ifs with h
    · rfl
    · simp
  · unfold nghttp2_stream_update_local_initial_window_size
    rw [update_initial_window_size_eq _ _ _ hl hn ho]
    split_ifs with h
    · rfl
    · simp

/-! ### Lists -/

theorem headOr_eq_head? (l : List Nat) : headOr l none = l.head? := by
  cases l <;> rfl

theorem headOr_append (l r : List Nat) (nx : Option Nat) :
    headOr (l ++ r) nx = headOr l (headOr r nx) := by
  cases l <;> rfl

theorem lastOr_append_cons (l : List Nat) (c : Nat) (r : List Nat) (sp : Option Nat) :
    lastOr (l ++ c :: r) sp = lastOr r (some c) := by
  induction l generalizing sp with
  | nil => rfl
  | cons a l ih => simpa [lastOr] using ih (some a)

theorem lastOr_append_singleton (l : List Nat) (c : Nat) (sp : Option Nat) :
    lastOr (l ++ [c]) sp = some c := by
  rw [lastOr_append_cons]; rfl

theorem lastOr_cons_ne_none (c : Nat) (l : List Nat) (sp : Option Nat) :
    ∃ b, lastOr (c :: l) sp = some b ∧ b ∈ c :: l := by
  induction l generalizing c sp with
  | nil => exact ⟨c, rfl, by simp⟩
  | cons a l ih =>
    obtain ⟨b, hb, hm⟩ := ih a (some c)
    exact ⟨b, by simpa [lastOr] using hb, List.mem_cons_of_mem _ hm⟩

theorem list_nil_or_cons (l : List Nat) : l = [] ∨ ∃ c cs, l = c :: cs := by
  cases l with
  | nil => exact Or.inl rfl
  | cons c cs => exact Or.inr ⟨c, cs, rfl⟩

theorem sum_map_ge_length (num : Nat → Int) (l : List Nat) (h : ∀ c ∈ l, 1 ≤ num c) :
    (l.length : Int) ≤ (l.map num).sum := by
  induction l with
  | nil => simp
  | cons a l ih =>
    have h1 := h a (by simp)
    have h2 := ih (fun c hc => h c (List.mem_cons_of_mem _ hc))
    simp only [List.length_cons, List.map_cons, List.sum_cons]
    push_cast
    omega

theorem sum_map_congr (f g : Nat → Int) (l : List Nat) (h : ∀ c ∈ l, f c = g c) :
    (l.map f).sum = (l.map g).sum := by
  rw [List.map_congr_left h]

/-! ### Sibling chains -/

theorem LinkChain_congr (m m' : Mem) (l : List Nat) (dp sp nx : Option Nat)
    (h : ∀ c ∈ l, m'.dep_prev c = m.dep_prev c ∧ m'.sib_prev c = m.sib_prev c ∧
      m'.sib_next c = m.sib_next c) :
    LinkChain m' dp sp l nx ↔ LinkChain m dp sp l nx := by
  induction l generalizing dp sp with
  | nil => simp [LinkChain]
  | cons c cs ih =>
    obtain ⟨h1, h2, h3⟩ := h c (by simp)
    simp only [LinkChain, h1, h2, h3]
    rw [ih none (some c) (fun d hd => h d (List.mem_cons_of_mem _ hd))]

theorem LinkChain_append (m : Mem) (l r : List Nat) (dp sp nx : Option Nat) :
    LinkChain m dp sp (l ++ r) nx ↔
      LinkChain m dp sp l (headOr r nx) ∧
        LinkChain m (if l = [] then dp else none) (lastOr l sp) r nx := by
  induction l generalizing dp sp with
  | nil => simp [LinkChain, lastOr]
  | cons c cs ih =>
    have e1 : headOr (cs ++ r) nx = headOr cs (headOr r nx) := headOr_append _ _ _
    have e2 := ih none (some c)
    have e3 : (if c :: cs = [] then dp else none) = none := by simp
    have e4 : (if cs = [] then (none : Option Nat) else none) = none := by simp
    rw [e4] at e2
    show (m.dep_prev c = dp ∧ m.sib_prev c = sp ∧ m.sib_next c = headOr (cs ++ r) nx ∧
        LinkChain m none (some c) (cs ++ r) nx) ↔
      (m.dep_prev c = dp ∧ m.sib_prev c = sp ∧ m.sib_next c = headOr cs (headOr r nx) ∧
        LinkChain m none (some c) cs (headOr r nx)) ∧
        LinkChain m (if c :: cs = [] then dp else none) (lastOr cs (some c)) r nx
    rw [e1, e2, e3]
    tauto

/-- The links of an element in the middle of a sibling chain. -/
theorem LinkChain_at (m : Mem) (l : List Nat) (c : Nat) (r : List Nat) (dp sp nx : Option Nat)
    (h : LinkChain m dp sp (l ++ c :: r) nx) :
    m.dep_prev c = (if l = [] then dp else none) ∧ m.sib_prev c = lastOr l sp ∧
      m.sib_next c = headOr r nx := by
  rw [LinkChain_append] at h
  obtain ⟨_, h2⟩ := h
  exact ⟨h2.1, h2.2.1, h2.2.2.1⟩

theorem lastOr_some (l : List Nat) (d : Nat) : lastOr l (some d) = some (lastD l d) := by
  induction l generalizing d with
  | nil => rfl
  | cons a l ih => simpa [lastOr, lastD] using ih a

theorem lastD_mem (l : List Nat) (d : Nat) : lastD l d ∈ d :: l := by
  induction l generalizing d with
  | nil => simp [lastD]
  | cons a l ih =>
    have := ih a
    simp only [lastD]
    exact List.mem_cons_of_mem _ this

theorem lastD_append_cons (l : List Nat) (c : Nat) (r : List Nat) (d : Nat) :
    lastD (l ++ c :: r) d = lastD r c := by
  induction l generalizing d with
  | nil => rfl
  | cons a l ih => simpa [lastD] using ih a

theorem exists_split_last (c : Nat) (l : List Nat) :
    ∃ l', c :: l = l' ++ [lastD l c] := by
  induction l generalizing c with
  | nil => exact ⟨[], rfl⟩
  | cons a l ih =>
    obtain ⟨l', h⟩ := ih a
    exact ⟨c :: l', by simp [lastD, h]⟩

/-! ### Counting -/

theorem Counts.split_le {num : Nat → Int} {kids : Nat → List Nat} {N : Nat}
    (hc : Counts num kids N) {n c : Nat} {L R : List Nat} (h : kids n = L ++ c :: R) :
    num c + L.length + 1 ≤ num n := by
  have e := hc.eq n
  rw [h] at e
  simp only [List.map_append, List.map_cons, List.sum_append, List.sum_cons] at e
  have h1 := sum_map_ge_length num L (fun c _ => hc.pos c)
  have h2 := sum_map_ge_length num R (fun c _ => hc.pos c)
  omega

theorem Counts.mem_lt {num : Nat → Int} {kids : Nat → List Nat} {N : Nat}
    (hc : Counts num kids N) {n c : Nat} (h : c ∈ kids n) : num c < num n := by
  obtain ⟨L, R, e⟩ := List.append_of_mem h
  have := hc.split_le e
  omega

theorem Counts.length_lt {num : Nat → Int} {kids : Nat → List Nat} {N : Nat}
    (hc : Counts num kids N) (n : Nat) : ((kids n).length : Int) < num n := by
  have e := hc.eq n
  have h1 := sum_map_ge_length num (kids n) (fun c _ => hc.pos c)
  omega

theorem Counts.above_le {num : Nat → Int} {kids : Nat → List Nat} {N : Nat}
    (hc : Counts num kids N) {x a : Nat} (h : Above kids x a) : num x ≤ num a := by
  induction h with
  | self => exact le_refl _
  | up y n _ hy ih => have := hc.mem_lt hy; omega

theorem Counts.not_above_of_mem {num : Nat → Int} {kids : Nat → List Nat} {N : Nat}
    (hc : Counts num kids N) {n c : Nat} (h : c ∈ kids n) : ¬ Above kids n c := by
  intro ha
  have h1 := hc.above_le ha
  have h2 := hc.mem_lt h
  omega

theorem Counts.one_le_N {num : Nat → Int} {kids : Nat → List Nat} {N : Nat}
    (hc : Counts num kids N) : 1 ≤ N := by
  have h1 := hc.pos 0
  have h2 := hc.bound 0
  omega

/-! ### Ancestors -/

theorem Above.trans {kids : Nat → List Nat} {x y z : Nat} (h1 : Above kids x y)
    (h2 : Above kids y z) : Above kids x z := by
  induction h2 with
  | self => exact h1
  | up a n _ ha ih => exact Above.up a n ih ha

theorem Above.of_mem {kids : Nat → List Nat} {x n : Nat} (h : x ∈ kids n) : Above kids x n :=
  Above.up x n Above.self h

theorem Above.cases_bottom {kids : Nat → List Nat} {x a : Nat} (h : Above kids x a) :
    a = x ∨ ∃ n, x ∈ kids n ∧ Above kids n a := by
  induction h with
  | self => exact Or.inl rfl
  | up y n _ hy ih =>
    rcases ih with rfl | ⟨p, hp, hpy⟩
    · exact Or.inr ⟨n, hy, Above.self⟩
    · exact Or.inr ⟨p, hp, Above.up y n hpy hy⟩

theorem Above.root_eq {kids : Nat → List Nat} {x a : Nat} (hr : IsRoot kids x)
    (h : Above kids x a) : a = x := by
  rcases h.cases_bottom with e | ⟨n, hn, _⟩
  · exact e
  · exact absurd hn (hr n)

/-- Above a child `x` of `n` are `x` itself and what is above `n`. -/
theorem above_child_iff {m : Mem} {kids : Nat → List Nat} (hl : Links m kids) {x n : Nat}
    (hx : x ∈ kids n) (a : Nat) : Above kids x a ↔ a = x ∨ Above kids n a := by
  constructor
  · intro h
    rcases h.cases_bottom with e | ⟨p, hp, hpa⟩
    · exact Or.inl e
    · have : p = n := hl.uniq p n x hp hx
      subst this
      exact Or.inr hpa
  · rintro (rfl | h)
    · exact Above.self
    · exact (Above.of_mem hx).trans h

/-- Two streams above the same stream are comparable. -/
theorem Above.comparable {m : Mem} {kids : Nat → List Nat} (hl : Links m kids) {x a b : Nat}
    (ha : Above kids x a) (hb : Above kids x b) : Above kids a b ∨ Above kids b a := by
  induction ha with
  | self => exact Or.inl hb
  | up y n _ hy ih =>
    rcases ih with h | h
    · rcases h.cases_bottom with e | ⟨p, hp, hpb⟩
      · subst e; exact Or.inr (Above.of_mem hy)
      · have : p = n := hl.uniq p n y hp hy
        subst this
        exact Or.inl hpb
    · exact Or.inr (h.trans (Above.of_mem hy))

/-! ### Walking the sibling list -/

theorem Links.at {m : Mem} {kids : Nat → List Nat} (hl : Links m kids) {n c : Nat}
    {L R : List Nat} (h : kids n = L ++ c :: R) :
    m.dep_prev c = (if L = [] then some n else none) ∧ m.sib_prev c = lastOr L none ∧
      m.sib_next c = R.head? := by
  have hc := hl.chain n
  rw [h] at hc
  have := LinkChain_at m L c R _ _ _ hc
  rw [headOr_eq_head?] at this
  exact this

theorem Links.congr {m m' : Mem} {kids : Nat → List Nat} (hl : Links m kids)
    (h1 : m'.dep_prev = m.dep_prev) (h2 : m'.dep_next = m.dep_next)
    (h3 : m'.sib_prev = m.sib_prev) (h4 : m'.sib_next = m.sib_next) : Links m' kids where
  nodup := hl.nodup
  uniq := hl.uniq
  dep_next := fun n => by rw [h2]; exact hl.dep_next n
  chain := fun n => by
    rw [LinkChain_congr m m']
    · exact hl.chain n
    · intro c _; rw [h1, h3, h4]; exact ⟨rfl, rfl, rfl⟩
  root := fun x hx => by rw [h1, h3, h4]; exact hl.root x hx

theorem stream_first_sib_congr (m m' : Mem) (h : m'.sib_prev = m.sib_prev) (fuel x : Nat) :
    stream_first_sib fuel m' x = stream_first_sib fuel m x := by
  induction fuel generalizing x with
  | zero => rfl
  | succ f ih =>
    simp only [stream_first_sib, h]
    cases m.sib_prev x with
    | none => rfl
    | some p => exact ih p

theorem stream_last_sib_congr (m m' : Mem) (h : m'.sib_next = m.sib_next) (fuel x : Nat) :
    stream_last_sib fuel m' x = stream_last_sib fuel m x := by
  induction fuel generalizing x with
  | zero => rfl
  | succ f ih =>
    simp only [stream_last_sib, h]
    cases m.sib_next x with
    | none => rfl
    | some p => exact ih p

theorem stream_first_sib_root {m : Mem} {kids : Nat → List Nat} (hl : Links m kids) {x : Nat}
    (hr : IsRoot kids x) (fuel : Nat) : stream_first_sib (fuel + 1) m x = .ok x := by
  simp [stream_first_sib, (hl.root x hr).2.1]

theorem stream_first_sib_spec {m : Mem} {kids : Nat → List Nat} (hl : Links m kids)
    (L : List Nat) : ∀ (n c : Nat) (R : List Nat) (fuel : Nat), kids n = L ++ c :: R →
      L.length < fuel → stream_first_sib fuel m c = .ok (L.headD c) := by
  induction L using List.reverseRecOn with
  | nil =>
    intro n c R fuel h hf
    obtain ⟨f, rfl⟩ : ∃ f, fuel = f + 1 := ⟨fuel - 1, by simp at hf; omega⟩
    have := (hl.at h).2.1
    simp [stream_first_sib, this, lastOr]
  | append_singleton L b ih =>
    intro n c R fuel h hf
    obtain ⟨f, rfl⟩ : ∃ f, fuel = f + 1 := ⟨fuel - 1, by simp at hf; omega⟩
    have hsp := (hl.at h).2.1
    rw [lastOr_append_singleton] at hsp
    have h' : kids n = L ++ b :: (c :: R) := by simp [h]
    have := ih n b (c :: R) f h' (by simp at hf; omega)
    simp only [stream_first_sib, hsp, this]
    cases L <;> rfl

theorem stream_last_sib_spec {m : Mem} {kids : Nat → List Nat} (hl : Links m kids)
    (R : List Nat) : ∀ (n c : Nat) (L : List Nat) (fuel : Nat), kids n = L ++ c :: R →
      R.length < fuel → stream_last_sib fuel m c = .ok (lastD R c) := by
  induction R with
  | nil =>
    intro n c L fuel h hf
    obtain ⟨f, rfl⟩ : ∃ f, fuel = f + 1 := ⟨fuel - 1, by simp at hf; omega⟩
    have := (hl.at h).2.2
    simp [stream_last_sib, this, lastD]
  | cons d R ih =>
    intro n c L fuel h hf
    obtain ⟨f, rfl⟩ : ∃ f, fuel = f + 1 := ⟨fuel - 1, by simp at hf; omega⟩
    have hsn := (hl.at h).2.2
    have h' : kids n = (L ++ [c]) ++ d :: R := by simp [h]
    have := ih n d (L ++ [c]) f h' (by simp at hf; omega)
    simp only [stream_last_sib, hsn, List.head?_cons, this, lastD]

/-! ### `stream_update_dep_length` -/

theorem head_dep_prev {m : Mem} {kids : Nat → List Nat} (hl : Links m kids) {n c : Nat}
    {L R : List Nat} (h : kids n = L ++ c :: R) : m.dep_prev (L.headD c) = some n := by
  cases L with
  | nil => simpa using (hl.at h).1
  | cons a L' =>
    have h' : kids n = [] ++ a :: (L' ++ c :: R) := by simp [h]
    simpa using (hl.at h').1

theorem UpOK_of_Links {m : Mem} {kids : Nat → List Nat} (hl : Links m kids) (x : Nat) :
    UpOK m kids x where
  root := fun y _ hr => ⟨(hl.root y hr).2.1, (hl.root y hr).1⟩
  child := fun y n L R _ h =>
    ⟨fun fuel hf => stream_first_sib_spec hl L n y R fuel h hf, head_dep_prev hl h⟩

theorem UpOK.up {m : Mem} {kids : Nat → List Nat} {x n : Nat} (h : UpOK m kids x)
    (hx : x ∈ kids n) : UpOK m kids n where
  root := fun y hy hr => h.root y ((Above.of_mem hx).trans hy) hr
  child := fun y n' L R hy hk => h.child y n' L R ((Above.of_mem hx).trans hy) hk

theorem UpOK.transfer {m m' : Mem} {kids : Nat → List Nat} {x : Nat} (h : UpOK m kids x)
    (h1 : m'.sib_prev = m.sib_prev) (h2 : m'.dep_prev = m.dep_prev) : UpOK m' kids x where
  root := fun y hy hr => by rw [h1, h2]; exact h.root y hy hr
  child := fun y n L R hy hk => by
    rw [h2]
    refine ⟨fun fuel hf => ?_, (h.child y n L R hy hk).2⟩
    rw [stream_first_sib_congr m m' h1]
    exact (h.child y n L R hy hk).1 fuel hf

/-- With enough fuel `stream_update_dep_length` adds `delta` to the count of
`x` and of every ancestor of `x`, changes nothing else and returns the root of
the tree of `x`.  The function `rank` is any valid count of the forest. -/
theorem stream_update_dep_length_spec_up {kids : Nat → List Nat} {rank : Nat → Int} {N : Nat}
    (hc : Counts rank kids N) (huniq : ∀ n n' c, c ∈ kids n → c ∈ kids n' → n = n') :
    ∀ (fuel : Nat) (m : Mem) (x : Nat) (δ : Int), UpOK m kids x →
      (N : Int) + 1 - rank x ≤ fuel →
      ∃ (num' : Nat → Int) (r : Nat),
        stream_update_dep_length fuel m x δ = .ok ({ m with num_substreams := num' }, r) ∧
        (∀ y, Above kids x y → num' y = m.num_substreams y + δ) ∧
        (∀ y, ¬ Above kids x y → num' y = m.num_substreams y) ∧
        IsRoot kids r ∧ Above kids x r := by
  intro fuel
  induction fuel with
  | zero =>
    intro m x δ _ hf
    have := hc.bound x
    simp at hf
    omega
  | succ f ih =>
    intro m x δ hu hf
    have hu1 : UpOK { m with
        num_substreams := Function.update m.num_substreams x (m.num_substreams x + δ) } kids x :=
      hu.transfer rfl rfl
    by_cases hr : IsRoot kids x
    · refine ⟨Function.update m.num_substreams x (m.num_substreams x + δ),
        x, ?_, ?_, ?_, hr, Above.self⟩
      · simp [stream_update_dep_length, stream_first_sib, (hu.root x Above.self hr).1,
          (hu.root x Above.self hr).2]
      · intro y hy
        have := Above.root_eq hr hy
        subst this
        simp
      · intro y hy
        have : y ≠ x := fun e => hy (e ▸ Above.self)
        simp [Function.update_noteq this]
    · unfold IsRoot at hr
      push_neg at hr
      obtain ⟨n, hn⟩ := hr
      obtain ⟨L, R, hs⟩ := List.append_of_mem hn
      have hle := hc.split_le hs
      have hbn := hc.bound n
      have hfs := (hu1.child x n L R Above.self hs).1 (f + 1) (by push_cast at hf; omega)
      have hdp : m.dep_prev (L.headD x) = some n := (hu.child x n L R Above.self hs).2
      obtain ⟨num', r, hrun, hab, hnab, hroot, habove⟩ :=
        ih _ n δ (hu1.up hn) (by push_cast at hf; omega)
      have hiff : ∀ a, Above kids x a ↔ a = x ∨ Above kids n a := by
        intro a
        constructor
        · intro h
          rcases h.cases_bottom with e | ⟨q, hq, hqa⟩
          · exact Or.inl e
          · have : q = n := huniq q n x hq hn
            subst this
            exact Or.inr hqa
        · rintro (rfl | h)
          · exact Above.self
          · exact (Above.of_mem hn).trans h
      refine ⟨num', r, ?_, ?_, ?_, hroot, (Above.of_mem hn).trans habove⟩
      · simp only [stream_update_dep_length]
        rw [hfs]
        simp only [hdp]
        exact hrun
      · intro y hy
        rcases (hiff y).1 hy with e | h
        · subst e
          rw [hnab y (hc.not_above_of_mem hn)]
          simp
        · rw [hab y h]
          have : y ≠ x := fun e => hc.not_above_of_mem hn (e ▸ h)
          simp [Function.update_noteq this]
      · intro y hy
        have h1 : ¬ Above kids n y := fun h => hy ((Above.of_mem hn).trans h)
        have h2 : y ≠ x := fun e => hy (e ▸ Above.self)
        rw [hnab y h1]
        simp [Function.update_noteq h2]

theorem stream_update_dep_length_spec {kids : Nat → List Nat} {rank : Nat → Int} {N : Nat}
    (hc : Counts rank kids N) (fuel : Nat) (m : Mem) (x : Nat) (δ : Int)
    (hl : Links m kids) (hf : (N : Int) + 1 - rank x ≤ fuel) :
    ∃ (num' : Nat → Int) (r : Nat),
      stream_update_dep_length fuel m x δ = .ok ({ m with num_substreams := num' }, r) ∧
      (∀ y, Above kids x y → num' y = m.num_substreams y + δ) ∧
      (∀ y, ¬ Above kids x y → num' y = m.num_substreams y) ∧
      IsRoot kids r ∧ Above kids x r :=
  stream_update_dep_length_spec_up hc hl.uniq fuel m x δ (UpOK_of_Links hl x) hf

/-! ### Walking and relinking a chain -/

theorem stream_first_sib_chain (m : Mem) (L : List Nat) :
    ∀ (c : Nat) (R : List Nat) (dp nx : Option Nat) (fuel : Nat),
      LinkChain m dp none (L ++ c :: R) nx → L.length < fuel →
      stream_first_sib fuel m c = .ok (L.headD c) := by
  induction L using List.reverseRecOn with
  | nil =>
    intro c R dp nx fuel h hf
    obtain ⟨f, rfl⟩ : ∃ f, fuel = f + 1 := ⟨fuel - 1, by simp at hf; omega⟩
    have := (LinkChain_at m [] c R _ _ _ h).2.1
    simp [stream_first_sib, this, lastOr]
  | append_singleton L b ih =>
    intro c R dp nx fuel h hf
    obtain ⟨f, rfl⟩ : ∃ f, fuel = f + 1 := ⟨fuel - 1, by simp at hf; omega⟩
    have hsp := (LinkChain_at m _ c R _ _ _ h).2.1
    rw [lastOr_append_singleton] at hsp
    have h' : LinkChain m dp none (L ++ b :: (c :: R)) nx := by simpa using h
    have := ih b (c :: R) dp nx f h' (by simp at hf; omega)
    simp only [stream_first_sib, hsp, this]
    cases L <;> rfl

theorem stream_last_sib_chain (m : Mem) (R : List Nat) :
    ∀ (c : Nat) (L : List Nat) (dp sp : Option Nat) (fuel : Nat),
      LinkChain m dp sp (L ++ c :: R) none → R.length < fuel →
      stream_last_sib fuel m c = .ok (lastD R c) := by
  induction R with
  | nil =>
    intro c L dp sp fuel h hf
    obtain ⟨f, rfl⟩ : ∃ f, fuel = f + 1 := ⟨fuel - 1, by simp at hf; omega⟩
    have := (LinkChain_at m L c [] _ _ _ h).2.2
    simp [stream_last_sib, this, lastD, headOr]
  | cons d R ih =>
    intro c L dp sp fuel h hf
    obtain ⟨f, rfl⟩ : ∃ f, fuel = f + 1 := ⟨fuel - 1, by simp at hf; omega⟩
    have hsn := (LinkChain_at m L c _ _ _ _ h).2.2
    have h' : LinkChain m dp sp ((L ++ [c]) ++ d :: R) none := by simpa using h
    have := ih d (L ++ [c]) dp sp f h' (by simp at hf; omega)
    simp only [stream_last_sib, hsn, headOr, this, lastD]

/-- Rewiring the two ends of a chain: the first element gets new `dep_prev`
and `sib_prev`, the last element a new `sib_next`, the inner links stay. -/
theorem LinkChain_relink (m m' : Mem) (l : List Nat) :
    ∀ (dp sp nx dp' sp' nx' : Option Nat), l.Nodup → LinkChain m dp sp l nx →
      (∀ c ∈ l, m'.dep_prev c = if l.head? = some c then dp' else m.dep_prev c) →
      (∀ c ∈ l, m'.sib_prev c = if l.head? = some c then sp' else m.sib_prev c) →
      (∀ c ∈ l, m'.sib_next c = if l.getLast? = some c then nx' else m.sib_next c) →
      LinkChain m' dp' sp' l nx' := by
  induction l with
  | nil => intros; trivial
  | cons c cs ih =>
    intro dp sp nx dp' sp' nx' hn h hdp hsp hsn
    obtain ⟨hc, hn'⟩ := List.nodup_cons.1 hn
    obtain ⟨h1, h2, h3, h4⟩ := h
    refine ⟨by simpa using hdp c (by simp), by simpa using hsp c (by simp), ?_, ?_⟩
    · have := hsn c (by simp)
      cases cs with
      | nil => simpa [headOr] using this
      | cons d ds =>
        have hne : ¬ (d :: ds).getLast? = some c := by
          intro e
          exact hc (List.mem_of_getLast?_eq_some e)
        rw [List.getLast?_cons_cons, if_neg hne] at this
        rw [this, h3]; rfl
    · refine ih none (some c) nx none (some c) nx' hn' h4 ?_ ?_ ?_
      · intro d hd
        have hne : d ≠ c := fun e => hc (e ▸ hd)
        have := hdp d (List.mem_cons_of_mem _ hd)
        simp only [List.head?_cons, Option.some.injEq, hne.symm, if_false] at this
        rw [this]
        split_ifs with hh
        · cases cs with
          | nil => simp at hd
          | cons e es =>
            simp at hh; subst hh
            exact h4.1
        · rfl
      · intro d hd
        have hne : d ≠ c := fun e => hc (e ▸ hd)
        have := hsp d (List.mem_cons_of_mem _ hd)
        simp only [List.head?_cons, Option.some.injEq, hne.symm, if_false] at this
        rw [this]
        split_ifs with hh
        · cases cs with
          | nil => simp at hd
          | cons e es =>
            simp at hh; subst hh
            exact h4.2.1
        · rfl
      · intro d hd
        have := hsn d (List.mem_cons_of_mem _ hd)
        cases cs with
        | nil => simp at hd
        | cons e es =>
          rw [List.getLast?_cons_cons] at this
          exact this

/-! ### Counts after adding `δ` along the path above `p` -/

theorem Above.cases_top {kids : Nat → List Nat} {x a : Nat} (h : Above kids x a) :
    a = x ∨ ∃ y, Above kids x y ∧ y ∈ kids a := by
  cases h with
  | self => exact Or.inl rfl
  | up y _ hy hm => exact Or.inr ⟨y, hy, hm⟩

theorem sum_map_bump (f g : Nat → Int) (δ : Int) (L R : List Nat) (c : Nat)
    (hL : ∀ x ∈ L, g x = f x) (hR : ∀ x ∈ R, g x = f x) (hc : g c = f c + δ) :
    ((L ++ c :: R).map g).sum = ((L ++ c :: R).map f).sum + δ := by
  simp only [List.map_append, List.map_cons, List.sum_append, List.sum_cons]
  rw [sum_map_congr g f L hL, sum_map_congr g f R hR, hc]
  ring

/-- Siblings are not above one another. -/
theorem sibling_not_above {m : Mem} {kids : Nat → List Nat} {num : Nat → Int} {N : Nat}
    (hl : Links m kids) (hc : Counts num kids N) {n c c' : Nat} (h : c ∈ kids n)
    (h' : c' ∈ kids n) (hne : c ≠ c') : ¬ Above kids c c' := by
  intro ha
  rcases ha.cases_bottom with e | ⟨q, hq, hqa⟩
  · exact hne e.symm
  · have : q = n := hl.uniq q n c hq h
    subst this
    exact hc.not_above_of_mem h' hqa

theorem Counts.bump_eq {m : Mem} {kids : Nat → List Nat} {num : Nat → Int} {N : Nat}
    (hl : Links m kids) (hc : Counts num kids N) {p n : Nat} (δ : Int) (num' : Nat → Int)
    (hnp : n ≠ p)
    (hs1 : Above kids p n → num' n = num n + δ) (hs2 : ¬ Above kids p n → num' n = num n)
    (hk1 : ∀ c ∈ kids n, Above kids p c → num' c = num c + δ)
    (hk2 : ∀ c ∈ kids n, ¬ Above kids p c → num' c = num c) :
    num' n = 1 + ((kids n).map num').sum := by
  by_cases ha : Above kids p n
  · rcases ha.cases_top with e | ⟨c, hpc, hcn⟩
    · exact absurd e hnp
    · obtain ⟨L, R, hs⟩ := List.append_of_mem hcn
      have hnd := hl.nodup n
      rw [hs] at hnd
      have hcL : c ∉ L := fun h => by
        have := List.nodup_append.1 hnd
        exact this.2.2 h (by simp)
      have hcR : c ∉ R := by
        have := (List.nodup_append.1 hnd).2.1
        exact (List.nodup_cons.1 this).1
      have hother : ∀ x ∈ kids n, x ≠ c → ¬ Above kids p x := by
        intro x hx hxc hpx
        rcases Above.comparable hl hpc hpx with h | h
        · exact sibling_not_above hl hc hcn hx (Ne.symm hxc) h
        · exact sibling_not_above hl hc hx hcn hxc h
      have e := hc.eq n
      rw [hs1 ha, e, hs]
      rw [sum_map_bump num num' δ L R c]
      · ring
      · intro x hx
        exact hk2 x (by rw [hs]; simp [hx]) (hother x (by rw [hs]; simp [hx])
          (fun e => hcL (e ▸ hx)))
      · intro x hx
        exact hk2 x (by rw [hs]; simp [hx]) (hother x (by rw [hs]; simp [hx])
          (fun e => hcR (e ▸ hx)))
      · exact hk1 c hcn hpc
  · rw [hs2 ha, hc.eq n]
    congr 1
    apply congrArg
    apply List.map_congr_left
    intro c hcn
    exact (hk2 c hcn (fun h => ha (h.trans (Above.of_mem hcn)))).symm

/-- The streams above `p` are the same in two forests that agree on the
parents of the streams above `p`. -/
theorem above_congr {kids kids' : Nat → List Nat} {p : Nat}
    (h : ∀ y n, Above kids p y → (y ∈ kids n ↔ y ∈ kids' n)) (a : Nat) :
    Above kids p a ↔ Above kids' p a := by
  constructor
  · intro ha
    induction ha with
    | self => exact Above.self
    | up y n hy hm ih => exact Above.up y n ih ((h y n hy).1 hm)
  · intro ha
    induction ha with
    | self => exact Above.self
    | up y n _ hm ih => exact Above.up y n ih ((h y n ih).2 hm)

theorem LinkChain_head_fields (m : Mem) (l : List Nat) (dp sp nx : Option Nat) (c : Nat)
    (h : LinkChain m dp sp l nx) (hc : l.head? = some c) :
    m.dep_prev c = dp ∧ m.sib_prev c = sp := by
  cases l with
  | nil => simp at hc
  | cons a l =>
    simp at hc; subst hc
    exact ⟨h.1, h.2.1⟩

theorem LinkChain_last_field (m : Mem) (l : List Nat) (dp sp nx : Option Nat) (c : Nat)
    (h : LinkChain m dp sp l nx) (hc : l.getLast? = some c) : m.sib_next c = nx := by
  obtain ⟨ys, rfl⟩ := List.getLast?_eq_some_iff.1 hc
  have := (LinkChain_at m ys c [] _ _ _ h).2.2
  simpa [headOr] using this

theorem LinkChain_set_nx (m m' : Mem) (l : List Nat) (dp sp nx nx' : Option Nat)
    (hn : l.Nodup) (h : LinkChain m dp sp l nx)
    (h1 : ∀ c ∈ l, m'.dep_prev c = m.dep_prev c)
    (h2 : ∀ c ∈ l, m'.sib_prev c = m.sib_prev c)
    (h3 : ∀ c ∈ l, m'.sib_next c = if l.getLast? = some c then nx' else m.sib_next c) :
    LinkChain m' dp sp l nx' := by
  refine LinkChain_relink m m' l dp sp nx dp sp nx' hn h ?_ ?_ h3
  · intro c hc
    rw [h1 c hc]
    split_ifs with hh
    · exact (LinkChain_head_fields m l dp sp nx c h hh).1
    · rfl
  · intro c hc
    rw [h2 c hc]
    split_ifs with hh
    · exact (LinkChain_head_fields m l dp sp nx c h hh).2
    · rfl

theorem LinkChain_set_head (m m' : Mem) (l : List Nat) (dp sp nx dp' sp' : Option Nat)
    (hn : l.Nodup) (h : LinkChain m dp sp l nx)
    (h1 : ∀ c ∈ l, m'.dep_prev c = if l.head? = some c then dp' else m.dep_prev c)
    (h2 : ∀ c ∈ l, m'.sib_prev c = if l.head? = some c then sp' else m.sib_prev c)
    (h3 : ∀ c ∈ l, m'.sib_next c = m.sib_next c) :
    LinkChain m' dp' sp' l nx := by
  refine LinkChain_relink m m' l dp sp nx dp' sp' nx hn h h1 h2 ?_
  intro c hc
  rw [h3 c hc]
  split_ifs with hh
  · exact LinkChain_last_field m l dp sp nx c h hh
  · rfl

/-! ### Appending a root as the last child -/

theorem IsRoot.not_mem {kids : Nat → List Nat} {s : Nat} (h : IsRoot kids s) (n : Nat) :
    s ∉ kids n := h n

/-- The links after a root `s` has become the only child of the childless
stream `p`. -/
theorem Links_add_first {m m' : Mem} {kids : Nat → List Nat} (hl : Links m kids) {p s : Nat}
    (hr : IsRoot kids s) (hk : kids p = []) (hps : p ≠ s)
    (hdn : m'.dep_next = Function.update m.dep_next p (some s))
    (hdp : m'.dep_prev = Function.update m.dep_prev s (some p))
    (hsp : m'.sib_prev = m.sib_prev) (hsn : m'.sib_next = m.sib_next) :
    Links m' (Function.update kids p (kids p ++ [s])) := by
  have hkids : ∀ n, n ≠ p → Function.update kids p (kids p ++ [s]) n = kids n :=
    fun n hn => Function.update_noteq hn _ _
  have hkp : Function.update kids p (kids p ++ [s]) p = [s] := by simp [hk]
  have hmem : ∀ n c, c ∈ Function.update kids p (kids p ++ [s]) n →
      (c = s ∧ n = p) ∨ (c ≠ s ∧ n ≠ p ∧ c ∈ kids n) := by
    intro n c hc
    by_cases hn : n = p
    · subst hn; rw [hkp] at hc; simp at hc; exact Or.inl ⟨hc, rfl⟩
    · rw [hkids n hn] at hc
      exact Or.inr ⟨fun e => hr n (e ▸ hc), hn, hc⟩
  refine ⟨?_, ?_, ?_, ?_, ?_⟩
  · intro n
    by_cases hn : n = p
    · subst hn; rw [hkp]; simp
    · rw [hkids n hn]; exact hl.nodup n
  · intro n n' c h1 h2
    rcases hmem n c h1 with ⟨e1, e2⟩ | ⟨e1, _, e3⟩ <;> rcases hmem n' c h2 with ⟨f1, f2⟩ | ⟨f1, _, f3⟩
    · rw [e2, f2]
    · exact absurd e1 f1
    · exact absurd f1 e1
    · exact hl.uniq n n' c e3 f3
  · intro n
    by_cases hn : n = p
    · subst hn; rw [hkp, hdn]; simp
    · rw [hkids n hn, hdn, Function.update_noteq hn]; exact hl.dep_next n
  · intro n
    by_cases hn : n = p
    · subst hn
      rw [hkp]
      have hsr := hl.root s hr
      refine ⟨?_, ?_, ?_, trivial⟩
      · rw [hdp]; simp
      · rw [hsp]; exact hsr.2.1
      · rw [hsn]; exact hsr.2.2
    · rw [hkids n hn, LinkChain_congr m m']
      · exact hl.chain n
      · intro c hc
        have hcs : c ≠ s := fun e => hr n (e ▸ hc)
        rw [hdp, hsp, hsn, Function.update_noteq hcs]
        exact ⟨rfl, rfl, rfl⟩
  · intro x hx
    have hxs : x ≠ s := by
      intro e
      have := hx p
      rw [hkp, e] at this
      simp at this
    have hxr : IsRoot kids x := by
      intro n hn
      by_cases hnp : n = p
      · subst hnp; rw [hk] at hn; simp at hn
      · have := hx n
        rw [hkids n hnp] at this
        exact this hn
    rw [hdp, hsp, hsn, Function.update_noteq hxs]
    exact hl.root x hxr

/-- The links after a root `s` has been appended to the children `l ++ [b]`
of `p`. -/
theorem Links_add_last {m m' : Mem} {kids : Nat → List Nat} (hl : Links m kids) {p s b : Nat}
    {l : List Nat} (hr : IsRoot kids s) (hk : kids p = l ++ [b])
    (hdn : m'.dep_next = m.dep_next) (hdp : m'.dep_prev = m.dep_prev)
    (hsp : m'.sib_prev = Function.update m.sib_prev s (some b))
    (hsn : m'.sib_next = Function.update m.sib_next b (some s)) :
    Links m' (Function.update kids p (kids p ++ [s])) := by
  have hkids : ∀ n, n ≠ p → Function.update kids p (kids p ++ [s]) n = kids n :=
    fun n hn => Function.update_noteq hn _ _
  have hkp : Function.update kids p (kids p ++ [s]) p = (l ++ [b]) ++ [s] := by simp [hk]
  have hbp : b ∈ kids p := by rw [hk]; simp
  have hbs : b ≠ s := fun e => hr p (e ▸ hbp)
  have hmem : ∀ n c, c ∈ Function.update kids p (kids p ++ [s]) n →
      (c = s ∧ n = p) ∨ (c ≠ s ∧ c ∈ kids n) := by
    intro n c hc
    by_cases hn : n = p
    · subst hn; rw [hkp] at hc
      rcases List.mem_append.1 hc with h | h
      · exact Or.inr ⟨fun e => hr n (e ▸ (hk ▸ h)), hk ▸ h⟩
      · simp at h; exact Or.inl ⟨h, rfl⟩
    · rw [hkids n hn] at hc
      exact Or.inr ⟨fun e => hr n (e ▸ hc), hc⟩
  refine ⟨?_, ?_, ?_, ?_, ?_⟩
  · intro n
    by_cases hn : n = p
    · subst hn; rw [hkp]
      have := hl.nodup n
      rw [hk] at this
      refine List.Nodup.append this (by simp) ?_
      intro x hx hx'
      simp at hx'
      subst hx'
      exact hr n (hk ▸ hx)
    · rw [hkids n hn]; exact hl.nodup n
  · intro n n' c h1 h2
    rcases hmem n c h1 with ⟨e1, e2⟩ | ⟨e1, e3⟩ <;> rcases hmem n' c h2 with ⟨f1, f2⟩ | ⟨f1, f3⟩
    · rw [e2, f2]
    · exact absurd e1 f1
    · exact absurd f1 e1
    · exact hl.uniq n n' c e3 f3
  · intro n
    by_cases hn : n = p
    · subst hn; rw [hkp, hdn, hl.dep_next n, hk]
      cases l <;> rfl
    · rw [hkids n hn, hdn]; exact hl.dep_next n
  · intro n
    by_cases hn : n = p
    · subst hn
      rw [hkp, LinkChain_append]
      have hch := hl.chain n
      rw [hk] at hch
      have hnd := hl.nodup n
      rw [hk] at hnd
      constructor
      · refine LinkChain_set_nx m m' _ _ _ _ _ hnd hch ?_ ?_ ?_
        · intro c _; rw [hdp]
        · intro c hc
          have hcs : c ≠ s := fun e => hr n (e ▸ (hk ▸ hc))
          rw [hsp, Function.update_noteq hcs]
        · intro c _
          rw [hsn, List.getLast?_concat]
          by_cases hcb : c = b
          · subst hcb; simp [headOr]
          · have : ¬ some b = some c := fun e => hcb (Option.some.inj e).symm
            rw [if_neg this, Function.update_noteq hcb]
      · have hsr := hl.root s hr
        have e1 : (if l ++ [b] = [] then some n else none) = none := by simp
        rw [e1, lastOr_append_singleton]
        refine ⟨?_, ?_, ?_, trivial⟩
        · rw [hdp]; exact hsr.1
        · rw [hsp]; simp
        · rw [hsn, Function.update_noteq (Ne.symm hbs)]; exact hsr.2.2
    · rw [hkids n hn, LinkChain_congr m m']
      · exact hl.chain n
      · intro c hc
        have hcs : c ≠ s := fun e => hr n (e ▸ hc)
        have hcb : c ≠ b := fun e => hn (hl.uniq n p c hc (e ▸ hbp))
        rw [hdp, hsp, hsn, Function.update_noteq hcs, Function.update_noteq hcb]
        exact ⟨rfl, rfl, rfl⟩
  · intro x hx
    have hxs : x ≠ s := by
      intro e
      have := hx p
      rw [hkp, e] at this
      simp at this
    have hxb : x ≠ b := by
      intro e
      have := hx p
      rw [hkp, e] at this
      simp at this
    have hxr : IsRoot kids x := by
      intro n hn
      by_cases hnp : n = p
      · subst hnp
        have := hx n
        rw [hkp, ← hk] at this
        exact this (List.mem_append_left _ hn)
      · have := hx n
        rw [hkids n hnp] at this
        exact this hn
    rw [hdp, hsp, hsn, Function.update_noteq hxs, Function.update_noteq hxb]
    exact hl.root x hxr

/-- The counts after the subtree of a root `s` has been added below `p`. -/
theorem Counts_add {m : Mem} {kids : Nat → List Nat} {num : Nat → Int} {N : Nat}
    (hl : Links m kids) (hc : Counts num kids N) {p s : Nat} (hnot : ¬ Above kids p s)
    (num' : Nat → Int) (N' : Nat) (hN : (N : Int) + num s ≤ N')
    (h1 : ∀ y, Above kids p y → num' y = num y + num s)
    (h2 : ∀ y, ¬ Above kids p y → num' y = num y) :
    Counts num' (Function.update kids p (kids p ++ [s])) N' := by
  have hpos := hc.pos s
  have hval : ∀ y, num y ≤ num' y ∧ num' y ≤ num y + num s := by
    intro y
    by_cases hy : Above kids p y
    · rw [h1 y hy]; omega
    · rw [h2 y hy]; omega
  refine ⟨?_, ?_, ?_⟩
  · intro n
    by_cases hn : n = p
    · subst hn
      rw [Function.update_same, h1 n Above.self, hc.eq n]
      simp only [List.map_append, List.sum_append, List.map_cons, List.map_nil, List.sum_cons,
        List.sum_nil]
      rw [h2 s hnot, sum_map_congr num' num (kids n)
        (fun c hcn => h2 c (hc.not_above_of_mem hcn))]
      ring
    · rw [Function.update_noteq hn]
      exact hc.bump_eq hl (num s) num' hn (h1 n) (h2 n) (fun c _ => h1 c) (fun c _ => h2 c)
  · intro n
    have := hc.pos n
    have := hval n
    omega
  · intro n
    have := hc.bound n
    have := hval n
    omega

theorem Isolated.num_eq_one {num : Nat → Int} {kids : Nat → List Nat} {N : Nat}
    (hc : Counts num kids N) {s : Nat} (hs : Isolated kids s) : num s = 1 := by
  have := hc.eq s
  rw [hs.2] at this
  simpa using this

theorem Isolated.not_above {kids : Nat → List Nat} {p s : Nat} (hs : Isolated kids s)
    (hps : p ≠ s) : ¬ Above kids p s := by
  intro h
  rcases h.cases_top with e | ⟨y, _, hy⟩
  · exact hps e.symm
  · rw [hs.2] at hy; simp at hy

/-- The effect of `dep_add` on a well-formed forest: the isolated stream `s`
becomes the last child of `p`, and the counts of `p` and of its ancestors grow
by one. -/
theorem dep_add_spec {m : Mem} {kids : Nat → List Nat} {N : Nat} (hw : WF m kids N)
    {p s : Nat} (hps : p ≠ s) (hs : Isolated kids s) (hd : m.data s = none) {fuel : Nat}
    (hf : N ≤ fuel) :
    ∃ m', nghttp2_stream_dep_add fuel m p s = .ok m' ∧
      WF m' (Function.update kids p (kids p ++ [s])) (N + 1) ∧
      (∀ y, Above kids p y → m'.num_substreams y = m.num_substreams y + 1) ∧
      (∀ y, ¬ Above kids p y → m'.num_substreams y = m.num_substreams y) ∧
      SameData m m' := by
  have hpos := hw.counts.pos p
  obtain ⟨num', r, hrun, hab, hnab, -, -⟩ :=
    stream_update_dep_length_spec hw.counts fuel m p 1 hw.links (by omega)
  have hl1 : Links { m with num_substreams := num' } kids := hw.links.congr rfl rfl rfl rfl
  have hnot := hs.not_above hps
  have hs1 := hs.num_eq_one hw.counts
  have hcounts : Counts num' (Function.update kids p (kids p ++ [s])) (N + 1) := by
    refine Counts_add hw.links hw.counts hnot num' (N + 1) (by rw [hs1]; push_cast; omega) ?_ ?_
    · intro y hy; rw [hab y hy, hs1]
    · exact hnab
  rcases list_nil_or_cons (kids p) with hk | ⟨c, cs, hk⟩
  · have hdn : m.dep_next p = none := by rw [hw.links.dep_next, hk]; rfl
    refine ⟨{ m with
        num_substreams := num'
        dep_next := Function.update m.dep_next p (some s)
        dep_prev := Function.update m.dep_prev s (some p) }, ?_, ⟨?_, hcounts⟩, hab, hnab, rfl⟩
    · simp [nghttp2_stream_dep_add, hd, hrun, hdn]
    · exact Links_add_first hl1 hs.1 hk hps rfl rfl rfl rfl
  · have hdn : m.dep_next p = some c := by rw [hw.links.dep_next, hk]; rfl
    have hlen := hw.counts.length_lt p
    have hbN := hw.counts.bound p
    have hlast := stream_last_sib_spec hl1 cs p c [] fuel (by simpa using hk)
      (by rw [hk] at hlen; simp at hlen; omega)
    obtain ⟨l, hl⟩ := exists_split_last c cs
    refine ⟨{ m with
        num_substreams := num'
        sib_next := Function.update m.sib_next (lastD cs c) (some s)
        sib_prev := Function.update m.sib_prev s (some (lastD cs c)) }, ?_, ⟨?_, hcounts⟩,
      hab, hnab, rfl⟩
    · simp [nghttp2_stream_dep_add, hd, hrun, hdn, hlast]
    · exact Links_add_last hl1 hs.1 (hk.trans hl) rfl rfl rfl rfl

/-! ### Inserting a root between `p` and its children -/

theorem kidsInsert_s (kids : Nat → List Nat) (p s : Nat) :
    kidsInsert kids p s s = kids s ++ kids p := by
  simp [kidsInsert]

theorem kidsInsert_p (kids : Nat → List Nat) {p s : Nat} (hps : p ≠ s) :
    kidsInsert kids p s p = [s] := by
  simp [kidsInsert, Function.update_noteq hps]

theorem kidsInsert_other (kids : Nat → List Nat) {p s n : Nat} (hs : n ≠ s) (hp : n ≠ p) :
    kidsInsert kids p s n = kids n := by
  simp [kidsInsert, Function.update_noteq hs, Function.update_noteq hp]

theorem kidsInsert_mem {m : Mem} {kids : Nat → List Nat} (hl : Links m kids) {p s : Nat}
    (hr : IsRoot kids s) (hps : p ≠ s) (n c : Nat) (h : c ∈ kidsInsert kids p s n) :
    (n = s ∧ c ≠ s ∧ (c ∈ kids s ∨ c ∈ kids p)) ∨ (n = p ∧ c = s) ∨
      (n ≠ s ∧ n ≠ p ∧ c ≠ s ∧ c ∉ kids s ∧ c ∉ kids p ∧ c ∈ kids n) := by
  by_cases hns : n = s
  · subst hns
    rw [kidsInsert_s] at h
    refine Or.inl ⟨rfl, ?_, List.mem_append.1 h⟩
    rintro rfl
    rcases List.mem_append.1 h with h | h
    · exact hr _ h
    · exact hr _ h
  · by_cases hnp : n = p
    · subst hnp
      rw [kidsInsert_p kids hps] at h
      simp at h
      exact Or.inr (Or.inl ⟨rfl, h⟩)
    · rw [kidsInsert_other kids hns hnp] at h
      refine Or.inr (Or.inr ⟨hns, hnp, fun e => hr n (e ▸ h), ?_, ?_, h⟩)
      · intro h'; exact hns (hl.uniq n s c h h')
      · intro h'; exact hnp (hl.uniq n p c h h')

theorem kidsInsert_nodup {m : Mem} {kids : Nat → List Nat} (hl : Links m kids) {p s : Nat}
    (hps : p ≠ s) (n : Nat) : (kidsInsert kids p s n).Nodup := by
  by_cases hns : n = s
  · subst hns
    rw [kidsInsert_s]
    refine List.Nodup.append (hl.nodup n) (hl.nodup p) ?_
    intro c h1 h2
    exact hps (hl.uniq p n c h2 h1)
  · by_cases hnp : n = p
    · subst hnp; rw [kidsInsert_p kids hps]; simp
    · rw [kidsInsert_other kids hns hnp]; exact hl.nodup n

theorem kidsInsert_uniq {m : Mem} {kids : Nat → List Nat} (hl : Links m kids) {p s : Nat}
    (hr : IsRoot kids s) (hps : p ≠ s) (n n' c : Nat) (h : c ∈ kidsInsert kids p s n)
    (h' : c ∈ kidsInsert kids p s n') : n = n' := by
  rcases kidsInsert_mem hl hr hps n c h with ⟨e1, e2, e3⟩ | ⟨e1, e2⟩ | ⟨e1, e2, e3, e4, e5, e6⟩ <;>
    rcases kidsInsert_mem hl hr hps n' c h' with
      ⟨f1, f2, f3⟩ | ⟨f1, f2⟩ | ⟨f1, f2, f3, f4, f5, f6⟩
  · rw [e1, f1]
  · exact absurd f2 e2
  · rcases e3 with e3 | e3
    · exact absurd e3 f4
    · exact absurd e3 f5
  · exact absurd e2 f2
  · rw [e1, f1]
  · exact absurd e2 f3
  · rcases f3 with f3 | f3
    · exact absurd f3 e4
    · exact absurd f3 e5
  · exact absurd f2 e3
  · exact hl.uniq n n' c e6 f6

theorem kidsInsert_root {m : Mem} {kids : Nat → List Nat} (_hl : Links m kids) {p s x : Nat}
    (hps : p ≠ s) (hx : IsRoot (kidsInsert kids p s) x) :
    x ≠ s ∧ x ∉ kids p ∧ x ∉ kids s ∧ IsRoot kids x := by
  have hxs : x ≠ s := by
    intro e
    have := hx p
    rw [kidsInsert_p kids hps, e] at this
    simp at this
  have h2 : x ∉ kids s ++ kids p := by
    have := hx s
    rwa [kidsInsert_s] at this
  refine ⟨hxs, fun h => h2 (List.mem_append_right _ h), fun h => h2 (List.mem_append_left _ h), ?_⟩
  intro n hn
  by_cases hns : n = s
  · subst hns; exact h2 (List.mem_append_left _ hn)
  · by_cases hnp : n = p
    · subst hnp; exact h2 (List.mem_append_right _ hn)
    · have := hx n
      rw [kidsInsert_other kids hns hnp] at this
      exact this hn

/-- The links after the childless root `s` has been inserted between `p` and
its children `c1 :: cs`. -/
theorem Links_insert_leaf {m m' : Mem} {kids : Nat → List Nat} (hl : Links m kids)
    {p s c1 : Nat} {cs : List Nat} (hr : IsRoot kids s) (hks : kids s = [])
    (hk : kids p = c1 :: cs) (hps : p ≠ s)
    (hdn : m'.dep_next =
      Function.update (Function.update m.dep_next s (some c1)) p (some s))
    (hdp : m'.dep_prev =
      Function.update (Function.update m.dep_prev c1 (some s)) s (some p))
    (hsp : m'.sib_prev = m.sib_prev) (hsn : m'.sib_next = m.sib_next) :
    Links m' (kidsInsert kids p s) := by
  have hc1p : c1 ∈ kids p := by rw [hk]; simp
  have hc1s : c1 ≠ s := fun e => hr p (e ▸ hc1p)
  refine ⟨kidsInsert_nodup hl hps, kidsInsert_uniq hl hr hps, ?_, ?_, ?_⟩
  · intro n
    by_cases hns : n = s
    · subst hns
      rw [kidsInsert_s, hks, hk, hdn, Function.update_noteq (Ne.symm hps)]
      simp
    · by_cases hnp : n = p
      · subst hnp; rw [kidsInsert_p kids hps, hdn]; simp
      · rw [kidsInsert_other kids hns hnp, hdn, Function.update_noteq hnp,
          Function.update_noteq hns]
        exact hl.dep_next n
  · intro n
    by_cases hns : n = s
    · subst hns
      rw [kidsInsert_s, hks, List.nil_append]
      have hch := hl.chain p
      have hnd := hl.nodup p
      refine LinkChain_set_head m m' _ _ _ _ _ _ hnd hch ?_ ?_ ?_
      · intro c hc
        have hcs : c ≠ n := fun e => hr p (e ▸ hc)
        rw [hdp, Function.update_noteq hcs, hk, List.head?_cons]
        by_cases hcc : c = c1
        · subst hcc; simp
        · have : ¬ some c1 = some c := fun e => hcc (Option.some.inj e).symm
          rw [if_neg this, Function.update_noteq hcc]
      · intro c _
        rw [hsp]
        split_ifs with hh
        · exact (LinkChain_head_fields m _ _ _ _ c hch hh).2
        · rfl
      · intro c _; rw [hsn]
    · by_cases hnp : n = p
      · subst hnp
        rw [kidsInsert_p kids hps]
        have hsr := hl.root s hr
        refine ⟨?_, ?_, ?_, trivial⟩
        · rw [hdp]; simp
        · rw [hsp]; exact hsr.2.1
        · rw [hsn]; exact hsr.2.2
      · rw [kidsInsert_other kids hns hnp, LinkChain_congr m m']
        · exact hl.chain n
        · intro c hc
          have hcs : c ≠ s := fun e => hr n (e ▸ hc)
          have hcc : c ≠ c1 := fun e => hnp (hl.uniq n p c hc (e ▸ hc1p))
          rw [hdp, hsp, hsn, Function.update_noteq hcs, Function.update_noteq hcc]
          exact ⟨rfl, rfl, rfl⟩
  · intro x hx
    obtain ⟨hxs, hxp, _, hxr⟩ := kidsInsert_root hl hps hx
    have hxc : x ≠ c1 := fun e => hxp (e ▸ hc1p)
    rw [hdp, hsp, hsn, Function.update_noteq hxs, Function.update_noteq hxc]
    exact hl.root x hxr

theorem kidsInsert_eq_add (kids : Nat → List Nat) {p s : Nat} (hk : kids p = [])
    (hps : p ≠ s) : kidsInsert kids p s = Function.update kids p (kids p ++ [s]) := by
  funext n
  by_cases hns : n = s
  · subst hns
    simp [kidsInsert, hk, Function.update_noteq (Ne.symm hps)]
  · simp [kidsInsert, hk, Function.update_noteq hns]

/-- The counts after the subtree of the root `s` has been inserted between
`p` and its children. -/
theorem Counts_insert {m : Mem} {kids : Nat → List Nat} {num : Nat → Int} {N : Nat}
    (hl : Links m kids) (hc : Counts num kids N) {p s : Nat} (hr : IsRoot kids s)
    (hnot : ¬ Above kids p s) (num' : Nat → Int) (N' : Nat) (hN : (N : Int) + num s ≤ N')
    (h1 : ∀ y, Above kids p y → num' y = num y + num s)
    (h2 : ∀ y, ¬ Above kids p y → y ≠ s → num' y = num y)
    (h3 : num' s = num s + ((kids p).map num).sum) :
    Counts num' (kidsInsert kids p s) N' := by
  have hps : p ≠ s := fun e => hnot (e ▸ Above.self)
  have hpos := hc.pos s
  have hkp : ∀ c ∈ kids p, num' c = num c := fun c hcp =>
    h2 c (hc.not_above_of_mem hcp) (fun e => hr p (e ▸ hcp))
  have hks : ∀ c ∈ kids s, num' c = num c := fun c hcs =>
    h2 c (fun h => hnot (h.trans (Above.of_mem hcs))) (fun e => hr s (e ▸ hcs))
  have hep := hc.eq p
  have hes := hc.eq s
  have hsum : 0 ≤ ((kids p).map num).sum := by
    have := sum_map_ge_length num (kids p) (fun c _ => hc.pos c)
    omega
  have hval : ∀ y, num y ≤ num' y ∧ num' y ≤ num y + num s ∨ y = s := by
    intro y
    by_cases hy : Above kids p y
    · rw [h1 y hy]; left; omega
    · by_cases hys : y = s
      · exact Or.inr hys
      · rw [h2 y hy hys]; left; omega
  refine ⟨?_, ?_, ?_⟩
  · intro n
    by_cases hns : n = s
    · subst hns
      rw [kidsInsert_s, h3, hes]
      simp only [List.map_append, List.sum_append]
      rw [sum_map_congr num' num (kids n) hks, sum_map_congr num' num (kids p) hkp]
      ring
    · by_cases hnp : n = p
      · subst hnp
        rw [kidsInsert_p kids hps, h1 n Above.self, hep]
        simp only [List.map_cons, List.map_nil, List.sum_cons, List.sum_nil]
        rw [h3]; ring
      · rw [kidsInsert_other kids hns hnp]
        refine hc.bump_eq hl (num s) num' hnp (h1 n) (fun h => h2 n h hns) (fun c _ => h1 c) ?_
        intro c hcn hca
        exact h2 c hca (fun e => hr n (e ▸ hcn))
  · intro n
    have := hc.pos n
    rcases hval n with h | h
    · omega
    · subst h; rw [h3]; omega
  · intro n
    have := hc.bound n
    have := hc.bound p
    rcases hval n with h | h
    · omega
    · subst h; rw [h3]; omega

theorem exists_Counts_insert {m : Mem} {kids : Nat → List Nat} {num : Nat → Int} {N : Nat}
    (hl : Links m kids) (hc : Counts num kids N) {p s : Nat} (hr : IsRoot kids s)
    (hnot : ¬ Above kids p s) (N' : Nat) (hN : (N : Int) + num s ≤ N') :
    ∃ rank : Nat → Int, Counts rank (kidsInsert kids p s) N' ∧ rank p = num p + num s := by
  classical
  refine ⟨fun y => if Above kids p y then num y + num s
    else if y = s then num s + ((kids p).map num).sum else num y, ?_, ?_⟩
  · refine Counts_insert hl hc hr hnot _ N' hN ?_ ?_ ?_
    · intro y hy; simp [hy]
    · intro y hy hys; simp [hy, hys]
    · simp [hnot]
  · simp [Above.self]

theorem above_insert_iff {m : Mem} {kids : Nat → List Nat} {num : Nat → Int} {N : Nat}
    (hl : Links m kids) (hc : Counts num kids N) {p s : Nat} (hr : IsRoot kids s)
    (hnot : ¬ Above kids p s) (a : Nat) :
    Above kids p a ↔ Above (kidsInsert kids p s) p a := by
  have hps : p ≠ s := fun e => hnot (e ▸ Above.self)
  apply above_congr
  intro y n hy
  have hys : y ≠ s := fun e => hnot (e ▸ hy)
  have hyp : y ∉ kids p := fun h => hc.not_above_of_mem h hy
  have hyks : y ∉ kids s := fun h => hnot (hy.trans (Above.of_mem h))
  constructor
  · intro h
    have hns : n ≠ s := fun e => hyks (e ▸ h)
    have hnp : n ≠ p := fun e => hyp (e ▸ h)
    rwa [kidsInsert_other kids hns hnp]
  · intro h
    rcases kidsInsert_mem hl hr hps n y h with ⟨_, _, e3⟩ | ⟨_, e2⟩ | ⟨_, _, _, _, _, e6⟩
    · rcases e3 with e3 | e3
      · exact absurd e3 hyks
      · exact absurd e3 hyp
    · exact absurd e2 hys
    · exact e6

theorem dep_insert_sum_loop_spec (s : Nat) (l : List Nat) :
    ∀ (m : Mem) (dp sp : Option Nat) (fuel : Nat), LinkChain m dp sp l none → s ∉ l →
      l.length ≤ fuel →
      dep_insert_sum_loop fuel m s l.head? = .ok { m with
        num_substreams := Function.update m.num_substreams s
          (m.num_substreams s + (l.map m.num_substreams).sum) } := by
  induction l with
  | nil =>
    intro m dp sp fuel _ _ _
    cases fuel <;> simp [dep_insert_sum_loop]
  | cons c cs ih =>
    intro m dp sp fuel h hs hf
    obtain ⟨f, rfl⟩ : ∃ f, fuel = f + 1 := ⟨fuel - 1, by simp at hf; omega⟩
    have hsc : s ≠ c := fun e => hs (by simp [e])
    have hscs : s ∉ cs := fun e => hs (List.mem_cons_of_mem _ e)
    have hnext : m.sib_next c = cs.head? := by rw [h.2.2.1, headOr_eq_head?]
    have h' : LinkChain { m with
        num_substreams := Function.update m.num_substreams s
          (m.num_substreams s + m.num_substreams c) } none (some c) cs none := by
      rw [LinkChain_congr m]
      · exact h.2.2.2
      · intro d _; exact ⟨rfl, rfl, rfl⟩
    have := ih _ none (some c) f h' hscs (by simp at hf; omega)
    simp only [List.head?_cons, dep_insert_sum_loop, hnext, this]
    have e1 : (cs.map (Function.update m.num_substreams s
        (m.num_substreams s + m.num_substreams c))).sum = (cs.map m.num_substreams).sum := by
      apply sum_map_congr
      intro d hd
      have hds : d ≠ s := fun e => hscs (e ▸ hd)
      exact Function.update_noteq hds _ _
    simp only [Function.update_same, Function.update_idem, e1, List.map_cons, List.sum_cons,
      add_assoc]

/-- The effect of `dep_insert` on a well-formed forest: the isolated stream
`s` becomes the only child of `p` and adopts the former children of `p`. -/
theorem dep_insert_spec {m : Mem} {kids : Nat → List Nat} {N : Nat} (hw : WF m kids N)
    {p s : Nat} (hps : p ≠ s) (hs : Isolated kids s) (hd : m.data s = none) {fuel : Nat}
    (hf : N ≤ fuel) :
    ∃ m', nghttp2_stream_dep_insert fuel m p s = .ok m' ∧
      WF m' (kidsInsert kids p s) (N + 1) ∧
      (∀ y, Above kids p y → m'.num_substreams y = m.num_substreams y + 1) ∧
      m'.num_substreams s = 1 + ((kids p).map m.num_substreams).sum ∧
      (∀ y, ¬ Above kids p y → y ≠ s → m'.num_substreams y = m.num_substreams y) ∧
      SameData m m' := by
  have hpos := hw.counts.pos p
  have hnot := hs.not_above hps
  have hs1 := hs.num_eq_one hw.counts
  have hlen := hw.counts.length_lt p
  have hbN := hw.counts.bound p
  obtain ⟨rank, hrank, hrp⟩ := exists_Counts_insert hw.links hw.counts hs.1 hnot (N + 1)
    (by rw [hs1]; push_cast; omega)
  have hsp : s ∉ kids p := hs.1 p
  -- the memory before the final `stream_update_dep_length`
  have key : ∃ m5 : Mem, Links m5 (kidsInsert kids p s) ∧ SameData m m5 ∧
      m5.num_substreams = Function.update m.num_substreams s
        (m.num_substreams s + ((kids p).map m.num_substreams).sum) ∧
      nghttp2_stream_dep_insert fuel m p s =
        (match stream_update_dep_length fuel m5 p 1 with
          | .error e => .error e
          | .ok (m6, _) => .ok m6) := by
    rcases list_nil_or_cons (kids p) with hk | ⟨c, cs, hk⟩
    · have hdn : m.dep_next p = none := by rw [hw.links.dep_next, hk]; rfl
      refine ⟨{ m with
          dep_next := Function.update m.dep_next p (some s)
          dep_prev := Function.update m.dep_prev s (some p) }, ?_, rfl, ?_, ?_⟩
      · rw [kidsInsert_eq_add kids hk hps]
        exact Links_add_first hw.links hs.1 hk hps rfl rfl rfl rfl
      · simp [hk]
      · simp [nghttp2_stream_dep_insert, hd, hdn]
    · have hdn : m.dep_next p = some c := by rw [hw.links.dep_next, hk]; rfl
      have hloop := dep_insert_sum_loop_spec s (kids p) m _ _ fuel (hw.links.chain p) hsp
        (by omega)
      rw [← hw.links.dep_next, hdn] at hloop
      refine ⟨{ m with
          num_substreams := Function.update m.num_substreams s
            (m.num_substreams s + ((kids p).map m.num_substreams).sum)
          dep_next := Function.update (Function.update m.dep_next s (some c)) p (some s)
          dep_prev := Function.update (Function.update m.dep_prev c (some s)) s (some p) },
        ?_, rfl, rfl, ?_⟩
      · exact Links_insert_leaf hw.links hs.1 hs.2 hk hps rfl rfl rfl rfl
      · simp [nghttp2_stream_dep_insert, hd, hdn, hloop, Function.update_noteq hps]
  obtain ⟨m5, hl5, hsd, hnum5, hrun5⟩ := key
  obtain ⟨num', r, hrun, hab, hnab, -, -⟩ :=
    stream_update_dep_length_spec hrank fuel m5 p 1 hl5 (by rw [hrp, hs1]; push_cast; omega)
  have hsum : m.num_substreams s + ((kids p).map m.num_substreams).sum =
      1 + ((kids p).map m.num_substreams).sum := by rw [hs1]
  have h1 : ∀ y, Above kids p y → num' y = m.num_substreams y + 1 := by
    intro y hy
    have hys : y ≠ s := fun e => hnot (e ▸ hy)
    rw [hab y ((above_insert_iff hw.links hw.counts hs.1 hnot y).1 hy), hnum5,
      Function.update_noteq hys]
  have h2 : ∀ y, ¬ Above kids p y → y ≠ s → num' y = m.num_substreams y := by
    intro y hy hys
    rw [hnab y (fun h => hy ((above_insert_iff hw.links hw.counts hs.1 hnot y).2 h)), hnum5,
      Function.update_noteq hys]
  have h3 : num' s = m.num_substreams s + ((kids p).map m.num_substreams).sum := by
    rw [hnab s (fun h => hnot ((above_insert_iff hw.links hw.counts hs.1 hnot s).2 h)), hnum5,
      Function.update_same]
  refine ⟨{ m5 with num_substreams := num' }, ?_, ⟨hl5.congr rfl rfl rfl rfl, ?_⟩, h1, ?_, h2, ?_⟩
  · rw [hrun5, hrun]
  · exact Counts_insert hw.links hw.counts hs.1 hnot num' (N + 1)
      (by rw [hs1]; push_cast; omega) (by intro y hy; rw [h1 y hy, hs1]) h2 h3
  · show num' s = _
    rw [h3, hsum]
  · unfold SameData at hsd ⊢
    rw [hsd]

/-! ### Detaching a subtree -/

theorem lastOr_none_eq_getLast? (l : List Nat) : lastOr l none = l.getLast? := by
  cases l with
  | nil => rfl
  | cons c cs =>
    obtain ⟨l', h⟩ := exists_split_last c cs
    rw [h, lastOr_append_singleton]
    simp

theorem Links.sib_prev_mem {m : Mem} {kids : Nat → List Nat} (hl : Links m kids) {y z : Nat}
    (h : m.sib_prev y = some z) : ∃ n, z ∈ kids n := by
  by_cases hr : IsRoot kids y
  · rw [(hl.root y hr).2.1] at h; cases h
  · unfold IsRoot at hr
    push_neg at hr
    obtain ⟨n, hn⟩ := hr
    obtain ⟨L, R, hs⟩ := List.append_of_mem hn
    have := (hl.at hs).2.1
    rw [h, lastOr_none_eq_getLast?] at this
    exact ⟨n, by rw [hs]; exact List.mem_append_left _ (List.mem_of_getLast?_eq_some this.symm)⟩

theorem stream_first_sib_agree (m m0 : Mem) (s : Nat)
    (hag : ∀ y, y ≠ s → m.sib_prev y = m0.sib_prev y)
    (hcl : ∀ y z, m0.sib_prev y = some z → z ≠ s) :
    ∀ (fuel x : Nat), x ≠ s → stream_first_sib fuel m x = stream_first_sib fuel m0 x := by
  intro fuel
  induction fuel with
  | zero => intros; rfl
  | succ f ih =>
    intro x hx
    simp only [stream_first_sib, hag x hx]
    cases h : m0.sib_prev x with
    | none => rfl
    | some z => exact ih z (hcl x z h)

/-- The walk of `stream_update_dep_length` from `x` does not depend on the
links of a root `s` whose tree does not contain `x`. -/
theorem UpOK_of_agree {m m0 : Mem} {kids : Nat → List Nat} (hl : Links m0 kids) {s x : Nat}
    (hr : IsRoot kids s) (hnot : ¬ Above kids x s)
    (hsp : ∀ y, y ≠ s → m.sib_prev y = m0.sib_prev y)
    (hdp : ∀ y, y ≠ s → m.dep_prev y = m0.dep_prev y) : UpOK m kids x where
  root := fun y hy hyr => by
    have hys : y ≠ s := fun e => hnot (e ▸ hy)
    rw [hsp y hys, hdp y hys]
    exact ⟨(hl.root y hyr).2.1, (hl.root y hyr).1⟩
  child := fun y n L R hy hk => by
    have hys : y ≠ s := fun e => hnot (e ▸ hy)
    have hhead : L.headD y ∈ kids n := by
      rw [hk]; cases L <;> simp
    have hhs : L.headD y ≠ s := fun e => hr n (e ▸ hhead)
    refine ⟨fun fuel hf => ?_, ?_⟩
    · rw [stream_first_sib_agree m m0 s hsp ?_ fuel y hys]
      · exact stream_first_sib_spec hl L n y R fuel hk hf
      · intro a z h e
        obtain ⟨q, hq⟩ := hl.sib_prev_mem h
        exact hr q (e ▸ hq)
    · rw [hdp _ hhs]; exact head_dep_prev hl hk

/-- The links after the child `s` of `p` has been cut out of the children
list `L ++ s :: R`, the new link fields being given stream by stream. -/
theorem Links_detach {m m' : Mem} {kids : Nat → List Nat} (hl : Links m kids) {p s : Nat}
    {L R : List Nat} (hk : kids p = L ++ s :: R)
    (hdn : ∀ y, m'.dep_next y = if y = p then (L ++ R).head? else m.dep_next y)
    (hdp : ∀ y, m'.dep_prev y = if y = s then none
      else if R.head? = some y then (if L = [] then some p else none) else m.dep_prev y)
    (hsp : ∀ y, m'.sib_prev y = if y = s then none
      else if R.head? = some y then L.getLast? else m.sib_prev y)
    (hsn : ∀ y, m'.sib_next y = if y = s then none
      else if L.getLast? = some y then R.head? else m.sib_next y) :
    Links m' (Function.update kids p (L ++ R)) := by
  have hnd := hl.nodup p
  rw [hk] at hnd
  have hndL : L.Nodup := (List.nodup_append.1 hnd).1
  have hndsR : (s :: R).Nodup := (List.nodup_append.1 hnd).2.1
  have hndR : R.Nodup := (List.nodup_cons.1 hndsR).2
  have hsR : s ∉ R := (List.nodup_cons.1 hndsR).1
  have hsL : s ∉ L := fun h => (List.nodup_append.1 hnd).2.2 h (by simp)
  have hLR : ∀ y, y ∈ L → y ∉ R := fun y h1 h2 =>
    (List.nodup_append.1 hnd).2.2 h1 (List.mem_cons_of_mem _ h2)
  have hsp' : s ∈ kids p := by rw [hk]; simp
  have hLp : ∀ y, y ∈ L → y ∈ kids p := fun y h => by rw [hk]; simp [h]
  have hRp : ∀ y, y ∈ R → y ∈ kids p := fun y h => by rw [hk]; simp [h]
  have hkids : ∀ n, n ≠ p → Function.update kids p (L ++ R) n = kids n :=
    fun n hn => Function.update_noteq hn _ _
  have hkp : Function.update kids p (L ++ R) p = L ++ R := Function.update_same _ _ _
  have hmem : ∀ n c, c ∈ Function.update kids p (L ++ R) n → c ∈ kids n ∧ c ≠ s := by
    intro n c hc
    by_cases hn : n = p
    · subst hn
      rw [hkp] at hc
      rcases List.mem_append.1 hc with h | h
      · exact ⟨hLp c h, fun e => hsL (e ▸ h)⟩
      · exact ⟨hRp c h, fun e => hsR (e ▸ h)⟩
    · rw [hkids n hn] at hc
      exact ⟨hc, fun e => hn (hl.uniq n p c hc (e ▸ hsp'))⟩
  have hheadR : ∀ y, R.head? = some y → y ∈ R := fun y h => List.mem_of_mem_head? h
  have hlastL : ∀ y, L.getLast? = some y → y ∈ L := fun y h => List.mem_of_getLast?_eq_some h
  have hold := hl.chain p
  rw [hk, LinkChain_append] at hold
  obtain ⟨holdL, -, -, -, holdR⟩ := hold
  refine ⟨?_, ?_, ?_, ?_, ?_⟩
  · intro n
    by_cases hn : n = p
    · subst hn; rw [hkp]
      exact List.Nodup.append hndL hndR (fun y h1 h2 => hLR y h1 h2)
    · rw [hkids n hn]; exact hl.nodup n
  · intro n n' c h1 h2
    exact hl.uniq n n' c (hmem n c h1).1 (hmem n' c h2).1
  · intro n
    rw [hdn]
    by_cases hn : n = p
    · subst hn; rw [if_pos rfl, hkp]
    · rw [if_neg hn, hkids n hn]; exact hl.dep_next n
  · intro n
    by_cases hn : n = p
    · subst hn
      rw [hkp, LinkChain_append, headOr_eq_head?, lastOr_none_eq_getLast?]
      constructor
      · refine LinkChain_set_nx m m' L _ _ _ _ hndL holdL ?_ ?_ ?_
        · intro c hc
          have h1 : c ≠ s := fun e => hsL (e ▸ hc)
          have h2 : ¬ R.head? = some c := fun e => hLR c hc (hheadR c e)
          rw [hdp, if_neg h1, if_neg h2]
        · intro c hc
          have h1 : c ≠ s := fun e => hsL (e ▸ hc)
          have h2 : ¬ R.head? = some c := fun e => hLR c hc (hheadR c e)
          rw [hsp, if_neg h1, if_neg h2]
        · intro c hc
          have h1 : c ≠ s := fun e => hsL (e ▸ hc)
          rw [hsn, if_neg h1]
      · refine LinkChain_set_head m m' R _ _ _ _ _ hndR holdR ?_ ?_ ?_
        · intro c hc
          have h1 : c ≠ s := fun e => hsR (e ▸ hc)
          rw [hdp, if_neg h1]
        · intro c hc
          have h1 : c ≠ s := fun e => hsR (e ▸ hc)
          rw [hsp, if_neg h1]
        · intro c hc
          have h1 : c ≠ s := fun e => hsR (e ▸ hc)
          have h2 : ¬ L.getLast? = some c := fun e => hLR c (hlastL c e) hc
          rw [hsn, if_neg h1, if_neg h2]
    · rw [hkids n hn, LinkChain_congr m m']
      · exact hl.chain n
      · intro c hc
        have h1 : c ≠ s := fun e => hn (hl.uniq n p c hc (e ▸ hsp'))
        have h2 : ¬ R.head? = some c := fun e => hn (hl.uniq n p c hc (hRp c (hheadR c e)))
        have h3 : ¬ L.getLast? = some c := fun e => hn (hl.uniq n p c hc (hLp c (hlastL c e)))
        rw [hdp, hsp, hsn, if_neg h1, if_neg h1, if_neg h1, if_neg h2, if_neg h2, if_neg h3]
        exact ⟨rfl, rfl, rfl⟩
  · intro x hx
    by_cases hxs : x = s
    · subst hxs
      rw [hdp, hsp, hsn, if_pos rfl, if_pos rfl, if_pos rfl]
      exact ⟨rfl, rfl, rfl⟩
    · have hxp : x ∉ L ++ R := by
        have := hx p
        rwa [hkp] at this
      have hxL : x ∉ L := fun h => hxp (List.mem_append_left _ h)
      have hxR : x ∉ R := fun h => hxp (List.mem_append_right _ h)
      have hxr : IsRoot kids x := by
        intro n hn
        by_cases hnp : n = p
        · subst hnp
          rw [hk] at hn
          rcases List.mem_append.1 hn with h | h
          · exact hxL h
          · rcases List.mem_cons.1 h with h | h
            · exact hxs h
            · exact hxR h
        · have := hx n
          rw [hkids n hnp] at this
          exact this hn
      have h2 : ¬ R.head? = some x := fun e => hxR (hheadR x e)
      have h3 : ¬ L.getLast? = some x := fun e => hxL (hlastL x e)
      rw [hdp, hsp, hsn, if_neg hxs, if_neg hxs, if_neg hxs, if_neg h2, if_neg h2, if_neg h3]
      exact hl.root x hxr

theorem Counts_detach {m : Mem} {kids : Nat → List Nat} {num : Nat → Int} {N : Nat}
    (hl : Links m kids) (hc : Counts num kids N) {p s : Nat} {L R : List Nat}
    (hk : kids p = L ++ s :: R) (num' : Nat → Int)
    (h1 : ∀ y, Above kids p y → num' y = num y - num s)
    (h2 : ∀ y, ¬ Above kids p y → num' y = num y) :
    Counts num' (Function.update kids p (L ++ R)) N := by
  have hsp : s ∈ kids p := by rw [hk]; simp
  have hpos := hc.pos s
  have hlt := hc.mem_lt hsp
  refine ⟨?_, ?_, ?_⟩
  · intro n
    by_cases hn : n = p
    · subst hn
      have e := hc.eq n
      rw [hk] at e
      simp only [List.map_append, List.sum_append, List.map_cons, List.sum_cons] at e
      rw [Function.update_same, h1 n Above.self, e]
      simp only [List.map_append, List.sum_append]
      rw [sum_map_congr num' num L (fun c hcL =>
          h2 c (hc.not_above_of_mem (by rw [hk]; simp [hcL]))),
        sum_map_congr num' num R (fun c hcR =>
          h2 c (hc.not_above_of_mem (by rw [hk]; simp [hcR])))]
      ring
    · rw [Function.update_noteq hn]
      refine hc.bump_eq hl (-(num s)) num' hn ?_ (h2 n) ?_ (fun c _ => h2 c)
      · intro h; rw [h1 n h]; ring
      · intro c _ h; rw [h1 c h]; ring
  · intro n
    by_cases hy : Above kids p n
    · have := hc.above_le hy
      rw [h1 n hy]; omega
    · rw [h2 n hy]; exact hc.pos n
  · intro n
    have := hc.bound n
    by_cases hy : Above kids p n
    · rw [h1 n hy]; omega
    · rw [h2 n hy]; omega

theorem exists_Counts_detach {m : Mem} {kids : Nat → List Nat} {num : Nat → Int} {N : Nat}
    (hl : Links m kids) (hc : Counts num kids N) {p s : Nat} {L R : List Nat}
    (hk : kids p = L ++ s :: R) :
    ∃ rank : Nat → Int, Counts rank (Function.update kids p (L ++ R)) N ∧
      rank p = num p - num s := by
  classical
  refine ⟨fun y => if Above kids p y then num y - num s else num y, ?_, ?_⟩
  · refine Counts_detach hl hc hk _ ?_ ?_
    · intro y hy; simp [hy]
    · intro y hy; simp [hy]
  · simp [Above.self]

theorem above_detach_iff {kids : Nat → List Nat} {num : Nat → Int} {N : Nat}
    (hc : Counts num kids N) {p s : Nat} {L R : List Nat} (hk : kids p = L ++ s :: R)
    (a : Nat) : Above kids p a ↔ Above (Function.update kids p (L ++ R)) p a := by
  have hsp : s ∈ kids p := by rw [hk]; simp
  apply above_congr
  intro y n hy
  have hys : y ≠ s := fun e => hc.not_above_of_mem hsp (e ▸ hy)
  have hyp : y ∉ kids p := fun h => hc.not_above_of_mem h hy
  by_cases hn : n = p
  · subst hn
    rw [Function.update_same]
    constructor
    · intro h; exact absurd h hyp
    · intro h
      exfalso
      apply hyp
      rw [hk]
      rcases List.mem_append.1 h with h | h
      · simp [h]
      · simp [h]
  · rw [Function.update_noteq hn]

theorem detach_first_sib {m m2 : Mem} {kids : Nat → List Nat} {N : Nat} (hw : WF m kids N)
    {p s prev : Nat} {L0 R : List Nat} (hk : kids p = (L0 ++ [prev]) ++ s :: R)
    (hdp : ∀ y, m2.dep_prev y =
      if R.head? = some y then (if L0 ++ [prev] = [] then some p else none) else m.dep_prev y)
    (hsp : ∀ y, m2.sib_prev y =
      if R.head? = some y then (L0 ++ [prev]).getLast? else m.sib_prev y)
    (hsn : ∀ y, m2.sib_next y =
      if (L0 ++ [prev]).getLast? = some y then R.head? else m.sib_next y)
    {fuel : Nat} (hf : N ≤ fuel) :
    stream_first_sib fuel m2 prev = .ok (L0.headD prev) ∧
      m2.dep_prev (L0.headD prev) = some p := by
  have hl := hw.links
  have hnd := hl.nodup p
  rw [hk] at hnd
  have hLR : ∀ y, y ∈ L0 ++ [prev] → y ∉ R := fun y h1 h2 =>
    (List.nodup_append.1 hnd).2.2 h1 (List.mem_cons_of_mem _ h2)
  have hheadR : ∀ y, R.head? = some y → y ∈ R := fun y h => List.mem_of_mem_head? h
  have hold := hl.chain p
  rw [hk, LinkChain_append] at hold
  have hch : LinkChain m2 (some p) none (L0 ++ [prev]) R.head? := by
    refine LinkChain_set_nx m m2 _ _ _ _ _ (List.nodup_append.1 hnd).1 hold.1 ?_ ?_ ?_
    · intro c hc
      rw [hdp, if_neg (fun e => hLR c hc (hheadR c e))]
    · intro c hc
      rw [hsp, if_neg (fun e => hLR c hc (hheadR c e))]
    · intro c _
      rw [hsn]
  have hlen := hw.counts.length_lt p
  have hbN := hw.counts.bound p
  rw [hk] at hlen
  simp at hlen
  constructor
  · exact stream_first_sib_chain m2 L0 prev [] _ _ fuel hch (by omega)
  · refine (LinkChain_head_fields m2 _ _ _ _ _ hch ?_).1
    cases L0 <;> rfl

/-- The memory of `dep_remove_subtree` just before the counts are updated. -/
theorem dep_remove_subtree_unlink {m : Mem} {kids : Nat → List Nat} {N : Nat} (hw : WF m kids N)
    {p s : Nat} {L R : List Nat} (hk : kids p = L ++ s :: R) {fuel : Nat} (hf : N ≤ fuel) :
    ∃ m2 : Mem, SameData m m2 ∧ m2.num_substreams = m.num_substreams ∧
      (∀ y, m2.dep_next y = if y = p then (L ++ R).head? else m.dep_next y) ∧
      (∀ y, m2.dep_prev y =
        if R.head? = some y then (if L = [] then some p else none) else m.dep_prev y) ∧
      (∀ y, m2.sib_prev y = if R.head? = some y then L.getLast? else m.sib_prev y) ∧
      (∀ y, m2.sib_next y = if L.getLast? = some y then R.head? else m.sib_next y) ∧
      nghttp2_stream_dep_remove_subtree fuel m s =
        (match (match stream_update_dep_length fuel m2 p (-(m.num_substreams s)) with
            | .error e => .error e
            | .ok (m3, _) => .ok m3 : Except Fault Mem) with
          | .error e => .error e
          | .ok m4 => .ok { m4 with
              sib_prev := Function.update m4.sib_prev s none
              sib_next := Function.update m4.sib_next s none
              dep_prev := Function.update m4.dep_prev s none }) := by
  have hl := hw.links
  have hat := hl.at hk
  have hsp' : s ∈ kids p := by rw [hk]; simp
  have hps : p ≠ s := fun e => hw.counts.not_above_of_mem hsp' (e ▸ Above.self)
  have hdnp := hl.dep_next p
  rw [lastOr_none_eq_getLast?] at hat
  rcases list_nil_or_cons L with hL | ⟨l1, L', hL⟩
  · -- `s` is the first child of `p`
    subst hL
    simp only [List.nil_append, if_true, List.getLast?_nil] at hat hk ⊢
    rcases list_nil_or_cons R with hR | ⟨r1, R', hR⟩
    · subst hR
      simp only [List.head?_nil] at hat
      refine ⟨{ m with dep_next := Function.update m.dep_next p none }, rfl, rfl, ?_, ?_, ?_, ?_, ?_⟩
      · intro y; simp [Function.update_apply]
      · intro y; simp
      · intro y; simp
      · intro y; simp
      · simp [nghttp2_stream_dep_remove_subtree, hat]
    · subst hR
      simp only [List.head?_cons] at hat
      refine ⟨{ m with
          dep_next := Function.update m.dep_next p (some r1)
          dep_prev := Function.update m.dep_prev r1 (some p)
          sib_prev := Function.update m.sib_prev r1 none }, rfl, rfl, ?_, ?_, ?_, ?_, ?_⟩
      · intro y; simp [Function.update_apply]
      · intro y; simp [Function.update_apply, eq_comm]
      · intro y; simp [Function.update_apply, eq_comm]
      · intro y; simp
      · simp [nghttp2_stream_dep_remove_subtree, hat]
  · -- `s` has a left sibling
    obtain ⟨L0, hL0⟩ := exists_split_last l1 L'
    rw [hL, hL0] at hat hk ⊢
    generalize lastD L' l1 = prev at *
    have hne : L0 ++ [prev] ≠ [] := by simp
    have hlastL : (L0 ++ [prev]).getLast? = some prev := by simp
    have hheadL : ∀ R0 : List Nat, ((L0 ++ [prev]) ++ R0).head? = (L0 ++ [prev]).head? := by
      intro R0; cases L0 <;> rfl
    rw [hlastL] at hat
    simp only [hne, if_false] at hat
    rw [hk, hheadL] at hdnp
    rcases list_nil_or_cons R with hR | ⟨r1, R', hR⟩
    · subst hR
      simp only [List.head?_nil] at hat
      have specs : ∀ m2 : Mem, m2 = { m with sib_next := Function.update m.sib_next prev none } →
          (∀ y, m2.dep_next y =
            if y = p then ((L0 ++ [prev]) ++ []).head? else m.dep_next y) ∧
          (∀ y, m2.dep_prev y = if ([] : List Nat).head? = some y then
            (if L0 ++ [prev] = [] then some p else none) else m.dep_prev y) ∧
          (∀ y, m2.sib_prev y = if ([] : List Nat).head? = some y then
            (L0 ++ [prev]).getLast? else m.sib_prev y) ∧
          (∀ y, m2.sib_next y = if (L0 ++ [prev]).getLast? = some y then
            ([] : List Nat).head? else m.sib_next y) := by
        rintro m2 rfl
        refine ⟨?_, ?_, ?_, ?_⟩
        · intro y
          rw [hheadL]
          split_ifs with h
          · subst h; exact hdnp
          · rfl
        · intro y; simp
        · intro y; simp
        · intro y; rw [hlastL]; simp [Function.update_apply, eq_comm]
      obtain ⟨s1, s2, s3, s4⟩ := specs _ rfl
      have hfirst := detach_first_sib hw hk s2 s3 s4 hf
      refine ⟨{ m with sib_next := Function.update m.sib_next prev none },
        rfl, rfl, s1, s2, s3, s4, ?_⟩
      have h2 : m.dep_prev (L0.head?.getD prev) = some p := by
        have := hfirst.2
        simpa using this
      simp [nghttp2_stream_dep_remove_subtree, hat, hfirst.1, h2]
    · subst hR
      simp only [List.head?_cons] at hat
      have hr1 : r1 ∈ kids p := by rw [hk]; simp
      have specs : ∀ m2 : Mem, m2 = { m with
            sib_next := Function.update m.sib_next prev (some r1)
            sib_prev := Function.update m.sib_prev r1 (some prev) } →
          (∀ y, m2.dep_next y =
            if y = p then ((L0 ++ [prev]) ++ r1 :: R').head? else m.dep_next y) ∧
          (∀ y, m2.dep_prev y = if (r1 :: R').head? = some y then
            (if L0 ++ [prev] = [] then some p else none) else m.dep_prev y) ∧
          (∀ y, m2.sib_prev y = if (r1 :: R').head? = some y then
            (L0 ++ [prev]).getLast? else m.sib_prev y) ∧
          (∀ y, m2.sib_next y = if (L0 ++ [prev]).getLast? = some y then
            (r1 :: R').head? else m.sib_next y) := by
        rintro m2 rfl
        refine ⟨?_, ?_, ?_, ?_⟩
        · intro y
          rw [hheadL]
          split_ifs with h
          · subst h; exact hdnp
          · rfl
        · intro y
          have hk' : kids p = (L0 ++ [prev, s]) ++ r1 :: R' := by simp [hk]
          have := (hl.at hk').1
          simp only [List.head?_cons, hne, if_false]
          split_ifs with h
          · simp at h; subst h; simpa using this
          · rfl
        · intro y; rw [hlastL]; simp [Function.update_apply, eq_comm]
        · intro y; rw [hlastL]; simp [Function.update_apply, eq_comm]
      obtain ⟨s1, s2, s3, s4⟩ := specs _ rfl
      have hfirst := detach_first_sib hw hk s2 s3 s4 hf
      refine ⟨{ m with
            sib_next := Function.update m.sib_next prev (some r1)
            sib_prev := Function.update m.sib_prev r1 (some prev) },
        rfl, rfl, s1, s2, s3, s4, ?_⟩
      have h2 : m.dep_prev (L0.head?.getD prev) = some p := by
        have := hfirst.2
        simpa using this
      simp [nghttp2_stream_dep_remove_subtree, hat, hfirst.1, h2]

/-- The effect of `dep_remove_subtree` on a child `s` of `p`: the subtree of
`s` is cut out of the children list of `p` and becomes a tree of its own, the
counts of `p` and of its ancestors shrink by the size of the subtree. -/
theorem dep_remove_subtree_spec {m : Mem} {kids : Nat → List Nat} {N : Nat} (hw : WF m kids N)
    {p s : Nat} {L R : List Nat} (hk : kids p = L ++ s :: R) {fuel : Nat} (hf : N ≤ fuel) :
    ∃ m', nghttp2_stream_dep_remove_subtree fuel m s = .ok m' ∧
      WF m' (Function.update kids p (L ++ R)) N ∧
      (∀ y, Above kids p y → m'.num_substreams y = m.num_substreams y - m.num_substreams s) ∧
      (∀ y, ¬ Above kids p y → m'.num_substreams y = m.num_substreams y) ∧
      SameData m m' ∧
      (∀ y, m'.dep_next y = if y = p then (L ++ R).head? else m.dep_next y) ∧
      (∀ y, m'.dep_prev y = if y = s then none
        else if R.head? = some y then (if L = [] then some p else none) else m.dep_prev y) ∧
      (∀ y, m'.sib_prev y = if y = s then none
        else if R.head? = some y then L.getLast? else m.sib_prev y) ∧
      (∀ y, m'.sib_next y = if y = s then none
        else if L.getLast? = some y then R.head? else m.sib_next y) := by
  obtain ⟨m2, hsd, hnum2, s1, s2, s3, s4, hrun2⟩ := dep_remove_subtree_unlink hw hk hf
  have hsp' : s ∈ kids p := by rw [hk]; simp
  have hlt := hw.counts.mem_lt hsp'
  have hpos := hw.counts.pos s
  have hbN := hw.counts.bound p
  -- the final link fields
  have t1 : ∀ (num' : Nat → Int) (y : Nat), ({ m2 with
      num_substreams := num'
      sib_prev := Function.update m2.sib_prev s none
      sib_next := Function.update m2.sib_next s none
      dep_prev := Function.update m2.dep_prev s none } : Mem).dep_prev y = if y = s then none
        else if R.head? = some y then (if L = [] then some p else none) else m.dep_prev y := by
    intro num' y
    simp only [Function.update_apply, s2]
  have t2 : ∀ (num' : Nat → Int) (y : Nat), ({ m2 with
      num_substreams := num'
      sib_prev := Function.update m2.sib_prev s none
      sib_next := Function.update m2.sib_next s none
      dep_prev := Function.update m2.dep_prev s none } : Mem).sib_prev y = if y = s then none
        else if R.head? = some y then L.getLast? else m.sib_prev y := by
    intro num' y
    simp only [Function.update_apply, s3]
  have t3 : ∀ (num' : Nat → Int) (y : Nat), ({ m2 with
      num_substreams := num'
      sib_prev := Function.update m2.sib_prev s none
      sib_next := Function.update m2.sib_next s none
      dep_prev := Function.update m2.dep_prev s none } : Mem).sib_next y = if y = s then none
        else if L.getLast? = some y then R.head? else m.sib_next y := by
    intro num' y
    simp only [Function.update_apply, s4]
  have hlinks : ∀ num' : Nat → Int, Links { m2 with
      num_substreams := num'
      sib_prev := Function.update m2.sib_prev s none
      sib_next := Function.update m2.sib_next s none
      dep_prev := Function.update m2.dep_prev s none } (Function.update kids p (L ++ R)) :=
    fun num' => Links_detach hw.links hk s1 (t1 num') (t2 num') (t3 num')
  obtain ⟨rank, hrank, hrp⟩ := exists_Counts_detach hw.links hw.counts hk
  have hroot : IsRoot (Function.update kids p (L ++ R)) s := by
    intro n hn
    have hnd := hw.links.nodup p
    rw [hk] at hnd
    by_cases hnp : n = p
    · subst hnp
      rw [Function.update_same] at hn
      rcases List.mem_append.1 hn with h | h
      · exact (List.nodup_append.1 hnd).2.2 h (by simp)
      · exact (List.nodup_cons.1 (List.nodup_append.1 hnd).2.1).1 h
    · rw [Function.update_noteq hnp] at hn
      exact hnp (hw.links.uniq n p s hn hsp')
  have hnot : ¬ Above (Function.update kids p (L ++ R)) p s := fun h =>
    hw.counts.not_above_of_mem hsp' ((above_detach_iff hw.counts hk s).2 h)
  have hup : UpOK m2 (Function.update kids p (L ++ R)) p := by
    refine UpOK_of_agree (hlinks m2.num_substreams) hroot hnot ?_ ?_
    · intro y hy; simp [Function.update_noteq hy]
    · intro y hy; simp [Function.update_noteq hy]
  obtain ⟨num', r, hrun, hab, hnab, -, -⟩ :=
    stream_update_dep_length_spec_up hrank (hlinks m2.num_substreams).uniq fuel m2 p
      (-(m.num_substreams s)) hup (by rw [hrp]; omega)
  have h1 : ∀ y, Above kids p y → num' y = m.num_substreams y - m.num_substreams s := by
    intro y hy
    rw [hab y ((above_detach_iff hw.counts hk y).1 hy), hnum2]; ring
  have h2 : ∀ y, ¬ Above kids p y → num' y = m.num_substreams y := by
    intro y hy
    rw [hnab y (fun h => hy ((above_detach_iff hw.counts hk y).2 h)), hnum2]
  refine ⟨{ m2 with
      num_substreams := num'
      sib_prev := Function.update m2.sib_prev s none
      sib_next := Function.update m2.sib_next s none
      dep_prev := Function.update m2.dep_prev s none }, ?_, ⟨hlinks num', ?_⟩, h1, h2, ?_,
    s1, t1 num', t2 num', t3 num'⟩
  · rw [hrun2, hrun]
  · exact Counts_detach hw.links hw.counts hk num' h1 h2
  · unfold SameData at hsd ⊢
    rw [hsd]

/-- On a root, `dep_remove_subtree` changes nothing. -/
theorem dep_remove_subtree_root {m : Mem} {kids : Nat → List Nat} {N : Nat} (hw : WF m kids N)
    {s : Nat} (hr : IsRoot kids s) (fuel : Nat) :
    nghttp2_stream_dep_remove_subtree fuel m s = .ok m := by
  obtain ⟨h1, h2, h3⟩ := hw.links.root s hr
  have e1 : Function.update m.dep_prev s none = m.dep_prev := by
    rw [← h1]; exact Function.update_eq_self _ _
  have e2 : Function.update m.sib_prev s none = m.sib_prev := by
    rw [← h2]; exact Function.update_eq_self _ _
  have e3 : Function.update m.sib_next s none = m.sib_next := by
    rw [← h3]; exact Function.update_eq_self _ _
  simp [nghttp2_stream_dep_remove_subtree, h1, h2, e1, e2, e3]

/-! ### Removing a single stream -/

theorem getLast?_append_ite (l k : List Nat) :
    (l ++ k).getLast? = if k = [] then l.getLast? else k.getLast? := by
  cases k with
  | nil => simp
  | cons a k =>
    obtain ⟨k', h⟩ := exists_split_last a k
    rw [h, ← List.append_assoc]
    simp

theorem head?_append_ite (l k : List Nat) :
    (l ++ k).head? = if l = [] then k.head? else l.head? := by
  cases l <;> simp

/-- The links after the child `s` of `p` has been removed, the new link
fields being given stream by stream. -/
theorem Links_remove {m m' : Mem} {kids : Nat → List Nat} (hl : Links m kids) {p s : Nat}
    {L R : List Nat} (hk : kids p = L ++ s :: R) (hps : p ≠ s)
    (hdn : ∀ y, m'.dep_next y = if y = s then none
      else if y = p then (L ++ (kids s ++ R)).head? else m.dep_next y)
    (hdp : ∀ y, m'.dep_prev y = if y = s then none
      else if (kids s).head? = some y then (if L = [] then some p else none)
      else if R.head? = some y then (if L ++ kids s = [] then some p else none)
      else m.dep_prev y)
    (hsp : ∀ y, m'.sib_prev y = if y = s then none
      else if (kids s).head? = some y then L.getLast?
      else if R.head? = some y then (L ++ kids s).getLast? else m.sib_prev y)
    (hsn : ∀ y, m'.sib_next y = if y = s then none
      else if L.getLast? = some y then (kids s ++ R).head?
      else if (kids s).getLast? = some y then R.head? else m.sib_next y) :
    Links m' (kidsRemove kids p s L R) := by
  have hnd := hl.nodup p
  rw [hk] at hnd
  have hndL : L.Nodup := (List.nodup_append.1 hnd).1
  have hndsR : (s :: R).Nodup := (List.nodup_append.1 hnd).2.1
  have hndR : R.Nodup := (List.nodup_cons.1 hndsR).2
  have hndK : (kids s).Nodup := hl.nodup s
  have hsR : s ∉ R := (List.nodup_cons.1 hndsR).1
  have hsL : s ∉ L := fun h => (List.nodup_append.1 hnd).2.2 h (by simp)
  have hLR : ∀ y, y ∈ L → y ∉ R := fun y h1 h2 =>
    (List.nodup_append.1 hnd).2.2 h1 (List.mem_cons_of_mem _ h2)
  have hsp' : s ∈ kids p := by rw [hk]; simp
  have hLp : ∀ y, y ∈ L → y ∈ kids p := fun y h => by rw [hk]; simp [h]
  have hRp : ∀ y, y ∈ R → y ∈ kids p := fun y h => by rw [hk]; simp [h]
  have hKp : ∀ y, y ∈ kids s → y ∉ kids p := fun y h1 h2 => hps (hl.uniq p s y h2 h1)
  have hKL : ∀ y, y ∈ kids s → y ∉ L := fun y h1 h2 => hKp y h1 (hLp y h2)
  have hKR : ∀ y, y ∈ kids s → y ∉ R := fun y h1 h2 => hKp y h1 (hRp y h2)
  have hKs : s ∉ kids s := fun h => hKp s h hsp'
  have hkp : kidsRemove kids p s L R p = L ++ (kids s ++ R) := by
    simp [kidsRemove, Function.update_noteq hps]
  have hks : kidsRemove kids p s L R s = [] := by simp [kidsRemove]
  have hkids : ∀ n, n ≠ p → n ≠ s → kidsRemove kids p s L R n = kids n := by
    intro n h1 h2
    simp [kidsRemove, Function.update_noteq h1, Function.update_noteq h2]
  have hmem : ∀ n c, c ∈ kidsRemove kids p s L R n →
      c ≠ s ∧ ((n = p ∧ (c ∈ L ∨ c ∈ kids s ∨ c ∈ R)) ∨
        (n ≠ p ∧ n ≠ s ∧ c ∈ kids n ∧ c ∉ L ∧ c ∉ kids s ∧ c ∉ R)) := by
    intro n c hc
    by_cases hn : n = p
    · subst hn
      rw [hkp] at hc
      simp only [List.mem_append] at hc
      refine ⟨?_, Or.inl ⟨rfl, hc⟩⟩
      rintro rfl
      rcases hc with h | h | h
      · exact hsL h
      · exact hKs h
      · exact hsR h
    · by_cases hns : n = s
      · subst hns; rw [hks] at hc; simp at hc
      · rw [hkids n hn hns] at hc
        refine ⟨fun e => hn (hl.uniq n p c hc (e ▸ hsp')), Or.inr ⟨hn, hns, hc, ?_, ?_, ?_⟩⟩
        · exact fun h => hn (hl.uniq n p c hc (hLp c h))
        · exact fun h => hns (hl.uniq n s c hc h)
        · exact fun h => hn (hl.uniq n p c hc (hRp c h))
  have hheadR : ∀ y, R.head? = some y → y ∈ R := fun y h => List.mem_of_mem_head? h
  have hheadK : ∀ y, (kids s).head? = some y → y ∈ kids s := fun y h => List.mem_of_mem_head? h
  have hlastL : ∀ y, L.getLast? = some y → y ∈ L := fun y h => List.mem_of_getLast?_eq_some h
  have hlastK : ∀ y, (kids s).getLast? = some y → y ∈ kids s :=
    fun y h => List.mem_of_getLast?_eq_some h
  have hold := hl.chain p
  rw [hk, LinkChain_append] at hold
  obtain ⟨holdL, -, -, -, holdR⟩ := hold
  have holdK := hl.chain s
  refine ⟨?_, ?_, ?_, ?_, ?_⟩
  · intro n
    by_cases hn : n = p
    · subst hn; rw [hkp]
      refine List.Nodup.append hndL (List.Nodup.append hndK hndR ?_) ?_
      · exact fun y h1 h2 => hKR y h1 h2
      · intro y h1 h2
        rcases List.mem_append.1 h2 with h | h
        · exact hKL y h h1
        · exact hLR y h1 h
    · by_cases hns : n = s
      · subst hns; rw [hks]; exact List.nodup_nil
      · rw [hkids n hn hns]; exact hl.nodup n
  · intro n n' c h1 h2
    rcases (hmem n c h1).2 with ⟨e1, _⟩ | ⟨_, _, e3, e4, e5, e6⟩ <;>
      rcases (hmem n' c h2).2 with ⟨f1, f2⟩ | ⟨_, _, f3, f4, f5, f6⟩
    · rw [e1, f1]
    · rcases ‹c ∈ L ∨ c ∈ kids s ∨ c ∈ R› with h | h | h
      · exact absurd h f4
      · exact absurd h f5
      · exact absurd h f6
    · rcases f2 with h | h | h
      · exact absurd h e4
      · exact absurd h e5
      · exact absurd h e6
    · exact hl.uniq n n' c e3 f3
  · intro n
    rw [hdn]
    by_cases hns : n = s
    · subst hns; rw [if_pos rfl, hks]; rfl
    · rw [if_neg hns]
      by_cases hn : n = p
      · subst hn; rw [if_pos rfl, hkp]
      · rw [if_neg hn, hkids n hn hns]; exact hl.dep_next n
  · intro n
    by_cases hn : n = p
    · subst hn
      rw [hkp, LinkChain_append, headOr_eq_head?, lastOr_none_eq_getLast?, LinkChain_append,
        headOr_eq_head?]
      refine ⟨?_, ?_, ?_⟩
      · refine LinkChain_set_nx m m' L _ _ _ _ hndL holdL ?_ ?_ ?_
        · intro c hc
          have h1 : c ≠ s := fun e => hsL (e ▸ hc)
          have h2 : ¬ R.head? = some c := fun e => hLR c hc (hheadR c e)
          have h3 : ¬ (kids s).head? = some c := fun e => hKL c (hheadK c e) hc
          rw [hdp, if_neg h1, if_neg h3, if_neg h2]
        · intro c hc
          have h1 : c ≠ s := fun e => hsL (e ▸ hc)
          have h2 : ¬ R.head? = some c := fun e => hLR c hc (hheadR c e)
          have h3 : ¬ (kids s).head? = some c := fun e => hKL c (hheadK c e) hc
          rw [hsp, if_neg h1, if_neg h3, if_neg h2]
        · intro c hc
          have h1 : c ≠ s := fun e => hsL (e ▸ hc)
          rw [hsn, if_neg h1]
          split_ifs with h4 h5
          · rfl
          · exact absurd (hlastK c h5) (fun h => hKL c h hc)
          · rfl
      · refine LinkChain_relink m m' (kids s) _ _ _ _ _ _ hndK holdK ?_ ?_ ?_
        · intro c hc
          have h1 : c ≠ s := fun e => hKs (e ▸ hc)
          have h2 : ¬ R.head? = some c := fun e => hKR c hc (hheadR c e)
          rw [hdp, if_neg h1]
          split_ifs <;> rfl
        · intro c hc
          have h1 : c ≠ s := fun e => hKs (e ▸ hc)
          have h2 : ¬ R.head? = some c := fun e => hKR c hc (hheadR c e)
          rw [hsp, if_neg h1]
          split_ifs <;> rfl
        · intro c hc
          have h1 : c ≠ s := fun e => hKs (e ▸ hc)
          have h2 : ¬ L.getLast? = some c := fun e => hKL c hc (hlastL c e)
          rw [hsn, if_neg h1, if_neg h2]
      · have e1 : (if kids s = [] then (if L = [] then some n else none) else none) =
            (if L ++ kids s = [] then some n else none) := by
          by_cases h1 : kids s = [] <;> by_cases h2 : L = [] <;> simp [h1, h2]
        have e2 : lastOr (kids s) L.getLast? = (L ++ kids s).getLast? := by
          rw [getLast?_append_ite]
          cases hks' : kids s with
          | nil => simp [lastOr]
          | cons a k =>
            obtain ⟨k', h⟩ := exists_split_last a k
            rw [h, lastOr_append_singleton]
            simp
        rw [e1, e2]
        refine LinkChain_set_head m m' R _ _ _ _ _ hndR holdR ?_ ?_ ?_
        · intro c hc
          have h1 : c ≠ s := fun e => hsR (e ▸ hc)
          have h3 : ¬ (kids s).head? = some c := fun e => hKR c (hheadK c e) hc
          rw [hdp, if_neg h1, if_neg h3]
        · intro c hc
          have h1 : c ≠ s := fun e => hsR (e ▸ hc)
          have h3 : ¬ (kids s).head? = some c := fun e => hKR c (hheadK c e) hc
          rw [hsp, if_neg h1, if_neg h3]
        · intro c hc
          have h1 : c ≠ s := fun e => hsR (e ▸ hc)
          have h2 : ¬ L.getLast? = some c := fun e => hLR c (hlastL c e) hc
          have h3 : ¬ (kids s).getLast? = some c := fun e => hKR c (hlastK c e) hc
          rw [hsn, if_neg h1, if_neg h2, if_neg h3]
    · by_cases hns : n = s
      · subst hns; rw [hks]; trivial
      · rw [hkids n hn hns, LinkChain_congr m m']
        · exact hl.chain n
        · intro c hc
          have h1 : c ≠ s := fun e => hn (hl.uniq n p c hc (e ▸ hsp'))
          have hcL : c ∉ L := fun h => hn (hl.uniq n p c hc (hLp c h))
          have hcR : c ∉ R := fun h => hn (hl.uniq n p c hc (hRp c h))
          have hcK : c ∉ kids s := fun h => hns (hl.uniq n s c hc h)
          have h2 : ¬ R.head? = some c := fun e => hcR (hheadR c e)
          have h3 : ¬ L.getLast? = some c := fun e => hcL (hlastL c e)
          have h4 : ¬ (kids s).head? = some c := fun e => hcK (hheadK c e)
          have h5 : ¬ (kids s).getLast? = some c := fun e => hcK (hlastK c e)
          rw [hdp, hsp, hsn, if_neg h1, if_neg h1, if_neg h1, if_neg h2, if_neg h2, if_neg h3,
            if_neg h4, if_neg h4, if_neg h5]
          exact ⟨rfl, rfl, rfl⟩
  · intro x hx
    by_cases hxs : x = s
    · subst hxs
      rw [hdp, hsp, hsn, if_pos rfl, if_pos rfl, if_pos rfl]
      exact ⟨rfl, rfl, rfl⟩
    · have hxp : x ∉ L ++ (kids s ++ R) := by
        have := hx p
        rwa [hkp] at this
      have hxL : x ∉ L := fun h => hxp (List.mem_append_left _ h)
      have hxK : x ∉ kids s := fun h =>
        hxp (List.mem_append_right _ (List.mem_append_left _ h))
      have hxR : x ∉ R := fun h => hxp (List.mem_append_right _ (List.mem_append_right _ h))
      have hxr : IsRoot kids x := by
        intro n hn
        by_cases hnp : n = p
        · subst hnp
          rw [hk] at hn
          rcases List.mem_append.1 hn with h | h
          · exact hxL h
          · rcases List.mem_cons.1 h with h | h
            · exact hxs h
            · exact hxR h
        · by_cases hns : n = s
          · subst hns; exact hxK hn
          · have := hx n
            rw [hkids n hnp hns] at this
            exact this hn
      have h2 : ¬ R.head? = some x := fun e => hxR (hheadR x e)
      have h3 : ¬ L.getLast? = some x := fun e => hxL (hlastL x e)
      have h4 : ¬ (kids s).head? = some x := fun e => hxK (hheadK x e)
      have h5 : ¬ (kids s).getLast? = some x := fun e => hxK (hlastK x e)
      rw [hdp, hsp, hsn, if_neg hxs, if_neg hxs, if_neg hxs, if_neg h2, if_neg h2, if_neg h3,
        if_neg h4, if_neg h4, if_neg h5]
      exact hl.root x hxr

theorem Counts_remove {m : Mem} {kids : Nat → List Nat} {num : Nat → Int} {N : Nat}
    (hl : Links m kids) (hc : Counts num kids N) {p s : Nat} {L R : List Nat}
    (hk : kids p = L ++ s :: R) (num' : Nat → Int)
    (h1 : ∀ y, Above kids p y → num' y = num y - 1)
    (h2 : ∀ y, ¬ Above kids p y → y ≠ s → num' y = num y)
    (h3 : num' s = 1) :
    Counts num' (kidsRemove kids p s L R) N := by
  have hsp : s ∈ kids p := by rw [hk]; simp
  have hps : p ≠ s := fun e => hc.not_above_of_mem hsp (e ▸ Above.self)
  have hpos := hc.pos s
  have hlt := hc.mem_lt hsp
  have hkp : kidsRemove kids p s L R p = L ++ (kids s ++ R) := by
    simp [kidsRemove, Function.update_noteq hps]
  have hks : kidsRemove kids p s L R s = [] := by simp [kidsRemove]
  have hkids : ∀ n, n ≠ p → n ≠ s → kidsRemove kids p s L R n = kids n := by
    intro n h1 h2
    simp [kidsRemove, Function.update_noteq h1, Function.update_noteq h2]
  have hnd := hl.nodup p
  rw [hk] at hnd
  have hsR : s ∉ R := (List.nodup_cons.1 (List.nodup_append.1 hnd).2.1).1
  have hsL : s ∉ L := fun h => (List.nodup_append.1 hnd).2.2 h (by simp)
  refine ⟨?_, ?_, ?_⟩
  · intro n
    by_cases hn : n = p
    · subst hn
      have e := hc.eq n
      rw [hk] at e
      simp only [List.map_append, List.sum_append, List.map_cons, List.sum_cons] at e
      have es := hc.eq s
      rw [hkp, h1 n Above.self, e, es]
      simp only [List.map_append, List.sum_append]
      rw [sum_map_congr num' num L (fun c hcL =>
          h2 c (hc.not_above_of_mem (by rw [hk]; simp [hcL])) (fun e => hsL (e ▸ hcL))),
        sum_map_congr num' num R (fun c hcR =>
          h2 c (hc.not_above_of_mem (by rw [hk]; simp [hcR])) (fun e => hsR (e ▸ hcR))),
        sum_map_congr num' num (kids s) (fun c hcK => h2 c (fun ha => by
            have := hc.above_le ha
            have := hc.mem_lt hcK
            omega) (fun e => by
            have := hc.mem_lt hcK
            rw [e] at this
            omega))]
      ring
    · by_cases hns : n = s
      · subst hns; rw [hks, h3]; simp
      · rw [hkids n hn hns]
        refine hc.bump_eq hl (-1) num' hn ?_ (fun h => h2 n h hns) ?_ ?_
        · intro h; rw [h1 n h]; ring
        · intro c _ h; rw [h1 c h]; ring
        · intro c hcn h
          exact h2 c h (fun e => hn (hl.uniq n p c hcn (e ▸ hsp)))
  · intro n
    by_cases hy : Above kids p n
    · have := hc.above_le hy
      rw [h1 n hy]; omega
    · by_cases hns : n = s
      · subst hns; rw [h3]
      · rw [h2 n hy hns]; exact hc.pos n
  · intro n
    have := hc.bound n
    by_cases hy : Above kids p n
    · rw [h1 n hy]; omega
    · by_cases hns : n = s
      · subst hns; rw [h3]; have := hc.one_le_N; omega
      · rw [h2 n hy hns]; omega

/-- The links after the root `s` has been removed: its children are roots. -/
theorem Links_remove_root {m m' : Mem} {kids : Nat → List Nat} (hl : Links m kids) {s : Nat}
    (hr : IsRoot kids s)
    (hdn : ∀ y, m'.dep_next y = if y = s then none else m.dep_next y)
    (hdp : ∀ y, m'.dep_prev y = if y = s ∨ y ∈ kids s then none else m.dep_prev y)
    (hsp : ∀ y, m'.sib_prev y = if y = s ∨ y ∈ kids s then none else m.sib_prev y)
    (hsn : ∀ y, m'.sib_next y = if y = s ∨ y ∈ kids s then none else m.sib_next y) :
    Links m' (Function.update kids s []) := by
  have hks : Function.update kids s [] s = [] := Function.update_same _ _ _
  have hkids : ∀ n, n ≠ s → Function.update kids s [] n = kids n :=
    fun n hn => Function.update_noteq hn _ _
  refine ⟨?_, ?_, ?_, ?_, ?_⟩
  · intro n
    by_cases hns : n = s
    · subst hns; rw [hks]; exact List.nodup_nil
    · rw [hkids n hns]; exact hl.nodup n
  · intro n n' c h1 h2
    by_cases hns : n = s
    · subst hns; rw [hks] at h1; simp at h1
    · by_cases hns' : n' = s
      · subst hns'; rw [hks] at h2; simp at h2
      · rw [hkids n hns] at h1
        rw [hkids n' hns'] at h2
        exact hl.uniq n n' c h1 h2
  · intro n
    rw [hdn]
    by_cases hns : n = s
    · subst hns; rw [if_pos rfl, hks]; rfl
    · rw [if_neg hns, hkids n hns]; exact hl.dep_next n
  · intro n
    by_cases hns : n = s
    · subst hns; rw [hks]; trivial
    · rw [hkids n hns, LinkChain_congr m m']
      · exact hl.chain n
      · intro c hc
        have h1 : ¬ (c = s ∨ c ∈ kids s) := by
          rintro (e | e)
          · exact hr n (e ▸ hc)
          · exact hns (hl.uniq n s c hc e)
        rw [hdp, hsp, hsn, if_neg h1, if_neg h1, if_neg h1]
        exact ⟨rfl, rfl, rfl⟩
  · intro x hx
    by_cases h1 : x = s ∨ x ∈ kids s
    · rw [hdp, hsp, hsn, if_pos h1, if_pos h1, if_pos h1]
      exact ⟨rfl, rfl, rfl⟩
    · have hxr : IsRoot kids x := by
        intro n hn
        by_cases hns : n = s
        · subst hns; exact h1 (Or.inr hn)
        · have := hx n
          rw [hkids n hns] at this
          exact this hn
      rw [hdp, hsp, hsn, if_neg h1, if_neg h1, if_neg h1]
      exact hl.root x hxr

theorem Counts_remove_root {kids : Nat → List Nat} {num : Nat → Int} {N : Nat}
    (hc : Counts num kids N) {s : Nat} (hr : IsRoot kids s) (num' : Nat → Int)
    (h2 : ∀ y, y ≠ s → num' y = num y) (h3 : num' s = 1) :
    Counts num' (Function.update kids s []) N := by
  refine ⟨?_, ?_, ?_⟩
  · intro n
    by_cases hns : n = s
    · subst hns; rw [Function.update_same, h3]; simp
    · rw [Function.update_noteq hns, h2 n hns, hc.eq n]
      congr 1
      apply sum_map_congr
      intro c hcn
      exact (h2 c (fun e => hr n (e ▸ hcn))).symm
  · intro n
    by_cases hns : n = s
    · subst hns; rw [h3]
    · rw [h2 n hns]; exact hc.pos n
  · intro n
    by_cases hns : n = s
    · subst hns; rw [h3]; have := hc.one_le_N; omega
    · rw [h2 n hns]; exact hc.bound n

theorem dep_remove_root_loop_spec (K : List Nat) :
    ∀ (m : Mem) (dp sp : Option Nat) (fuel : Nat), LinkChain m dp sp K none → K.Nodup →
      K.length ≤ fuel →
      dep_remove_root_loop fuel m K.head? = .ok { m with
        dep_prev := fun y => if y ∈ K then none else m.dep_prev y
        sib_prev := fun y => if y ∈ K then none else m.sib_prev y
        sib_next := fun y => if y ∈ K then none else m.sib_next y } := by
  induction K with
  | nil =>
    intro m dp sp fuel _ _ _
    cases fuel <;> simp [dep_remove_root_loop]
  | cons c cs ih =>
    intro m dp sp fuel h hn hf
    obtain ⟨f, rfl⟩ : ∃ f, fuel = f + 1 := ⟨fuel - 1, by simp at hf; omega⟩
    obtain ⟨hc, hn'⟩ := List.nodup_cons.1 hn
    have hnext : m.sib_next c = cs.head? := by rw [h.2.2.1, headOr_eq_head?]
    have h' : LinkChain { m with
        dep_prev := Function.update m.dep_prev c none
        sib_prev := Function.update m.sib_prev c none
        sib_next := Function.update m.sib_next c none } none (some c) cs none := by
      rw [LinkChain_congr m]
      · exact h.2.2.2
      · intro d hd
        have hdc : d ≠ c := fun e => hc (e ▸ hd)
        simp [Function.update_noteq hdc]
    have := ih _ none (some c) f h' hn' (by simp at hf; omega)
    simp only [List.head?_cons, dep_remove_root_loop, hnext, this]
    congr 2
    · funext y
      by_cases hy : y = c
      · subst hy; simp
      · simp [hy, Function.update_noteq hy]
    · funext y
      by_cases hy : y = c
      · subst hy; simp
      · simp [hy, Function.update_noteq hy]
    · funext y
      by_cases hy : y = c
      · subst hy; simp
      · simp [hy, Function.update_noteq hy]

theorem stream_last_sib_congr_on (m m' : Mem) (l : List Nat)
    (hag : ∀ y ∈ l, m'.sib_next y = m.sib_next y)
    (hcl : ∀ y ∈ l, ∀ z, m.sib_next y = some z → z ∈ l) :
    ∀ (fuel x : Nat), x ∈ l → stream_last_sib fuel m' x = stream_last_sib fuel m x := by
  intro fuel
  induction fuel with
  | zero => intros; rfl
  | succ f ih =>
    intro x hx
    simp only [stream_last_sib, hag x hx]
    cases h : m.sib_next x with
    | none => rfl
    | some z => exact ih z (hcl x hx z h)

theorem Links.sib_next_mem {m : Mem} {kids : Nat → List Nat} (hl : Links m kids) {n y z : Nat}
    (hy : y ∈ kids n) (h : m.sib_next y = some z) : z ∈ kids n := by
  obtain ⟨L, R, hs⟩ := List.append_of_mem hy
  have := (hl.at hs).2.2
  rw [h] at this
  rw [hs]
  exact List.mem_append_right _ (List.mem_cons_of_mem _ (List.mem_of_mem_head? this.symm))

/-- The walk to the last child of `s` in a memory that agrees with `m` on
the `sib_next` of the children of `s`. -/
theorem stream_last_sib_kids {m m' : Mem} {kids : Nat → List Nat} {N : Nat} (hw : WF m kids N)
    {s k1 : Nat} {K' : List Nat} (hK : kids s = k1 :: K')
    (hag : ∀ y ∈ kids s, m'.sib_next y = m.sib_next y) {fuel : Nat} (hf : N ≤ fuel) :
    stream_last_sib fuel m' k1 = .ok (lastD K' k1) := by
  have hlen := hw.counts.length_lt s
  have hb := hw.counts.bound s
  rw [stream_last_sib_congr_on m m' (kids s) hag
    (fun y hy z h => hw.links.sib_next_mem hy h) fuel k1 (by rw [hK]; simp)]
  exact stream_last_sib_spec hw.links K' s k1 [] fuel (by simpa using hK)
    (by rw [hK] at hlen; simp at hlen; omega)

theorem dep_remove_key {m : Mem} {kids : Nat → List Nat} {N : Nat} (hw : WF m kids N)
    {p s : Nat} {L R : List Nat} (hk : kids p = L ++ s :: R) {fuel : Nat} (hf : N ≤ fuel)
    (num' : Nat → Int) (r : Nat)
    (hrun : stream_update_dep_length fuel m p (-1) = .ok ({ m with num_substreams := num' }, r)) :
    ∃ (DP DN SP SN : Nat → Option Nat),
      nghttp2_stream_dep_remove fuel m s = .ok { m with
        num_substreams := Function.update num' s 1
        dep_prev := Function.update DP s none
        dep_next := Function.update DN s none
        sib_prev := Function.update SP s none
        sib_next := Function.update SN s none } ∧
      (∀ y, y ≠ s → DN y = if y = p then (L ++ (kids s ++ R)).head? else m.dep_next y) ∧
      (∀ y, y ≠ s → DP y = if (kids s).head? = some y then (if L = [] then some p else none)
        else if R.head? = some y then (if L ++ kids s = [] then some p else none)
        else m.dep_prev y) ∧
      (∀ y, y ≠ s → SP y = if (kids s).head? = some y then L.getLast?
        else if R.head? = some y then (L ++ kids s).getLast? else m.sib_prev y) ∧
      (∀ y, y ≠ s → SN y = if L.getLast? = some y then (kids s ++ R).head?
        else if (kids s).getLast? = some y then R.head? else m.sib_next y) := by
  have hl := hw.links
  have hat := hl.at hk
  rw [lastOr_none_eq_getLast?] at hat
  have hsp' : s ∈ kids p := by rw [hk]; simp
  have hps : p ≠ s := fun e => hw.counts.not_above_of_mem hsp' (e ▸ Above.self)
  have hlenp := hw.counts.length_lt p
  have hbp := hw.counts.bound p
  have hfirst := stream_first_sib_spec hl L p s R fuel hk (by rw [hk] at hlenp; simp at hlenp; omega)
  have hdpfirst := head_dep_prev hl hk
  have hdns := hl.dep_next s
  have hdnp := hl.dep_next p
  have hnd := hl.nodup p
  rw [hk] at hnd
  have hsR : s ∉ R := (List.nodup_cons.1 (List.nodup_append.1 hnd).2.1).1
  have hsL : s ∉ L := fun h => (List.nodup_append.1 hnd).2.2 h (by simp)
  have hLR : ∀ y, y ∈ L → y ∉ R := fun y h1 h2 =>
    (List.nodup_append.1 hnd).2.2 h1 (List.mem_cons_of_mem _ h2)
  have hLp : ∀ y, y ∈ L → y ∈ kids p := fun y h => by rw [hk]; simp [h]
  have hRp : ∀ y, y ∈ R → y ∈ kids p := fun y h => by rw [hk]; simp [h]
  have hKp : ∀ y, y ∈ kids s → y ∉ kids p := fun y h1 h2 => hps (hl.uniq p s y h2 h1)
  have hKL : ∀ y, y ∈ kids s → y ∉ L := fun y h1 h2 => hKp y h1 (hLp y h2)
  have hKR : ∀ y, y ∈ kids s → y ∉ R := fun y h1 h2 => hKp y h1 (hRp y h2)
  have hKs : s ∉ kids s := fun h => hKp s h hsp'
  rcases list_nil_or_cons L with hL | ⟨l1, L', hL⟩
  · subst hL
    simp only [List.nil_append, if_true, List.getLast?_nil, List.headD_nil]
      at hat hk hdpfirst hfirst ⊢
    rw [hk] at hdnp
    simp only [List.head?_cons] at hdnp
    rcases list_nil_or_cons (kids s) with hK | ⟨k1, K', hK⟩
    · rw [hK] at hdns
      simp only [List.head?_nil] at hdns
      rcases list_nil_or_cons R with hR | ⟨r1, R', hR⟩
      · subst hR
        simp only [List.head?_nil] at hat
        refine ⟨m.dep_prev, Function.update m.dep_next p none, m.sib_prev, m.sib_next,
          ?_, ?_, ?_, ?_, ?_⟩
        · simp only [nghttp2_stream_dep_remove, dep_remove_unlink, hfirst, hdpfirst, hrun, hat,
            hdns]
        · intro y _
          rw [hK]
          simp [Function.update_apply]
        · intro y _
          rw [hK]; simp
        · intro y _
          rw [hK]; simp
        · intro y _
          rw [hK]; simp
      · subst hR
        simp only [List.head?_cons] at hat
        refine ⟨Function.update m.dep_prev r1 (some p), Function.update m.dep_next p (some r1),
          Function.update m.sib_prev r1 none, m.sib_next, ?_, ?_, ?_, ?_, ?_⟩
        · simp only [nghttp2_stream_dep_remove, dep_remove_unlink, hfirst, hdpfirst, hrun, hat,
            hdns]
        · intro y _
          rw [hK]
          simp [Function.update_apply]
        · intro y _
          rw [hK]
          simp only [List.head?_cons, List.head?_nil, Option.some.injEq, List.append_nil,
            Function.update_apply, if_true, if_false]
          by_cases h2 : y = r1
          · subst h2; simp
          · simp [h2, Ne.symm h2]
        · intro y _
          rw [hK]
          simp only [List.head?_cons, List.head?_nil, Option.some.injEq, List.append_nil,
            List.getLast?_nil, Function.update_apply]
          by_cases h2 : y = r1
          · subst h2; simp
          · simp [h2, Ne.symm h2]
        · intro y _
          rw [hK]; simp
    · obtain ⟨K0, hK0⟩ := exists_split_last k1 K'
      have hk1 : k1 ∈ kids s := by rw [hK]; simp
      have hkl : lastD K' k1 ∈ kids s := by rw [hK]; exact lastD_mem _ _
      have hlastK : (kids s).getLast? = some (lastD K' k1) := by rw [hK, hK0]; simp
      have hatk := hl.at (show kids s = [] ++ k1 :: K' by simpa using hK)
      simp [lastOr] at hatk
      rw [hK] at hdns
      simp only [List.head?_cons] at hdns
      have hsk1 : s ≠ k1 := fun e => hKs (e ▸ hk1)
      have hklnext := LinkChain_last_field m _ _ _ _ _ (hl.chain s) hlastK
      have hKne : ¬ k1 :: K' = [] := by simp
      rcases list_nil_or_cons R with hR | ⟨r1, R', hR⟩
      · subst hR
        simp only [List.head?_nil] at hat
        refine ⟨Function.update m.dep_prev k1 (some p), Function.update m.dep_next p (some k1),
          m.sib_prev, m.sib_next, ?_, ?_, ?_, ?_, ?_⟩
        · simp only [nghttp2_stream_dep_remove, dep_remove_unlink, hfirst, hdpfirst, hrun, hat,
            hdns]
        · intro y _
          rw [hK]
          simp [Function.update_apply]
        · intro y _
          rw [hK]
          simp only [List.head?_cons, List.head?_nil, Option.some.injEq, Function.update_apply,
            if_true]
          by_cases h1 : y = k1
          · subst h1; simp
          · simp [h1, Ne.symm h1]
        · intro y _
          rw [hK]
          simp only [List.head?_cons, List.head?_nil, Option.some.injEq, List.getLast?_nil]
          by_cases h1 : y = k1
          · subst h1; simp [hatk.2.1]
          · simp [h1, Ne.symm h1]
        · intro y _
          rw [hlastK]
          simp only [List.head?_nil, Option.some.injEq]
          by_cases h2 : y = lastD K' k1
          · subst h2; simp [hklnext]
          · simp [h2, Ne.symm h2]
      · subst hR
        simp only [List.head?_cons] at hat
        have hr1 : r1 ∈ r1 :: R' := by simp
        have hr1k1 : r1 ≠ k1 := fun e => hKR k1 hk1 (e ▸ hr1)
        have hr1kl : r1 ≠ lastD K' k1 := fun e => hKR _ hkl (e ▸ hr1)
        have hatr := hl.at (show kids p = [s] ++ r1 :: R' by simp [hk])
        simp at hatr
        have hlast : stream_last_sib fuel { m with
            num_substreams := num'
            dep_next := Function.update m.dep_next p (some k1)
            dep_prev := Function.update m.dep_prev k1 (some p) } k1 =
              .ok (lastD K' k1) := by
          refine stream_last_sib_kids hw hK ?_ hf
          intro y _
          rfl
        refine ⟨Function.update m.dep_prev k1 (some p), Function.update m.dep_next p (some k1),
          Function.update m.sib_prev r1 (some (lastD K' k1)),
          Function.update m.sib_next (lastD K' k1) (some r1), ?_, ?_, ?_, ?_, ?_⟩
        · simp only [nghttp2_stream_dep_remove, dep_remove_unlink, hfirst, hdpfirst, hrun, hat,
            hdns, hlast]
        · intro y _
          rw [hK]
          simp [Function.update_apply]
        · intro y _
          rw [hK]
          simp only [List.head?_cons, Option.some.injEq, Function.update_apply, if_true,
            List.nil_append, hKne, if_false]
          by_cases h1 : y = k1
          · subst h1; simp
          · by_cases h2 : y = r1
            · subst h2; simp [h1, Ne.symm h1, hatr.1]
            · simp [h1, h2, Ne.symm h1, Ne.symm h2]
        · intro y _
          rw [hlastK, hK]
          simp only [List.head?_cons, Option.some.injEq, Function.update_apply,
            List.getLast?_nil]
          by_cases h1 : y = k1
          · subst h1; simp [Ne.symm hr1k1, hatk.2.1]
          · by_cases h2 : y = r1
            · subst h2; simp [h1, Ne.symm h1]
            · simp [h1, h2, Ne.symm h1, Ne.symm h2]
        · intro y _
          rw [hlastK]
          simp only [List.head?_cons, Option.some.injEq, Function.update_apply]
          by_cases h2 : y = lastD K' k1
          · subst h2; simp
          · simp [h2, Ne.symm h2]
  · obtain ⟨L0, hL0⟩ := exists_split_last l1 L'
    rw [hL, hL0] at hat hk hdpfirst hfirst hsL hLR hKL hLp ⊢
    clear hL hL0
    generalize lastD L' l1 = prev at *
    have hne : L0 ++ [prev] ≠ [] := by simp
    have hlastL : (L0 ++ [prev]).getLast? = some prev := by simp
    have hheadL : ∀ R0 : List Nat, ((L0 ++ [prev]) ++ R0).head? = (L0 ++ [prev]).head? := by
      intro R0; cases L0 <;> rfl
    rw [hlastL] at hat
    simp only [hne, if_false] at hat
    rw [hk, hheadL] at hdnp
    have hprevL : prev ∈ L0 ++ [prev] := by simp
    have hsprev : s ≠ prev := fun e => hsL (e ▸ hprevL)
    rcases list_nil_or_cons (kids s) with hK | ⟨k1, K', hK⟩
    · rw [hK] at hdns
      simp only [List.head?_nil] at hdns
      rcases list_nil_or_cons R with hR | ⟨r1, R', hR⟩
      · subst hR
        simp only [List.head?_nil] at hat
        refine ⟨m.dep_prev, m.dep_next, m.sib_prev, Function.update m.sib_next prev none,
          ?_, ?_, ?_, ?_, ?_⟩
        · simp only [nghttp2_stream_dep_remove, dep_remove_unlink, hfirst, hdpfirst, hrun, hat,
            hdns]
        · intro y _
          rw [hheadL]
          split_ifs with h
          · subst h; exact hdnp
          · rfl
        · intro y _
          rw [hK]; simp
        · intro y _
          rw [hK]; simp
        · intro y _
          rw [hlastL, hK]
          simp only [List.nil_append, List.head?_nil, List.getLast?_nil, Option.some.injEq,
            Function.update_apply]
          by_cases h1 : y = prev
          · subst h1; simp
          · simp [h1, Ne.symm h1]
      · subst hR
        simp only [List.head?_cons] at hat
        have hr1 : r1 ∈ r1 :: R' := by simp
        have hr1prev : r1 ≠ prev := fun e => hLR prev hprevL (e ▸ hr1)
        have hatr := hl.at (show kids p = (L0 ++ [prev] ++ [s]) ++ r1 :: R' by simp [hk])
        simp at hatr
        refine ⟨m.dep_prev, m.dep_next, Function.update m.sib_prev r1 (some prev),
          Function.update m.sib_next prev (some r1), ?_, ?_, ?_, ?_, ?_⟩
        · simp only [nghttp2_stream_dep_remove, dep_remove_unlink, hfirst, hdpfirst, hrun, hat,
            hdns]
        · intro y _
          rw [hheadL]
          split_ifs with h
          · subst h; exact hdnp
          · rfl
        · intro y _
          rw [hK]
          simp only [List.head?_cons, List.head?_nil, Option.some.injEq, List.append_nil, hne,
            if_false]
          by_cases h2 : y = r1
          · subst h2; simp [hatr.1]
          · simp [h2, Ne.symm h2]
        · intro y _
          rw [hK, List.append_nil, hlastL]
          simp only [List.head?_cons, List.head?_nil, Option.some.injEq, Function.update_apply]
          by_cases h2 : y = r1
          · subst h2; simp
          · simp [h2, Ne.symm h2]
        · intro y _
          rw [hlastL, hK]
          simp only [List.nil_append, List.head?_cons, List.getLast?_nil, Option.some.injEq,
            Function.update_apply]
          by_cases h1 : y = prev
          · subst h1; simp
          · simp [h1, Ne.symm h1]
    · obtain ⟨K0, hK0⟩ := exists_split_last k1 K'
      have hk1 : k1 ∈ kids s := by rw [hK]; simp
      have hkl : lastD K' k1 ∈ kids s := by rw [hK]; exact lastD_mem _ _
      have hlastK : (kids s).getLast? = some (lastD K' k1) := by rw [hK, hK0]; simp
      have hatk := hl.at (show kids s = [] ++ k1 :: K' by simpa using hK)
      simp at hatk
      rw [hK] at hdns
      simp only [List.head?_cons] at hdns
      have hprevk1 : prev ≠ k1 := fun e => hKL k1 hk1 (e ▸ hprevL)
      have hprevkl : prev ≠ lastD K' k1 := fun e => hKL _ hkl (e ▸ hprevL)
      have hsk1 : s ≠ k1 := fun e => hKs (e ▸ hk1)
      rcases list_nil_or_cons R with hR | ⟨r1, R', hR⟩
      · subst hR
        simp only [List.head?_nil] at hat
        have hklnext := LinkChain_last_field m _ _ _ _ _ (hl.chain s) hlastK
        refine ⟨Function.update m.dep_prev k1 none, m.dep_next,
          Function.update m.sib_prev k1 (some prev),
          Function.update m.sib_next prev (some k1), ?_, ?_, ?_, ?_, ?_⟩
        · simp only [nghttp2_stream_dep_remove, dep_remove_unlink, hfirst, hdpfirst, hrun, hat,
            hdns, Function.update_noteq hsprev]
        · intro y _
          rw [hheadL]
          split_ifs with h
          · subst h; exact hdnp
          · rfl
        · intro y _
          rw [hK]
          simp only [List.head?_cons, List.head?_nil, Option.some.injEq, Function.update_apply,
            hne, if_false]
          by_cases h1 : y = k1
          · subst h1; simp
          · simp [h1, Ne.symm h1]
        · intro y _
          rw [hlastL, hK]
          simp only [List.head?_cons, List.head?_nil, Option.some.injEq, Function.update_apply]
          by_cases h1 : y = k1
          · subst h1; simp
          · simp [h1, Ne.symm h1]
        · intro y _
          rw [hlastK, hlastL, hK]
          simp only [List.cons_append, List.head?_cons, List.head?_nil, Option.some.injEq,
            Function.update_apply]
          by_cases h1 : y = prev
          · subst h1; simp
          · by_cases h2 : y = lastD K' k1
            · subst h2; simp [h1, Ne.symm h1, hklnext]
            · simp [h1, h2, Ne.symm h1, Ne.symm h2]
      · subst hR
        simp only [List.head?_cons] at hat
        have hr1 : r1 ∈ r1 :: R' := by simp
        have hr1k1 : r1 ≠ k1 := fun e => hKR k1 hk1 (e ▸ hr1)
        have hr1kl : r1 ≠ lastD K' k1 := fun e => hKR _ hkl (e ▸ hr1)
        have hr1prev : r1 ≠ prev := fun e => hLR prev hprevL (e ▸ hr1)
        have hatr := hl.at (show kids p = (L0 ++ [prev] ++ [s]) ++ r1 :: R' by simp [hk])
        simp at hatr
        have hlast : stream_last_sib fuel { m with
            num_substreams := num'
            dep_prev := Function.update m.dep_prev k1 none
            sib_next := Function.update m.sib_next prev (some k1)
            sib_prev := Function.update m.sib_prev k1 (some prev) } k1 =
              .ok (lastD K' k1) := by
          refine stream_last_sib_kids hw hK ?_ hf
          intro y hy
          have : y ≠ prev := fun e => hKL y hy (e ▸ hprevL)
          simp [Function.update_noteq this]
        refine ⟨Function.update m.dep_prev k1 none, m.dep_next,
          Function.update (Function.update m.sib_prev k1 (some prev)) r1 (some (lastD K' k1)),
          Function.update (Function.update m.sib_next prev (some k1)) (lastD K' k1) (some r1),
          ?_, ?_, ?_, ?_, ?_⟩
        · simp only [nghttp2_stream_dep_remove, dep_remove_unlink, hfirst, hdpfirst, hrun, hat,
            hdns, Function.update_noteq hsprev, hlast]
        · intro y _
          rw [hheadL]
          split_ifs with h
          · subst h; exact hdnp
          · rfl
        · intro y _
          rw [hK]
          simp only [List.head?_cons, Option.some.injEq, Function.update_apply, hne, if_false]
          by_cases h1 : y = k1
          · subst h1; simp
          · by_cases h2 : y = r1
            · subst h2; simp [h1, Ne.symm h1, hatr.1]
            · simp [h1, h2, Ne.symm h1, Ne.symm h2]
        · intro y _
          have e1 : (L0 ++ [prev] ++ kids s).getLast? = some (lastD K' k1) := by
            rw [getLast?_append_ite (L0 ++ [prev]) (kids s), hlastK, hK]; simp
          rw [e1, hlastL, hK]
          simp only [List.head?_cons, Option.some.injEq, Function.update_apply]
          by_cases h1 : y = k1
          · subst h1; simp [Ne.symm hr1k1]
          · by_cases h2 : y = r1
            · subst h2; simp [h1, Ne.symm h1]
            · simp [h1, h2, Ne.symm h1, Ne.symm h2]
        · intro y _
          rw [hlastK, hlastL, hK]
          simp only [List.cons_append, List.head?_cons, Option.some.injEq, Function.update_apply]
          by_cases h1 : y = prev
          · subst h1; simp [hprevkl]
          · by_cases h2 : y = lastD K' k1
            · subst h2; simp [h1, Ne.symm h1]
            · simp [h1, h2, Ne.symm h1, Ne.symm h2]

/-- The effect of `dep_remove` on a child `s` of `p`: the children of `s`
take its place in the children list of `p`, `s` becomes isolated, and the
counts of `p` and of its ancestors shrink by one. -/
theorem dep_remove_spec {m : Mem} {kids : Nat → List Nat} {N : Nat} (hw : WF m kids N)
    {p s : Nat} {L R : List Nat} (hk : kids p = L ++ s :: R) {fuel : Nat} (hf : N ≤ fuel) :
    ∃ m', nghttp2_stream_dep_remove fuel m s = .ok m' ∧
      WF m' (kidsRemove kids p s L R) N ∧
      (∀ y, Above kids p y → m'.num_substreams y = m.num_substreams y - 1) ∧
      m'.num_substreams s = 1 ∧
      (∀ y, ¬ Above kids p y → y ≠ s → m'.num_substreams y = m.num_substreams y) ∧
      SameData m m' ∧
      (∀ y, m'.dep_next y = if y = s then none
        else if y = p then (L ++ (kids s ++ R)).head? else m.dep_next y) ∧
      (∀ y, m'.dep_prev y = if y = s then none
        else if (kids s).head? = some y then (if L = [] then some p else none)
        else if R.head? = some y then (if L ++ kids s = [] then some p else none)
        else m.dep_prev y) ∧
      (∀ y, m'.sib_prev y = if y = s then none
        else if (kids s).head? = some y then L.getLast?
        else if R.head? = some y then (L ++ kids s).getLast? else m.sib_prev y) ∧
      (∀ y, m'.sib_next y = if y = s then none
        else if L.getLast? = some y then (kids s ++ R).head?
        else if (kids s).getLast? = some y then R.head? else m.sib_next y) := by
  have hsp' : s ∈ kids p := by rw [hk]; simp
  have hps : p ≠ s := fun e => hw.counts.not_above_of_mem hsp' (e ▸ Above.self)
  have hpos := hw.counts.pos p
  obtain ⟨num', r, hrun, hab, hnab, -, -⟩ :=
    stream_update_dep_length_spec hw.counts fuel m p (-1) hw.links (by omega)
  obtain ⟨DP, DN, SP, SN, hres, s1, s2, s3, s4⟩ := dep_remove_key hw hk hf num' r hrun
  have t1 : ∀ y, (Function.update DN s none) y = if y = s then none
      else if y = p then (L ++ (kids s ++ R)).head? else m.dep_next y := by
    intro y
    by_cases hy : y = s
    · subst hy; simp
    · rw [Function.update_noteq hy, if_neg hy]; exact s1 y hy
  have t2 : ∀ y, (Function.update DP s none) y = if y = s then none
      else if (kids s).head? = some y then (if L = [] then some p else none)
      else if R.head? = some y then (if L ++ kids s = [] then some p else none)
      else m.dep_prev y := by
    intro y
    by_cases hy : y = s
    · subst hy; simp
    · rw [Function.update_noteq hy, if_neg hy]; exact s2 y hy
  have t3 : ∀ y, (Function.update SP s none) y = if y = s then none
      else if (kids s).head? = some y then L.getLast?
      else if R.head? = some y then (L ++ kids s).getLast? else m.sib_prev y := by
    intro y
    by_cases hy : y = s
    · subst hy; simp
    · rw [Function.update_noteq hy, if_neg hy]; exact s3 y hy
  have t4 : ∀ y, (Function.update SN s none) y = if y = s then none
      else if L.getLast? = some y then (kids s ++ R).head?
      else if (kids s).getLast? = some y then R.head? else m.sib_next y := by
    intro y
    by_cases hy : y = s
    · subst hy; simp
    · rw [Function.update_noteq hy, if_neg hy]; exact s4 y hy
  have h1 : ∀ y, Above kids p y → Function.update num' s 1 y = m.num_substreams y - 1 := by
    intro y hy
    have hys : y ≠ s := fun e => hw.counts.not_above_of_mem hsp' (e ▸ hy)
    rw [Function.update_noteq hys, hab y hy]; ring
  have h2 : ∀ y, ¬ Above kids p y → y ≠ s →
      Function.update num' s 1 y = m.num_substreams y := by
    intro y hy hys
    rw [Function.update_noteq hys, hnab y hy]
  refine ⟨_, hres, ⟨Links_remove hw.links hk hps t1 t2 t3 t4, ?_⟩, h1, ?_, h2, rfl,
    t1, t2, t3, t4⟩
  · exact Counts_remove hw.links hw.counts hk _ h1 h2 (by simp)
  · simp

/-- The effect of `dep_remove` on a root `s`: every child of `s` becomes a
root, and `s` becomes isolated. -/
theorem dep_remove_root_spec {m : Mem} {kids : Nat → List Nat} {N : Nat} (hw : WF m kids N)
    {s : Nat} (hr : IsRoot kids s) {fuel : Nat} (hf : N ≤ fuel) :
    ∃ m', nghttp2_stream_dep_remove fuel m s = .ok m' ∧
      WF m' (Function.update kids s []) N ∧
      m'.num_substreams s = 1 ∧
      (∀ y, y ≠ s → m'.num_substreams y = m.num_substreams y) ∧
      SameData m m' ∧
      (∀ y, m'.dep_next y = if y = s then none else m.dep_next y) ∧
      (∀ y, m'.dep_prev y = if y = s ∨ y ∈ kids s then none else m.dep_prev y) ∧
      (∀ y, m'.sib_prev y = if y = s ∨ y ∈ kids s then none else m.sib_prev y) ∧
      (∀ y, m'.sib_next y = if y = s ∨ y ∈ kids s then none else m.sib_next y) := by
  have hl := hw.links
  obtain ⟨h1, h2, h3⟩ := hl.root s hr
  have hlen := hw.counts.length_lt s
  have hb := hw.counts.bound s
  have hfirst : stream_first_sib fuel m s = .ok s := by
    obtain ⟨f, rfl⟩ : ∃ f, fuel = f + 1 := ⟨fuel - 1, by have := hw.counts.one_le_N; omega⟩
    exact stream_first_sib_root hl hr f
  have hloop := dep_remove_root_loop_spec (kids s) m _ _ fuel (hl.chain s) (hl.nodup s)
    (by omega)
  rw [← hl.dep_next s] at hloop
  have t1 : ∀ y, Function.update m.dep_next s none y = if y = s then none else m.dep_next y := by
    intro y; simp [Function.update_apply]
  have t2 : ∀ y, Function.update (fun y => if y ∈ kids s then none else m.dep_prev y) s none y =
      if y = s ∨ y ∈ kids s then none else m.dep_prev y := by
    intro y
    by_cases hy : y = s
    · subst hy; simp
    · simp [Function.update_noteq hy, hy]
  have t3 : ∀ y, Function.update (fun y => if y ∈ kids s then none else m.sib_prev y) s none y =
      if y = s ∨ y ∈ kids s then none else m.sib_prev y := by
    intro y
    by_cases hy : y = s
    · subst hy; simp
    · simp [Function.update_noteq hy, hy]
  have t4 : ∀ y, Function.update (fun y => if y ∈ kids s then none else m.sib_next y) s none y =
      if y = s ∨ y ∈ kids s then none else m.sib_next y := by
    intro y
    by_cases hy : y = s
    · subst hy; simp
    · simp [Function.update_noteq hy, hy]
  refine ⟨{ m with
      num_substreams := Function.update m.num_substreams s 1
      dep_prev := Function.update (fun y => if y ∈ kids s then none else m.dep_prev y) s none
      dep_next := Function.update m.dep_next s none
      sib_prev := Function.update (fun y => if y ∈ kids s then none else m.sib_prev y) s none
      sib_next := Function.update (fun y => if y ∈ kids s then none else m.sib_next y) s none },
    ?_, ⟨Links_remove_root hl hr t1 t2 t3 t4, ?_⟩, ?_, ?_, rfl, t1, t2, t3, t4⟩
  · have e1 : (if s ∈ kids s then none else m.sib_next s) = none := by
      rw [h3]; simp
    simp only [nghttp2_stream_dep_remove, dep_remove_unlink, hfirst, h1, h2, hloop, e1]
  · exact Counts_remove_root hw.counts hr _ (fun y hy => Function.update_noteq hy _ _) (by simp)
  · simp
  · intro y hy; simp [Function.update_noteq hy]

/-! ### The traversals of the scheduler: termination and frame -/

theorem InSub_nil (kids : Nat → List Nat) (y : Nat) : ¬ InSub kids [] y := by
  rintro ⟨c, hc, _⟩
  simp at hc

theorem above_iff_self_or_kids (kids : Nat → List Nat) (y c : Nat) :
    Above kids y c ↔ y = c ∨ InSub kids (kids c) y := by
  constructor
  · intro h
    rcases h.cases_top with e | ⟨z, hz, hm⟩
    · exact Or.inl e.symm
    · exact Or.inr ⟨z, hm, hz⟩
  · rintro (rfl | ⟨z, hm, hz⟩)
    · exact Above.self
    · exact Above.up z c hz hm

theorem InSub_cons (kids : Nat → List Nat) (c : Nat) (cs : List Nat) (y : Nat) :
    InSub kids (c :: cs) y ↔ y = c ∨ InSub kids cs y ∨ InSub kids (kids c) y := by
  constructor
  · rintro ⟨d, hd, hy⟩
    rcases List.mem_cons.1 hd with rfl | hd
    · rcases (above_iff_self_or_kids kids y d).1 hy with h | h
      · exact Or.inl h
      · exact Or.inr (Or.inr h)
    · exact Or.inr (Or.inl ⟨d, hd, hy⟩)
  · rintro (rfl | ⟨d, hd, hy⟩ | h)
    · exact ⟨y, by simp, Above.self⟩
    · exact ⟨d, List.mem_cons_of_mem _ hd, hy⟩
    · exact ⟨c, by simp, (above_iff_self_or_kids kids y c).2 (Or.inr h)⟩

theorem sum_kids_lt {num : Nat → Int} {kids : Nat → List Nat} {N : Nat}
    (hc : Counts num kids N) (c : Nat) : ((kids c).map num).sum = num c - 1 := by
  have := hc.eq c
  omega

/-- With enough fuel and non-null groups in the visited subtrees,
`stream_update_dep_set_rest_stream_group` moves every stream of the subtrees
into group `g`, demotes every TOP stream there to REST and touches nothing
else. -/
theorem set_rest_stream_group_spec {m0 : Mem} {kids : Nat → List Nat} {N : Nat}
    (hw : WF m0 kids N) (g : Nat) :
    ∀ (fuel : Nat) (l : List Nat) (m : Mem) (dp sp : Option Nat),
      LinkChain m0 dp sp l none → m.dep_next = m0.dep_next → m.sib_next = m0.sib_next →
      (∀ y, InSub kids l y → m.stream_group y ≠ none) →
      (l.map m0.num_substreams).sum ≤ fuel →
      ∃ m', stream_update_dep_set_rest_stream_group fuel m l.head? (some g) = .ok m' ∧
        m' = { m with
          stream_group := m'.stream_group, num_streams := m'.num_streams, dpri := m'.dpri } ∧
        (∀ y, InSub kids l y → m'.stream_group y = some g) ∧
        (∀ y, ¬ InSub kids l y → m'.stream_group y = m.stream_group y) ∧
        (∀ y, InSub kids l y → m.dpri y = NGHTTP2_STREAM_DPRI_TOP →
          m'.dpri y = NGHTTP2_STREAM_DPRI_REST) ∧
        (∀ y, ¬ (InSub kids l y ∧ m.dpri y = NGHTTP2_STREAM_DPRI_TOP) →
          m'.dpri y = m.dpri y) := by
  intro fuel
  induction fuel with
  | zero =>
    intro l m dp sp hch _ _ _ hf
    cases l with
    | nil =>
      refine ⟨m, rfl, rfl, ?_, fun _ _ => rfl, ?_, fun _ _ => rfl⟩
      · intro y hy; exact absurd hy (InSub_nil kids y)
      · intro y hy; exact absurd hy (InSub_nil kids y)
    | cons c cs =>
      have h1 := hw.counts.pos c
      have h2 := sum_map_ge_length m0.num_substreams cs (fun c _ => hw.counts.pos c)
      simp at hf
      omega
  | succ f ih =>
    intro l m dp sp hch hdn hsn hgrp hf
    cases l with
    | nil =>
      refine ⟨m, rfl, rfl, ?_, fun _ _ => rfl, ?_, fun _ _ => rfl⟩
      · intro y hy; exact absurd hy (InSub_nil kids y)
      · intro y hy; exact absurd hy (InSub_nil kids y)
    | cons c cs =>
      have hpos := hw.counts.pos c
      have hcs := sum_map_ge_length m0.num_substreams cs (fun c _ => hw.counts.pos c)
      simp only [List.map_cons, List.sum_cons] at hf
      obtain ⟨h, hh⟩ : ∃ h, m.stream_group c = some h := by
        have := hgrp c ((InSub_cons kids c cs c).2 (Or.inl rfl))
        exact Option.ne_none_iff_exists'.1 this
      have hnext : m0.sib_next c = cs.head? := by rw [hch.2.2.1, headOr_eq_head?]
      have key : ∀ m3 : Mem, m3 = { m with
            stream_group := m3.stream_group, num_streams := m3.num_streams, dpri := m3.dpri } →
          m3.stream_group = Function.update m.stream_group c (some g) →
          (m.dpri c = NGHTTP2_STREAM_DPRI_TOP → m3.dpri c = NGHTTP2_STREAM_DPRI_REST) →
          (m.dpri c ≠ NGHTTP2_STREAM_DPRI_TOP → m3.dpri c = m.dpri c) →
          (∀ y, y ≠ c → m3.dpri y = m.dpri y) →
          ∃ m', (match stream_update_dep_set_rest_stream_group f m3 (m3.sib_next c)
                (some g) with
              | Except.error e => Except.error e
              | Except.ok m4 =>
                stream_update_dep_set_rest_stream_group f m4 (m4.dep_next c) (some g)) =
              Except.ok m' ∧
            m' = { m with
              stream_group := m'.stream_group, num_streams := m'.num_streams,
              dpri := m'.dpri } ∧
            (∀ y, InSub kids (c :: cs) y → m'.stream_group y = some g) ∧
            (∀ y, ¬ InSub kids (c :: cs) y → m'.stream_group y = m.stream_group y) ∧
            (∀ y, InSub kids (c :: cs) y → m.dpri y = NGHTTP2_STREAM_DPRI_TOP →
              m'.dpri y = NGHTTP2_STREAM_DPRI_REST) ∧
            (∀ y, ¬ (InSub kids (c :: cs) y ∧ m.dpri y = NGHTTP2_STREAM_DPRI_TOP) →
              m'.dpri y = m.dpri y) := by
        intro m3 hfr3 hg3 hd3a hd3b hd3c
        have hdn3 : m3.dep_next = m0.dep_next := by rw [hfr3]; exact hdn
        have hsn3 : m3.sib_next = m0.sib_next := by rw [hfr3]; exact hsn
        obtain ⟨m4, hrun4, hfr4, hg4a, hg4b, hd4a, hd4b⟩ :=
          ih cs m3 none (some c) hch.2.2.2 hdn3 hsn3 (by
            intro y hy
            rw [hg3]
            by_cases hyc : y = c
            · subst hyc; simp
            · rw [Function.update_noteq hyc]
              exact hgrp y ((InSub_cons kids c cs y).2 (Or.inr (Or.inl hy)))) (by omega)
        have hdn4 : m4.dep_next = m0.dep_next := by rw [hfr4]; exact hdn3
        have hsn4 : m4.sib_next = m0.sib_next := by rw [hfr4]; exact hsn3
        obtain ⟨m5, hrun5, hfr5, hg5a, hg5b, hd5a, hd5b⟩ :=
          ih (kids c) m4 (some c) none (hw.links.chain c) hdn4 hsn4 (by
            intro y hy
            by_cases hycs : InSub kids cs y
            · rw [hg4a y hycs]; simp
            · rw [hg4b y hycs, hg3]
              by_cases hyc : y = c
              · subst hyc; simp
              · rw [Function.update_noteq hyc]
                exact hgrp y ((InSub_cons kids c cs y).2 (Or.inr (Or.inr hy))))
            (by rw [sum_kids_lt hw.counts]; omega)
        refine ⟨m5, ?_, ?_, ?_, ?_, ?_, ?_⟩
        · rw [hsn3, hnext, hrun4]
          simp only []
          rw [hdn4, hw.links.dep_next c]
          exact hrun5
        · rw [hfr5, hfr4, hfr3]
        · intro y hy
          by_cases hyk : InSub kids (kids c) y
          · exact hg5a y hyk
          · rw [hg5b y hyk]
            by_cases hycs : InSub kids cs y
            · exact hg4a y hycs
            · rw [hg4b y hycs, hg3]
              rcases (InSub_cons kids c cs y).1 hy with h | h | h
              · subst h; simp
              · exact absurd h hycs
              · exact absurd h hyk
        · intro y hy
          have h1 : y ≠ c := fun e => hy ((InSub_cons kids c cs y).2 (Or.inl e))
          have h2 : ¬ InSub kids cs y := fun e => hy ((InSub_cons kids c cs y).2 (Or.inr (Or.inl e)))
          have h3 : ¬ InSub kids (kids c) y :=
            fun e => hy ((InSub_cons kids c cs y).2 (Or.inr (Or.inr e)))
          rw [hg5b y h3, hg4b y h2, hg3, Function.update_noteq h1]
        · intro y hy htop
          -- the dpri of `y` after the visit of `c`
          have h3 : m3.dpri y = NGHTTP2_STREAM_DPRI_TOP ∨ m3.dpri y = NGHTTP2_STREAM_DPRI_REST := by
            by_cases hyc : y = c
            · subst hyc; exact Or.inr (hd3a htop)
            · rw [hd3c y hyc]; exact Or.inl htop
          have h4 : m4.dpri y = NGHTTP2_STREAM_DPRI_TOP ∨ m4.dpri y = NGHTTP2_STREAM_DPRI_REST := by
            by_cases hh4 : InSub kids cs y ∧ m3.dpri y = NGHTTP2_STREAM_DPRI_TOP
            · exact Or.inr (hd4a y hh4.1 hh4.2)
            · rw [hd4b y hh4]; exact h3
          by_cases hh5 : InSub kids (kids c) y ∧ m4.dpri y = NGHTTP2_STREAM_DPRI_TOP
          · exact hd5a y hh5.1 hh5.2
          · rw [hd5b y hh5]
            rcases h4 with h4 | h4
            · -- still TOP after the siblings: `y` is `c` or below `c`
              exfalso
              have hycs : ¬ InSub kids cs y := by
                intro hcs
                by_cases hh3 : m3.dpri y = NGHTTP2_STREAM_DPRI_TOP
                · have := hd4a y hcs hh3
                  rw [this] at h4; cases h4
                · have := hd4b y (fun hh => hh3 hh.2)
                  rw [this] at h4; exact hh3 h4
              have hyk : ¬ InSub kids (kids c) y := fun hk => hh5 ⟨hk, h4⟩
              rcases (InSub_cons kids c cs y).1 hy with h | h | h
              · subst h
                have h3' := hd3a htop
                have := hd4b y (fun hh => hycs hh.1)
                rw [this, h3'] at h4
                cases h4
              · exact hycs h
              · exact hyk h
            · exact h4
        · intro y hy
          have e3 : m3.dpri y = m.dpri y := by
            by_cases hyc : y = c
            · subst hyc
              apply hd3b
              intro htop
              exact hy ⟨(InSub_cons kids y cs y).2 (Or.inl rfl), htop⟩
            · exact hd3c y hyc
          have e4 : m4.dpri y = m3.dpri y := by
            apply hd4b
            rintro ⟨h1, h2⟩
            exact hy ⟨(InSub_cons kids c cs y).2 (Or.inr (Or.inl h1)), e3 ▸ h2⟩
          have e5 : m5.dpri y = m4.dpri y := by
            apply hd5b
            rintro ⟨h1, h2⟩
            exact hy ⟨(InSub_cons kids c cs y).2 (Or.inr (Or.inr h1)), e3 ▸ e4 ▸ h2⟩
          rw [e5, e4, e3]
      by_cases htop : m.dpri c = NGHTTP2_STREAM_DPRI_TOP
      · obtain ⟨m', hrun, hrest⟩ := key { m with
            stream_group := Function.update (Function.update m.stream_group c none) c (some g)
            num_streams := Function.update (Function.update m.num_streams h (m.num_streams h - 1)) g
              (Function.update m.num_streams h (m.num_streams h - 1) g + 1)
            dpri := Function.update m.dpri c NGHTTP2_STREAM_DPRI_REST } rfl (by simp)
          (fun _ => by simp) (fun h => absurd htop h)
          (fun y hy => by simp [Function.update_noteq hy])
        refine ⟨m', ?_, hrest⟩
        simp only [List.head?_cons, stream_update_dep_set_rest_stream_group, hh,
          nghttp2_stream_group_remove_stream, nghttp2_stream_group_add_stream, htop, if_true]
        exact hrun
      · obtain ⟨m', hrun, hrest⟩ := key { m with
            stream_group := Function.update (Function.update m.stream_group c none) c (some g)
            num_streams := Function.update (Function.update m.num_streams h (m.num_streams h - 1)) g
              (Function.update m.num_streams h (m.num_streams h - 1) g + 1) } rfl (by simp)
          (fun h => absurd h htop) (fun _ => rfl) (fun y _ => rfl)
        refine ⟨m', ?_, hrest⟩
        simp only [List.head?_cons, stream_update_dep_set_rest_stream_group, hh,
          nghttp2_stream_group_remove_stream, nghttp2_stream_group_add_stream, htop, if_false]
        exact hrun

theorem TopReach_nil (kids : Nat → List Nat) (d : Nat → nghttp2_stream_dpri) (y : Nat) :
    ¬ TopReach kids d [] y := by
  intro h; cases h

theorem TopReach_cons (kids : Nat → List Nat) (d : Nat → nghttp2_stream_dpri) (c : Nat)
    (cs : List Nat) (y : Nat) :
    TopReach kids d (c :: cs) y ↔ y = c ∨ TopReach kids d cs y ∨
      (d c = NGHTTP2_STREAM_DPRI_NO_DATA ∧ TopReach kids d (kids c) y) := by
  constructor
  · intro h
    cases h with
    | head => exact Or.inl rfl
    | sib _ _ _ h => exact Or.inr (Or.inl h)
    | child _ _ _ h1 h2 => exact Or.inr (Or.inr ⟨h1, h2⟩)
  · rintro (rfl | h | ⟨h1, h2⟩)
    · exact TopReach.head _ _
    · exact TopReach.sib _ _ _ h
    · exact TopReach.child _ _ _ h1 h2

theorem TopReach_congr (kids : Nat → List Nat) (d d' : Nat → nghttp2_stream_dpri)
    (h : ∀ y, d' y = NGHTTP2_STREAM_DPRI_NO_DATA ↔ d y = NGHTTP2_STREAM_DPRI_NO_DATA)
    (l : List Nat) (y : Nat) : TopReach kids d' l y ↔ TopReach kids d l y := by
  constructor
  · intro hr
    induction hr with
    | head => exact TopReach.head _ _
    | sib _ _ _ _ ih => exact TopReach.sib _ _ _ ih
    | child c _ _ h1 _ ih => exact TopReach.child _ _ _ ((h c).1 h1) ih
  · intro hr
    induction hr with
    | head => exact TopReach.head _ _
    | sib _ _ _ _ ih => exact TopReach.sib _ _ _ ih
    | child c _ _ h1 _ ih => exact TopReach.child _ _ _ ((h c).2 h1) ih

/-- With enough fuel, and data on every REST stream, the top-search returns;
it changes at most `dpri`, the `queued` flags and the queue; and when it
succeeds it has promoted exactly the REST streams it visits. -/
theorem set_top_spec {m0 : Mem} {kids : Nat → List Nat} {N : Nat} (hw : WF m0 kids N) :
    ∀ (fuel : Nat) (l : List Nat) (m : Mem) (dp sp : Option Nat),
      LinkChain m0 dp sp l none → m.dep_next = m0.dep_next → m.sib_next = m0.sib_next →
      (∀ y, m.dpri y = NGHTTP2_STREAM_DPRI_REST → m.data y ≠ none) →
      (l.map m0.num_substreams).sum ≤ fuel →
      ∃ m' rv, stream_update_dep_set_top fuel m l.head? = .ok (m', rv) ∧
        m' = { m with dpri := m'.dpri, queued := m'.queued, pq := m'.pq } ∧
        (∀ y, m'.dpri y = m.dpri y ∨
          (m.dpri y = NGHTTP2_STREAM_DPRI_REST ∧ m'.dpri y = NGHTTP2_STREAM_DPRI_TOP)) ∧
        (rv = 0 → (∀ y, TopReach kids m.dpri l y → m.dpri y = NGHTTP2_STREAM_DPRI_REST →
            m'.dpri y = NGHTTP2_STREAM_DPRI_TOP) ∧
          (∀ y, ¬ (TopReach kids m.dpri l y ∧ m.dpri y = NGHTTP2_STREAM_DPRI_REST) →
            m'.dpri y = m.dpri y)) := by
  intro fuel
  induction fuel with
  | zero =>
    intro l m dp sp hch _ _ _ hf
    cases l with
    | nil =>
      refine ⟨m, 0, rfl, rfl, fun _ => Or.inl rfl, fun _ => ⟨?_, fun _ _ => rfl⟩⟩
      intro y hy; exact absurd hy (TopReach_nil kids _ y)
    | cons c cs =>
      have h1 := hw.counts.pos c
      have h2 := sum_map_ge_length m0.num_substreams cs (fun c _ => hw.counts.pos c)
      simp at hf
      omega
  | succ f ih =>
    intro l m dp sp hch hdn hsn hdata hf
    cases l with
    | nil =>
      refine ⟨m, 0, rfl, rfl, fun _ => Or.inl rfl, fun _ => ⟨?_, fun _ _ => rfl⟩⟩
      intro y hy; exact absurd hy (TopReach_nil kids _ y)
    | cons c cs =>
      have hpos := hw.counts.pos c
      have hcs := sum_map_ge_length m0.num_substreams cs (fun c _ => hw.counts.pos c)
      simp only [List.map_cons, List.sum_cons] at hf
      have hnext : m.sib_next c = cs.head? := by rw [hsn, hch.2.2.1, headOr_eq_head?]
      have hkid : m0.dep_next c = (kids c).head? := hw.links.dep_next c
      -- promoting `c` and going on with the siblings
      have promote : ∀ m2 : Mem, m2 = { m with dpri := m2.dpri, queued := m2.queued, pq := m2.pq } →
          m2.dpri = Function.update m.dpri c NGHTTP2_STREAM_DPRI_TOP →
          m.dpri c = NGHTTP2_STREAM_DPRI_REST ∨ m.dpri c = NGHTTP2_STREAM_DPRI_TOP →
          ∃ m' rv, stream_update_dep_set_top f m2 (m2.sib_next c) = .ok (m', rv) ∧
            m' = { m with dpri := m'.dpri, queued := m'.queued, pq := m'.pq } ∧
            (∀ y, m'.dpri y = m.dpri y ∨
              (m.dpri y = NGHTTP2_STREAM_DPRI_REST ∧ m'.dpri y = NGHTTP2_STREAM_DPRI_TOP)) ∧
            (rv = 0 → (∀ y, TopReach kids m.dpri (c :: cs) y →
                m.dpri y = NGHTTP2_STREAM_DPRI_REST → m'.dpri y = NGHTTP2_STREAM_DPRI_TOP) ∧
              (∀ y, ¬ (TopReach kids m.dpri (c :: cs) y ∧
                  m.dpri y = NGHTTP2_STREAM_DPRI_REST) → m'.dpri y = m.dpri y)) := by
        intro m2 hfr2 hd2 hc2
        have hdn2 : m2.dep_next = m0.dep_next := by rw [hfr2]; exact hdn
        have hsn2 : m2.sib_next = m0.sib_next := by rw [hfr2]; exact hsn
        have hdata2 : ∀ y, m2.dpri y = NGHTTP2_STREAM_DPRI_REST → m2.data y ≠ none := by
          intro y hy
          have e : m2.data = m.data := by rw [hfr2]
          rw [e]
          apply hdata
          rw [hd2] at hy
          by_cases hyc : y = c
          · subst hyc; simp at hy
          · rwa [Function.update_noteq hyc] at hy
        have hnd : ∀ y, m2.dpri y = NGHTTP2_STREAM_DPRI_NO_DATA ↔
            m.dpri y = NGHTTP2_STREAM_DPRI_NO_DATA := by
          intro y
          rw [hd2]
          by_cases hyc : y = c
          · subst hyc
            rcases hc2 with h | h <;> simp [h]
          · rw [Function.update_noteq hyc]
        obtain ⟨m', rv, hrun, hfr, hmono, hpost⟩ :=
          ih cs m2 none (some c) hch.2.2.2 hdn2 hsn2 hdata2 (by omega)
        refine ⟨m', rv, ?_, by rw [hfr, hfr2], ?_, ?_⟩
        · have : m2.sib_next c = cs.head? := by rw [hsn2, hch.2.2.1, headOr_eq_head?]
          rw [this]; exact hrun
        · intro y
          by_cases hyc : y = c
          · subst hyc
            have e2 : m2.dpri y = NGHTTP2_STREAM_DPRI_TOP := by rw [hd2]; simp
            rcases hmono y with h | ⟨h, _⟩
            · rw [e2] at h
              rcases hc2 with h' | h'
              · exact Or.inr ⟨h', h⟩
              · exact Or.inl (h.trans h'.symm)
            · rw [e2] at h; cases h
          · have e2 : m2.dpri y = m.dpri y := by rw [hd2, Function.update_noteq hyc]
            rw [← e2]; exact hmono y
        · intro hrv
          obtain ⟨hp1, hp2⟩ := hpost hrv
          constructor
          · intro y hy hrest
            by_cases hyc : y = c
            · subst hyc
              have e2 : m2.dpri y = NGHTTP2_STREAM_DPRI_TOP := by rw [hd2]; simp
              rw [hp2 y (fun hh => by rw [e2] at hh; cases hh.2), e2]
            · have e2 : m2.dpri y = m.dpri y := by rw [hd2, Function.update_noteq hyc]
              rcases (TopReach_cons kids m.dpri c cs y).1 hy with h | h | ⟨h, _⟩
              · exact absurd h hyc
              · exact hp1 y ((TopReach_congr kids m.dpri m2.dpri hnd cs y).2 h) (e2 ▸ hrest)
              · rcases hc2 with h' | h' <;> rw [h'] at h <;> cases h
          · intro y hy
            by_cases hyc : y = c
            · subst hyc
              have hnr : m.dpri y ≠ NGHTTP2_STREAM_DPRI_REST :=
                fun hh => hy ⟨TopReach.head _ _, hh⟩
              have e2 : m2.dpri y = NGHTTP2_STREAM_DPRI_TOP := by rw [hd2]; simp
              rw [hp2 y (fun hh => by rw [e2] at hh; cases hh.2), e2]
              rcases hc2 with h' | h'
              · exact absurd h' hnr
              · exact h'.symm
            · have e2 : m2.dpri y = m.dpri y := by rw [hd2, Function.update_noteq hyc]
              rw [hp2 y ?_, e2]
              rintro ⟨h1, h2⟩
              exact hy ⟨TopReach.sib _ _ _ ((TopReach_congr kids m.dpri m2.dpri hnd cs y).1 h1),
                e2 ▸ h2⟩
      cases hdc : m.dpri c with
      | NGHTTP2_STREAM_DPRI_TOP =>
        obtain ⟨m', rv, hrun, hrest⟩ := promote m rfl (by rw [← hdc]; simp) (Or.inr hdc)
        refine ⟨m', rv, ?_, hrest⟩
        simp only [List.head?_cons, stream_update_dep_set_top, hdc]
        exact hrun
      | NGHTTP2_STREAM_DPRI_REST =>
        obtain ⟨d, hd⟩ : ∃ d, m.data c = some d :=
          Option.ne_none_iff_exists'.1 (hdata c hdc)
        by_cases hq : m.queued d = 0
        · by_cases hroom : m.pq.room = 0
          · refine ⟨{ m with pq := m.pq }, NGHTTP2_ERR_NOMEM, ?_, rfl, fun _ => Or.inl rfl, ?_⟩
            · simp [List.head?_cons, stream_update_dep_set_top, hdc, hd, hq, nghttp2_pq_push,
                hroom, NGHTTP2_ERR_NOMEM]
            · intro h; simp [NGHTTP2_ERR_NOMEM] at h
          · obtain ⟨m', rv, hrun, hrest⟩ := promote { m with
                pq := { q := m.pq.q ++ [d], room := m.pq.room - 1 }
                queued := Function.update m.queued d 1
                dpri := Function.update m.dpri c NGHTTP2_STREAM_DPRI_TOP } rfl rfl (Or.inl hdc)
            refine ⟨m', rv, ?_, hrest⟩
            simp only [List.head?_cons, stream_update_dep_set_top, hdc, hd, hq, nghttp2_pq_push,
              hroom, if_true, if_false, ne_eq, not_true_eq_false]
            exact hrun
        · obtain ⟨m', rv, hrun, hrest⟩ := promote { m with
              dpri := Function.update m.dpri c NGHTTP2_STREAM_DPRI_TOP } rfl rfl (Or.inl hdc)
          refine ⟨m', rv, ?_, hrest⟩
          simp only [List.head?_cons, stream_update_dep_set_top, hdc, hd, hq, if_false]
          exact hrun
      | NGHTTP2_STREAM_DPRI_NO_DATA =>
        obtain ⟨m1, rv1, hrun1, hfr1, hmono1, hpost1⟩ :=
          ih cs m none (some c) hch.2.2.2 hdn hsn hdata (by omega)
        by_cases hrv1 : rv1 = 0
        · subst hrv1
          have hdn1 : m1.dep_next = m0.dep_next := by rw [hfr1]; exact hdn
          have hsn1 : m1.sib_next = m0.sib_next := by rw [hfr1]; exact hsn
          have hdata1 : ∀ y, m1.dpri y = NGHTTP2_STREAM_DPRI_REST → m1.data y ≠ none := by
            intro y hy
            have e : m1.data = m.data := by rw [hfr1]
            rw [e]
            apply hdata
            rcases hmono1 y with h | ⟨_, h⟩
            · rw [← h]; exact hy
            · rw [h] at hy; cases hy
          have hnd : ∀ y, m1.dpri y = NGHTTP2_STREAM_DPRI_NO_DATA ↔
              m.dpri y = NGHTTP2_STREAM_DPRI_NO_DATA := by
            intro y
            rcases hmono1 y with h | ⟨h1, h2⟩
            · rw [h]
            · rw [h1, h2]; simp
          obtain ⟨m2, rv2, hrun2, hfr2, hmono2, hpost2⟩ :=
            ih (kids c) m1 (some c) none (hw.links.chain c) hdn1 hsn1 hdata1
              (by rw [sum_kids_lt hw.counts]; omega)
          have hmono : ∀ y, m2.dpri y = m.dpri y ∨
              (m.dpri y = NGHTTP2_STREAM_DPRI_REST ∧ m2.dpri y = NGHTTP2_STREAM_DPRI_TOP) := by
            intro y
            rcases hmono2 y with h | ⟨h1, h2⟩
            · rw [h]; exact hmono1 y
            · rcases hmono1 y with h | ⟨h3, h4⟩
              · exact Or.inr ⟨h ▸ h1, h2⟩
              · rw [h4] at h1; cases h1
          refine ⟨m2, rv2, ?_, by rw [hfr2, hfr1], hmono, ?_⟩
          · simp only [List.head?_cons, stream_update_dep_set_top, hdc, hnext, hrun1]
            simp only [ne_eq, not_true_eq_false, if_false]
            rw [hdn1, hkid]
            exact hrun2
          · intro hrv2
            obtain ⟨hp1a, hp1b⟩ := hpost1 rfl
            obtain ⟨hp2a, hp2b⟩ := hpost2 hrv2
            constructor
            · intro y hy hrest
              have hyc : y ≠ c := by
                rintro rfl
                rw [hdc] at hrest; cases hrest
              by_cases hh2 : TopReach kids m1.dpri (kids c) y ∧
                  m1.dpri y = NGHTTP2_STREAM_DPRI_REST
              · exact hp2a y hh2.1 hh2.2
              · rw [hp2b y hh2]
                rcases (TopReach_cons kids m.dpri c cs y).1 hy with h | h | ⟨_, h⟩
                · exact absurd h hyc
                · exact hp1a y h hrest
                · rcases hmono1 y with h' | ⟨_, h'⟩
                  · exfalso
                    exact hh2 ⟨(TopReach_congr kids m.dpri m1.dpri hnd _ y).2 h, h'.trans hrest⟩
                  · exact h'
            · intro y hy
              have e1 : m1.dpri y = m.dpri y := by
                apply hp1b
                rintro ⟨h1, h2⟩
                exact hy ⟨TopReach.sib _ _ _ h1, h2⟩
              rw [hp2b y ?_, e1]
              rintro ⟨h1, h2⟩
              exact hy ⟨TopReach.child _ _ _ hdc
                ((TopReach_congr kids m.dpri m1.dpri hnd _ y).1 h1), e1 ▸ h2⟩
        · refine ⟨m1, rv1, ?_, hfr1, hmono1, fun h => absurd h hrv1⟩
          simp only [List.head?_cons, stream_update_dep_set_top, hdc, hnext, hrun1]
          simp [hrv1]

theorem RestVisit_nil (kids : Nat → List Nat) (d : Nat → nghttp2_stream_dpri) (y : Nat) :
    ¬ RestVisit kids d [] y := by
  intro h; cases h

theorem RestVisit_cons (kids : Nat → List Nat) (d : Nat → nghttp2_stream_dpri) (c : Nat)
    (cs : List Nat) (y : Nat) :
    RestVisit kids d (c :: cs) y ↔ y = c ∨
      (d c ≠ NGHTTP2_STREAM_DPRI_REST ∧ RestVisit kids d cs y) ∨
      (d c = NGHTTP2_STREAM_DPRI_NO_DATA ∧ RestVisit kids d (kids c) y) := by
  constructor
  · intro h
    cases h with
    | head => exact Or.inl rfl
    | sib _ _ _ h1 h2 => exact Or.inr (Or.inl ⟨h1, h2⟩)
    | child _ _ _ h1 h2 => exact Or.inr (Or.inr ⟨h1, h2⟩)
  · rintro (rfl | ⟨h1, h2⟩ | ⟨h1, h2⟩)
    · exact RestVisit.head _ _
    · exact RestVisit.sib _ _ _ h1 h2
    · exact RestVisit.child _ _ _ h1 h2

theorem RestVisit.inSub {kids : Nat → List Nat} {d : Nat → nghttp2_stream_dpri} {l : List Nat}
    {y : Nat} (h : RestVisit kids d l y) : InSub kids l y := by
  induction h with
  | head c cs => exact (InSub_cons kids c cs c).2 (Or.inl rfl)
  | sib c cs y _ _ ih => exact (InSub_cons kids c cs y).2 (Or.inr (Or.inl ih))
  | child c cs y _ _ ih => exact (InSub_cons kids c cs y).2 (Or.inr (Or.inr ih))

theorem RestVisit_congr (kids : Nat → List Nat) (d d' : Nat → nghttp2_stream_dpri)
    (l : List Nat) (h : ∀ y, InSub kids l y → d' y = d y) (y : Nat) :
    RestVisit kids d' l y ↔ RestVisit kids d l y := by
  have key : ∀ (d1 d2 : Nat → nghttp2_stream_dpri) (l : List Nat) (y : Nat),
      RestVisit kids d1 l y → (∀ z, InSub kids l z → d2 z = d1 z) → RestVisit kids d2 l y := by
    intro d1 d2 l y hr
    induction hr with
    | head => intro _; exact RestVisit.head _ _
    | sib c cs y h1 _ ih =>
      intro hag
      refine RestVisit.sib _ _ _ ?_ (ih ?_)
      · rw [hag c ((InSub_cons kids c cs c).2 (Or.inl rfl))]; exact h1
      · intro z hz; exact hag z ((InSub_cons kids c cs z).2 (Or.inr (Or.inl hz)))
    | child c cs y h1 _ ih =>
      intro hag
      refine RestVisit.child _ _ _ ?_ (ih ?_)
      · rw [hag c ((InSub_cons kids c cs c).2 (Or.inl rfl))]; exact h1
      · intro z hz; exact hag z ((InSub_cons kids c cs z).2 (Or.inr (Or.inr hz)))
  exact ⟨fun hr => key d' d l y hr (fun z hz => (h z hz).symm), fun hr => key d d' l y hr h⟩

theorem Disj_kids {m : Mem} {kids : Nat → List Nat} {N : Nat} (hw : WF m kids N) (n : Nat) :
    Disj kids (kids n) := by
  refine ⟨hw.links.nodup n, ?_⟩
  intro c hc d hd hne y h1 h2
  rcases Above.comparable hw.links h1 h2 with h | h
  · exact sibling_not_above hw.links hw.counts hc hd hne h
  · exact sibling_not_above hw.links hw.counts hd hc (Ne.symm hne) h

theorem Disj_tail {kids : Nat → List Nat} {c : Nat} {cs : List Nat} (h : Disj kids (c :: cs)) :
    Disj kids cs :=
  ⟨(List.nodup_cons.1 h.1).2, fun a ha b hb hne y =>
    h.2 a (List.mem_cons_of_mem _ ha) b (List.mem_cons_of_mem _ hb) hne y⟩

theorem Disj_not_inSub {kids : Nat → List Nat} {c : Nat} {cs : List Nat}
    (h : Disj kids (c :: cs)) {y : Nat} (hy : Above kids y c) : ¬ InSub kids cs y := by
  rintro ⟨d, hd, hyd⟩
  have hne : c ≠ d := fun e => (List.nodup_cons.1 h.1).1 (e ▸ hd)
  exact h.2 c (by simp) d (List.mem_cons_of_mem _ hd) hne y hy hyd

theorem Disj_singleton (kids : Nat → List Nat) (r : Nat) : Disj kids [r] := by
  refine ⟨by simp, ?_⟩
  intro c hc d hd hne
  simp at hc hd
  exact absurd (hc.trans hd.symm) hne

/-- With enough fuel the demotion pass returns; it changes at most `dpri`, and
it demotes exactly the TOP streams it visits. -/
theorem set_rest_spec {m0 : Mem} {kids : Nat → List Nat} {N : Nat} (hw : WF m0 kids N) :
    ∀ (fuel : Nat) (l : List Nat) (m : Mem) (dp sp : Option Nat),
      LinkChain m0 dp sp l none → Disj kids l →
      m.dep_next = m0.dep_next → m.sib_next = m0.sib_next →
      (l.map m0.num_substreams).sum ≤ fuel →
      ∃ m', stream_update_dep_set_rest fuel m l.head? = .ok m' ∧
        m' = { m with dpri := m'.dpri } ∧
        (∀ y, RestVisit kids m.dpri l y → m.dpri y = NGHTTP2_STREAM_DPRI_TOP →
          m'.dpri y = NGHTTP2_STREAM_DPRI_REST) ∧
        (∀ y, ¬ (RestVisit kids m.dpri l y ∧ m.dpri y = NGHTTP2_STREAM_DPRI_TOP) →
          m'.dpri y = m.dpri y) := by
  intro fuel
  induction fuel with
  | zero =>
    intro l m dp sp hch _ _ _ hf
    cases l with
    | nil =>
      refine ⟨m, rfl, rfl, ?_, fun _ _ => rfl⟩
      intro y hy; exact absurd hy (RestVisit_nil kids _ y)
    | cons c cs =>
      have h1 := hw.counts.pos c
      have h2 := sum_map_ge_length m0.num_substreams cs (fun c _ => hw.counts.pos c)
      simp at hf
      omega
  | succ f ih =>
    intro l m dp sp hch hdisj hdn hsn hf
    cases l with
    | nil =>
      refine ⟨m, rfl, rfl, ?_, fun _ _ => rfl⟩
      intro y hy; exact absurd hy (RestVisit_nil kids _ y)
    | cons c cs =>
      have hpos := hw.counts.pos c
      have hcs := sum_map_ge_length m0.num_substreams cs (fun c _ => hw.counts.pos c)
      simp only [List.map_cons, List.sum_cons] at hf
      have hnext : m.sib_next c = cs.head? := by rw [hsn, hch.2.2.1, headOr_eq_head?]
      have hkid : m0.dep_next c = (kids c).head? := hw.links.dep_next c
      have hccs : ¬ InSub kids cs c := Disj_not_inSub hdisj Above.self
      cases hdc : m.dpri c with
      | NGHTTP2_STREAM_DPRI_REST =>
        refine ⟨m, ?_, rfl, ?_, fun _ _ => rfl⟩
        · simp only [List.head?_cons, stream_update_dep_set_rest, hdc]
        · intro y hy htop
          rcases (RestVisit_cons kids m.dpri c cs y).1 hy with h | ⟨h, _⟩ | ⟨h, _⟩
          · subst h; rw [hdc] at htop; cases htop
          · exact absurd hdc h
          · rw [hdc] at h; cases h
      | NGHTTP2_STREAM_DPRI_TOP =>
        have hag : ∀ y, InSub kids cs y →
            Function.update m.dpri c NGHTTP2_STREAM_DPRI_REST y = m.dpri y := by
          intro y hy
          have : y ≠ c := fun e => hccs (e ▸ hy)
          exact Function.update_noteq this _ _
        obtain ⟨m', hrun, hfr, hp1, hp2⟩ := ih cs
          { m with dpri := Function.update m.dpri c NGHTTP2_STREAM_DPRI_REST } none (some c)
          hch.2.2.2 (Disj_tail hdisj) hdn hsn (by omega)
        refine ⟨m', ?_, by rw [hfr], ?_, ?_⟩
        · simp only [List.head?_cons, stream_update_dep_set_rest, hdc, hnext]
          exact hrun
        · intro y hy htop
          by_cases hyc : y = c
          · subst hyc
            rw [hp2 y (fun hh => hccs hh.1.inSub)]
            simp
          · rcases (RestVisit_cons kids m.dpri c cs y).1 hy with h | ⟨_, h⟩ | ⟨h, _⟩
            · exact absurd h hyc
            · refine hp1 y ((RestVisit_congr kids m.dpri _ cs hag y).2 h) ?_
              simp only [Function.update_noteq hyc]; exact htop
            · rw [hdc] at h; cases h
        · intro y hy
          have hyc : y ≠ c := by
            rintro rfl
            exact hy ⟨RestVisit.head _ _, hdc⟩
          rw [hp2 y ?_]
          · simp only [Function.update_noteq hyc]
          · rintro ⟨h1, h2⟩
            simp only [Function.update_noteq hyc] at h2
            exact hy ⟨RestVisit.sib _ _ _ (by rw [hdc]; simp)
              ((RestVisit_congr kids m.dpri _ cs hag y).1 h1), h2⟩
      | NGHTTP2_STREAM_DPRI_NO_DATA =>
        obtain ⟨m1, hrun1, hfr1, hp1a, hp1b⟩ := ih cs m none (some c)
          hch.2.2.2 (Disj_tail hdisj) hdn hsn (by omega)
        have hdn1 : m1.dep_next = m0.dep_next := by rw [hfr1]; exact hdn
        have hsn1 : m1.sib_next = m0.sib_next := by rw [hfr1]; exact hsn
        have hag : ∀ y, InSub kids (kids c) y → m1.dpri y = m.dpri y := by
          intro y hy
          apply hp1b
          rintro ⟨h1, _⟩
          exact Disj_not_inSub hdisj ((above_iff_self_or_kids kids y c).2 (Or.inr hy)) h1.inSub
        obtain ⟨m2, hrun2, hfr2, hp2a, hp2b⟩ := ih (kids c) m1 (some c) none
          (hw.links.chain c) (Disj_kids hw c) hdn1 hsn1 (by rw [sum_kids_lt hw.counts]; omega)
        have hnr : m.dpri c ≠ NGHTTP2_STREAM_DPRI_REST := by rw [hdc]; simp
        refine ⟨m2, ?_, by rw [hfr2, hfr1], ?_, ?_⟩
        · simp only [List.head?_cons, stream_update_dep_set_rest, hdc, hnext, hrun1]
          rw [hdn1, hkid]
          exact hrun2
        · intro y hy htop
          rcases (RestVisit_cons kids m.dpri c cs y).1 hy with h | ⟨_, h⟩ | ⟨_, h⟩
          · subst h; rw [hdc] at htop; cases htop
          · have e1 := hp1a y h htop
            rw [hp2b y (fun hh => by rw [e1] at hh; cases hh.2), e1]
          · have hin := h.inSub
            exact hp2a y ((RestVisit_congr kids m.dpri m1.dpri _ hag y).2 h)
              ((hag y hin).trans htop)
        · intro y hy
          have e1 : m1.dpri y = m.dpri y := by
            apply hp1b
            rintro ⟨h1, h2⟩
            exact hy ⟨RestVisit.sib _ _ _ hnr h1, h2⟩
          rw [hp2b y ?_, e1]
          rintro ⟨h1, h2⟩
          have hin := h1.inSub
          exact hy ⟨RestVisit.child _ _ _ hdc
            ((RestVisit_congr kids m.dpri m1.dpri _ hag y).1 h1), e1 ▸ h2⟩

/-! ### Moving a whole subtree -/

/-- The links after the root `s`, which has children, has been inserted
between `p` and the children `c1 :: cs` of `p`. -/
theorem Links_insert_sub {m m' : Mem} {kids : Nat → List Nat} (hl : Links m kids)
    {p s c1 dl : Nat} {cs D0 : List Nat} (hr : IsRoot kids s) (hks : kids s = D0 ++ [dl])
    (hk : kids p = c1 :: cs) (hps : p ≠ s)
    (hdn : m'.dep_next = Function.update m.dep_next p (some s))
    (hdp : m'.dep_prev = Function.update (Function.update m.dep_prev s (some p)) c1 none)
    (hsp : m'.sib_prev = Function.update m.sib_prev c1 (some dl))
    (hsn : m'.sib_next = Function.update m.sib_next dl (some c1)) :
    Links m' (kidsInsert kids p s) := by
  have hc1p : c1 ∈ kids p := by rw [hk]; simp
  have hc1s : c1 ≠ s := fun e => hr p (e ▸ hc1p)
  have hdls : dl ∈ kids s := by rw [hks]; simp
  have hdl_s : dl ≠ s := fun e => hr s (e ▸ hdls)
  have hdisj : ∀ y, y ∈ kids s → y ∉ kids p := fun y h1 h2 => hps (hl.uniq p s y h2 h1)
  have hc1dl : c1 ≠ dl := fun e => hdisj dl hdls (e ▸ hc1p)
  have hksne : kids s ≠ [] := by rw [hks]; simp
  refine ⟨kidsInsert_nodup hl hps, kidsInsert_uniq hl hr hps, ?_, ?_, ?_⟩
  · intro n
    by_cases hns : n = s
    · subst hns
      rw [kidsInsert_s, hdn, Function.update_noteq (Ne.symm hps), hl.dep_next n,
        head?_append_ite, if_neg hksne]
    · by_cases hnp : n = p
      · subst hnp; rw [kidsInsert_p kids hps, hdn]; simp
      · rw [kidsInsert_other kids hns hnp, hdn, Function.update_noteq hnp]
        exact hl.dep_next n
  · intro n
    by_cases hns : n = s
    · subst hns
      rw [kidsInsert_s, LinkChain_append]
      have e1 : (if kids n = [] then some n else none) = (none : Option Nat) := by
        rw [if_neg hksne]
      have e2 : lastOr (kids n) none = some dl := by rw [hks, lastOr_append_singleton]
      have e3 : headOr (kids p) none = some c1 := by rw [hk]; rfl
      rw [e1, e2, e3]
      constructor
      · refine LinkChain_set_nx m m' _ _ _ _ _ (hl.nodup n) (hl.chain n) ?_ ?_ ?_
        · intro c hc
          have h1 : c ≠ c1 := fun e => hdisj c hc (e ▸ hc1p)
          have h2 : c ≠ n := fun e => hr n (e ▸ hc)
          rw [hdp, Function.update_noteq h1, Function.update_noteq h2]
        · intro c hc
          have h1 : c ≠ c1 := fun e => hdisj c hc (e ▸ hc1p)
          rw [hsp, Function.update_noteq h1]
        · intro c _
          rw [hsn, hks, List.getLast?_concat]
          by_cases hcd : c = dl
          · subst hcd; simp
          · have : ¬ some dl = some c := fun e => hcd (Option.some.inj e).symm
            rw [if_neg this, Function.update_noteq hcd]
      · refine LinkChain_set_head m m' _ _ _ _ _ _ (hl.nodup p) (hl.chain p) ?_ ?_ ?_
        · intro c hc
          rw [hdp, hk, List.head?_cons]
          by_cases hcc : c = c1
          · subst hcc; simp
          · have : ¬ some c1 = some c := fun e => hcc (Option.some.inj e).symm
            have hcn : c ≠ n := fun e => hr p (e ▸ hc)
            rw [if_neg this, Function.update_noteq hcc, Function.update_noteq hcn]
        · intro c hc
          rw [hsp, hk, List.head?_cons]
          by_cases hcc : c = c1
          · subst hcc; simp
          · have : ¬ some c1 = some c := fun e => hcc (Option.some.inj e).symm
            rw [if_neg this, Function.update_noteq hcc]
        · intro c hc
          have h1 : c ≠ dl := fun e => hdisj dl hdls (e ▸ hc)
          rw [hsn, Function.update_noteq h1]
    · by_cases hnp : n = p
      · subst hnp
        rw [kidsInsert_p kids hps]
        have hsr := hl.root s hr
        refine ⟨?_, ?_, ?_, trivial⟩
        · rw [hdp, Function.update_noteq (Ne.symm hc1s)]; simp
        · rw [hsp, Function.update_noteq (Ne.symm hc1s)]; exact hsr.2.1
        · rw [hsn, Function.update_noteq (Ne.symm hdl_s)]; exact hsr.2.2
      · rw [kidsInsert_other kids hns hnp, LinkChain_congr m m']
        · exact hl.chain n
        · intro c hc
          have hcs : c ≠ s := fun e => hr n (e ▸ hc)
          have hcc : c ≠ c1 := fun e => hnp (hl.uniq n p c hc (e ▸ hc1p))
          have hcd : c ≠ dl := fun e => hns (hl.uniq n s c hc (e ▸ hdls))
          rw [hdp, hsp, hsn, Function.update_noteq hcc, Function.update_noteq hcs,
            Function.update_noteq hcc, Function.update_noteq hcd]
          exact ⟨rfl, rfl, rfl⟩
  · intro x hx
    obtain ⟨hxs, hxp, hxks, hxr⟩ := kidsInsert_root hl hps hx
    have hxc : x ≠ c1 := fun e => hxp (e ▸ hc1p)
    have hxd : x ≠ dl := fun e => hxks (e ▸ hdls)
    rw [hdp, hsp, hsn, Function.update_noteq hxc, Function.update_noteq hxs,
      Function.update_noteq hxc, Function.update_noteq hxd]
    exact hl.root x hxr

theorem InSub_singleton (kids : Nat → List Nat) (s y : Nat) :
    InSub kids [s] y ↔ Above kids y s := by
  constructor
  · rintro ⟨c, hc, hy⟩
    simp at hc
    subst hc
    exact hy
  · intro h
    exact ⟨s, by simp, h⟩

theorem LinkChain_root {m : Mem} {kids : Nat → List Nat} (hl : Links m kids) {r : Nat}
    (hr : IsRoot kids r) : LinkChain m none none [r] none :=
  ⟨(hl.root r hr).1, (hl.root r hr).2.1, (hl.root r hr).2.2, trivial⟩

theorem exists_Counts_add {m : Mem} {kids : Nat → List Nat} {num : Nat → Int} {N : Nat}
    (hl : Links m kids) (hc : Counts num kids N) {p s : Nat} (hnot : ¬ Above kids p s)
    (N' : Nat) (hN : (N : Int) + num s ≤ N') :
    ∃ rank : Nat → Int, Counts rank (Function.update kids p (kids p ++ [s])) N' ∧
      rank p = num p + num s := by
  classical
  refine ⟨fun y => if Above kids p y then num y + num s else num y, ?_, ?_⟩
  · refine Counts_add hl hc hnot _ N' hN ?_ ?_
    · intro y hy; simp [hy]
    · intro y hy; simp [hy]
  · simp [Above.self]

theorem above_add_iff {kids : Nat → List Nat} {p s : Nat} (hnot : ¬ Above kids p s) (a : Nat) :
    Above kids p a ↔ Above (Function.update kids p (kids p ++ [s])) p a := by
  apply above_congr
  intro y n hy
  have hys : y ≠ s := fun e => hnot (e ▸ hy)
  by_cases hn : n = p
  · subst hn
    rw [Function.update_same]
    simp [hys]
  · rw [Function.update_noteq hn]

/-- The structural part of `dep_add_subtree`, after the regrouping of the
subtree has returned `m1`: the tree of the root `s` becomes the last child of
`p`, the counts are updated, and the top-search is started from the root `r`
on `m4`. -/
theorem dep_add_subtree_link {m m1 : Mem} {kids : Nat → List Nat} {N : Nat} (hw : WF m kids N)
    {p s : Nat} (hr : IsRoot kids s) (hnot : ¬ Above kids p s) {fuel : Nat} (hf : 2 * N ≤ fuel)
    (hrun1 : stream_update_dep_set_rest_stream_group fuel m (some s) (m.stream_group p) = .ok m1)
    (hfr1 : m1 = { m with
      stream_group := m1.stream_group, num_streams := m1.num_streams, dpri := m1.dpri }) :
    ∃ (m4 : Mem) (r : Nat),
      nghttp2_stream_dep_add_subtree fuel m p s = stream_update_dep_set_top fuel m4 (some r) ∧
      WF m4 (Function.update kids p (kids p ++ [s])) (2 * N) ∧
      m4 = { m1 with
        dep_prev := m4.dep_prev
        dep_next := m4.dep_next
        sib_prev := m4.sib_prev
        sib_next := m4.sib_next
        num_substreams := m4.num_substreams } ∧
      (∀ y, Above kids p y → m4.num_substreams y = m.num_substreams y + m.num_substreams s) ∧
      (∀ y, ¬ Above kids p y → m4.num_substreams y = m.num_substreams y) ∧
      IsRoot (Function.update kids p (kids p ++ [s])) r ∧
      Above (Function.update kids p (kids p ++ [s])) p r := by
  have hps : p ≠ s := fun e => hnot (e ▸ Above.self)
  have hN1 := hw.counts.one_le_N
  have hbs := hw.counts.bound s
  have hbp := hw.counts.bound p
  have hposs := hw.counts.pos s
  have hposp := hw.counts.pos p
  have hl1 : Links m1 kids := hw.links.congr (by rw [hfr1]) (by rw [hfr1]) (by rw [hfr1])
    (by rw [hfr1])
  have hnum1 : m1.num_substreams = m.num_substreams := by rw [hfr1]
  -- linking
  have hlink : ∃ m3 : Mem, Links m3 (Function.update kids p (kids p ++ [s])) ∧
      m3 = { m1 with
        dep_prev := m3.dep_prev
        dep_next := m3.dep_next
        sib_prev := m3.sib_prev
        sib_next := m3.sib_next } ∧
      nghttp2_stream_dep_add_subtree fuel m p s =
        (match stream_update_dep_length fuel m3 p (m.num_substreams s) with
          | .error e => .error e
          | .ok (m4, root_stream) => stream_update_dep_set_top fuel m4 (some root_stream)) := by
    rcases list_nil_or_cons (kids p) with hk | ⟨c, cs, hk⟩
    · have hdn : m1.dep_next p = none := by rw [hl1.dep_next, hk]; rfl
      refine ⟨{ m1 with
          dep_next := Function.update m1.dep_next p (some s)
          dep_prev := Function.update m1.dep_prev s (some p) }, ?_, rfl, ?_⟩
      · exact Links_add_first hl1 hr hk hps rfl rfl rfl rfl
      · simp only [nghttp2_stream_dep_add_subtree, hrun1, hdn, hnum1]
    · have hdn : m1.dep_next p = some c := by rw [hl1.dep_next, hk]; rfl
      have hlen := hw.counts.length_lt p
      have hlast := stream_last_sib_spec hl1 cs p c [] fuel (by simpa using hk)
        (by rw [hk] at hlen; simp at hlen; omega)
      obtain ⟨l, hl⟩ := exists_split_last c cs
      refine ⟨{ m1 with
          sib_next := Function.update m1.sib_next (lastD cs c) (some s)
          sib_prev := Function.update m1.sib_prev s (some (lastD cs c)) }, ?_, rfl, ?_⟩
      · exact Links_add_last hl1 hr (hk.trans hl) rfl rfl rfl rfl
      · simp only [nghttp2_stream_dep_add_subtree, hrun1, hdn, hlast, hnum1]
  obtain ⟨m3, hl3, hfr3, hrun3⟩ := hlink
  have hnum3 : m3.num_substreams = m.num_substreams := by rw [hfr3]; exact hnum1
  -- the counts
  obtain ⟨rank, hrank, hrp⟩ := exists_Counts_add hw.links hw.counts hnot (2 * N)
    (by push_cast; omega)
  obtain ⟨num', r, hrun4, hab, hnab, hroot, habove⟩ :=
    stream_update_dep_length_spec hrank fuel m3 p (m.num_substreams s) hl3
      (by rw [hrp]; push_cast; omega)
  have h1 : ∀ y, Above kids p y → num' y = m.num_substreams y + m.num_substreams s := by
    intro y hy
    rw [hab y ((above_add_iff hnot y).1 hy), hnum3]
  have h2 : ∀ y, ¬ Above kids p y → num' y = m.num_substreams y := by
    intro y hy
    rw [hnab y (fun h => hy ((above_add_iff hnot y).2 h)), hnum3]
  have hc4 : Counts num' (Function.update kids p (kids p ++ [s])) (2 * N) :=
    Counts_add hw.links hw.counts hnot num' (2 * N) (by push_cast; omega) h1 h2
  refine ⟨{ m3 with num_substreams := num' }, r, ?_, ⟨hl3.congr rfl rfl rfl rfl, hc4⟩, ?_,
    h1, h2, hroot, habove⟩
  · rw [hrun3, hrun4]
  · show _ = ({ m1 with
        dep_prev := m3.dep_prev
        dep_next := m3.dep_next
        sib_prev := m3.sib_prev
        sib_next := m3.sib_next
        num_substreams := num' } : Mem)
    rw [hfr3]

/-- The effect of `dep_add_subtree` on a well-formed forest: the tree of the
root `s` becomes the last child of `p`; `d1` is the `dpri` field after the
regrouping of the subtree and `r` the root the top-search starts from. -/
theorem dep_add_subtree_spec {m : Mem} {kids : Nat → List Nat} {N : Nat} (hw : WF m kids N)
    {p s g : Nat} (hr : IsRoot kids s) (hnot : ¬ Above kids p s)
    (hgp : m.stream_group p = some g)
    (hgs : ∀ y, Above kids y s → m.stream_group y ≠ none)
    (hdata : ∀ y, m.dpri y ≠ NGHTTP2_STREAM_DPRI_NO_DATA → m.data y ≠ none)
    {fuel : Nat} (hf : 2 * N ≤ fuel) :
    ∃ (m' : Mem) (rv : Int) (d1 : Nat → nghttp2_stream_dpri) (r : Nat),
      nghttp2_stream_dep_add_subtree fuel m p s = .ok (m', rv) ∧
      WF m' (Function.update kids p (kids p ++ [s])) (2 * N) ∧
      (∀ y, Above kids p y → m'.num_substreams y = m.num_substreams y + m.num_substreams s) ∧
      (∀ y, ¬ Above kids p y → m'.num_substreams y = m.num_substreams y) ∧
      (∀ y, Above kids y s → m'.stream_group y = some g) ∧
      (∀ y, ¬ Above kids y s → m'.stream_group y = m.stream_group y) ∧
      (∀ y, Above kids y s → m.dpri y = NGHTTP2_STREAM_DPRI_TOP →
        d1 y = NGHTTP2_STREAM_DPRI_REST) ∧
      (∀ y, ¬ (Above kids y s ∧ m.dpri y = NGHTTP2_STREAM_DPRI_TOP) → d1 y = m.dpri y) ∧
      IsRoot (Function.update kids p (kids p ++ [s])) r ∧
      Above (Function.update kids p (kids p ++ [s])) p r ∧
      (∀ y, m'.dpri y = d1 y ∨
        (d1 y = NGHTTP2_STREAM_DPRI_REST ∧ m'.dpri y = NGHTTP2_STREAM_DPRI_TOP)) ∧
      (rv = 0 →
        (∀ y, TopReach (Function.update kids p (kids p ++ [s])) d1 [r] y →
          d1 y = NGHTTP2_STREAM_DPRI_REST → m'.dpri y = NGHTTP2_STREAM_DPRI_TOP) ∧
        (∀ y, ¬ (TopReach (Function.update kids p (kids p ++ [s])) d1 [r] y ∧
          d1 y = NGHTTP2_STREAM_DPRI_REST) → m'.dpri y = d1 y)) ∧
      SameUser m m' := by
  have hN1 := hw.counts.one_le_N
  have hbs := hw.counts.bound s
  obtain ⟨m1, hrun1, hfr1, hg1a, hg1b, hd1a, hd1b⟩ :=
    set_rest_stream_group_spec hw g fuel [s] m none none (LinkChain_root hw.links hr) rfl rfl
      (fun y hy => hgs y ((InSub_singleton kids s y).1 hy)) (by simp; omega)
  simp only [List.head?_cons] at hrun1
  rw [← hgp] at hrun1
  have hdata1 : m1.data = m.data := by rw [hfr1]
  obtain ⟨m4, r, hrun4, hw4, hfr4, h1, h2, hroot, habove⟩ :=
    dep_add_subtree_link hw hr hnot hf hrun1 hfr1
  have hbr := hw4.counts.bound r
  have e3 : m4.dpri = m1.dpri := by rw [hfr4]
  obtain ⟨m5, rv, hrun5, hfr5, hmono, hpost⟩ :=
    set_top_spec hw4 fuel [r] m4 none none (LinkChain_root hw4.links hroot) rfl rfl (by
        intro y hy
        have e2 : m4.data = m.data := by rw [hfr4]; exact hdata1
        rw [e3] at hy
        rw [e2]
        apply hdata
        by_cases hh : InSub kids [s] y ∧ m.dpri y = NGHTTP2_STREAM_DPRI_TOP
        · rw [hh.2]; simp
        · rw [← hd1b y hh, hy]; simp) (by simp; omega)
  simp only [List.head?_cons] at hrun5
  rw [e3] at hmono hpost
  have hnum5 : m5.num_substreams = m4.num_substreams := by rw [hfr5]
  have hgrp5 : m5.stream_group = m1.stream_group := by rw [hfr5, hfr4]
  refine ⟨m5, rv, m1.dpri, r, ?_, ?_, ?_, ?_, ?_, ?_, ?_, ?_, hroot, habove, hmono, hpost, ?_⟩
  · rw [hrun4]; exact hrun5
  · refine ⟨hw4.links.congr (by rw [hfr5]) (by rw [hfr5]) (by rw [hfr5]) (by rw [hfr5]), ?_⟩
    rw [hnum5]; exact hw4.counts
  · intro y hy; rw [hnum5]; exact h1 y hy
  · intro y hy; rw [hnum5]; exact h2 y hy
  · intro y hy
    rw [hgrp5]; exact hg1a y ((InSub_singleton kids s y).2 hy)
  · intro y hy
    rw [hgrp5]; exact hg1b y (fun h => hy ((InSub_singleton kids s y).1 h))
  · intro y hy; exact hd1a y ((InSub_singleton kids s y).2 hy)
  · intro y hy
    exact hd1b y (fun h => hy ⟨(InSub_singleton kids s y).1 h.1, h.2⟩)
  · unfold SameUser
    rw [hfr5, hfr4, hfr1]

/-- The structural part of `dep_insert_subtree`, after the regrouping of the
subtree has returned `m1`: the tree of the root `s` becomes the only child of
`p`, the former children of `p` are demoted and appended to the children of
`s`, the counts are updated, and the top-search is started from the root `r`
on `m9`, whose `dpri` field is `d2`. -/
theorem dep_insert_subtree_link {m m1 : Mem} {kids : Nat → List Nat} {N : Nat}
    (hw : WF m kids N) {p s : Nat} (hr : IsRoot kids s) (hnot : ¬ Above kids p s) {fuel : Nat}
    (hf : 2 * N ≤ fuel)
    (hrun1 : stream_update_dep_set_rest_stream_group fuel m (some s) (m.stream_group p) = .ok m1)
    (hfr1 : m1 = { m with
      stream_group := m1.stream_group, num_streams := m1.num_streams, dpri := m1.dpri }) :
    ∃ (m9 : Mem) (d2 : Nat → nghttp2_stream_dpri) (r : Nat),
      nghttp2_stream_dep_insert_subtree fuel m p s =
        stream_update_dep_set_top fuel m9 (some r) ∧
      WF m9 (kidsInsert kids p s) (2 * N) ∧
      m9 = { m1 with
        dep_prev := m9.dep_prev
        dep_next := m9.dep_next
        sib_prev := m9.sib_prev
        sib_next := m9.sib_next
        num_substreams := m9.num_substreams
        dpri := d2 } ∧
      (∀ y, Above kids p y → m9.num_substreams y = m.num_substreams y + m.num_substreams s) ∧
      m9.num_substreams s = m.num_substreams s + ((kids p).map m.num_substreams).sum ∧
      (∀ y, ¬ Above kids p y → y ≠ s → m9.num_substreams y = m.num_substreams y) ∧
      (∀ y, RestVisit kids m1.dpri (kids p) y → m1.dpri y = NGHTTP2_STREAM_DPRI_TOP →
        d2 y = NGHTTP2_STREAM_DPRI_REST) ∧
      (∀ y, ¬ (RestVisit kids m1.dpri (kids p) y ∧ m1.dpri y = NGHTTP2_STREAM_DPRI_TOP) →
        d2 y = m1.dpri y) ∧
      IsRoot (kidsInsert kids p s) r ∧ Above (kidsInsert kids p s) p r := by
  have hps : p ≠ s := fun e => hnot (e ▸ Above.self)
  have hN1 := hw.counts.one_le_N
  have hbs := hw.counts.bound s
  have hbp := hw.counts.bound p
  have hposs := hw.counts.pos s
  have hposp := hw.counts.pos p
  have hlenp := hw.counts.length_lt p
  have hlens := hw.counts.length_lt s
  have hl1 : Links m1 kids := hw.links.congr (by rw [hfr1]) (by rw [hfr1]) (by rw [hfr1])
    (by rw [hfr1])
  have hnum1 : m1.num_substreams = m.num_substreams := by rw [hfr1]
  have hdata1 : m1.data = m.data := by rw [hfr1]
  have hdn1 : m1.dep_next = m.dep_next := by rw [hfr1]
  have hsn1 : m1.sib_next = m.sib_next := by rw [hfr1]
  have hsp : s ∉ kids p := hr p
  -- linking
  have hlink : ∃ (m8 : Mem) (d2 : Nat → nghttp2_stream_dpri),
      Links m8 (kidsInsert kids p s) ∧
      m8 = { m1 with
        dep_prev := m8.dep_prev
        dep_next := m8.dep_next
        sib_prev := m8.sib_prev
        sib_next := m8.sib_next
        num_substreams := m8.num_substreams
        dpri := d2 } ∧
      m8.num_substreams s = m.num_substreams s + ((kids p).map m.num_substreams).sum ∧
      (∀ y, y ≠ s → m8.num_substreams y = m.num_substreams y) ∧
      (∀ y, RestVisit kids m1.dpri (kids p) y → m1.dpri y = NGHTTP2_STREAM_DPRI_TOP →
        d2 y = NGHTTP2_STREAM_DPRI_REST) ∧
      (∀ y, ¬ (RestVisit kids m1.dpri (kids p) y ∧ m1.dpri y = NGHTTP2_STREAM_DPRI_TOP) →
        d2 y = m1.dpri y) ∧
      nghttp2_stream_dep_insert_subtree fuel m p s =
        (match stream_update_dep_length fuel m8 p (m.num_substreams s) with
          | .error e => .error e
          | .ok (m9, root_stream) => stream_update_dep_set_top fuel m9 (some root_stream)) := by
    rcases list_nil_or_cons (kids p) with hk | ⟨c1, cs, hk⟩
    · have hdn : m1.dep_next p = none := by rw [hl1.dep_next, hk]; rfl
      refine ⟨{ m1 with
          dep_next := Function.update m1.dep_next p (some s)
          dep_prev := Function.update m1.dep_prev s (some p) }, m1.dpri, ?_, rfl, ?_, ?_, ?_,
          fun _ _ => rfl, ?_⟩
      · rw [kidsInsert_eq_add kids hk hps]
        exact Links_add_first hl1 hr hk hps rfl rfl rfl rfl
      · show m1.num_substreams s = _
        rw [hnum1, hk]; simp
      · intro y _
        show m1.num_substreams y = _
        rw [hnum1]
      · intro y hy
        rw [hk] at hy
        exact absurd hy (RestVisit_nil kids _ y)
      · simp only [nghttp2_stream_dep_insert_subtree, hrun1, hdn]
    · have hdn : m1.dep_next p = some c1 := by rw [hl1.dep_next, hk]; rfl
      have hloop := dep_insert_sum_loop_spec s (kids p) m1 _ _ fuel (hl1.chain p) hsp (by omega)
      rw [← hl1.dep_next, hdn, hnum1] at hloop
      obtain ⟨m3, hrun3, hfr3, hd3a, hd3b⟩ :=
        set_rest_spec hw fuel (kids p) { m1 with
          num_substreams := Function.update m.num_substreams s
            (m.num_substreams s + ((kids p).map m.num_substreams).sum) } (some p) none
          (hw.links.chain p) (Disj_kids hw p) hdn1 hsn1
          (by rw [sum_kids_lt hw.counts]; omega)
      rw [← hw.links.dep_next, ← hdn1, hdn] at hrun3
      have hdn3 : m3.dep_next = m.dep_next := by rw [hfr3]; exact hdn1
      have hsn3 : m3.sib_next = m.sib_next := by rw [hfr3]; exact hsn1
      have hdp3 : m3.dep_prev = m1.dep_prev := by rw [hfr3]
      have hsp3 : m3.sib_prev = m1.sib_prev := by rw [hfr3]
      have hl3 : Links m3 kids := hl1.congr hdp3 (hdn3.trans hdn1.symm) hsp3
        (hsn3.trans hsn1.symm)
      rcases list_nil_or_cons (kids s) with hks | ⟨e1, es, hks⟩
      · have hdns : m3.dep_next s = none := by rw [hl3.dep_next, hks]; rfl
        refine ⟨{ m3 with
            dep_next := Function.update (Function.update m3.dep_next p (some s)) s (some c1)
            dep_prev := Function.update (Function.update m3.dep_prev s (some p)) c1 (some s) },
          m3.dpri, ?_, ?_, ?_, ?_, hd3a, hd3b, ?_⟩
        · have hc1s : c1 ≠ s := fun e => hsp (by rw [← e, hk]; simp)
          refine Links_insert_leaf hl3 hr hks hk hps ?_ ?_ rfl rfl
          · exact Function.update_comm hps _ _ _
          · exact Function.update_comm hc1s.symm _ _ _
        · rw [hfr3]
        · show m3.num_substreams s = _
          rw [hfr3]; simp
        · intro y hy
          show m3.num_substreams y = _
          rw [hfr3]; simp [Function.update_noteq hy]
        · simp only [nghttp2_stream_dep_insert_subtree, hrun1, hdn, hloop, hrun3,
            Function.update_noteq hps.symm, hdns]
      · have hdns : m3.dep_next s = some e1 := by rw [hl3.dep_next, hks]; rfl
        obtain ⟨D0, hD0⟩ := exists_split_last e1 es
        have hlast : stream_last_sib fuel { m3 with
            dep_next := Function.update m3.dep_next p (some s)
            dep_prev := Function.update m3.dep_prev s (some p) } e1 = .ok (lastD es e1) := by
          refine stream_last_sib_kids hw hks ?_ (by omega)
          intro y _
          show m3.sib_next y = m.sib_next y
          rw [hsn3]
        refine ⟨{ m3 with
            dep_next := Function.update m3.dep_next p (some s)
            dep_prev := Function.update (Function.update m3.dep_prev s (some p)) c1 none
            sib_next := Function.update m3.sib_next (lastD es e1) (some c1)
            sib_prev := Function.update m3.sib_prev c1 (some (lastD es e1)) },
          m3.dpri, ?_, ?_, ?_, ?_, hd3a, hd3b, ?_⟩
        · exact Links_insert_sub hl3 hr (hks.trans hD0) hk hps rfl rfl rfl rfl
        · rw [hfr3]
        · show m3.num_substreams s = _
          rw [hfr3]; simp
        · intro y hy
          show m3.num_substreams y = _
          rw [hfr3]; simp [Function.update_noteq hy]
        · simp only [nghttp2_stream_dep_insert_subtree, hrun1, hdn, hloop, hrun3,
            Function.update_noteq hps.symm, hdns, hlast]
  obtain ⟨m8, d2, hl8, hfr8, hnum8s, hnum8, hd2a, hd2b, hrun8⟩ := hlink
  -- the counts
  obtain ⟨rank, hrank, hrp⟩ := exists_Counts_insert hw.links hw.counts hr hnot (2 * N)
    (by push_cast; omega)
  obtain ⟨num', r, hrun9, hab, hnab, hroot, habove⟩ :=
    stream_update_dep_length_spec hrank fuel m8 p (m.num_substreams s) hl8
      (by rw [hrp]; push_cast; omega)
  have h1 : ∀ y, Above kids p y → num' y = m.num_substreams y + m.num_substreams s := by
    intro y hy
    have hys : y ≠ s := fun e => hnot (e ▸ hy)
    rw [hab y ((above_insert_iff hw.links hw.counts hr hnot y).1 hy), hnum8 y hys]
  have h2 : ∀ y, ¬ Above kids p y → y ≠ s → num' y = m.num_substreams y := by
    intro y hy hys
    rw [hnab y (fun h => hy ((above_insert_iff hw.links hw.counts hr hnot y).2 h)), hnum8 y hys]
  have h3 : num' s = m.num_substreams s + ((kids p).map m.num_substreams).sum := by
    rw [hnab s (fun h => hnot ((above_insert_iff hw.links hw.counts hr hnot s).2 h)), hnum8s]
  have hc9 : Counts num' (kidsInsert kids p s) (2 * N) :=
    Counts_insert hw.links hw.counts hr hnot num' (2 * N) (by push_cast; omega) h1 h2 h3
  have hw9 : WF { m8 with num_substreams := num' } (kidsInsert kids p s) (2 * N) :=
    ⟨hl8.congr rfl rfl rfl rfl, hc9⟩
  refine ⟨{ m8 with num_substreams := num' }, d2, r, ?_, hw9, ?_, h1, h3, h2, hd2a, hd2b, hroot,
    habove⟩
  · rw [hrun8, hrun9]
  · show _ = ({ m1 with
        dep_prev := m8.dep_prev
        dep_next := m8.dep_next
        sib_prev := m8.sib_prev
        sib_next := m8.sib_next
        num_substreams := num'
        dpri := d2 } : Mem)
    rw [hfr8]

/-- The effect of `dep_insert_subtree` on a well-formed forest: the tree of
the root `s` becomes the only child of `p`, and the former children of `p` are
appended to the children of `s`; `d1` is the `dpri` field after the regrouping
of the subtree, `d2` after the demotion of the children of `p`, and `r` the
root the top-search starts from. -/
theorem dep_insert_subtree_spec {m : Mem} {kids : Nat → List Nat} {N : Nat} (hw : WF m kids N)
    {p s g : Nat} (hr : IsRoot kids s) (hnot : ¬ Above kids p s)
    (hgp : m.stream_group p = some g)
    (hgs : ∀ y, Above kids y s → m.stream_group y ≠ none)
    (hdata : ∀ y, m.dpri y ≠ NGHTTP2_STREAM_DPRI_NO_DATA → m.data y ≠ none)
    {fuel : Nat} (hf : 2 * N ≤ fuel) :
    ∃ (m' : Mem) (rv : Int) (d1 d2 : Nat → nghttp2_stream_dpri) (r : Nat),
      nghttp2_stream_dep_insert_subtree fuel m p s = .ok (m', rv) ∧
      WF m' (kidsInsert kids p s) (2 * N) ∧
      (∀ y, Above kids p y → m'.num_substreams y = m.num_substreams y + m.num_substreams s) ∧
      m'.num_substreams s = m.num_substreams s + ((kids p).map m.num_substreams).sum ∧
      (∀ y, ¬ Above kids p y → y ≠ s → m'.num_substreams y = m.num_substreams y) ∧
      (∀ y, Above kids y s → m'.stream_group y = some g) ∧
      (∀ y, ¬ Above kids y s → m'.stream_group y = m.stream_group y) ∧
      (∀ y, Above kids y s → m.dpri y = NGHTTP2_STREAM_DPRI_TOP →
        d1 y = NGHTTP2_STREAM_DPRI_REST) ∧
      (∀ y, ¬ (Above kids y s ∧ m.dpri y = NGHTTP2_STREAM_DPRI_TOP) → d1 y = m.dpri y) ∧
      (∀ y, RestVisit kids d1 (kids p) y → d1 y = NGHTTP2_STREAM_DPRI_TOP →
        d2 y = NGHTTP2_STREAM_DPRI_REST) ∧
      (∀ y, ¬ (RestVisit kids d1 (kids p) y ∧ d1 y = NGHTTP2_STREAM_DPRI_TOP) →
        d2 y = d1 y) ∧
      IsRoot (kidsInsert kids p s) r ∧ Above (kidsInsert kids p s) p r ∧
      (∀ y, m'.dpri y = d2 y ∨
        (d2 y = NGHTTP2_STREAM_DPRI_REST ∧ m'.dpri y = NGHTTP2_STREAM_DPRI_TOP)) ∧
      (rv = 0 →
        (∀ y, TopReach (kidsInsert kids p s) d2 [r] y →
          d2 y = NGHTTP2_STREAM_DPRI_REST → m'.dpri y = NGHTTP2_STREAM_DPRI_TOP) ∧
        (∀ y, ¬ (TopReach (kidsInsert kids p s) d2 [r] y ∧
          d2 y = NGHTTP2_STREAM_DPRI_REST) → m'.dpri y = d2 y)) ∧
      SameUser m m' := by
  have hN1 := hw.counts.one_le_N
  have hbs := hw.counts.bound s
  obtain ⟨m1, hrun1, hfr1, hg1a, hg1b, hd1a, hd1b⟩ :=
    set_rest_stream_group_spec hw g fuel [s] m none none (LinkChain_root hw.links hr) rfl rfl
      (fun y hy => hgs y ((InSub_singleton kids s y).1 hy)) (by simp; omega)
  simp only [List.head?_cons] at hrun1
  rw [← hgp] at hrun1
  have hdata1 : m1.data = m.data := by rw [hfr1]
  obtain ⟨m9, d2, r, hrun9, hw9, hfr9, h1, h3, h2, hd2a, hd2b, hroot, habove⟩ :=
    dep_insert_subtree_link hw hr hnot hf hrun1 hfr1
  have hbr := hw9.counts.bound r
  have e3 : m9.dpri = d2 := by rw [hfr9]
  have e4 : m9.data = m.data := by rw [hfr9]; exact hdata1
  obtain ⟨m', rv, hrun', hfr', hmono, hpost⟩ :=
    set_top_spec hw9 fuel [r] m9 none none
      (LinkChain_root hw9.links hroot) rfl rfl (by
        intro y hy
        rw [e3] at hy
        rw [e4]
        apply hdata
        intro hnd
        have hd1 : m1.dpri y = NGHTTP2_STREAM_DPRI_NO_DATA := by
          rw [hd1b y (fun hh => by rw [hnd] at hh; cases hh.2)]; exact hnd
        have hd2 : d2 y = NGHTTP2_STREAM_DPRI_NO_DATA := by
          rw [hd2b y (fun hh => by rw [hd1] at hh; cases hh.2)]; exact hd1
        rw [hd2] at hy; cases hy) (by simp; omega)
  simp only [List.head?_cons] at hrun'
  rw [e3] at hmono hpost
  have hnum' : m'.num_substreams = m9.num_substreams := by rw [hfr']
  have hgrp' : m'.stream_group = m1.stream_group := by rw [hfr', hfr9]
  refine ⟨m', rv, m1.dpri, d2, r, ?_, ?_, ?_, ?_, ?_, ?_, ?_, ?_, ?_, hd2a, hd2b, hroot, habove,
    hmono, hpost, ?_⟩
  · rw [hrun9]; exact hrun'
  · refine ⟨hw9.links.congr (by rw [hfr']) (by rw [hfr']) (by rw [hfr']) (by rw [hfr']), ?_⟩
    rw [hnum']; exact hw9.counts
  · intro y hy; rw [hnum']; exact h1 y hy
  · rw [hnum']; exact h3
  · intro y hy hys; rw [hnum']; exact h2 y hy hys
  · intro y hy
    rw [hgrp']; exact hg1a y ((InSub_singleton kids s y).2 hy)
  · intro y hy
    rw [hgrp']; exact hg1b y (fun h => hy ((InSub_singleton kids s y).1 h))
  · intro y hy; exact hd1a y ((InSub_singleton kids s y).2 hy)
  · intro y hy
    exact hd1b y (fun h => hy ⟨(InSub_singleton kids s y).1 h.1, h.2⟩)
  · unfold SameUser
    rw [hfr', hfr9, hfr1]

/-! ### Frames of the traversals, from a successful run -/

theorem set_rest_stream_group_frame : ∀ (fuel : Nat) (m : Mem) (x og : Option Nat) (m' : Mem),
    stream_update_dep_set_rest_stream_group fuel m x og = .ok m' →
    m' = { m with
      stream_group := m'.stream_group, num_streams := m'.num_streams, dpri := m'.dpri } := by
  intro fuel
  induction fuel with
  | zero =>
    intro m x og m' h
    cases x with
    | none =>
      simp only [stream_update_dep_set_rest_stream_group, Except.ok.injEq] at h
      rw [← h]
    | some c => simp [stream_update_dep_set_rest_stream_group] at h
  | succ n ih =>
    intro m x og m' h
    cases x with
    | none =>
      simp only [stream_update_dep_set_rest_stream_group, Except.ok.injEq] at h
      rw [← h]
    | some c =>
      simp only [stream_update_dep_set_rest_stream_group] at h
      cases hg : m.stream_group c with
      | none => simp [hg, nghttp2_stream_group_remove_stream] at h
      | some g0 =>
        cases og with
        | none =>
          simp [hg, nghttp2_stream_group_remove_stream, nghttp2_stream_group_add_stream] at h
        | some g =>
          simp only [hg, nghttp2_stream_group_remove_stream,
            nghttp2_stream_group_add_stream] at h
          split at h
          · cases h
          · next m4 h4 =>
            have e4 := ih _ _ _ _ h4
            have e5 := ih _ _ _ _ h
            rw [e5, e4]
            split_ifs <;> rfl

theorem set_top_frame : ∀ (fuel : Nat) (m : Mem) (x : Option Nat) (m' : Mem) (rv : Int),
    stream_update_dep_set_top fuel m x = .ok (m', rv) →
    m' = { m with dpri := m'.dpri, queued := m'.queued, pq := m'.pq } := by
  intro fuel
  induction fuel with
  | zero =>
    intro m x m' rv h
    cases x with
    | none =>
      simp only [stream_update_dep_set_top, Except.ok.injEq, Prod.mk.injEq] at h
      rw [← h.1]
    | some c => simp [stream_update_dep_set_top] at h
  | succ n ih =>
    intro m x m' rv h
    cases x with
    | none =>
      simp only [stream_update_dep_set_top, Except.ok.injEq, Prod.mk.injEq] at h
      rw [← h.1]
    | some c =>
      simp only [stream_update_dep_set_top] at h
      split at h
      · exact ih _ _ _ _ h
      · split at h
        · cases h
        · split_ifs at h with h1 h2
          · simp only [Except.ok.injEq, Prod.mk.injEq] at h
            rw [← h.1]
          · have e := ih _ _ _ _ h
            rw [e]
          · have e := ih _ _ _ _ h
            rw [e]
      · split at h
        · cases h
        · next m1 rv1 h1 =>
          have e1 := ih _ _ _ _ h1
          split_ifs at h with h2
          · simp only [Except.ok.injEq, Prod.mk.injEq] at h
            rw [← h.1]; exact e1
          · have e2 := ih _ _ _ _ h
            rw [e2, e1]

/-- Whenever `dep_add_subtree` returns on a well-formed forest, the result is
the well-formed forest in which the tree of the root `s` is the last child of
`p`. -/
theorem dep_add_subtree_WF {m m' : Mem} {kids : Nat → List Nat} {N : Nat} (hw : WF m kids N)
    {p s : Nat} (hr : IsRoot kids s) (hnot : ¬ Above kids p s) {fuel : Nat} (hf : 2 * N ≤ fuel)
    {rv : Int} (hrun : nghttp2_stream_dep_add_subtree fuel m p s = .ok (m', rv)) :
    WF m' (Function.update kids p (kids p ++ [s])) (2 * N) := by
  cases h1 : stream_update_dep_set_rest_stream_group fuel m (some s) (m.stream_group p) with
  | error e =>
    simp only [nghttp2_stream_dep_add_subtree, h1] at hrun
    cases hrun
  | ok m1 =>
    obtain ⟨m4, r, hrun4, hw4, -, -, -, -, -⟩ :=
      dep_add_subtree_link hw hr hnot hf h1 (set_rest_stream_group_frame _ _ _ _ _ h1)
    rw [hrun4] at hrun
    have e := set_top_frame _ _ _ _ _ hrun
    refine ⟨hw4.links.congr (by rw [e]) (by rw [e]) (by rw [e]) (by rw [e]), ?_⟩
    have : m'.num_substreams = m4.num_substreams := by rw [e]
    rw [this]; exact hw4.counts

/-- Whenever `dep_insert_subtree` returns on a well-formed forest, the result
is the well-formed forest in which the tree of the root `s` is the only child
of `p` and the former children of `p` follow the children of `s`. -/
theorem dep_insert_subtree_WF {m m' : Mem} {kids : Nat → List Nat} {N : Nat}
    (hw : WF m kids N) {p s : Nat} (hr : IsRoot kids s) (hnot : ¬ Above kids p s) {fuel : Nat}
    (hf : 2 * N ≤ fuel) {rv : Int}
    (hrun : nghttp2_stream_dep_insert_subtree fuel m p s = .ok (m', rv)) :
    WF m' (kidsInsert kids p s) (2 * N) := by
  cases h1 : stream_update_dep_set_rest_stream_group fuel m (some s) (m.stream_group p) with
  | error e =>
    simp only [nghttp2_stream_dep_insert_subtree, h1] at hrun
    cases hrun
  | ok m1 =>
    obtain ⟨m9, d2, r, hrun9, hw9, -, -, -, -, -, -, -, -⟩ :=
      dep_insert_subtree_link hw hr hnot hf h1 (set_rest_stream_group_frame _ _ _ _ _ h1)
    rw [hrun9] at hrun
    have e := set_top_frame _ _ _ _ _ hrun
    refine ⟨hw9.links.congr (by rw [e]) (by rw [e]) (by rw [e]) (by rw [e]), ?_⟩
    have : m'.num_substreams = m9.num_substreams := by rw [e]
    rw [this]; exact hw9.counts

/-! ### The root of a tree -/

theorem get_dep_root_sib {m : Mem} {kids : Nat → List Nat} (hl : Links m kids) (n : Nat)
    (k : Nat) : ∀ (L : List Nat) (y : Nat) (R : List Nat), kids n = L ++ y :: R →
    nghttp2_stream_get_dep_root (k + L.length + 1) m y = nghttp2_stream_get_dep_root k m n := by
  intro L
  induction L using List.reverseRecOn with
  | nil =>
    intro y R h
    have := hl.at h
    simp only [List.length_nil, Nat.add_zero, nghttp2_stream_get_dep_root, this.2.1, lastOr,
      this.1, if_true]
  | append_singleton L z ih =>
    intro y R h
    have := hl.at h
    have e : kids n = L ++ z :: (y :: R) := by rw [h]; simp
    have hz := ih z (y :: R) e
    rw [lastOr_append_singleton] at this
    simp only [List.length_append, List.length_singleton, nghttp2_stream_get_dep_root, this.2.1]
    rw [← hz]
    rfl

theorem get_dep_root_spec {m : Mem} {kids : Nat → List Nat} {N : Nat} (hw : WF m kids N) :
    ∀ (fuel : Nat) (x : Nat), (N : Int) + 1 - m.num_substreams x ≤ fuel →
    ∃ r, nghttp2_stream_get_dep_root fuel m x = .ok r ∧ IsRoot kids r ∧ Above kids x r := by
  intro fuel
  induction fuel using Nat.strong_induction_on with
  | _ fuel ih =>
    intro x hx
    have hb := hw.counts.bound x
    by_cases hr : IsRoot kids x
    · obtain ⟨k, rfl⟩ : ∃ k, fuel = k + 1 := ⟨fuel - 1, by omega⟩
      have := hw.links.root x hr
      refine ⟨x, ?_, hr, Above.self⟩
      simp only [nghttp2_stream_get_dep_root, this.1, this.2.1]
    · unfold IsRoot at hr
      push_neg at hr
      obtain ⟨n, hn⟩ := hr
      obtain ⟨L, R, hk⟩ := List.append_of_mem hn
      have hsplit := hw.counts.split_le hk
      have hbn := hw.counts.bound n
      obtain ⟨k, rfl⟩ : ∃ k, fuel = k + L.length + 1 := ⟨fuel - L.length - 1, by omega⟩
      obtain ⟨r, hrun, hroot, hab⟩ := ih k (by omega) n (by push_cast at hx; omega)
      refine ⟨r, ?_, hroot, ?_⟩
      · rw [get_dep_root_sib hw.links n k L x R hk]; exact hrun
      · exact Above.trans (Above.up x n Above.self hn) hab

/-! ### Sequences of structural operations -/

theorem Returns.with_fuel {α : Type} {run : Nat → Except Fault α} {r : α} (h : Returns run r)
    (k : Nat) : ∃ fuel, k ≤ fuel ∧ run fuel = .ok r := by
  obtain ⟨F, hF⟩ := h
  exact ⟨max F k, le_max_right _ _, hF _ (le_max_left _ _)⟩

theorem WF.mono {m : Mem} {kids : Nat → List Nat} {N N' : Nat} (hw : WF m kids N)
    (h : N ≤ N') : WF m kids N' :=
  ⟨hw.links, ⟨hw.counts.eq, hw.counts.pos, fun n => by
    have := hw.counts.bound n
    have : (N : Int) ≤ N' := by exact_mod_cast h
    omega⟩⟩

theorem Links.isRoot_of_null {m : Mem} {kids : Nat → List Nat} (hl : Links m kids) {s : Nat}
    (h1 : m.dep_prev s = none) (h2 : m.sib_prev s = none) : IsRoot kids s := by
  intro n hn
  obtain ⟨L, R, hk⟩ := List.append_of_mem hn
  have := hl.at hk
  rcases List.eq_nil_or_concat L with rfl | ⟨L', z, rfl⟩
  · rw [h1] at this; simp at this
  · rw [h2] at this
    simp only [List.concat_eq_append] at this
    rw [lastOr_append_singleton] at this
    simp at this

theorem Links.isolated_of_noLinks {m : Mem} {kids : Nat → List Nat} (hl : Links m kids)
    {s : Nat} (h : NoLinks m s) : Isolated kids s := by
  refine ⟨hl.isRoot_of_null h.1 h.2.2.1, ?_⟩
  have := hl.dep_next s
  rw [h.2.1] at this
  cases hk : kids s with
  | nil => rfl
  | cons c cs => rw [hk] at this; simp at this

theorem WF_of_allIsolated {m : Mem} (h : AllIsolated m) : WF m (fun _ => []) 1 := by
  refine ⟨⟨fun _ => List.nodup_nil, fun _ _ c hc => by simp at hc, fun n => ?_, fun _ => trivial,
    fun x _ => ⟨(h x).1.1, (h x).1.2.2.1, (h x).1.2.2.2⟩⟩, ⟨fun n => ?_, fun n => ?_, fun n => ?_⟩⟩
  · exact (h n).1.2.1
  · rw [(h n).2]; simp
  · rw [(h n).2]
  · rw [(h n).2]; simp

theorem not_above_of_root_ne {m : Mem} {kids : Nat → List Nat} (hl : Links m kids)
    {p s r : Nat} (hs : IsRoot kids s) (hr : IsRoot kids r) (hpr : Above kids p r)
    (hne : r ≠ s) : ¬ Above kids p s := by
  intro h
  rcases Above.comparable hl h hpr with h1 | h1
  · exact hne (Above.root_eq hs h1)
  · exact hne (Above.root_eq hr h1).symm

/-- Every structural operation keeps the forest well-formed. -/
theorem StructOp.preserves_WF {m m' : Mem} (h : StructOp m m') {kids : Nat → List Nat}
    {N : Nat} (hw : WF m kids N) : ∃ kids' N', WF m' kids' N' := by
  cases h with
  | dep_insert p s hps hno hret =>
    obtain ⟨fuel, hf, hrun⟩ := hret.with_fuel N
    have hd : m.data s = none := by
      by_contra hd
      simp [nghttp2_stream_dep_insert, hd] at hrun
    obtain ⟨m'', hrun', hw', -⟩ :=
      dep_insert_spec hw hps (hw.links.isolated_of_noLinks hno) hd hf
    rw [hrun] at hrun'
    cases hrun'
    exact ⟨_, _, hw'⟩
  | dep_add p s hps hno hret =>
    obtain ⟨fuel, hf, hrun⟩ := hret.with_fuel N
    have hd : m.data s = none := by
      by_contra hd
      simp [nghttp2_stream_dep_add, hd] at hrun
    obtain ⟨m'', hrun', hw', -⟩ :=
      dep_add_spec hw hps (hw.links.isolated_of_noLinks hno) hd hf
    rw [hrun] at hrun'
    cases hrun'
    exact ⟨_, _, hw'⟩
  | dep_remove s hret =>
    obtain ⟨fuel, hf, hrun⟩ := hret.with_fuel N
    by_cases hr : IsRoot kids s
    · obtain ⟨m'', hrun', hw', -⟩ := dep_remove_root_spec hw hr hf
      rw [hrun] at hrun'
      cases hrun'
      exact ⟨_, _, hw'⟩
    · unfold IsRoot at hr
      push_neg at hr
      obtain ⟨n, hn⟩ := hr
      obtain ⟨L, R, hk⟩ := List.append_of_mem hn
      obtain ⟨m'', hrun', hw', -⟩ := dep_remove_spec hw hk hf
      rw [hrun] at hrun'
      cases hrun'
      exact ⟨_, _, hw'⟩
  | dep_insert_subtree p s r rv h1 h2 hroot hne hret =>
    obtain ⟨fuel, hf, hrun⟩ := hret.with_fuel (2 * N)
    obtain ⟨f2, hf2, hrun2⟩ := hroot.with_fuel N
    have hs := hw.links.isRoot_of_null h1 h2
    obtain ⟨r', hr', hrr, hab⟩ := get_dep_root_spec hw f2 p (by
      have := hw.counts.pos p
      have : (N : Int) ≤ f2 := by exact_mod_cast hf2
      omega)
    rw [hrun2] at hr'
    cases hr'
    exact ⟨_, _, dep_insert_subtree_WF hw hs (not_above_of_root_ne hw.links hs hrr hab hne) hf
      hrun⟩
  | dep_add_subtree p s r rv h1 h2 hroot hne hret =>
    obtain ⟨fuel, hf, hrun⟩ := hret.with_fuel (2 * N)
    obtain ⟨f2, hf2, hrun2⟩ := hroot.with_fuel N
    have hs := hw.links.isRoot_of_null h1 h2
    obtain ⟨r', hr', hrr, hab⟩ := get_dep_root_spec hw f2 p (by
      have := hw.counts.pos p
      have : (N : Int) ≤ f2 := by exact_mod_cast hf2
      omega)
    rw [hrun2] at hr'
    cases hr'
    exact ⟨_, _, dep_add_subtree_WF hw hs (not_above_of_root_ne hw.links hs hrr hab hne) hf
      hrun⟩
  | dep_remove_subtree s hret =>
    obtain ⟨fuel, hf, hrun⟩ := hret.with_fuel N
    by_cases hr : IsRoot kids s
    · rw [dep_remove_subtree_root hw hr fuel] at hrun
      cases hrun
      exact ⟨_, _, hw⟩
    · unfold IsRoot at hr
      push_neg at hr
      obtain ⟨n, hn⟩ := hr
      obtain ⟨L, R, hk⟩ := List.append_of_mem hn
      obtain ⟨m'', hrun', hw', -⟩ := dep_remove_subtree_spec hw hk hf
      rw [hrun] at hrun'
      cases hrun'
      exact ⟨_, _, hw'⟩

/-- Every memory reached from isolated streams by structural operations is a
well-formed forest. -/
theorem Reachable.wellFormed {m0 m : Mem} (h0 : AllIsolated m0) (h : Reachable m0 m) :
    ∃ kids N, WF m kids N := by
  induction h with
  | init => exact ⟨_, _, WF_of_allIsolated h0⟩
  | step m1 m2 _ hs ih =>
    obtain ⟨kids, N, hw⟩ := ih
    exact hs.preserves_WF hw

/-! ## Concrete memories -/

theorem allIsolated_mem_init : AllIsolated mem_init := fun _ => ⟨⟨rfl, rfl, rfl, rfl⟩, rfl⟩

theorem WF_memA : WF memA kidsA 2 := by
  obtain ⟨m', hrun, hw', -⟩ := dep_add_spec (WF_of_allIsolated allIsolated_mem_init)
    (show (1 : Nat) ≠ 2 by decide) ⟨fun n => by simp, rfl⟩ rfl (le_refl 1)
  have e : memA = m' := by unfold memA; rw [hrun]; rfl
  rw [e]
  simpa [kidsA] using hw'

theorem isolated_kidsA {x : Nat} (h1 : x ≠ 1) (h2 : x ≠ 2) : Isolated kidsA x := by
  refine ⟨fun n hn => ?_, ?_⟩
  · unfold kidsA at hn
    by_cases h : n = 1
    · subst h; simp at hn; exact h2 hn
    · rw [Function.update_noteq h] at hn; simp at hn
  · unfold kidsA
    rw [Function.update_noteq h1]

theorem memA_data (x : Nat) : memA.data x = none := by
  obtain ⟨m', hrun, -, -, -, hsd⟩ := dep_add_spec (WF_of_allIsolated allIsolated_mem_init)
    (show (1 : Nat) ≠ 2 by decide) ⟨fun n => by simp, rfl⟩ rfl (le_refl 1)
  have e : memA = m' := by unfold memA; rw [hrun]; rfl
  rw [e, hsd]
  rfl

/-- C1 at the window `2^31 - 10` with `new_iws = 1000` and `old_iws = 5`: the
local update fails with -1 and changes nothing; the remote window 65535
becomes 66530. -/
theorem C1_update_initial_window_size_witness :
    nghttp2_stream_update_local_initial_window_size mem_init 0 1000 5 = (mem_init, -1) ∧
    nghttp2_stream_update_remote_initial_window_size mem_init 0 1000 5 =
      ({ mem_init with
          remote_window_size := Function.update mem_init.remote_window_size 0 66530 }, 0) := by
  have h := C1_update_initial_window_size mem_init 0 1000 5 (by decide) (by decide) (by decide)
    (by decide)
  refine ⟨?_, ?_⟩
  · rw [h.2, if_neg (by decide)]
  · rw [h.1, if_pos (by decide)]
    rfl

/-! ## Exclusive insert -/

/-- C5: in a well-formed forest with children map `kids`, for a stream `p` and
an isolated stream `s` (other than `p`) with no data, `dep_insert` returns, and
afterwards `s` is the only child of `p` (`p.dep_next = s`, `s.dep_prev = p`,
`s.sib_prev = s.sib_next = null`), the children of `s` are the former children
of `p` in the same order (the memory lays out the forest in which `p` has the
children `[s]` and `s` has the children `kids p`), `s.num_substreams` is 1 plus
the sum of the counts of these children, which are unchanged, and the count of
`p` and of every ancestor of `p` has grown by exactly 1. -/
theorem C5_dep_insert (m : Mem) (kids : Nat → List Nat) (N : Nat) (hw : WF m kids N)
    (p s : Nat) (hps : p ≠ s) (hs : Isolated kids s) (hd : m.data s = none) (fuel : Nat)
    (hf : N ≤ fuel) :
    ∃ m', nghttp2_stream_dep_insert fuel m p s = .ok m' ∧
      m'.dep_next p = some s ∧ m'.dep_prev s = some p ∧ m'.sib_prev s = none ∧
      m'.sib_next s = none ∧
      WF m' (Function.update (Function.update kids p [s]) s (kids p)) (N + 1) ∧
      m'.num_substreams s = 1 + ((kids p).map m'.num_substreams).sum ∧
      (∀ c ∈ kids p, m'.num_substreams c = m.num_substreams c) ∧
      (∀ a, Above kids p a → m'.num_substreams a = m.num_substreams a + 1) := by
  obtain ⟨m', hrun, hw', hab, -, hnab, -⟩ := dep_insert_spec hw hps hs hd hf
  have hk : kidsInsert kids p s = Function.update (Function.update kids p [s]) s (kids p) := by
    unfold kidsInsert
    rw [hs.2, List.nil_append]
  rw [hk] at hw'
  have hkp : Function.update (Function.update kids p [s]) s (kids p) p = [] ++ s :: [] := by
    rw [Function.update_noteq hps, Function.update_same]
    rfl
  have hks : Function.update (Function.update kids p [s]) s (kids p) s = kids p := by
    rw [Function.update_same]
  have hat := hw'.links.at hkp
  refine ⟨m', hrun, ?_, ?_, ?_, ?_, hw', ?_, ?_, hab⟩
  · rw [hw'.links.dep_next, hkp]; rfl
  · simpa using hat.1
  · simpa [lastOr] using hat.2.1
  · simpa using hat.2.2
  · have := hw'.counts.eq s
    rw [hks] at this
    exact this
  · intro c hc
    exact hnab c (hw.counts.not_above_of_mem hc) (fun e => hs.1 p (e ▸ hc))

/-- C5 on the forest `1 -> 2` with `p = 1` and the isolated stream `s = 3`. -/
theorem C5_dep_insert_witness :
    ∃ m', nghttp2_stream_dep_insert 2 memA 1 3 = .ok m' ∧
      m'.dep_next 1 = some 3 ∧ m'.dep_prev 3 = some 1 ∧ m'.sib_prev 3 = none ∧
      m'.sib_next 3 = none ∧
      WF m' (Function.update (Function.update kidsA 1 [3]) 3 (kidsA 1)) (2 + 1) ∧
      m'.num_substreams 3 = 1 + ((kidsA 1).map m'.num_substreams).sum ∧
      (∀ c ∈ kidsA 1, m'.num_substreams c = memA.num_substreams c) ∧
      (∀ a, Above kidsA 1 a → m'.num_substreams a = memA.num_substreams a + 1) :=
  C5_dep_insert memA kidsA 2 WF_memA 1 3 (by decide)
    (isolated_kidsA (by decide) (by decide)) (memA_data 3) 2 (le_refl 2)

/-! ## Single-node removal -/

/-- C6: in a well-formed forest, `dep_remove` of any stream `s` returns, and
afterwards `s` is isolated (all four links null, `num_substreams = 1`); if `s`
had the parent `p` with children `L ++ [s] ++ R`, the memory lays out the
forest in which `p` has the children `L ++ children(s) ++ R` and `s` has none,
and the count of `p` and of every ancestor of `p` has decreased by exactly 1;
if `s` was a root, the memory lays out the forest in which `s` has no
children, and every former child of `s` has null `dep_prev`, `sib_prev` and
`sib_next` and keeps its `dep_next` and its `num_substreams`. -/
theorem C6_dep_remove (m : Mem) (kids : Nat → List Nat) (N : Nat) (hw : WF m kids N)
    (s : Nat) (fuel : Nat) (hf : N ≤ fuel) :
    ∃ m', nghttp2_stream_dep_remove fuel m s = .ok m' ∧
      (m'.dep_prev s = none ∧ m'.dep_next s = none ∧ m'.sib_prev s = none ∧
        m'.sib_next s = none ∧ m'.num_substreams s = 1) ∧
      (∀ p L R, kids p = L ++ s :: R →
        WF m' (Function.update (Function.update kids p (L ++ (kids s ++ R))) s []) N ∧
        ∀ a, Above kids p a → m'.num_substreams a = m.num_substreams a - 1) ∧
      (IsRoot kids s →
        WF m' (Function.update kids s []) N ∧
        ∀ c ∈ kids s, m'.dep_prev c = none ∧ m'.sib_prev c = none ∧ m'.sib_next c = none ∧
          m'.dep_next c = m.dep_next c ∧ m'.num_substreams c = m.num_substreams c) := by
  by_cases hr : IsRoot kids s
  · obtain ⟨m', hrun, hw', hns, hnum, -, hdn, hdp, hsp, hsn⟩ := dep_remove_root_spec hw hr hf
    refine ⟨m', hrun, ⟨?_, ?_, ?_, ?_, hns⟩, ?_, ?_⟩
    · rw [hdp, if_pos (Or.inl rfl)]
    · rw [hdn, if_pos rfl]
    · rw [hsp, if_pos (Or.inl rfl)]
    · rw [hsn, if_pos (Or.inl rfl)]
    · intro p L R hk
      exact absurd (by rw [hk]; simp) (hr p)
    · intro _
      refine ⟨hw', ?_⟩
      intro c hc
      have hcs : c ≠ s := fun e => hr s (e ▸ hc)
      refine ⟨?_, ?_, ?_, ?_, hnum c hcs⟩
      · rw [hdp, if_pos (Or.inr hc)]
      · rw [hsp, if_pos (Or.inr hc)]
      · rw [hsn, if_pos (Or.inr hc)]
      · rw [hdn, if_neg hcs]
  · have hr' := hr
    unfold IsRoot at hr'
    push_neg at hr'
    obtain ⟨p0, hp0⟩ := hr'
    obtain ⟨L0, R0, hk0⟩ := List.append_of_mem hp0
    obtain ⟨m', hrun, -, -, hns, -, -, hdn, hdp, hsp, hsn⟩ := dep_remove_spec hw hk0 hf
    refine ⟨m', hrun, ⟨?_, ?_, ?_, ?_, hns⟩, ?_, fun h => absurd h hr⟩
    · rw [hdp, if_pos rfl]
    · rw [hdn, if_pos rfl]
    · rw [hsp, if_pos rfl]
    · rw [hsn, if_pos rfl]
    · intro p L R hk
      obtain ⟨m'', hrun', hw', hab, -⟩ := dep_remove_spec hw hk hf
      rw [hrun] at hrun'
      cases hrun'
      exact ⟨hw', hab⟩

/-- C6 on the forest `1 -> 2`: removal of the child 2 (parent 1, `L = R = []`)
and of any stream. -/
theorem C6_dep_remove_witness :
    ∃ m', nghttp2_stream_dep_remove 2 memA 2 = .ok m' ∧
      (m'.dep_prev 2 = none ∧ m'.dep_next 2 = none ∧ m'.sib_prev 2 = none ∧
        m'.sib_next 2 = none ∧ m'.num_substreams 2 = 1) ∧
      (∀ p L R, kidsA p = L ++ 2 :: R →
        WF m' (Function.update (Function.update kidsA p (L ++ (kidsA 2 ++ R))) 2 []) 2 ∧
        ∀ a, Above kidsA p a → m'.num_substreams a = memA.num_substreams a - 1) ∧
      (IsRoot kidsA 2 →
        WF m' (Function.update kidsA 2 []) 2 ∧
        ∀ c ∈ kidsA 2, m'.dep_prev c = none ∧ m'.sib_prev c = none ∧ m'.sib_next c = none ∧
          m'.dep_next c = memA.dep_next c ∧ m'.num_substreams c = memA.num_substreams c) :=
  C6_dep_remove memA kidsA 2 WF_memA 2 2 (le_refl 2)

/-! ## Insert/remove round trip -/

theorem Links.unique {m m' : Mem} {kids : Nat → List Nat} (h : Links m kids)
    (h' : Links m' kids) :
    m'.dep_prev = m.dep_prev ∧ m'.dep_next = m.dep_next ∧ m'.sib_prev = m.sib_prev ∧
      m'.sib_next = m.sib_next := by
  have key : ∀ y, m'.dep_prev y = m.dep_prev y ∧ m'.sib_prev y = m.sib_prev y ∧
      m'.sib_next y = m.sib_next y := by
    intro y
    by_cases hr : IsRoot kids y
    · have a := h.root y hr
      have b := h'.root y hr
      rw [a.1, a.2.1, a.2.2, b.1, b.2.1, b.2.2]
      exact ⟨rfl, rfl, rfl⟩
    · unfold IsRoot at hr
      push_neg at hr
      obtain ⟨n, hn⟩ := hr
      obtain ⟨L, R, hk⟩ := List.append_of_mem hn
      have a := h.at hk
      have b := h'.at hk
      rw [a.1, a.2.1, a.2.2, b.1, b.2.1, b.2.2]
      exact ⟨rfl, rfl, rfl⟩
  refine ⟨funext fun y => (key y).1, funext fun y => ?_, funext fun y => (key y).2.1,
    funext fun y => (key y).2.2⟩
  rw [h.dep_next, h'.dep_next]

/-- C7: in a well-formed forest, for a stream `p` and an isolated stream `s`
(other than `p`) with no data, `dep_insert(p, s)` followed by `dep_remove(s)`
both return, and the final memory is the initial one: every stream, `s`
included, has its previous `dep_prev`, `dep_next`, `sib_prev`, `sib_next` and
`num_substreams` (and every other field). -/
theorem C7_insert_remove_round_trip (m : Mem) (kids : Nat → List Nat) (N : Nat)
    (hw : WF m kids N) (p s : Nat) (hps : p ≠ s) (hs : Isolated kids s)
    (hd : m.data s = none) (fuel : Nat) (hf : N + 1 ≤ fuel) :
    ∃ m1 m2, nghttp2_stream_dep_insert fuel m p s = .ok m1 ∧
      nghttp2_stream_dep_remove fuel m1 s = .ok m2 ∧
      (∀ x, m2.dep_prev x = m.dep_prev x ∧ m2.dep_next x = m.dep_next x ∧
        m2.sib_prev x = m.sib_prev x ∧ m2.sib_next x = m.sib_next x ∧
        m2.num_substreams x = m.num_substreams x) ∧
      m2 = m := by
  have hnot : ¬ Above kids p s := hs.not_above hps
  obtain ⟨m1, hrun1, hw1, hab1, -, hnab1, hsd1⟩ :=
    dep_insert_spec hw hps hs hd (show N ≤ fuel by omega)
  have hk1 : kidsInsert kids p s p = [] ++ s :: [] := kidsInsert_p kids hps
  obtain ⟨m2, hrun2, hw2, hab2, hns2, hnab2, hsd2, -⟩ := dep_remove_spec hw1 hk1 hf
  have hkk : kidsRemove (kidsInsert kids p s) p s [] [] = kids := by
    funext n
    unfold kidsRemove
    by_cases hns : n = s
    · subst hns
      rw [Function.update_same, hs.2]
    · rw [Function.update_noteq hns]
      by_cases hnp : n = p
      · subst hnp
        rw [Function.update_same, kidsInsert_s, hs.2]
        simp
      · rw [Function.update_noteq hnp, kidsInsert_other kids hns hnp]
  rw [hkk] at hw2
  obtain ⟨e1, e2, e3, e4⟩ := hw.links.unique hw2.links
  have e5 : m2.num_substreams = m.num_substreams := by
    funext y
    by_cases hy : Above kids p y
    · rw [hab2 y ((above_insert_iff hw.links hw.counts hs.1 hnot y).1 hy), hab1 y hy]
      ring
    · have hy' : ¬ Above (kidsInsert kids p s) p y := fun h =>
        hy ((above_insert_iff hw.links hw.counts hs.1 hnot y).2 h)
      by_cases hys : y = s
      · subst hys
        rw [hns2, hs.num_eq_one hw.counts]
      · rw [hnab2 y hy' hys, hnab1 y hy hys]
  have e6 : m2 = m := by
    unfold SameData at hsd1 hsd2
    have e : m2 = { m with
        dep_prev := m2.dep_prev
        dep_next := m2.dep_next
        sib_prev := m2.sib_prev
        sib_next := m2.sib_next
        num_substreams := m2.num_substreams } := by
      rw [hsd2, hsd1]
    rw [e, e1, e2, e3, e4, e5]
  refine ⟨m1, m2, hrun1, hrun2, ?_, e6⟩
  intro x
  rw [e6]
  exact ⟨rfl, rfl, rfl, rfl, rfl⟩

/-- C7 on the forest `1 -> 2` with `p = 1` and the isolated stream `s = 3`. -/
theorem C7_insert_remove_round_trip_witness :
    ∃ m1 m2, nghttp2_stream_dep_insert 3 memA 1 3 = .ok m1 ∧
      nghttp2_stream_dep_remove 3 m1 3 = .ok m2 ∧
      (∀ x, m2.dep_prev x = memA.dep_prev x ∧ m2.dep_next x = memA.dep_next x ∧
        m2.sib_prev x = memA.sib_prev x ∧ m2.sib_next x = memA.sib_next x ∧
        m2.num_substreams x = memA.num_substreams x) ∧
      m2 = memA :=
  C7_insert_remove_round_trip memA kidsA 2 WF_memA 1 3 (by decide)
    (isolated_kidsA (by decide) (by decide)) (memA_data 3) 3 (le_refl 3)

/-! ## Non-exclusive add -/

theorem isRoot_kidsA {x : Nat} (h2 : x ≠ 2) : IsRoot kidsA x := by
  intro n hn
  unfold kidsA at hn
  by_cases h : n = 1
  · subst h; simp at hn; exact h2 hn
  · rw [Function.update_noteq h] at hn; simp at hn

theorem WF_memB : WF memB kidsB 3 := by
  obtain ⟨m', hrun, hw', -⟩ := dep_add_spec WF_memA (show (1 : Nat) ≠ 3 by decide)
    (isolated_kidsA (by decide) (by decide)) (memA_data 3) (le_refl 2)
  have e : memB = m' := by unfold memB; rw [hrun]; rfl
  rw [e]
  have ek : kidsB = Function.update kidsA 1 (kidsA 1 ++ [3]) := by
    unfold kidsB
    congr 1
  rw [ek]
  exact hw'

theorem isolated_kidsB_zero : Isolated kidsB 0 := by
  refine ⟨fun n hn => ?_, rfl⟩
  unfold kidsB at hn
  by_cases h : n = 1
  · subst h; simp at hn
  · rw [Function.update_noteq h] at hn
    exact (isolated_kidsA (show (0 : Nat) ≠ 1 by decide) (by decide)).1 n hn

/-- C8 fails for a stream with children and for a stream with a parent.
In the well-formed forest `1 -> 2` the stream 0 is isolated, the stream 1 is a
root with no data and `num_substreams(1) = 2`; yet `dep_add(0, 1)` returns with
`num_substreams(0)` increased by 1 only.
In the well-formed forest `1 -> 2, 3` the stream 0 is isolated and the stream 2
has no data; yet after `dep_add(0, 2)` the sibling run that starts at
`dep_next` of stream 0 continues after stream 2 with stream 3, so stream 2 is
not its last element. -/
theorem C8_counterexample :
    (WF memA kidsA 2 ∧ Isolated kidsA 0 ∧ IsRoot kidsA 1 ∧ memA.data 1 = none ∧
      memA.num_substreams 1 = 2 ∧
      ∃ m', nghttp2_stream_dep_add 3 memA 0 1 = .ok m' ∧
        m'.num_substreams 0 = memA.num_substreams 0 + 1 ∧
        m'.num_substreams 0 ≠ memA.num_substreams 0 + memA.num_substreams 1) ∧
    (WF memB kidsB 3 ∧ Isolated kidsB 0 ∧ memB.data 2 = none ∧
      ∃ m', nghttp2_stream_dep_add 3 memB 0 2 = .ok m' ∧
        m'.dep_next 0 = some 2 ∧ m'.sib_next 2 = some 3) := by
  refine ⟨⟨WF_memA, isolated_kidsA (by decide) (by decide), isRoot_kidsA (by decide),
    memA_data 1, by decide, okOr (nghttp2_stream_dep_add 3 memA 0 1) mem_init, rfl, by decide,
    by decide⟩, WF_memB, isolated_kidsB_zero, by decide,
    okOr (nghttp2_stream_dep_add 3 memB 0 2) mem_init, rfl, by decide, by decide⟩

/-- C8, amended: in a well-formed forest, for a stream `p` and an isolated
stream `s` (other than `p`) with no data, `dep_add` returns, and afterwards `s`
is the last element of the children list of `p` (the memory lays out the forest
in which `p` has the children `kids p ++ [s]`, so the earlier children keep
their order, `s.sib_next = null`, and `s` is the first child, with
`p.dep_next = s` and `s.dep_prev = p`, if `p` had none), and the count of `p`
and of every ancestor of `p` has grown by `s.num_substreams`, which is 1. -/
theorem C8_dep_add (m : Mem) (kids : Nat → List Nat) (N : Nat) (hw : WF m kids N)
    (p s : Nat) (hps : p ≠ s) (hs : Isolated kids s) (hd : m.data s = none) (fuel : Nat)
    (hf : N ≤ fuel) :
    ∃ m', nghttp2_stream_dep_add fuel m p s = .ok m' ∧
      WF m' (Function.update kids p (kids p ++ [s])) (N + 1) ∧
      m'.sib_next s = none ∧
      (kids p = [] → m'.dep_next p = some s ∧ m'.dep_prev s = some p ∧ m'.sib_prev s = none) ∧
      (∀ c cs, kids p = c :: cs → m'.dep_next p = some c ∧ m'.dep_prev s = none ∧
        m'.sib_prev s = (c :: cs).getLast?) ∧
      m.num_substreams s = 1 ∧
      (∀ a, Above kids p a →
        m'.num_substreams a = m.num_substreams a + m.num_substreams s) := by
  obtain ⟨m', hrun, hw', hab, -, -⟩ := dep_add_spec hw hps hs hd hf
  have hone := hs.num_eq_one hw.counts
  have hkp : Function.update kids p (kids p ++ [s]) p = kids p ++ s :: [] := by
    rw [Function.update_same]
  have hat := hw'.links.at hkp
  refine ⟨m', hrun, hw', ?_, ?_, ?_, hone, ?_⟩
  · simpa using hat.2.2
  · intro hk
    rw [hk] at hkp hat
    refine ⟨?_, by simpa using hat.1, by simpa [lastOr] using hat.2.1⟩
    rw [hw'.links.dep_next, Function.update_same, hk]; rfl
  · intro c cs hk
    rw [hk] at hkp hat
    refine ⟨?_, by simpa using hat.1, ?_⟩
    · rw [hw'.links.dep_next, Function.update_same, hk]; rfl
    · rw [hat.2.1, lastOr_none_eq_getLast?]
  · intro a ha
    rw [hab a ha, hone]

/-- C8, amended, on the forest `1 -> 2` with `p = 1` and the isolated stream
`s = 3`. -/
theorem C8_dep_add_witness :
    ∃ m', nghttp2_stream_dep_add 2 memA 1 3 = .ok m' ∧
      WF m' (Function.update kidsA 1 (kidsA 1 ++ [3])) (2 + 1) ∧
      m'.sib_next 3 = none ∧
      (kidsA 1 = [] → m'.dep_next 1 = some 3 ∧ m'.dep_prev 3 = some 1 ∧
        m'.sib_prev 3 = none) ∧
      (∀ c cs, kidsA 1 = c :: cs → m'.dep_next 1 = some c ∧ m'.dep_prev 3 = none ∧
        m'.sib_prev 3 = (c :: cs).getLast?) ∧
      memA.num_substreams 3 = 1 ∧
      (∀ a, Above kidsA 1 a →
        m'.num_substreams a = memA.num_substreams a + memA.num_substreams 3) :=
  C8_dep_add memA kidsA 2 WF_memA 1 3 (by decide)
    (isolated_kidsA (by decide) (by decide)) (memA_data 3) 2 (le_refl 2)

/-! ## Subtree removal -/

/-- C9: in a well-formed forest, `dep_remove_subtree` of any stream `s`
returns; if `s` is a root the memory is unchanged; if `s` is a child of `p`,
whose children are `L ++ [s] ++ R`, then afterwards `s.dep_prev`, `s.sib_prev`
and `s.sib_next` are null, `s.dep_next` and `s.num_substreams` are unchanged,
the four links and the count of every descendant of `s` are unchanged, the
memory lays out the forest in which `p` has the children `L ++ R`, and the
count of `p` and of every ancestor of `p` has decreased by exactly
`s.num_substreams`. -/
theorem C9_dep_remove_subtree (m : Mem) (kids : Nat → List Nat) (N : Nat) (hw : WF m kids N)
    (s : Nat) (fuel : Nat) (hf : N ≤ fuel) :
    ∃ m', nghttp2_stream_dep_remove_subtree fuel m s = .ok m' ∧
      (IsRoot kids s → m' = m) ∧
      (∀ p L R, kids p = L ++ s :: R →
        (m'.dep_prev s = none ∧ m'.sib_prev s = none ∧ m'.sib_next s = none ∧
          m'.dep_next s = m.dep_next s ∧ m'.num_substreams s = m.num_substreams s) ∧
        (∀ y, Above kids y s → y ≠ s →
          m'.dep_prev y = m.dep_prev y ∧ m'.dep_next y = m.dep_next y ∧
          m'.sib_prev y = m.sib_prev y ∧ m'.sib_next y = m.sib_next y ∧
          m'.num_substreams y = m.num_substreams y) ∧
        WF m' (Function.update kids p (L ++ R)) N ∧
        (∀ a, Above kids p a →
          m'.num_substreams a = m.num_substreams a - m.num_substreams s)) := by
  by_cases hr : IsRoot kids s
  · refine ⟨m, dep_remove_subtree_root hw hr fuel, fun _ => rfl, ?_⟩
    intro p L R hk
    exact absurd (by rw [hk]; simp) (hr p)
  · have hr' := hr
    unfold IsRoot at hr'
    push_neg at hr'
    obtain ⟨p0, hp0⟩ := hr'
    obtain ⟨L0, R0, hk0⟩ := List.append_of_mem hp0
    obtain ⟨m', hrun, -⟩ := dep_remove_subtree_spec hw hk0 hf
    refine ⟨m', hrun, fun h => absurd h hr, ?_⟩
    intro p L R hk
    obtain ⟨m'', hrun', hw', hab, hnab, -, hdn, hdp, hsp, hsn⟩ :=
      dep_remove_subtree_spec hw hk hf
    rw [hrun] at hrun'
    cases hrun'
    have hsp0 : s ∈ kids p := by rw [hk]; simp
    have hnps : ¬ Above kids p s := hw.counts.not_above_of_mem hsp0
    have hps : s ≠ p := fun e => hnps (e ▸ Above.self)
    have hnd := hw.links.nodup p
    rw [hk] at hnd
    -- streams below `s` are away from the children of `p` and from `p`
    have hbelow : ∀ y, Above kids y s → y ≠ s → y ≠ p ∧ y ∉ kids p ∧ ¬ Above kids p y := by
      intro y hy hys
      have h1 : ¬ Above kids p y := fun h => hnps (h.trans hy)
      refine ⟨fun e => h1 (e ▸ Above.self), ?_, h1⟩
      intro hyp
      rcases (above_child_iff hw.links hyp s).1 hy with e | h
      · exact hys e.symm
      · exact hnps h
    refine ⟨⟨?_, ?_, ?_, ?_, ?_⟩, ?_, hw', hab⟩
    · rw [hdp, if_pos rfl]
    · rw [hsp, if_pos rfl]
    · rw [hsn, if_pos rfl]
    · rw [hdn, if_neg hps]
    · exact hnab s hnps
    · intro y hy hys
      obtain ⟨hyp, hykp, hnab'⟩ := hbelow y hy hys
      have hR : R.head? ≠ some y := by
        intro h
        apply hykp
        rw [hk]
        have := List.mem_of_mem_head? h
        simp [this]
      have hL : L.getLast? ≠ some y := by
        intro h
        apply hykp
        rw [hk]
        have := List.mem_of_getLast?_eq_some h
        simp [this]
      refine ⟨?_, ?_, ?_, ?_, hnab y hnab'⟩
      · rw [hdp, if_neg hys, if_neg hR]
      · rw [hdn, if_neg hyp]
      · rw [hsp, if_neg hys, if_neg hR]
      · rw [hsn, if_neg hys, if_neg hL]

/-- C9 on the forest `1 -> 2`, for the child `s = 2`. -/
theorem C9_dep_remove_subtree_witness :
    ∃ m', nghttp2_stream_dep_remove_subtree 2 memA 2 = .ok m' ∧
      (IsRoot kidsA 2 → m' = memA) ∧
      (∀ p L R, kidsA p = L ++ 2 :: R →
        (m'.dep_prev 2 = none ∧ m'.sib_prev 2 = none ∧ m'.sib_next 2 = none ∧
          m'.dep_next 2 = memA.dep_next 2 ∧ m'.num_substreams 2 = memA.num_substreams 2) ∧
        (∀ y, Above kidsA y 2 → y ≠ 2 →
          m'.dep_prev y = memA.dep_prev y ∧ m'.dep_next y = memA.dep_next y ∧
          m'.sib_prev y = memA.sib_prev y ∧ m'.sib_next y = memA.sib_next y ∧
          m'.num_substreams y = memA.num_substreams y) ∧
        WF m' (Function.update kidsA p (L ++ R)) 2 ∧
        (∀ a, Above kidsA p a →
          m'.num_substreams a = memA.num_substreams a - memA.num_substreams 2)) :=
  C9_dep_remove_subtree memA kidsA 2 WF_memA 2 2 (le_refl 2)

/-! ## Exclusive subtree insert -/

theorem allIsolated_memG : AllIsolated memG := fun _ => ⟨⟨rfl, rfl, rfl, rfl⟩, rfl⟩

theorem memGA_spec : WF memGA kidsA 2 ∧ memGA.stream_group = (fun _ => some 0) ∧
    memGA.dpri = (fun _ => NGHTTP2_STREAM_DPRI_NO_DATA) := by
  obtain ⟨m', hrun, hw', -, -, hsd⟩ := dep_add_spec (WF_of_allIsolated allIsolated_memG)
    (show (1 : Nat) ≠ 2 by decide) ⟨fun n => by simp, rfl⟩ rfl (le_refl 1)
  have e : memGA = m' := by unfold memGA; rw [hrun]; rfl
  rw [e]
  refine ⟨by simpa [kidsA] using hw', ?_, ?_⟩
  · rw [hsd]; rfl
  · rw [hsd]; rfl

theorem LinkChain.sibList {m : Mem} : ∀ (l : List Nat) (dp sp : Option Nat),
    LinkChain m dp sp l none → SibList m l.head? l := by
  intro l
  induction l with
  | nil => intro _ _ _; rfl
  | cons c cs ih =>
    intro dp sp h
    refine ⟨rfl, ?_⟩
    rw [h.2.2.1, headOr_eq_head?]
    exact ih _ _ h.2.2.2

theorem Links.children {m : Mem} {kids : Nat → List Nat} (hl : Links m kids) (n : Nat) :
    SibList m (m.dep_next n) (kids n) := by
  rw [hl.dep_next]
  exact LinkChain.sibList _ _ _ (hl.chain n)

theorem Links.sib_iff {m : Mem} {kids : Nat → List Nat} (hl : Links m kids) (x y : Nat) :
    m.sib_next x = some y ↔ m.sib_prev y = some x := by
  constructor
  · intro h
    by_cases hr : IsRoot kids x
    · rw [(hl.root x hr).2.2] at h; cases h
    · unfold IsRoot at hr
      push_neg at hr
      obtain ⟨n, hn⟩ := hr
      obtain ⟨L, R, hk⟩ := List.append_of_mem hn
      have a := hl.at hk
      rw [h] at a
      cases R with
      | nil => simp at a
      | cons z R' =>
        have hz : z = y := by simpa using a.2.2.symm
        subst hz
        have hk' : kids n = (L ++ [x]) ++ z :: R' := by rw [hk]; simp
        have b := hl.at hk'
        rw [b.2.1, lastOr_append_singleton]
  · intro h
    by_cases hr : IsRoot kids y
    · rw [(hl.root y hr).2.1] at h; cases h
    · unfold IsRoot at hr
      push_neg at hr
      obtain ⟨n, hn⟩ := hr
      obtain ⟨L, R, hk⟩ := List.append_of_mem hn
      have a := hl.at hk
      rw [h] at a
      rcases List.eq_nil_or_concat L with rfl | ⟨L', z, rfl⟩
      · simp [lastOr] at a
      · simp only [List.concat_eq_append] at a hk
        rw [lastOr_append_singleton] at a
        have hz : z = x := by simpa using a.2.1.symm
        subst hz
        have hk' : kids n = L' ++ z :: (y :: R) := by rw [hk]; simp
        have b := hl.at hk'
        rw [b.2.2]; rfl

theorem Links.first_child {m : Mem} {kids : Nat → List Nat} (hl : Links m kids) {p c : Nat}
    (h : (kids p).head? = some c) :
    m.dep_next p = some c ∧ m.dep_prev c = some p ∧ m.sib_prev c = none := by
  cases hk : kids p with
  | nil => rw [hk] at h; cases h
  | cons z R =>
    rw [hk] at h
    have hz : z = c := by simpa using h
    subst hz
    have a := hl.at (show kids p = [] ++ z :: R from hk)
    refine ⟨?_, by simpa using a.1, by simpa [lastOr] using a.2.1⟩
    rw [hl.dep_next, hk]; rfl

theorem Links.later_child {m : Mem} {kids : Nat → List Nat} (hl : Links m kids) {p c : Nat}
    (h : c ∈ (kids p).tail) : m.dep_prev c = none ∧ m.sib_prev c ≠ none := by
  cases hk : kids p with
  | nil => rw [hk] at h; simp at h
  | cons z R =>
    rw [hk] at h
    simp only [List.tail_cons] at h
    obtain ⟨L, R', hR⟩ := List.append_of_mem h
    have hk' : kids p = (z :: L) ++ c :: R' := by rw [hk, hR]; simp
    have a := hl.at hk'
    refine ⟨by simpa using a.1, ?_⟩
    obtain ⟨b, hb, -⟩ := lastOr_cons_ne_none z L none
    rw [a.2.1, hb]
    simp

theorem Links.dep_iff {m : Mem} {kids : Nat → List Nat} (hl : Links m kids) (p c : Nat) :
    m.dep_next p = some c ↔ m.dep_prev c = some p := by
  constructor
  · intro h
    rw [hl.dep_next] at h
    exact (hl.first_child h).2.1
  · intro h
    by_cases hr : IsRoot kids c
    · rw [(hl.root c hr).1] at h; cases h
    · unfold IsRoot at hr
      push_neg at hr
      obtain ⟨n, hn⟩ := hr
      obtain ⟨L, R, hk⟩ := List.append_of_mem hn
      have a := hl.at hk
      rw [h] at a
      by_cases hL : L = []
      · subst hL
        have hnp : n = p := by simpa using a.1.symm
        subst hnp
        rw [hl.dep_next, hk]; rfl
      · rw [if_neg hL] at a
        cases a.1

/-- C2: in every memory reached from isolated streams (no links,
`num_substreams = 1`) by a sequence of `dep_insert` / `dep_add` (of a stream
without links under another stream), `dep_remove`, `dep_remove_subtree` and
`dep_insert_subtree` / `dep_add_subtree` (of the root of a tree that does not
contain the parent), every stream `n` has the children `kids n` (the sibling
run that starts at `n.dep_next`), and `num_substreams(n)` is 1 plus the sum of
`num_substreams(c)` over these children. -/
theorem C2_num_substreams_invariant (m0 m : Mem) (h0 : AllIsolated m0)
    (h : Reachable m0 m) :
    ∃ kids : Nat → List Nat, (∀ n, SibList m (m.dep_next n) (kids n)) ∧
      ∀ n, m.num_substreams n = 1 + ((kids n).map m.num_substreams).sum := by
  obtain ⟨kids, N, hw⟩ := h.wellFormed h0
  exact ⟨kids, hw.links.children, hw.counts.eq⟩

theorem returns_memA : Returns (fun fuel => nghttp2_stream_dep_add fuel mem_init 1 2) memA := by
  refine ⟨1, fun fuel hf => ?_⟩
  obtain ⟨k, rfl⟩ : ∃ k, fuel = k + 1 := ⟨fuel - 1, by omega⟩
  rfl

theorem reachable_memA : Reachable mem_init memA :=
  Reachable.step mem_init memA Reachable.init
    (StructOp.dep_add 1 2 (by decide) ⟨rfl, rfl, rfl, rfl⟩ returns_memA)

/-- C2 for the memory reached from `mem_init` by `dep_add(1, 2)`. -/
theorem C2_num_substreams_invariant_witness :
    ∃ kids : Nat → List Nat, (∀ n, SibList memA (memA.dep_next n) (kids n)) ∧
      ∀ n, memA.num_substreams n = 1 + ((kids n).map memA.num_substreams).sum :=
  C2_num_substreams_invariant mem_init memA allIsolated_mem_init reachable_memA

/-- C3: in every memory reached from isolated streams by a sequence of
structural operations, sibling links are consistent (`x.sib_next = y` iff
`y.sib_prev = x`), parent links are consistent (`p.dep_next = c` iff
`c.dep_prev = p`), and, `kids n` being the children of every stream `n` (the
sibling run that starts at `n.dep_next`), the first child `c` of `p` has
`p.dep_next = c`, `c.dep_prev = p` and `c.sib_prev = null`, and every other
child has `dep_prev = null` and a non-null `sib_prev`. -/
theorem C3_links_invariant (m0 m : Mem) (h0 : AllIsolated m0) (h : Reachable m0 m) :
    (∀ x y, m.sib_next x = some y ↔ m.sib_prev y = some x) ∧
    (∀ p c, m.dep_next p = some c ↔ m.dep_prev c = some p) ∧
    ∃ kids : Nat → List Nat, (∀ n, SibList m (m.dep_next n) (kids n)) ∧
      (∀ p c, (kids p).head? = some c →
        m.dep_next p = some c ∧ m.dep_prev c = some p ∧ m.sib_prev c = none) ∧
      (∀ p c, c ∈ (kids p).tail → m.dep_prev c = none ∧ m.sib_prev c ≠ none) := by
  obtain ⟨kids, N, hw⟩ := h.wellFormed h0
  exact ⟨hw.links.sib_iff, hw.links.dep_iff, kids, hw.links.children,
    fun _ _ => hw.links.first_child, fun _ _ => hw.links.later_child⟩

/-- C3 for the memory reached from `mem_init` by `dep_add(1, 2)`. -/
theorem C3_links_invariant_witness :
    (∀ x y, memA.sib_next x = some y ↔ memA.sib_prev y = some x) ∧
    (∀ p c, memA.dep_next p = some c ↔ memA.dep_prev c = some p) ∧
    ∃ kids : Nat → List Nat, (∀ n, SibList memA (memA.dep_next n) (kids n)) ∧
      (∀ p c, (kids p).head? = some c →
        memA.dep_next p = some c ∧ memA.dep_prev c = some p ∧ memA.sib_prev c = none) ∧
      (∀ p c, c ∈ (kids p).tail → memA.dep_prev c = none ∧ memA.sib_prev c ≠ none) :=
  C3_links_invariant mem_init memA allIsolated_mem_init reachable_memA

/-! ## The scheduling invariant -/

theorem Anc.above {kids : Nat → List Nat} {x a : Nat} (h : Anc kids x a) : Above kids x a := by
  obtain ⟨n, hn, ha⟩ := h
  exact (Above.of_mem hn).trans ha

theorem Anc.trans_above {kids : Nat → List Nat} {x a b : Nat} (h : Anc kids x a)
    (hb : Above kids a b) : Anc kids x b := by
  obtain ⟨n, hn, ha⟩ := h
  exact ⟨n, hn, ha.trans hb⟩

theorem Above.anc_of_mem {kids : Nat → List Nat} {x y n : Nat} (h : Above kids x y)
    (hy : y ∈ kids n) : Anc kids x n := by
  rcases h.cases_bottom with e | ⟨n0, h0, h1⟩
  · subst e; exact ⟨n, hy, Above.self⟩
  · exact ⟨n0, h0, Above.up y n h1 hy⟩

theorem Above.trans_anc {kids : Nat → List Nat} {x y a : Nat} (h : Above kids x y)
    (ha : Anc kids y a) : Anc kids x a := by
  obtain ⟨n, hn, hna⟩ := ha
  exact (h.anc_of_mem hn).trans_above hna

theorem Anc.lt {num : Nat → Int} {kids : Nat → List Nat} {N : Nat} (hc : Counts num kids N)
    {x a : Nat} (h : Anc kids x a) : num x < num a := by
  obtain ⟨n, hn, ha⟩ := h
  have h1 := hc.mem_lt hn
  have h2 := hc.above_le ha
  omega

theorem Above.anc_or_eq {kids : Nat → List Nat} {x a : Nat} (h : Above kids x a) :
    a = x ∨ Anc kids x a := h.cases_bottom

theorem Anc.in_tree {m : Mem} {kids : Nat → List Nat} (hl : Links m kids) {y a r : Nat}
    (hr : IsRoot kids r) (hy : Above kids y r) (ha : Anc kids y a) : Above kids a r := by
  rcases Above.comparable hl ha.above hy with h | h
  · exact h
  · rw [Above.root_eq hr h]; exact Above.self

/-! ### What the top-search reaches -/

theorem TopReach_mem (kids : Nat → List Nat) (d : Nat → nghttp2_stream_dpri) :
    ∀ (l : List Nat) (c : Nat), c ∈ l → TopReach kids d l c := by
  intro l
  induction l with
  | nil => intro c h; simp at h
  | cons b bs ih =>
    intro c h
    rcases List.mem_cons.1 h with e | h'
    · subst e; exact TopReach.head _ _
    · exact TopReach.sib _ _ _ (ih c h')

theorem TopReach_child (kids : Nat → List Nat) (d : Nat → nghttp2_stream_dpri) :
    ∀ (l : List Nat) (c y : Nat), c ∈ l → d c = NGHTTP2_STREAM_DPRI_NO_DATA →
      TopReach kids d (kids c) y → TopReach kids d l y := by
  intro l
  induction l with
  | nil => intro c y h; simp at h
  | cons b bs ih =>
    intro c y h hd hy
    rcases List.mem_cons.1 h with e | h'
    · subst e; exact TopReach.child _ _ _ hd hy
    · exact TopReach.sib _ _ _ (ih c y h' hd hy)

theorem TopReach_iff {m : Mem} {kids : Nat → List Nat} {num : Nat → Int} {N : Nat}
    (hl : Links m kids) (hc : Counts num kids N) (d : Nat → nghttp2_stream_dpri)
    (l : List Nat) (y : Nat) :
    TopReach kids d l y ↔ ∃ c ∈ l, Above kids y c ∧
      ∀ a, Anc kids y a → Above kids a c → d a = NGHTTP2_STREAM_DPRI_NO_DATA := by
  constructor
  · intro h
    induction h with
    | head c cs =>
      refine ⟨c, by simp, Above.self, ?_⟩
      intro a ha hac
      have h1 := Anc.lt hc ha
      have h2 := hc.above_le hac
      omega
    | sib c cs y _ ih =>
      obtain ⟨c', hc', h1, h2⟩ := ih
      exact ⟨c', by simp [hc'], h1, h2⟩
    | child c cs y hd _ ih =>
      obtain ⟨c', hc', h1, h2⟩ := ih
      refine ⟨c, by simp, h1.trans (Above.of_mem hc'), ?_⟩
      intro a ha hac
      rcases hac.cases_top with e | ⟨c'', h3, h4⟩
      · rw [← e]; exact hd
      · have h5 : Above kids y c'' := ha.above.trans h3
        have e : c' = c'' := by
          by_contra hne
          rcases Above.comparable hl h1 h5 with h6 | h6
          · exact sibling_not_above hl hc hc' h4 hne h6
          · exact sibling_not_above hl hc h4 hc' (Ne.symm hne) h6
        subst e
        exact h2 a ha h3
  · rintro ⟨c, hcl, hyc, hnd⟩
    induction hyc generalizing l with
    | self => exact TopReach_mem kids d l y hcl
    | up y' n hy' hmem ih =>
      have h1 : TopReach kids d (kids n) y :=
        ih (kids n) hmem (fun a ha hay => hnd a ha (Above.up y' n hay hmem))
      exact TopReach_child kids d l n y hcl (hnd n (hy'.anc_of_mem hmem) Above.self) h1

theorem TopReach_root_iff {m : Mem} {kids : Nat → List Nat} {num : Nat → Int} {N : Nat}
    (hl : Links m kids) (hc : Counts num kids N) (d : Nat → nghttp2_stream_dpri)
    {r : Nat} (hr : IsRoot kids r) (y : Nat) :
    TopReach kids d [r] y ↔ Above kids y r ∧
      ∀ a, Anc kids y a → d a = NGHTTP2_STREAM_DPRI_NO_DATA := by
  rw [TopReach_iff hl hc]
  constructor
  · rintro ⟨c, hcl, hyc, hnd⟩
    have e : c = r := by simpa using hcl
    subst e
    exact ⟨hyc, fun a ha => hnd a ha (ha.in_tree hl hr hyc)⟩
  · rintro ⟨hyr, hnd⟩
    exact ⟨r, by simp, hyr, fun a ha _ => hnd a ha⟩

/-- Above a stream with data there is a topmost stream with data. -/
theorem exists_topmost {num : Nat → Int} {kids : Nat → List Nat} {N : Nat}
    (hc : Counts num kids N) (d : Nat → nghttp2_stream_dpri) :
    ∀ (k : Nat) (a : Nat), (N : Int) - num a ≤ k → d a ≠ NGHTTP2_STREAM_DPRI_NO_DATA →
      ∃ t, Above kids a t ∧ d t ≠ NGHTTP2_STREAM_DPRI_NO_DATA ∧
        ∀ b, Anc kids t b → d b = NGHTTP2_STREAM_DPRI_NO_DATA := by
  intro k
  induction k with
  | zero =>
    intro a hk hd
    refine ⟨a, Above.self, hd, ?_⟩
    intro b hb
    have h1 := Anc.lt hc hb
    have h2 := hc.bound b
    omega
  | succ k ih =>
    intro a hk hd
    by_cases h : ∃ b, Anc kids a b ∧ d b ≠ NGHTTP2_STREAM_DPRI_NO_DATA
    · obtain ⟨b, hb, hdb⟩ := h
      have h1 := Anc.lt hc hb
      obtain ⟨t, ht, hdt, htop⟩ := ih b (by omega) hdb
      exact ⟨t, hb.above.trans ht, hdt, htop⟩
    · push_neg at h
      exact ⟨a, Above.self, hd, h⟩

/-- The top-search from the root `r` establishes the scheduling invariant on
the tree of `r`, provided every TOP stream of the tree has only ancestors
without data: `d2` is the `dpri` field before and `d3` after the search. -/
theorem Sched_of_set_top {m : Mem} {kids : Nat → List Nat} {num : Nat → Int} {N : Nat}
    (hl : Links m kids) (hc : Counts num kids N) {r : Nat} (hr : IsRoot kids r)
    (d2 d3 : Nat → nghttp2_stream_dpri)
    (hp1 : ∀ y, TopReach kids d2 [r] y → d2 y = NGHTTP2_STREAM_DPRI_REST →
      d3 y = NGHTTP2_STREAM_DPRI_TOP)
    (hp2 : ∀ y, ¬ (TopReach kids d2 [r] y ∧ d2 y = NGHTTP2_STREAM_DPRI_REST) → d3 y = d2 y)
    (hq : ∀ y, Above kids y r → d2 y = NGHTTP2_STREAM_DPRI_TOP →
      ∀ a, Anc kids y a → d2 a = NGHTTP2_STREAM_DPRI_NO_DATA) :
    ∀ y, Above kids y r → Sched kids d3 y := by
  have hnd : ∀ a, d2 a = NGHTTP2_STREAM_DPRI_NO_DATA → d3 a = NGHTTP2_STREAM_DPRI_NO_DATA := by
    intro a ha
    rw [hp2 a (fun h => by rw [ha] at h; cases h.2), ha]
  intro y hy
  constructor
  · intro h3 a ha
    apply hnd
    by_cases h : TopReach kids d2 [r] y ∧ d2 y = NGHTTP2_STREAM_DPRI_REST
    · exact ((TopReach_root_iff hl hc d2 hr y).1 h.1).2 a ha
    · rw [hp2 y h] at h3
      exact hq y hy h3 a ha
  · intro h3
    have h : ¬ (TopReach kids d2 [r] y ∧ d2 y = NGHTTP2_STREAM_DPRI_REST) := by
      intro h
      rw [hp1 y h.1 h.2] at h3
      cases h3
    have h2 : d2 y = NGHTTP2_STREAM_DPRI_REST := by rw [← hp2 y h]; exact h3
    have hnr : ¬ TopReach kids d2 [r] y := fun h' => h ⟨h', h2⟩
    rw [TopReach_root_iff hl hc d2 hr y] at hnr
    push_neg at hnr
    obtain ⟨a, ha, hda⟩ := hnr hy
    obtain ⟨t, hat, hdt, htop⟩ := exists_topmost hc d2 (N - (num a).toNat) a (by
      have := hc.pos a
      omega) hda
    have hyt : Anc kids y t := ha.trans_above hat
    have htr : TopReach kids d2 [r] t :=
      (TopReach_root_iff hl hc d2 hr t).2 ⟨hyt.in_tree hl hr hy, htop⟩
    refine ⟨t, hyt, ?_⟩
    cases hdt2 : d2 t with
    | NGHTTP2_STREAM_DPRI_NO_DATA => exact absurd hdt2 hdt
    | NGHTTP2_STREAM_DPRI_REST => exact hp1 t htr hdt2
    | NGHTTP2_STREAM_DPRI_TOP =>
      rw [hp2 t (fun h' => by rw [hdt2] at h'; cases h'.2), hdt2]

/-- On a set of streams closed under ancestors, P3 and its working form
agree. -/
theorem P3_iff_Sched {m : Mem} {kids : Nat → List Nat} (hl : Links m kids)
    (d : Nat → nghttp2_stream_dpri)
    (S : Nat → Prop) (hS : ∀ y a, S y → Anc kids y a → S a) :
    (∀ y, S y → P3 kids d y) ↔ (∀ y, S y → Sched kids d y) := by
  constructor
  · intro h y hy
    refine ⟨?_, ?_⟩
    · intro hd a ha
      cases hda : d a with
      | NGHTTP2_STREAM_DPRI_NO_DATA => rfl
      | NGHTTP2_STREAM_DPRI_TOP => exact absurd hda ((h y hy).1 hd a ha)
      | NGHTTP2_STREAM_DPRI_REST =>
        obtain ⟨b, ⟨hb, hdb⟩, -⟩ := (h a (hS y a hy ha)).2 hda
        exact absurd hdb ((h y hy).1 hd b (ha.trans_above hb.above))
    · intro hd
      obtain ⟨a, ha, -⟩ := (h y hy).2 hd
      exact ⟨a, ha⟩
  · intro h y hy
    refine ⟨?_, ?_⟩
    · intro hd a ha
      rw [(h y hy).1 hd a ha]
      simp
    · intro hd
      obtain ⟨a, ha, hda⟩ := (h y hy).2 hd
      refine ⟨a, ⟨ha, hda⟩, ?_⟩
      rintro b ⟨hb, hdb⟩
      by_contra hne
      rcases Above.comparable hl ha.above hb.above with h1 | h1
      · rcases h1.anc_or_eq with e | h2
        · exact hne e
        · have := (h a (hS y a hy ha)).1 hda b h2
          rw [this] at hdb; cases hdb
      · rcases h1.anc_or_eq with e | h2
        · exact hne e.symm
        · have := (h b (hS y b hy hb)).1 hdb a h2
          rw [this] at hda; cases hda

/-! ### What the demotion visits -/

theorem RestVisit_skip (kids : Nat → List Nat) (d : Nat → nghttp2_stream_dpri) :
    ∀ (L : List Nat) (c : Nat) (R : List Nat) (y : Nat),
      (∀ b ∈ L, d b ≠ NGHTTP2_STREAM_DPRI_REST) → RestVisit kids d (c :: R) y →
      RestVisit kids d (L ++ c :: R) y := by
  intro L
  induction L with
  | nil => intro c R y _ h; exact h
  | cons b L ih =>
    intro c R y hb h
    exact RestVisit.sib b _ y (hb b (by simp)) (ih c R y (fun b' hb' => hb b' (by simp [hb'])) h)

/-- Below `x`, the demotion reaches every stream `y` all of whose proper
ancestors have no data, when every REST stream below `x` has a TOP proper
ancestor. -/
theorem RestVisit_of_top {m : Mem} {kids : Nat → List Nat} (hl : Links m kids)
    (d : Nat → nghttp2_stream_dpri) {x y : Nat}
    (hB : ∀ b, Anc kids b x → d b = NGHTTP2_STREAM_DPRI_REST →
      ∃ t, Anc kids b t ∧ d t = NGHTTP2_STREAM_DPRI_TOP)
    (hA : ∀ a, Anc kids y a → d a = NGHTTP2_STREAM_DPRI_NO_DATA) :
    ∀ c, Above kids y c → ∀ n, c ∈ kids n → Above kids n x → RestVisit kids d (kids n) y := by
  have key : ∀ c n, Above kids y c → c ∈ kids n → Above kids n x →
      ∀ b ∈ kids n, d b ≠ NGHTTP2_STREAM_DPRI_REST := by
    intro c n hyc hcn hnx b hb hdb
    obtain ⟨t, ⟨n', hbn', hn't⟩, hdt⟩ := hB b ⟨n, hb, hnx⟩ hdb
    have e : n' = n := hl.uniq _ _ b hbn' hb
    subst e
    have := hA t ((hyc.anc_of_mem hcn).trans_above hn't)
    rw [this] at hdt
    cases hdt
  intro c h
  induction h with
  | self =>
    intro n hn hnx
    obtain ⟨L, R, hk⟩ := List.append_of_mem hn
    rw [hk]
    refine RestVisit_skip kids d L y R y ?_ (RestVisit.head _ _)
    intro b hb
    exact key y n Above.self hn hnx b (by rw [hk]; simp [hb])
  | up y' n0 hy' hmem ih =>
    intro n hn hnx
    obtain ⟨L, R, hk⟩ := List.append_of_mem hn
    rw [hk]
    refine RestVisit_skip kids d L n0 R y ?_ ?_
    · intro b hb
      exact key n0 n (Above.up y' n0 hy' hmem) hn hnx b (by rw [hk]; simp [hb])
    · exact RestVisit.child n0 R y (hA n0 (hy'.anc_of_mem hmem))
        (ih n0 hmem (Above.up n0 n Above.self hn |>.trans hnx))

theorem anc_iff_inSub_kids (kids : Nat → List Nat) (x y : Nat) :
    Anc kids y x ↔ InSub kids (kids x) y := by
  constructor
  · rintro ⟨n, hn, hnx⟩
    rcases hnx.cases_top with e | ⟨c, hc1, hc2⟩
    · subst e; exact ⟨y, hn, Above.self⟩
    · exact ⟨c, hc2, (Above.of_mem hn).trans hc1⟩
  · rintro ⟨c, hc, hyc⟩
    exact hyc.anc_of_mem hc

/-! ### Attaching and detaching data -/

/-- The effect of `attach_data` on a well-formed forest: `d2` is the `dpri`
field after the demotion below `stream`, and `r` the root the top-search
starts from. -/
theorem attach_data_spec {m : Mem} {kids : Nat → List Nat} {N : Nat} (hw : WF m kids N)
    {x : Nat} {data : Option Nat} (hd : m.data x = none) (hdd : m.deferred_data x = none)
    (hne : data ≠ none)
    (hdata : ∀ y, y ≠ x → m.dpri y ≠ NGHTTP2_STREAM_DPRI_NO_DATA → m.data y ≠ none)
    {fuel : Nat} (hf : N ≤ fuel) :
    ∃ (m' : Mem) (rv : Int) (d2 : Nat → nghttp2_stream_dpri) (r : Nat),
      nghttp2_stream_attach_data fuel m x data = .ok (m', rv) ∧
      WF m' kids N ∧ IsRoot kids r ∧ Above kids x r ∧
      (∀ y, RestVisit kids (Function.update m.dpri x NGHTTP2_STREAM_DPRI_REST) (kids x) y →
        Function.update m.dpri x NGHTTP2_STREAM_DPRI_REST y = NGHTTP2_STREAM_DPRI_TOP →
        d2 y = NGHTTP2_STREAM_DPRI_REST) ∧
      (∀ y, ¬ (RestVisit kids (Function.update m.dpri x NGHTTP2_STREAM_DPRI_REST) (kids x) y ∧
          Function.update m.dpri x NGHTTP2_STREAM_DPRI_REST y = NGHTTP2_STREAM_DPRI_TOP) →
        d2 y = Function.update m.dpri x NGHTTP2_STREAM_DPRI_REST y) ∧
      (∀ y, m'.dpri y = d2 y ∨
        (d2 y = NGHTTP2_STREAM_DPRI_REST ∧ m'.dpri y = NGHTTP2_STREAM_DPRI_TOP)) ∧
      (rv = 0 →
        (∀ y, TopReach kids d2 [r] y → d2 y = NGHTTP2_STREAM_DPRI_REST →
          m'.dpri y = NGHTTP2_STREAM_DPRI_TOP) ∧
        (∀ y, ¬ (TopReach kids d2 [r] y ∧ d2 y = NGHTTP2_STREAM_DPRI_REST) →
          m'.dpri y = d2 y)) ∧
      m' = { m with
        data := Function.update m.data x data
        dpri := m'.dpri
        queued := m'.queued
        pq := m'.pq } := by
  have hbx := hw.counts.bound x
  have hpx := hw.counts.pos x
  obtain ⟨m2, hrun2, hfr2, hd2a, hd2b⟩ :=
    set_rest_spec hw fuel (kids x) { m with
        data := Function.update m.data x data
        dpri := Function.update m.dpri x NGHTTP2_STREAM_DPRI_REST } (some x) none
      (hw.links.chain x) (Disj_kids hw x) rfl rfl (by
        have := sum_kids_lt hw.counts x
        omega)
  rw [← hw.links.dep_next] at hrun2
  have hd2b' : ∀ y,
      ¬ (RestVisit kids (Function.update m.dpri x NGHTTP2_STREAM_DPRI_REST) (kids x) y ∧
        Function.update m.dpri x NGHTTP2_STREAM_DPRI_REST y = NGHTTP2_STREAM_DPRI_TOP) →
      m2.dpri y = Function.update m.dpri x NGHTTP2_STREAM_DPRI_REST y := hd2b
  have hw2 : WF m2 kids N :=
    ⟨hw.links.congr (by rw [hfr2]) (by rw [hfr2]) (by rw [hfr2]) (by rw [hfr2]), by
      have : m2.num_substreams = m.num_substreams := by rw [hfr2]
      rw [this]; exact hw.counts⟩
  obtain ⟨r, hrunr, hroot, habove⟩ := get_dep_root_spec hw2 fuel x (by
    have : m2.num_substreams = m.num_substreams := by rw [hfr2]
    rw [this]
    have : (N : Int) ≤ fuel := by exact_mod_cast hf
    omega)
  have hbr := hw2.counts.bound r
  have hdat2 : m2.data = Function.update m.data x data := by rw [hfr2]
  obtain ⟨m3, rv, hrun3, hfr3, hmono, hpost⟩ :=
    set_top_spec hw2 fuel [r] m2 none none (LinkChain_root hw2.links hroot) rfl rfl (by
      intro y hy
      rw [hdat2]
      by_cases hyx : y = x
      · subst hyx; rw [Function.update_same]; exact hne
      · rw [Function.update_noteq hyx]
        apply hdata y hyx
        intro hnd
        have h1 : Function.update m.dpri x NGHTTP2_STREAM_DPRI_REST y =
            NGHTTP2_STREAM_DPRI_NO_DATA := by
          rw [Function.update_noteq hyx]; exact hnd
        have := hd2b' y (fun h => by rw [h1] at h; cases h.2)
        rw [hy, h1] at this
        cases this) (by simp; omega)
  simp only [List.head?_cons] at hrun3
  refine ⟨m3, rv, m2.dpri, r, ?_, ?_, hroot, habove, hd2a, hd2b, hmono, hpost, ?_⟩
  · simp only [nghttp2_stream_attach_data, hd, hdd, stream_update_dep_on_attach_data, hrun2,
      hrunr, hrun3]
    by_cases hrv : rv = 0
    · subst hrv; simp
    · simp [hrv]
  · refine ⟨hw2.links.congr (by rw [hfr3]) (by rw [hfr3]) (by rw [hfr3]) (by rw [hfr3]), ?_⟩
    have : m3.num_substreams = m2.num_substreams := by rw [hfr3]
    rw [this]; exact hw2.counts
  · rw [hfr3, hfr2]

/-- The effect of `detach_data` on a well-formed forest: the stream loses its
data and becomes NO_DATA, and if it was TOP the top-search runs over its
children. -/
theorem detach_data_spec {m : Mem} {kids : Nat → List Nat} {N : Nat} (hw : WF m kids N)
    (x : Nat) (hdata : ∀ y, m.dpri y ≠ NGHTTP2_STREAM_DPRI_NO_DATA → m.data y ≠ none)
    {fuel : Nat} (hf : N ≤ fuel) :
    ∃ (m' : Mem) (rv : Int),
      nghttp2_stream_detach_data fuel m x = .ok (m', rv) ∧
      WF m' kids N ∧
      (m.dpri x ≠ NGHTTP2_STREAM_DPRI_TOP →
        rv = 0 ∧ m'.dpri = Function.update m.dpri x NGHTTP2_STREAM_DPRI_NO_DATA) ∧
      (m.dpri x = NGHTTP2_STREAM_DPRI_TOP →
        (∀ y, m'.dpri y = Function.update m.dpri x NGHTTP2_STREAM_DPRI_NO_DATA y ∨
          (Function.update m.dpri x NGHTTP2_STREAM_DPRI_NO_DATA y = NGHTTP2_STREAM_DPRI_REST ∧
            m'.dpri y = NGHTTP2_STREAM_DPRI_TOP)) ∧
        (rv = 0 →
          (∀ y, TopReach kids (Function.update m.dpri x NGHTTP2_STREAM_DPRI_NO_DATA) (kids x) y →
            Function.update m.dpri x NGHTTP2_STREAM_DPRI_NO_DATA y = NGHTTP2_STREAM_DPRI_REST →
            m'.dpri y = NGHTTP2_STREAM_DPRI_TOP) ∧
          (∀ y, ¬ (TopReach kids (Function.update m.dpri x NGHTTP2_STREAM_DPRI_NO_DATA)
                (kids x) y ∧
              Function.update m.dpri x NGHTTP2_STREAM_DPRI_NO_DATA y =
                NGHTTP2_STREAM_DPRI_REST) →
            m'.dpri y = Function.update m.dpri x NGHTTP2_STREAM_DPRI_NO_DATA y))) ∧
      m' = { m with
        data := Function.update m.data x none
        dpri := m'.dpri
        queued := m'.queued
        pq := m'.pq } := by
  by_cases hx : m.dpri x = NGHTTP2_STREAM_DPRI_TOP
  · have hbx := hw.counts.bound x
    obtain ⟨m3, rv, hrun3, hfr3, hmono, hpost⟩ :=
      set_top_spec hw fuel (kids x) { m with
          data := Function.update m.data x none
          dpri := Function.update m.dpri x NGHTTP2_STREAM_DPRI_NO_DATA } (some x) none
        (hw.links.chain x) rfl rfl (by
          intro y hy
          have hy' : Function.update m.dpri x NGHTTP2_STREAM_DPRI_NO_DATA y =
            NGHTTP2_STREAM_DPRI_REST := hy
          show Function.update m.data x none y ≠ none
          by_cases hyx : y = x
          · subst hyx; rw [Function.update_same] at hy'; cases hy'
          · rw [Function.update_noteq hyx] at hy' ⊢
            apply hdata
            rw [hy']; simp) (by
          have := sum_kids_lt hw.counts x
          omega)
    rw [← hw.links.dep_next] at hrun3
    refine ⟨m3, rv, ?_, ?_, fun h => absurd hx h, fun _ => ⟨hmono, hpost⟩, ?_⟩
    · simp only [nghttp2_stream_detach_data, stream_update_dep_on_detach_data, hx]
      simpa using hrun3
    · refine ⟨hw.links.congr (by rw [hfr3]) (by rw [hfr3]) (by rw [hfr3]) (by rw [hfr3]), ?_⟩
      have : m3.num_substreams = m.num_substreams := by rw [hfr3]
      rw [this]; exact hw.counts
    · rw [hfr3]
  · refine ⟨{ m with
        data := Function.update m.data x none
        dpri := Function.update m.dpri x NGHTTP2_STREAM_DPRI_NO_DATA }, 0, ?_,
      ⟨hw.links.congr rfl rfl rfl rfl, hw.counts⟩, fun _ => ⟨rfl, rfl⟩, fun h => absurd h hx, rfl⟩
    simp only [nghttp2_stream_detach_data, stream_update_dep_on_detach_data]
    simp [hx]

/-! ### Making a stream the root of its group -/

/-- The effect of `dep_make_root` on the tree of the root `s`: every stream of
the tree joins the group `g`, `d1` is the `dpri` field after the demotion of
the whole tree, and the top-search runs from `s`. -/
theorem dep_make_root_spec {m : Mem} {kids : Nat → List Nat} {N : Nat} (hw : WF m kids N)
    {s : Nat} (g : Nat) (hr : IsRoot kids s)
    (hgs : ∀ y, Above kids y s → m.stream_group y ≠ none)
    (hdata : ∀ y, m.dpri y ≠ NGHTTP2_STREAM_DPRI_NO_DATA → m.data y ≠ none)
    {fuel : Nat} (hf : N ≤ fuel) :
    ∃ (m' : Mem) (rv : Int) (d1 : Nat → nghttp2_stream_dpri),
      nghttp2_stream_dep_make_root fuel m (some g) s = .ok (m', rv) ∧
      WF m' kids N ∧
      (∀ y, Above kids y s → m'.stream_group y = some g) ∧
      (∀ y, ¬ Above kids y s → m'.stream_group y = m.stream_group y) ∧
      (∀ y, Above kids y s → m.dpri y = NGHTTP2_STREAM_DPRI_TOP →
        d1 y = NGHTTP2_STREAM_DPRI_REST) ∧
      (∀ y, ¬ (Above kids y s ∧ m.dpri y = NGHTTP2_STREAM_DPRI_TOP) → d1 y = m.dpri y) ∧
      (∀ y, m'.dpri y = d1 y ∨
        (d1 y = NGHTTP2_STREAM_DPRI_REST ∧ m'.dpri y = NGHTTP2_STREAM_DPRI_TOP)) ∧
      (rv = 0 →
        (∀ y, TopReach kids d1 [s] y → d1 y = NGHTTP2_STREAM_DPRI_REST →
          m'.dpri y = NGHTTP2_STREAM_DPRI_TOP) ∧
        (∀ y, ¬ (TopReach kids d1 [s] y ∧ d1 y = NGHTTP2_STREAM_DPRI_REST) →
          m'.dpri y = d1 y)) ∧
      SameUser m m' := by
  have hbs := hw.counts.bound s
  obtain ⟨m1, hrun1, hfr1, hg1a, hg1b, hd1a, hd1b⟩ :=
    set_rest_stream_group_spec hw g fuel [s] m none none (LinkChain_root hw.links hr) rfl rfl
      (fun y hy => hgs y ((InSub_singleton kids s y).1 hy)) (by simp; omega)
  simp only [List.head?_cons] at hrun1
  have hw1 : WF m1 kids N :=
    ⟨hw.links.congr (by rw [hfr1]) (by rw [hfr1]) (by rw [hfr1]) (by rw [hfr1]), by
      have : m1.num_substreams = m.num_substreams := by rw [hfr1]
      rw [this]; exact hw.counts⟩
  have hdata1 : m1.data = m.data := by rw [hfr1]
  obtain ⟨m3, rv, hrun3, hfr3, hmono, hpost⟩ :=
    set_top_spec hw1 fuel [s] m1 none none (LinkChain_root hw1.links hr) rfl rfl (by
      intro y hy
      rw [hdata1]
      apply hdata
      intro hnd
      have := hd1b y (fun h => by rw [hnd] at h; cases h.2)
      rw [hy, hnd] at this
      cases this) (by
        have : m1.num_substreams = m.num_substreams := by rw [hfr1]
        rw [this]; simp; omega)
  simp only [List.head?_cons] at hrun3
  have hgrp3 : m3.stream_group = m1.stream_group := by rw [hfr3]
  refine ⟨m3, rv, m1.dpri, ?_, ?_, ?_, ?_, ?_, ?_, hmono, hpost, ?_⟩
  · simp only [nghttp2_stream_dep_make_root, hrun1]
    exact hrun3
  · refine ⟨hw1.links.congr (by rw [hfr3]) (by rw [hfr3]) (by rw [hfr3]) (by rw [hfr3]), ?_⟩
    have : m3.num_substreams = m1.num_substreams := by rw [hfr3]
    rw [this]; exact hw1.counts
  · intro y hy
    rw [hgrp3]; exact hg1a y ((InSub_singleton kids s y).2 hy)
  · intro y hy
    rw [hgrp3]; exact hg1b y (fun h => hy ((InSub_singleton kids s y).1 h))
  · intro y hy; exact hd1a y ((InSub_singleton kids s y).2 hy)
  · intro y hy
    exact hd1b y (fun h => hy ⟨(InSub_singleton kids s y).1 h.1, h.2⟩)
  · unfold SameUser
    rw [hfr3, hfr1]

/-! ### Preservation of the scheduling invariant -/

theorem Sched_transfer {kids : Nat → List Nat} {d d' : Nat → nghttp2_stream_dpri} {y : Nat}
    (h : Sched kids d y) (hy : d' y = d y) (ha : ∀ a, Anc kids y a → d' a = d a) :
    Sched kids d' y := by
  refine ⟨?_, ?_⟩
  · intro h1 a haa
    rw [ha a haa]
    exact h.1 (hy ▸ h1) a haa
  · intro h1
    obtain ⟨a, haa, hda⟩ := h.2 (hy ▸ h1)
    exact ⟨a, haa, by rw [ha a haa]; exact hda⟩

theorem anc_congr {kids kids' : Nat → List Nat} {y : Nat}
    (h : ∀ z n, Above kids y z → (z ∈ kids n ↔ z ∈ kids' n)) (a : Nat) :
    Anc kids y a ↔ Anc kids' y a := by
  constructor
  · rintro ⟨n, hn, hna⟩
    refine ⟨n, (h y n Above.self).1 hn, ?_⟩
    exact (above_congr (fun z n' hz => h z n' ((Above.of_mem hn).trans hz)) a).1 hna
  · rintro ⟨n, hn, hna⟩
    have hn' := (h y n Above.self).2 hn
    refine ⟨n, hn', ?_⟩
    exact (above_congr (fun z n' hz => h z n' ((Above.of_mem hn').trans hz)) a).2 hna

theorem Anc.ne {num : Nat → Int} {kids : Nat → List Nat} {N : Nat} (hc : Counts num kids N)
    {x a : Nat} (h : Anc kids x a) : x ≠ a := by
  intro e
  have := Anc.lt hc h
  rw [e] at this
  omega

/-- Attaching data keeps the scheduling invariant: `d` is the `dpri` field
before, `d2` after the demotion below `x`, `d3` after the top-search. -/
theorem Sched_attach {m : Mem} {kids : Nat → List Nat} {num : Nat → Int} {N : Nat}
    (hl : Links m kids) (hc : Counts num kids N) {x r : Nat} (hr : IsRoot kids r)
    (hxr : Above kids x r) (d d2 d3 : Nat → nghttp2_stream_dpri)
    (hS : ∀ y, Sched kids d y)
    (h2a : ∀ y, RestVisit kids (Function.update d x NGHTTP2_STREAM_DPRI_REST) (kids x) y →
      Function.update d x NGHTTP2_STREAM_DPRI_REST y = NGHTTP2_STREAM_DPRI_TOP →
      d2 y = NGHTTP2_STREAM_DPRI_REST)
    (h2b : ∀ y, ¬ (RestVisit kids (Function.update d x NGHTTP2_STREAM_DPRI_REST) (kids x) y ∧
        Function.update d x NGHTTP2_STREAM_DPRI_REST y = NGHTTP2_STREAM_DPRI_TOP) →
      d2 y = Function.update d x NGHTTP2_STREAM_DPRI_REST y)
    (h3a : ∀ y, TopReach kids d2 [r] y → d2 y = NGHTTP2_STREAM_DPRI_REST →
      d3 y = NGHTTP2_STREAM_DPRI_TOP)
    (h3b : ∀ y, ¬ (TopReach kids d2 [r] y ∧ d2 y = NGHTTP2_STREAM_DPRI_REST) → d3 y = d2 y) :
    ∀ y, Sched kids d3 y := by
  have hd1 : ∀ y, y ≠ x → Function.update d x NGHTTP2_STREAM_DPRI_REST y = d y :=
    fun y hy => Function.update_noteq hy _ _
  -- below `x` no stream is TOP any more
  have F2 : ∀ y, Anc kids y x → d2 y ≠ NGHTTP2_STREAM_DPRI_TOP := by
    intro y hy
    have hyx : y ≠ x := Anc.ne hc hy
    by_cases hdy : d y = NGHTTP2_STREAM_DPRI_TOP
    · obtain ⟨c, hcx, hyc⟩ := (anc_iff_inSub_kids kids x y).1 hy
      have h1 : RestVisit kids d (kids x) y :=
        RestVisit_of_top hl d (fun b _ hb => (hS b).2 hb) ((hS y).1 hdy) c hyc x hcx Above.self
      have h2 : RestVisit kids (Function.update d x NGHTTP2_STREAM_DPRI_REST) (kids x) y :=
        (RestVisit_congr kids d _ (kids x) (fun z hz =>
          hd1 z (Anc.ne hc ((anc_iff_inSub_kids kids x z).2 hz))) y).2 h1
      rw [h2a y h2 (by rw [hd1 y hyx]; exact hdy)]
      simp
    · rw [h2b y (fun h => hdy (by rw [← hd1 y hyx]; exact h.2)), hd1 y hyx]
      exact hdy
  have F3 : ∀ y, ¬ Anc kids y x → d2 y = Function.update d x NGHTTP2_STREAM_DPRI_REST y := by
    intro y hy
    exact h2b y (fun h => hy ((anc_iff_inSub_kids kids x y).2 h.1.inSub))
  have hxx : ¬ Anc kids x x := fun h => Anc.ne hc h rfl
  have F4 : d2 x = NGHTTP2_STREAM_DPRI_REST := by
    rw [F3 x hxx, Function.update_same]
  have F5 : ∀ a, a ≠ x → d a = NGHTTP2_STREAM_DPRI_NO_DATA →
      d2 a = NGHTTP2_STREAM_DPRI_NO_DATA := by
    intro a ha hda
    rw [h2b a (fun h => by rw [hd1 a ha, hda] at h; cases h.2), hd1 a ha, hda]
  have hin := Sched_of_set_top hl hc hr d2 d3 h3a h3b (by
    intro y _ hdy a ha
    have hyx : y ≠ x := fun e => by rw [e, F4] at hdy; cases hdy
    have hnyx : ¬ Anc kids y x := fun h => F2 y h hdy
    have hdy' : d y = NGHTTP2_STREAM_DPRI_TOP := by
      rw [← hd1 y hyx, ← F3 y hnyx]; exact hdy
    have hax : a ≠ x := fun e => hnyx (e ▸ ha)
    exact F5 a hax ((hS y).1 hdy' a ha))
  intro y
  by_cases hy : Above kids y r
  · exact hin y hy
  · have key : ∀ z, ¬ Above kids z r → d3 z = d z := by
      intro z hz
      have hzx : z ≠ x := fun e => hz (e ▸ hxr)
      have hnzx : ¬ Anc kids z x := fun h => hz (h.above.trans hxr)
      rw [h3b z (fun h => hz ((TopReach_root_iff hl hc d2 hr z).1 h.1).1), F3 z hnzx, hd1 z hzx]
    exact Sched_transfer (hS y) (key y hy)
      (fun a ha => key a (fun h => hy (ha.above.trans h)))

/-- Detaching the data of a stream that is not TOP keeps the scheduling
invariant. -/
theorem Sched_detach_other {kids : Nat → List Nat} {x : Nat} (d : Nat → nghttp2_stream_dpri)
    (hS : ∀ y, Sched kids d y) (hx : d x ≠ NGHTTP2_STREAM_DPRI_TOP) :
    ∀ y, Sched kids (Function.update d x NGHTTP2_STREAM_DPRI_NO_DATA) y := by
  intro y
  refine ⟨?_, ?_⟩
  · intro hy a ha
    have hyx : y ≠ x := fun e => by rw [e, Function.update_same] at hy; cases hy
    rw [Function.update_noteq hyx] at hy
    by_cases hax : a = x
    · rw [hax, Function.update_same]
    · rw [Function.update_noteq hax]; exact (hS y).1 hy a ha
  · intro hy
    have hyx : y ≠ x := fun e => by rw [e, Function.update_same] at hy; cases hy
    rw [Function.update_noteq hyx] at hy
    obtain ⟨a, ha, hda⟩ := (hS y).2 hy
    have hax : a ≠ x := fun e => hx (e ▸ hda)
    exact ⟨a, ha, by rw [Function.update_noteq hax]; exact hda⟩

/-- Detaching the data of a TOP stream keeps the scheduling invariant: `d3`
is the `dpri` field after the top-search over the children of `x`. -/
theorem Sched_detach_top {m : Mem} {kids : Nat → List Nat} {num : Nat → Int} {N : Nat}
    (hl : Links m kids) (hc : Counts num kids N) {x : Nat} (d d3 : Nat → nghttp2_stream_dpri)
    (hS : ∀ y, Sched kids d y) (hx : d x = NGHTTP2_STREAM_DPRI_TOP)
    (h3a : ∀ y, TopReach kids (Function.update d x NGHTTP2_STREAM_DPRI_NO_DATA) (kids x) y →
      Function.update d x NGHTTP2_STREAM_DPRI_NO_DATA y = NGHTTP2_STREAM_DPRI_REST →
      d3 y = NGHTTP2_STREAM_DPRI_TOP)
    (h3b : ∀ y, ¬ (TopReach kids (Function.update d x NGHTTP2_STREAM_DPRI_NO_DATA) (kids x) y ∧
        Function.update d x NGHTTP2_STREAM_DPRI_NO_DATA y = NGHTTP2_STREAM_DPRI_REST) →
      d3 y = Function.update d x NGHTTP2_STREAM_DPRI_NO_DATA y) :
    ∀ y, Sched kids d3 y := by
  have hd1 : ∀ y, y ≠ x → Function.update d x NGHTTP2_STREAM_DPRI_NO_DATA y = d y :=
    fun y hy => Function.update_noteq hy _ _
  have hd1x : Function.update d x NGHTTP2_STREAM_DPRI_NO_DATA x = NGHTTP2_STREAM_DPRI_NO_DATA :=
    Function.update_same _ _ _
  -- streams without data keep none
  have hnd : ∀ a, Function.update d x NGHTTP2_STREAM_DPRI_NO_DATA a =
      NGHTTP2_STREAM_DPRI_NO_DATA → d3 a = NGHTTP2_STREAM_DPRI_NO_DATA := by
    intro a ha
    rw [h3b a (fun h => by rw [ha] at h; cases h.2), ha]
  -- `x` and its ancestors have no data
  have hup : ∀ a, Above kids x a →
      Function.update d x NGHTTP2_STREAM_DPRI_NO_DATA a = NGHTTP2_STREAM_DPRI_NO_DATA := by
    intro a ha
    rcases ha.anc_or_eq with e | h
    · rw [e]; exact hd1x
    · rw [hd1 a (Anc.ne hc h).symm]; exact (hS x).1 hx a h
  intro y
  refine ⟨?_, ?_⟩
  · intro hy a ha
    apply hnd
    by_cases h : TopReach kids (Function.update d x NGHTTP2_STREAM_DPRI_NO_DATA) (kids x) y ∧
        Function.update d x NGHTTP2_STREAM_DPRI_NO_DATA y = NGHTTP2_STREAM_DPRI_REST
    · obtain ⟨c, hcx, hyc, hbetween⟩ := (TopReach_iff hl hc _ (kids x) y).1 h.1
      rcases Above.comparable hl ha.above hyc with h1 | h1
      · exact hbetween a ha h1
      · rcases h1.anc_or_eq with e | ⟨n, hcn, hna⟩
        · rw [e]; exact hbetween c (e ▸ ha) Above.self
        · have e : n = x := hl.uniq _ _ c hcn hcx
          subst e
          exact hup a hna
    · rw [h3b y h] at hy
      have hyx : y ≠ x := fun e => by rw [e, hd1x] at hy; cases hy
      rw [hd1 y hyx] at hy
      by_cases hax : a = x
      · rw [hax]; exact hd1x
      · rw [hd1 a hax]; exact (hS y).1 hy a ha
  · intro hy
    have h : ¬ (TopReach kids (Function.update d x NGHTTP2_STREAM_DPRI_NO_DATA) (kids x) y ∧
        Function.update d x NGHTTP2_STREAM_DPRI_NO_DATA y = NGHTTP2_STREAM_DPRI_REST) := by
      intro h
      rw [h3a y h.1 h.2] at hy
      cases hy
    have hy1 : Function.update d x NGHTTP2_STREAM_DPRI_NO_DATA y = NGHTTP2_STREAM_DPRI_REST := by
      rw [← h3b y h]; exact hy
    have hyx : y ≠ x := fun e => by rw [e, hd1x] at hy1; cases hy1
    have hdy : d y = NGHTTP2_STREAM_DPRI_REST := by rw [← hd1 y hyx]; exact hy1
    obtain ⟨a, ha, hda⟩ := (hS y).2 hdy
    by_cases hax : a = x
    · subst hax
      -- `y` is below `a`, and was not reached: a stream with data lies between
      obtain ⟨c, hca, hyc⟩ := (anc_iff_inSub_kids kids a y).1 ha
      have hnr : ¬ TopReach kids (Function.update d a NGHTTP2_STREAM_DPRI_NO_DATA) (kids a) y :=
        fun h' => h ⟨h', hy1⟩
      rw [TopReach_iff hl hc] at hnr
      push_neg at hnr
      obtain ⟨a', ha', ha'c, hda'⟩ := hnr c hca hyc
      obtain ⟨t, hat, hdt, htop⟩ := exists_topmost hc
        (Function.update d a NGHTTP2_STREAM_DPRI_NO_DATA) (N - (num a').toNat) a' (by
          have := hc.pos a'
          omega) hda'
      have htc : Above kids t c := by
        rcases Above.comparable hl hat ha'c with h1 | h1
        · exact h1
        · rcases h1.anc_or_eq with e | ⟨n, hcn, hnt⟩
          · rw [e]; exact Above.self
          · have e : n = a := hl.uniq _ _ c hcn hca
            subst e
            exact absurd (hup t hnt) hdt
      have htr : TopReach kids (Function.update d a NGHTTP2_STREAM_DPRI_NO_DATA) (kids a) t :=
        (TopReach_iff hl hc _ (kids a) t).2 ⟨c, hca, htc, fun b hb _ => htop b hb⟩
      refine ⟨t, ha'.trans_above hat, ?_⟩
      cases hdt1 : Function.update d a NGHTTP2_STREAM_DPRI_NO_DATA t with
      | NGHTTP2_STREAM_DPRI_NO_DATA => exact absurd hdt1 hdt
      | NGHTTP2_STREAM_DPRI_REST => exact h3a t htr hdt1
      | NGHTTP2_STREAM_DPRI_TOP =>
        rw [h3b t (fun h' => by rw [hdt1] at h'; cases h'.2), hdt1]
    · refine ⟨a, ha, ?_⟩
      rw [h3b a (fun h' => by rw [hd1 a hax, hda] at h'; cases h'.2), hd1 a hax, hda]

/-- After `dep_make_root` the tree of the root `s` satisfies the scheduling
invariant: `d1` is the `dpri` field after the demotion of the tree, `d3`
after the top-search. -/
theorem Sched_make_root {m : Mem} {kids : Nat → List Nat} {num : Nat → Int} {N : Nat}
    (hl : Links m kids) (hc : Counts num kids N) {s : Nat} (hr : IsRoot kids s)
    (d d1 d3 : Nat → nghttp2_stream_dpri)
    (h1a : ∀ y, Above kids y s → d y = NGHTTP2_STREAM_DPRI_TOP →
      d1 y = NGHTTP2_STREAM_DPRI_REST)
    (h1b : ∀ y, ¬ (Above kids y s ∧ d y = NGHTTP2_STREAM_DPRI_TOP) → d1 y = d y)
    (h3a : ∀ y, TopReach kids d1 [s] y → d1 y = NGHTTP2_STREAM_DPRI_REST →
      d3 y = NGHTTP2_STREAM_DPRI_TOP)
    (h3b : ∀ y, ¬ (TopReach kids d1 [s] y ∧ d1 y = NGHTTP2_STREAM_DPRI_REST) → d3 y = d1 y) :
    ∀ y, Above kids y s → Sched kids d3 y := by
  refine Sched_of_set_top hl hc hr d1 d3 h3a h3b ?_
  intro y hy hdy
  by_cases h : d y = NGHTTP2_STREAM_DPRI_TOP
  · rw [h1a y hy h] at hdy; cases hdy
  · rw [h1b y (fun h' => h h'.2)] at hdy
    exact absurd hdy h

/-- After the demotion of the tree of `s`, no stream of it is TOP and the
other streams are as before. -/
theorem regroup_dpri {kids : Nat → List Nat} {s : Nat} (d d1 : Nat → nghttp2_stream_dpri)
    (h1a : ∀ y, Above kids y s → d y = NGHTTP2_STREAM_DPRI_TOP →
      d1 y = NGHTTP2_STREAM_DPRI_REST)
    (h1b : ∀ y, ¬ (Above kids y s ∧ d y = NGHTTP2_STREAM_DPRI_TOP) → d1 y = d y) :
    (∀ y, Above kids y s → d1 y ≠ NGHTTP2_STREAM_DPRI_TOP) ∧
      (∀ y, ¬ Above kids y s → d1 y = d y) := by
  refine ⟨?_, fun y hy => h1b y (fun h => hy h.1)⟩
  intro y hy
  by_cases h : d y = NGHTTP2_STREAM_DPRI_TOP
  · rw [h1a y hy h]; simp
  · rw [h1b y (fun h' => h h'.2)]; exact h

/-- After `dep_add_subtree` the tree of `p` satisfies the scheduling
invariant, if it did before: `d1` is the `dpri` field after the demotion of
the tree of `s`, `d3` after the top-search from the root `r`. -/
theorem Sched_add_subtree {m' : Mem} {kids : Nat → List Nat} {num' : Nat → Int}
    {N' : Nat} {p s r : Nat} (hnot : ¬ Above kids p s)
    (hl' : Links m' (Function.update kids p (kids p ++ [s])))
    (hc' : Counts num' (Function.update kids p (kids p ++ [s])) N')
    (hr' : IsRoot (Function.update kids p (kids p ++ [s])) r)
    (hpr' : Above (Function.update kids p (kids p ++ [s])) p r)
    (d d1 d3 : Nat → nghttp2_stream_dpri)
    (hS : ∀ y, InTree kids p y → Sched kids d y)
    (h1a : ∀ y, Above kids y s → d y = NGHTTP2_STREAM_DPRI_TOP →
      d1 y = NGHTTP2_STREAM_DPRI_REST)
    (h1b : ∀ y, ¬ (Above kids y s ∧ d y = NGHTTP2_STREAM_DPRI_TOP) → d1 y = d y)
    (h3a : ∀ y, TopReach (Function.update kids p (kids p ++ [s])) d1 [r] y →
      d1 y = NGHTTP2_STREAM_DPRI_REST → d3 y = NGHTTP2_STREAM_DPRI_TOP)
    (h3b : ∀ y, ¬ (TopReach (Function.update kids p (kids p ++ [s])) d1 [r] y ∧
      d1 y = NGHTTP2_STREAM_DPRI_REST) → d3 y = d1 y) :
    ∀ y, Above (Function.update kids p (kids p ++ [s])) y r →
      Sched (Function.update kids p (kids p ++ [s])) d3 y := by
  obtain ⟨hsub, hout⟩ := regroup_dpri d d1 h1a h1b
  have hmem : ∀ y, ¬ Above kids y s → ∀ z n, Above kids y z →
      (z ∈ kids n ↔ z ∈ Function.update kids p (kids p ++ [s]) n) := by
    intro y hy z n hz
    have hzs : z ≠ s := fun e => hy (e ▸ hz)
    by_cases hn : n = p
    · subst hn
      rw [Function.update_same]
      simp [hzs]
    · rw [Function.update_noteq hn]
  have hroot : IsRoot kids r := by
    intro n hn
    apply hr' n
    by_cases hnp : n = p
    · subst hnp
      rw [Function.update_same]
      simp [hn]
    · rw [Function.update_noteq hnp]; exact hn
  have hpr : Above kids p r := (above_add_iff hnot r).2 hpr'
  refine Sched_of_set_top hl' hc' hr' d1 d3 h3a h3b ?_
  intro y hy hdy a ha
  have hys : ¬ Above kids y s := fun h => hsub y h hdy
  have hyr : Above kids y r := (above_congr (hmem y hys) r).2 hy
  have ha0 : Anc kids y a := (anc_congr (hmem y hys) a).2 ha
  have hdy0 : d y = NGHTTP2_STREAM_DPRI_TOP := by rw [← hout y hys]; exact hdy
  have has : ¬ Above kids a s := fun h => hys (ha0.above.trans h)
  rw [hout a has]
  exact (hS y ⟨r, hroot, hpr, hyr⟩).1 hdy0 a ha0

/-- After `dep_insert_subtree` the tree of `p` satisfies the scheduling
invariant, if it did before: `d1` is the `dpri` field after the demotion of
the tree of `s`, `d2` after the demotion below `p`, `d3` after the top-search
from the root `r`. -/
theorem Sched_insert_subtree {m m' : Mem} {kids : Nat → List Nat} {num num' : Nat → Int}
    {N N' : Nat} (hl : Links m kids) (hc : Counts num kids N) {p s r : Nat}
    (hr : IsRoot kids s) (hnot : ¬ Above kids p s)
    (hl' : Links m' (kidsInsert kids p s)) (hc' : Counts num' (kidsInsert kids p s) N')
    (hr' : IsRoot (kidsInsert kids p s) r) (hpr' : Above (kidsInsert kids p s) p r)
    (d d1 d2 d3 : Nat → nghttp2_stream_dpri)
    (hS : ∀ y, InTree kids p y → Sched kids d y)
    (h1a : ∀ y, Above kids y s → d y = NGHTTP2_STREAM_DPRI_TOP →
      d1 y = NGHTTP2_STREAM_DPRI_REST)
    (h1b : ∀ y, ¬ (Above kids y s ∧ d y = NGHTTP2_STREAM_DPRI_TOP) → d1 y = d y)
    (h2a : ∀ y, RestVisit kids d1 (kids p) y → d1 y = NGHTTP2_STREAM_DPRI_TOP →
      d2 y = NGHTTP2_STREAM_DPRI_REST)
    (h2b : ∀ y, ¬ (RestVisit kids d1 (kids p) y ∧ d1 y = NGHTTP2_STREAM_DPRI_TOP) →
      d2 y = d1 y)
    (h3a : ∀ y, TopReach (kidsInsert kids p s) d2 [r] y →
      d2 y = NGHTTP2_STREAM_DPRI_REST → d3 y = NGHTTP2_STREAM_DPRI_TOP)
    (h3b : ∀ y, ¬ (TopReach (kidsInsert kids p s) d2 [r] y ∧
      d2 y = NGHTTP2_STREAM_DPRI_REST) → d3 y = d2 y) :
    ∀ y, Above (kidsInsert kids p s) y r → Sched (kidsInsert kids p s) d3 y := by
  obtain ⟨hsub, hout⟩ := regroup_dpri d d1 h1a h1b
  have hps : p ≠ s := fun e => hnot (e ▸ Above.self)
  have hroot : IsRoot kids r := (kidsInsert_root hl hps hr').2.2.2
  have hpr : Above kids p r := (above_insert_iff hl hc hr hnot r).2 hpr'
  -- the streams below `p` are not in the tree of `s`
  have hbelow : ∀ z, Anc kids z p → ¬ Above kids z s := by
    intro z hz hzs
    rcases Above.comparable hl hz.above hzs with h | h
    · exact hnot h
    · have := Above.root_eq hr h
      exact hnot (this ▸ Above.self)
  have hmem : ∀ y, ¬ Above kids y s → ¬ Anc kids y p → ∀ z n, Above kids y z →
      (z ∈ kids n ↔ z ∈ kidsInsert kids p s n) := by
    intro y hy hyp z n hz
    have hzs : z ≠ s := fun e => hy (e ▸ hz)
    have hzp : z ∉ kids p := fun h => hyp (hz.anc_of_mem h)
    have hzks : z ∉ kids s := fun h => hy (hz.trans (Above.of_mem h))
    by_cases hn : n = s
    · subst hn
      rw [kidsInsert_s]
      simp [hzp, hzks]
    · by_cases hnp : n = p
      · subst hnp
        rw [kidsInsert_p kids hps]
        simp [hzs, hzp]
      · rw [kidsInsert_other kids hn hnp]
  refine Sched_of_set_top hl' hc' hr' d2 d3 h3a h3b ?_
  intro y hy hdy a ha
  have hdy1 : d1 y = NGHTTP2_STREAM_DPRI_TOP := by
    by_contra h
    rw [h2b y (fun h' => h h'.2)] at hdy
    exact h hdy
  have hys : ¬ Above kids y s := fun h => hsub y h hdy1
  have hdy0 : d y = NGHTTP2_STREAM_DPRI_TOP := by rw [← hout y hys]; exact hdy1
  have hyp : ¬ Anc kids y p := by
    intro hyp
    have hyt : InTree kids p y := ⟨r, hroot, hpr, hyp.above.trans hpr⟩
    obtain ⟨c, hcp, hyc⟩ := (anc_iff_inSub_kids kids p y).1 hyp
    have h1 : RestVisit kids d (kids p) y :=
      RestVisit_of_top hl d
        (fun b hb hdb => (hS b ⟨r, hroot, hpr, hb.above.trans hpr⟩).2 hdb)
        ((hS y hyt).1 hdy0) c hyc p hcp Above.self
    have h2 : RestVisit kids d1 (kids p) y :=
      (RestVisit_congr kids d d1 (kids p) (fun z hz =>
        hout z (hbelow z ((anc_iff_inSub_kids kids p z).2 hz))) y).2 h1
    rw [h2a y h2 hdy1] at hdy
    cases hdy
  have hyr : Above kids y r := (above_congr (hmem y hys hyp) r).2 hy
  have ha0 : Anc kids y a := (anc_congr (hmem y hys hyp) a).2 ha
  have has : ¬ Above kids a s := fun h => hys (ha0.above.trans h)
  have hda : d a = NGHTTP2_STREAM_DPRI_NO_DATA := (hS y ⟨r, hroot, hpr, hyr⟩).1 hdy0 a ha0
  rw [h2b a (fun h => by rw [hout a has, hda] at h; cases h.2), hout a has]
  exact hda

theorem InTree.anc {m : Mem} {kids : Nat → List Nat} (hl : Links m kids) {p y a : Nat}
    (h : InTree kids p y) (ha : Anc kids y a) : InTree kids p a := by
  obtain ⟨r, hr, hpr, hyr⟩ := h
  exact ⟨r, hr, hpr, ha.in_tree hl hr hyr⟩

theorem InTree.above_root {m : Mem} {kids : Nat → List Nat} (hl : Links m kids) {p y r : Nat}
    (h : InTree kids p y) (hr : IsRoot kids r) (hpr : Above kids p r) : Above kids y r := by
  obtain ⟨r', hr', hpr', hyr'⟩ := h
  have e : r' = r := by
    rcases Above.comparable hl hpr hpr' with h1 | h1
    · exact Above.root_eq hr h1
    · exact (Above.root_eq hr' h1).symm
  rw [← e]; exact hyr'

/-- C4: in a well-formed forest in which every stream with `dpri != NO_DATA`
has data, with `P3` the scheduling invariant (a TOP stream has no TOP proper
ancestor, a REST stream has exactly one):
`attach_data` (of non-null data to a stream without data and deferred data)
and `detach_data` return, and if they return 0 (every queue push succeeded)
and `P3` held at every stream, it holds at every stream afterwards;
`dep_insert_subtree` and `dep_add_subtree` (of the root `s` of a tree that does
not contain `p`, all of whose streams have a stream group, under a stream `p`
with a stream group whose tree satisfies `P3`) return, and if they return 0,
`P3` holds at every stream of the resulting tree of `p`;
`dep_make_root` (of a root `s` all of whose descendants have a stream group)
returns, and if it returns 0, `P3` holds at every stream of the tree of `s`. -/
theorem C4_scheduling_invariant (m : Mem) (kids : Nat → List Nat) (N : Nat) (hw : WF m kids N)
    (hdata : ∀ y, m.dpri y ≠ NGHTTP2_STREAM_DPRI_NO_DATA → m.data y ≠ none)
    (fuel : Nat) (hf : 2 * N ≤ fuel) :
    (∀ x data, m.data x = none → m.deferred_data x = none → data ≠ none →
      (∀ y, P3 kids m.dpri y) →
      ∃ m' rv, nghttp2_stream_attach_data fuel m x data = .ok (m', rv) ∧ WF m' kids N ∧
        (rv = 0 → ∀ y, P3 kids m'.dpri y)) ∧
    (∀ x, (∀ y, P3 kids m.dpri y) →
      ∃ m' rv, nghttp2_stream_detach_data fuel m x = .ok (m', rv) ∧ WF m' kids N ∧
        (rv = 0 → ∀ y, P3 kids m'.dpri y)) ∧
    (∀ p s g, IsRoot kids s → ¬ Above kids p s → m.stream_group p = some g →
      (∀ y, Above kids y s → m.stream_group y ≠ none) →
      (∀ y, InTree kids p y → P3 kids m.dpri y) →
      ∃ m' rv, nghttp2_stream_dep_insert_subtree fuel m p s = .ok (m', rv) ∧
        WF m' (kidsInsert kids p s) (2 * N) ∧
        (rv = 0 → ∀ y, InTree (kidsInsert kids p s) p y →
          P3 (kidsInsert kids p s) m'.dpri y)) ∧
    (∀ p s g, IsRoot kids s → ¬ Above kids p s → m.stream_group p = some g →
      (∀ y, Above kids y s → m.stream_group y ≠ none) →
      (∀ y, InTree kids p y → P3 kids m.dpri y) →
      ∃ m' rv, nghttp2_stream_dep_add_subtree fuel m p s = .ok (m', rv) ∧
        WF m' (Function.update kids p (kids p ++ [s])) (2 * N) ∧
        (rv = 0 → ∀ y, InTree (Function.update kids p (kids p ++ [s])) p y →
          P3 (Function.update kids p (kids p ++ [s])) m'.dpri y)) ∧
    (∀ s g, IsRoot kids s → (∀ y, Above kids y s → m.stream_group y ≠ none) →
      ∃ m' rv, nghttp2_stream_dep_make_root fuel m (some g) s = .ok (m', rv) ∧
        WF m' kids N ∧ (rv = 0 → ∀ y, Above kids y s → P3 kids m'.dpri y)) := by
  have hfN : N ≤ fuel := by omega
  have hall : (∀ y, P3 kids m.dpri y) → ∀ y, Sched kids m.dpri y := fun h y =>
    (P3_iff_Sched hw.links m.dpri (fun _ => True) (fun _ _ _ _ => trivial)).1
      (fun y _ => h y) y trivial
  have hback : ∀ d, (∀ y, Sched kids d y) → ∀ y, P3 kids d y := fun d h y =>
    (P3_iff_Sched hw.links d (fun _ => True) (fun _ _ _ _ => trivial)).2
      (fun y _ => h y) y trivial
  have htree : ∀ p, (∀ y, InTree kids p y → P3 kids m.dpri y) →
      ∀ y, InTree kids p y → Sched kids m.dpri y := fun p h =>
    (P3_iff_Sched hw.links m.dpri (InTree kids p)
      (fun _ _ hy ha => hy.anc hw.links ha)).1 h
  refine ⟨?_, ?_, ?_, ?_, ?_⟩
  · intro x data hd hdd hne hP
    obtain ⟨m', rv, d2, r, hrun, hw', hr, hxr, h2a, h2b, -, hpost, -⟩ :=
      attach_data_spec hw hd hdd hne (fun y _ => hdata y) hfN
    refine ⟨m', rv, hrun, hw', fun hrv => ?_⟩
    obtain ⟨h3a, h3b⟩ := hpost hrv
    exact hback _ (Sched_attach hw.links hw.counts hr hxr m.dpri d2 m'.dpri (hall hP)
      h2a h2b h3a h3b)
  · intro x hP
    obtain ⟨m', rv, hrun, hw', hnt, ht, -⟩ := detach_data_spec hw x hdata hfN
    refine ⟨m', rv, hrun, hw', fun hrv => ?_⟩
    by_cases hx : m.dpri x = NGHTTP2_STREAM_DPRI_TOP
    · obtain ⟨h3a, h3b⟩ := (ht hx).2 hrv
      exact hback _ (Sched_detach_top hw.links hw.counts m.dpri m'.dpri (hall hP) hx h3a h3b)
    · rw [(hnt hx).2]
      exact hback _ (Sched_detach_other m.dpri (hall hP) hx)
  · intro p s g hr hnot hgp hgs hP
    obtain ⟨m', rv, d1, d2, r, hrun, hw', -, -, -, -, -, h1a, h1b, h2a, h2b, hr', hpr', -, hpost,
      -⟩ := dep_insert_subtree_spec hw hr hnot hgp hgs hdata hf
    refine ⟨m', rv, hrun, hw', fun hrv => ?_⟩
    obtain ⟨h3a, h3b⟩ := hpost hrv
    have hS := Sched_insert_subtree hw.links hw.counts hr hnot hw'.links hw'.counts hr' hpr'
      m.dpri d1 d2 m'.dpri (htree p hP) h1a h1b h2a h2b h3a h3b
    have hP' := (P3_iff_Sched hw'.links m'.dpri (fun y => Above _ y r)
      (fun _ _ hy ha => ha.in_tree hw'.links hr' hy)).2 hS
    intro y hy
    exact hP' y (hy.above_root hw'.links hr' hpr')
  · intro p s g hr hnot hgp hgs hP
    obtain ⟨m', rv, d1, r, hrun, hw', -, -, -, -, h1a, h1b, hr', hpr', -, hpost, -⟩ :=
      dep_add_subtree_spec hw hr hnot hgp hgs hdata hf
    refine ⟨m', rv, hrun, hw', fun hrv => ?_⟩
    obtain ⟨h3a, h3b⟩ := hpost hrv
    have hS := Sched_add_subtree hnot hw'.links hw'.counts hr' hpr'
      m.dpri d1 m'.dpri (htree p hP) h1a h1b h3a h3b
    have hP' := (P3_iff_Sched hw'.links m'.dpri (fun y => Above _ y r)
      (fun _ _ hy ha => ha.in_tree hw'.links hr' hy)).2 hS
    intro y hy
    exact hP' y (hy.above_root hw'.links hr' hpr')
  · intro s g hr hgs
    obtain ⟨m', rv, d1, hrun, hw', -, -, h1a, h1b, -, hpost, -⟩ :=
      dep_make_root_spec hw g hr hgs hdata hfN
    refine ⟨m', rv, hrun, hw', fun hrv => ?_⟩
    obtain ⟨h3a, h3b⟩ := hpost hrv
    have hS := Sched_make_root hw'.links hw'.counts hr m.dpri d1 m'.dpri h1a h1b h3a h3b
    exact (P3_iff_Sched hw'.links m'.dpri (fun y => Above kids y s)
      (fun _ _ hy ha => ha.in_tree hw'.links hr hy)).2 hS

/-- C4 on the forest `1 -> 2` in group 0, where no stream has data: attaching
data to stream 2, and making stream 1 the root of group 7. -/
theorem C4_scheduling_invariant_witness :
    (∃ m' rv, nghttp2_stream_attach_data 4 memGA 2 (some 12) = .ok (m', rv) ∧
      WF m' kidsA 2 ∧ (rv = 0 → ∀ y, P3 kidsA m'.dpri y)) ∧
    (∃ m' rv, nghttp2_stream_dep_make_root 4 memGA (some 7) 1 = .ok (m', rv) ∧
      WF m' kidsA 2 ∧ (rv = 0 → ∀ y, Above kidsA y 1 → P3 kidsA m'.dpri y)) := by
  have h := C4_scheduling_invariant memGA kidsA 2 memGA_spec.1
    (fun y h => absurd (by rw [memGA_spec.2.2]) h) 4 (by decide)
  refine ⟨h.1 2 (some 12) (by decide) (by decide) (by simp) ?_,
    h.2.2.2.2 1 7 (isRoot_kidsA (by decide)) (fun y _ => by rw [memGA_spec.2.1]; simp)⟩
  intro y
  unfold P3
  rw [memGA_spec.2.2]
  simp

/-! ## Subtree membership test -/

/-- The search started at the head of a sibling run visits the streams of the
run and their descendants: it returns true exactly for the targets among
them. -/
theorem subtree_find_spec {m : Mem} {kids : Nat → List Nat} {N : Nat} (hw : WF m kids N)
    (t : Nat) :
    ∀ (fuel : Nat) (l : List Nat) (dp sp : Option Nat),
      LinkChain m dp sp l none → (l.map m.num_substreams).sum ≤ fuel →
      ∃ b, nghttp2_stream_dep_subtree_find fuel m l.head? t = .ok b ∧
        (b = true ↔ InSub kids l t) := by
  intro fuel
  induction fuel with
  | zero =>
    intro l dp sp _ hf
    cases l with
    | nil =>
      exact ⟨false, rfl, by simp [InSub_nil]⟩
    | cons c cs =>
      have h1 := hw.counts.pos c
      have h2 := sum_map_ge_length m.num_substreams cs (fun c _ => hw.counts.pos c)
      simp at hf
      omega
  | succ f ih =>
    intro l dp sp hch hf
    cases l with
    | nil =>
      exact ⟨false, rfl, by simp [InSub_nil]⟩
    | cons c cs =>
      have hpos := hw.counts.pos c
      have hcs := sum_map_ge_length m.num_substreams cs (fun c _ => hw.counts.pos c)
      simp only [List.map_cons, List.sum_cons] at hf
      have hnext : m.sib_next c = cs.head? := by rw [hch.2.2.1, headOr_eq_head?]
      by_cases hct : c = t
      · refine ⟨true, ?_, ?_⟩
        · simp [nghttp2_stream_dep_subtree_find, hct]
        · simp only [true_iff]
          exact (InSub_cons kids c cs t).2 (Or.inl hct.symm)
      · obtain ⟨b1, hrun1, hb1⟩ := ih cs none (some c) hch.2.2.2 (by omega)
        obtain ⟨b2, hrun2, hb2⟩ := ih (kids c) (some c) none (hw.links.chain c)
          (by rw [sum_kids_lt hw.counts]; omega)
        rw [← hnext] at hrun1
        rw [← hw.links.dep_next c] at hrun2
        cases b1 with
        | true =>
          refine ⟨true, ?_, ?_⟩
          · simp [nghttp2_stream_dep_subtree_find, hct, hrun1]
          · simp only [true_iff]
            exact (InSub_cons kids c cs t).2 (Or.inr (Or.inl (hb1.1 rfl)))
        | false =>
          refine ⟨b2, ?_, ?_⟩
          · simp [nghttp2_stream_dep_subtree_find, hct, hrun1, hrun2]
          · rw [hb2, InSub_cons]
            constructor
            · intro h; exact Or.inr (Or.inr h)
            · rintro (h | h | h)
              · exact absurd h.symm hct
              · have := hb1.2 h
                cases this
              · exact h

theorem isRoot_kidsB_one : IsRoot kidsB 1 := by
  intro n hn
  unfold kidsB at hn
  by_cases h : n = 1
  · subst h; simp at hn
  · rw [Function.update_noteq h] at hn
    exact isRoot_kidsA (show (1 : Nat) ≠ 2 by decide) n hn

theorem above_kidsB_three {a : Nat} (h : Above kidsB 3 a) : a = 3 ∨ a = 1 := by
  rcases h.cases_bottom with e | ⟨n, hn, hna⟩
  · exact Or.inl e
  · have hn1 : n = 1 := by
      by_contra hne
      unfold kidsB at hn
      rw [Function.update_noteq hne] at hn
      unfold kidsA at hn
      by_cases h2 : n = 1
      · exact hne h2
      · rw [Function.update_noteq h2] at hn
        simp at hn
    subst hn1
    exact Or.inr (Above.root_eq isRoot_kidsB_one hna)

/-- C11, the failing input: in the well-formed forest `1 -> 2, 3` the stream
3 is neither stream 2 nor a descendant of it, yet `dep_subtree_find(2, 3)`
returns true, because the search also follows `sib_next` of its start
stream. -/
theorem C11_counterexample :
    WF memB kidsB 3 ∧ ¬ Above kidsB 3 2 ∧
      nghttp2_stream_dep_subtree_find 3 memB (some 2) 3 = .ok true := by
  refine ⟨WF_memB, ?_, rfl⟩
  intro h
  rcases above_kidsB_three h with e | e <;> exact absurd e (by decide)

/-- C11, what the code computes: in a well-formed forest
`dep_subtree_find(x, t)` returns; for a root `x`, and for a stream `x` without
later siblings, it returns true if and only if `t = x` or `t` is a descendant
of `x`, as the subtree test should; for a stream `x` with later siblings it
returns true if and only if `t` is in the subtree of `x` or in the subtree of
a later sibling of `x`.  It returns false when `x` is null. -/
theorem C11_dep_subtree_find (m : Mem) (kids : Nat → List Nat) (N : Nat) (hw : WF m kids N)
    (t : Nat) (fuel : Nat) (hf : N ≤ fuel) :
    nghttp2_stream_dep_subtree_find fuel m none t = .ok false ∧
    (∀ x, IsRoot kids x →
      ∃ b, nghttp2_stream_dep_subtree_find fuel m (some x) t = .ok b ∧
        (b = true ↔ Above kids t x)) ∧
    (∀ x n L R, kids n = L ++ x :: R →
      ∃ b, nghttp2_stream_dep_subtree_find fuel m (some x) t = .ok b ∧
        (b = true ↔ ∃ c ∈ x :: R, Above kids t c)) ∧
    (∀ x n L, kids n = L ++ [x] →
      ∃ b, nghttp2_stream_dep_subtree_find fuel m (some x) t = .ok b ∧
        (b = true ↔ Above kids t x)) := by
  have hfi : (N : Int) ≤ fuel := by exact_mod_cast hf
  have hsib : ∀ x n L R, kids n = L ++ x :: R →
      ∃ b, nghttp2_stream_dep_subtree_find fuel m (some x) t = .ok b ∧
        (b = true ↔ ∃ c ∈ x :: R, Above kids t c) := by
    intro x n L R hk
    have hch := hw.links.chain n
    rw [hk, LinkChain_append] at hch
    have hsum := sum_kids_lt hw.counts n
    have hb := hw.counts.bound n
    have hL := sum_map_ge_length m.num_substreams L (fun c _ => hw.counts.pos c)
    rw [hk] at hsum
    simp only [List.map_append, List.sum_append] at hsum
    exact subtree_find_spec hw t fuel (x :: R) _ _ hch.2 (by omega)
  refine ⟨?_, ?_, hsib, ?_⟩
  · cases fuel <;> rfl
  · intro x hr
    have hb := hw.counts.bound x
    obtain ⟨b, hrun, hb⟩ := subtree_find_spec hw t fuel [x] none none
      (LinkChain_root hw.links hr) (by simp; omega)
    exact ⟨b, hrun, by rw [hb, InSub_singleton]⟩
  · intro x n L hk
    obtain ⟨b, hrun, hb⟩ := hsib x n L [] hk
    exact ⟨b, hrun, by rw [hb]; simp⟩

/-- C11 on the forest `1 -> 2, 3` with target 3. -/
theorem C11_dep_subtree_find_witness :
    nghttp2_stream_dep_subtree_find 3 memB none 3 = .ok false ∧
    (∀ x, IsRoot kidsB x →
      ∃ b, nghttp2_stream_dep_subtree_find 3 memB (some x) 3 = .ok b ∧
        (b = true ↔ Above kidsB 3 x)) ∧
    (∀ x n L R, kidsB n = L ++ x :: R →
      ∃ b, nghttp2_stream_dep_subtree_find 3 memB (some x) 3 = .ok b ∧
        (b = true ↔ ∃ c ∈ x :: R, Above kidsB 3 c)) ∧
    (∀ x n L, kidsB n = L ++ [x] →
      ∃ b, nghttp2_stream_dep_subtree_find 3 memB (some x) 3 = .ok b ∧
        (b = true ↔ Above kidsB 3 x)) :=
  C11_dep_subtree_find memB kidsB 3 WF_memB 3 3 (le_refl 3)

/-! ## Root lookup -/

/-- C12: in a well-formed forest `get_dep_root(s)` returns a stream `r` with
`r.dep_prev = r.sib_prev = null` such that `r` is `s` or an ancestor of `s`;
`get_dep_root(r) = r`; and every stream that has a common ancestor with `s`
(a stream of the same tree) gets the same `r`. -/
theorem C12_get_dep_root (m : Mem) (kids : Nat → List Nat) (N : Nat) (hw : WF m kids N)
    (s : Nat) (fuel : Nat) (hf : N ≤ fuel) :
    ∃ r, nghttp2_stream_get_dep_root fuel m s = .ok r ∧
      m.dep_prev r = none ∧ m.sib_prev r = none ∧ Above kids s r ∧
      nghttp2_stream_get_dep_root fuel m r = .ok r ∧
      ∀ s', (∃ a, Above kids s a ∧ Above kids s' a) →
        nghttp2_stream_get_dep_root fuel m s' = .ok r := by
  have hfi : (N : Int) ≤ fuel := by exact_mod_cast hf
  have hrun : ∀ x, ∃ r, nghttp2_stream_get_dep_root fuel m x = .ok r ∧ IsRoot kids r ∧
      Above kids x r := fun x =>
    get_dep_root_spec hw fuel x (by have := hw.counts.pos x; omega)
  have huniq : ∀ x r r', IsRoot kids r → IsRoot kids r' → Above kids x r → Above kids x r' →
      r = r' := by
    intro x r r' hr hr' h h'
    rcases Above.comparable hw.links h h' with h1 | h1
    · exact (Above.root_eq hr h1).symm
    · exact Above.root_eq hr' h1
  obtain ⟨r, hr, hroot, hab⟩ := hrun s
  have hnull := hw.links.root r hroot
  refine ⟨r, hr, hnull.1, hnull.2.1, hab, ?_, ?_⟩
  · obtain ⟨r', hr', hroot', hab'⟩ := hrun r
    rw [hr', Above.root_eq hroot hab']
  · rintro s' ⟨a, hsa, hs'a⟩
    obtain ⟨r', hr', hroot', hab'⟩ := hrun s'
    obtain ⟨ra, -, hroota, haba⟩ := hrun a
    have e1 : r = ra := huniq s r ra hroot hroota hab (hsa.trans haba)
    have e2 : r' = ra := huniq s' r' ra hroot' hroota hab' (hs'a.trans haba)
    rw [hr', e2, ← e1]

/-- C12 on the forest `1 -> 2, 3`, for the stream 3. -/
theorem C12_get_dep_root_witness :
    ∃ r, nghttp2_stream_get_dep_root 3 memB 3 = .ok r ∧
      memB.dep_prev r = none ∧ memB.sib_prev r = none ∧ Above kidsB 3 r ∧
      nghttp2_stream_get_dep_root 3 memB r = .ok r ∧
      ∀ s', (∃ a, Above kidsB 3 a ∧ Above kidsB s' a) →
        nghttp2_stream_get_dep_root 3 memB s' = .ok r :=
  C12_get_dep_root memB kidsB 3 WF_memB 3 3 (le_refl 3)

theorem Demoted.same (m : Mem) : Demoted m m :=
  ⟨rfl, rfl, rfl, rfl, rfl, fun _ => Or.inl rfl⟩

theorem Demoted.comp {m m1 m2 : Mem} (h1 : Demoted m m1) (h2 : Demoted m1 m2) :
    Demoted m m2 := by
  obtain ⟨a1, a2, a3, a4, a5, a6⟩ := h1
  obtain ⟨b1, b2, b3, b4, b5, b6⟩ := h2
  refine ⟨b1.trans a1, b2.trans a2, b3.trans a3, b4.trans a4, b5.trans a5, ?_⟩
  intro y
  rcases a6 y with h | ⟨h, h'⟩
  · rcases b6 y with k | ⟨k, k'⟩
    · exact Or.inl (k.trans h)
    · exact Or.inr ⟨h ▸ k, k'⟩
  · rcases b6 y with k | ⟨k, k'⟩
    · exact Or.inr ⟨h, k.trans h'⟩
    · rw [h'] at k; cases k

theorem Demoted.of_sameData {m m' : Mem} (h : SameData m m') : Demoted m m' := by
  unfold SameData at h
  refine ⟨by rw [h], by rw [h], by rw [h], by rw [h], by rw [h], fun y => Or.inl (by rw [h])⟩

theorem Demoted.of_sameUser_dpri {m m' : Mem}
    (h : m' = { m with
      dep_prev := m'.dep_prev
      dep_next := m'.dep_next
      sib_prev := m'.sib_prev
      sib_next := m'.sib_next
      num_substreams := m'.num_substreams
      stream_group := m'.stream_group
      num_streams := m'.num_streams
      dpri := m'.dpri })
    (hd : ∀ y, m'.dpri y = m.dpri y ∨
      (m.dpri y = NGHTTP2_STREAM_DPRI_TOP ∧ m'.dpri y = NGHTTP2_STREAM_DPRI_REST)) :
    Demoted m m' :=
  ⟨by rw [h], by rw [h], by rw [h], by rw [h], by rw [h], hd⟩

theorem set_rest_demoted : ∀ (fuel : Nat) (m : Mem) (x : Option Nat) (m' : Mem),
    stream_update_dep_set_rest fuel m x = .ok m' →
    m' = { m with dpri := m'.dpri } ∧ Demoted m m' := by
  intro fuel
  induction fuel with
  | zero =>
    intro m x m' h
    cases x with
    | none =>
      simp only [stream_update_dep_set_rest, Except.ok.injEq] at h
      subst h
      exact ⟨rfl, Demoted.same _⟩
    | some c => simp [stream_update_dep_set_rest] at h
  | succ n ih =>
    intro m x m' h
    cases x with
    | none =>
      simp only [stream_update_dep_set_rest, Except.ok.injEq] at h
      subst h
      exact ⟨rfl, Demoted.same _⟩
    | some c =>
      simp only [stream_update_dep_set_rest] at h
      split at h
      · simp only [Except.ok.injEq] at h
        subst h
        exact ⟨rfl, Demoted.same _⟩
      · next htop =>
        obtain ⟨e, hd⟩ := ih _ _ _ h
        refine ⟨by rw [e], ?_⟩
        have d1 : Demoted m { m with
            dpri := Function.update m.dpri c NGHTTP2_STREAM_DPRI_REST } := by
          refine ⟨rfl, rfl, rfl, rfl, rfl, ?_⟩
          intro y
          by_cases hy : y = c
          · subst hy
            exact Or.inr ⟨htop, Function.update_same _ _ _⟩
          · exact Or.inl (Function.update_noteq hy _ _)
        exact d1.comp hd
      · split at h
        · cases h
        · next m1 h1 =>
          obtain ⟨e1, hd1⟩ := ih _ _ _ h1
          obtain ⟨e2, hd2⟩ := ih _ _ _ h
          exact ⟨by rw [e2, e1], hd1.comp hd2⟩

theorem set_rest_stream_group_demoted :
    ∀ (fuel : Nat) (m : Mem) (x og : Option Nat) (m' : Mem),
    stream_update_dep_set_rest_stream_group fuel m x og = .ok m' → Demoted m m' := by
  intro fuel
  induction fuel with
  | zero =>
    intro m x og m' h
    cases x with
    | none =>
      simp only [stream_update_dep_set_rest_stream_group, Except.ok.injEq] at h
      subst h
      exact Demoted.same _
    | some c => simp [stream_update_dep_set_rest_stream_group] at h
  | succ n ih =>
    intro m x og m' h
    cases x with
    | none =>
      simp only [stream_update_dep_set_rest_stream_group, Except.ok.injEq] at h
      subst h
      exact Demoted.same _
    | some c =>
      simp only [stream_update_dep_set_rest_stream_group] at h
      cases hg : m.stream_group c with
      | none => simp [hg, nghttp2_stream_group_remove_stream] at h
      | some g0 =>
        cases og with
        | none =>
          simp [hg, nghttp2_stream_group_remove_stream, nghttp2_stream_group_add_stream] at h
        | some g =>
          simp only [hg, nghttp2_stream_group_remove_stream,
            nghttp2_stream_group_add_stream] at h
          split at h
          · cases h
          · next m4 h4 =>
            have d4 := ih _ _ _ _ h4
            have d5 := ih _ _ _ _ h
            refine Demoted.comp ?_ (d4.comp d5)
            by_cases htop : m.dpri c = NGHTTP2_STREAM_DPRI_TOP
            · rw [if_pos htop]
              refine ⟨rfl, rfl, rfl, rfl, rfl, ?_⟩
              intro y
              by_cases hy : y = c
              · subst hy
                exact Or.inr ⟨htop, Function.update_same _ _ _⟩
              · exact Or.inl (Function.update_noteq hy _ _)
            · rw [if_neg htop]
              exact ⟨rfl, rfl, rfl, rfl, rfl, fun _ => Or.inl rfl⟩

theorem pq_push_cases (pq : nghttp2_pq) (d : Nat) :
    (pq.room = 0 ∧ nghttp2_pq_push pq d = (pq, NGHTTP2_ERR_NOMEM)) ∨
    (pq.room ≠ 0 ∧ nghttp2_pq_push pq d = ({ q := pq.q ++ [d], room := pq.room - 1 }, 0)) := by
  unfold nghttp2_pq_push
  by_cases h : pq.room = 0
  · exact Or.inl ⟨h, by rw [if_pos h]⟩
  · exact Or.inr ⟨h, by rw [if_neg h]⟩

theorem Promoted.nothing (m : Mem) : Promoted m m 0 [] where
  data := rfl
  deferred_data := rfl
  deferred_flags := rfl
  q := by simp
  room := by simp
  nodup := List.nodup_nil
  queued := by simp
  fresh := by simp
  owner := by simp
  mono := fun _ => Or.inl rfl
  promoted := fun s h h' => by rw [h] at h'; cases h'
  fail := fun h => absurd rfl h

theorem Promoted.seq {m m1 m2 : Mem} {rv : Int} {p1 p2 : List Nat}
    (h1 : Promoted m m1 0 p1) (h2 : Promoted m1 m2 rv p2) : Promoted m m2 rv (p1 ++ p2) where
  data := h2.data.trans h1.data
  deferred_data := h2.deferred_data.trans h1.deferred_data
  deferred_flags := h2.deferred_flags.trans h1.deferred_flags
  q := by rw [h2.q, h1.q, List.append_assoc]
  room := by
    have a := h1.room
    have b := h2.room
    simp only [List.length_append]
    omega
  nodup := by
    refine List.Nodup.append h1.nodup h2.nodup ?_
    intro d hd1 hd2
    have a := h2.fresh d hd2
    rw [h1.queued d, if_pos hd1] at a
    cases a
  queued := by
    intro d
    rw [h2.queued d, h1.queued d]
    by_cases a : d ∈ p2
    · simp [a]
    · by_cases b : d ∈ p1
      · simp [a, b]
      · simp [a, b]
  fresh := by
    intro d hd
    rcases List.mem_append.1 hd with a | a
    · exact h1.fresh d a
    · have b := h2.fresh d a
      rw [h1.queued d] at b
      by_cases c : d ∈ p1
      · rw [if_pos c] at b; cases b
      · rw [if_neg c] at b; exact b
  owner := by
    intro d hd
    rcases List.mem_append.1 hd with a | a
    · obtain ⟨s, hs1, hs2, hs3⟩ := h1.owner d a
      refine ⟨s, hs1, ?_, hs3⟩
      rcases h2.mono s with k | ⟨k, _⟩
      · rw [k]; exact hs2
      · rw [hs2] at k; cases k
    · obtain ⟨s, hs1, hs2, hs3⟩ := h2.owner d a
      refine ⟨s, ?_, hs2, by rw [← h1.data]; exact hs3⟩
      rcases h1.mono s with k | ⟨k, k'⟩
      · rw [← k]; exact hs1
      · rw [k'] at hs1; cases hs1
  mono := by
    intro y
    rcases h1.mono y with a | ⟨a, a'⟩
    · rcases h2.mono y with b | ⟨b, b'⟩
      · exact Or.inl (b.trans a)
      · exact Or.inr ⟨a ▸ b, b'⟩
    · rcases h2.mono y with b | ⟨b, _⟩
      · exact Or.inr ⟨a, b.trans a'⟩
      · rw [a'] at b; cases b
  promoted := by
    intro s hs hs'
    rcases h1.mono s with a | ⟨_, a'⟩
    · obtain ⟨d, hd, hq⟩ := h2.promoted s (a.trans hs) hs'
      exact ⟨d, by rw [← h1.data]; exact hd, hq⟩
    · obtain ⟨d, hd, hq⟩ := h1.promoted s hs a'
      refine ⟨d, hd, ?_⟩
      rw [h2.queued d]
      by_cases c : d ∈ p2
      · rw [if_pos c]; simp
      · rw [if_neg c]; exact hq
  fail := by
    intro hrv
    obtain ⟨s, d, hs1, hs2, hs3, hs4, hs5⟩ := h2.fail hrv
    refine ⟨s, d, ?_, hs2, by rw [← h1.data]; exact hs3, hs4, hs5⟩
    rcases h1.mono s with k | ⟨_, k'⟩
    · rw [← k]; exact hs1
    · rw [k'] at hs1; cases hs1

/-- One promotion without a push: the item was queued already. -/
theorem Promoted.step_queued {m : Mem} {s d : Nat} (hs : m.dpri s = NGHTTP2_STREAM_DPRI_REST)
    (hd : m.data s = some d) (hq : m.queued d ≠ 0) :
    Promoted m { m with dpri := Function.update m.dpri s NGHTTP2_STREAM_DPRI_TOP } 0 [] where
  data := rfl
  deferred_data := rfl
  deferred_flags := rfl
  q := by simp
  room := by simp
  nodup := List.nodup_nil
  queued := by simp
  fresh := by simp
  owner := by simp
  mono := by
    intro y
    by_cases hy : y = s
    · subst hy; exact Or.inr ⟨hs, Function.update_same _ _ _⟩
    · exact Or.inl (Function.update_noteq hy _ _)
  promoted := by
    intro y hy0 hy'
    by_cases hy : y = s
    · subst hy; exact ⟨d, hd, hq⟩
    · have e : Function.update m.dpri s NGHTTP2_STREAM_DPRI_TOP y = m.dpri y :=
        Function.update_noteq hy _ _
      have : m.dpri y = NGHTTP2_STREAM_DPRI_TOP := by rw [← e]; exact hy'
      rw [hy0] at this; cases this
  fail := fun h => absurd rfl h

/-- One promotion with a successful push. -/
theorem Promoted.step_push {m : Mem} {s d : Nat} (hs : m.dpri s = NGHTTP2_STREAM_DPRI_REST)
    (hd : m.data s = some d) (hq : m.queued d = 0) (hroom : m.pq.room ≠ 0) :
    Promoted m { m with
      pq := { q := m.pq.q ++ [d], room := m.pq.room - 1 }
      queued := Function.update m.queued d 1
      dpri := Function.update m.dpri s NGHTTP2_STREAM_DPRI_TOP } 0 [d] where
  data := rfl
  deferred_data := rfl
  deferred_flags := rfl
  q := rfl
  room := by
    show m.pq.room - 1 + 1 = m.pq.room
    omega
  nodup := by simp
  queued := by
    intro e
    by_cases he : e = d
    · subst he; simp
    · simp [he, Function.update_noteq he]
  fresh := by
    intro e he
    have : e = d := by simpa using he
    rw [this]; exact hq
  owner := by
    intro e he
    have : e = d := by simpa using he
    rw [this]
    exact ⟨s, hs, Function.update_same _ _ _, hd⟩
  mono := by
    intro y
    by_cases hy : y = s
    · subst hy; exact Or.inr ⟨hs, Function.update_same _ _ _⟩
    · exact Or.inl (Function.update_noteq hy _ _)
  promoted := by
    intro y hy0 hy'
    by_cases hy : y = s
    · subst hy
      refine ⟨d, hd, ?_⟩
      show Function.update m.queued d 1 d ≠ 0
      rw [Function.update_same]; simp
    · have e : Function.update m.dpri s NGHTTP2_STREAM_DPRI_TOP y = m.dpri y :=
        Function.update_noteq hy _ _
      have : m.dpri y = NGHTTP2_STREAM_DPRI_TOP := by rw [← e]; exact hy'
      rw [hy0] at this; cases this
  fail := fun h => absurd rfl h

/-- A failed push ends the search at once. -/
theorem Promoted.step_fail {m : Mem} {s d : Nat} (hs : m.dpri s = NGHTTP2_STREAM_DPRI_REST)
    (hd : m.data s = some d) (hq : m.queued d = 0) (hroom : m.pq.room = 0) :
    Promoted m m NGHTTP2_ERR_NOMEM [] where
  data := rfl
  deferred_data := rfl
  deferred_flags := rfl
  q := by simp
  room := by simp
  nodup := List.nodup_nil
  queued := by simp
  fresh := by simp
  owner := by simp
  mono := fun _ => Or.inl rfl
  promoted := fun y h h' => by rw [h] at h'; cases h'
  fail := by
    intro _
    refine ⟨s, d, hs, hs, hd, hq, ?_⟩
    rcases pq_push_cases m.pq d with ⟨_, h⟩ | ⟨h, _⟩
    · exact h
    · exact absurd hroom h

/-- What a returning top-search did. -/
theorem set_top_promoted : ∀ (fuel : Nat) (m : Mem) (x : Option Nat) (m' : Mem) (rv : Int),
    stream_update_dep_set_top fuel m x = .ok (m', rv) → ∃ pushed, Promoted m m' rv pushed := by
  intro fuel
  induction fuel with
  | zero =>
    intro m x m' rv h
    cases x with
    | none =>
      simp only [stream_update_dep_set_top, Except.ok.injEq, Prod.mk.injEq] at h
      obtain ⟨rfl, rfl⟩ := h
      exact ⟨[], Promoted.nothing _⟩
    | some c => simp [stream_update_dep_set_top] at h
  | succ n ih =>
    intro m x m' rv h
    cases x with
    | none =>
      simp only [stream_update_dep_set_top, Except.ok.injEq, Prod.mk.injEq] at h
      obtain ⟨rfl, rfl⟩ := h
      exact ⟨[], Promoted.nothing _⟩
    | some c =>
      simp only [stream_update_dep_set_top] at h
      split at h
      · exact ih _ _ _ _ h
      · next hrest =>
        split at h
        · cases h
        · next d hd =>
          by_cases hq : m.queued d = 0
          · rw [if_pos hq] at h
            rcases pq_push_cases m.pq d with ⟨hroom, hp⟩ | ⟨hroom, hp⟩
            · simp only [hp] at h
              rw [if_pos (by decide)] at h
              simp only [Except.ok.injEq, Prod.mk.injEq] at h
              obtain ⟨rfl, rfl⟩ := h
              exact ⟨[], Promoted.step_fail hrest hd hq hroom⟩
            · simp only [hp] at h
              rw [if_neg (by simp)] at h
              obtain ⟨p2, h2⟩ := ih _ _ _ _ h
              exact ⟨[d] ++ p2, (Promoted.step_push hrest hd hq hroom).seq h2⟩
          · rw [if_neg hq] at h
            obtain ⟨p2, h2⟩ := ih _ _ _ _ h
            exact ⟨[] ++ p2, (Promoted.step_queued hrest hd hq).seq h2⟩
      · split at h
        · cases h
        · next m1 rv1 h1 =>
          obtain ⟨p1, hp1⟩ := ih _ _ _ _ h1
          by_cases hrv : rv1 = 0
          · subst hrv
            rw [if_neg (by simp)] at h
            obtain ⟨p2, hp2⟩ := ih _ _ _ _ h
            exact ⟨p1 ++ p2, hp1.seq hp2⟩
          · rw [if_pos hrv] at h
            simp only [Except.ok.injEq, Prod.mk.injEq] at h
            obtain ⟨rfl, rfl⟩ := h
            exact ⟨p1, hp1⟩

/-! ### Frames of the structural operations, from a successful run -/

theorem stream_update_dep_length_frame : ∀ (fuel : Nat) (m : Mem) (x : Nat) (δ : Int)
    (m' : Mem) (r : Nat), stream_update_dep_length fuel m x δ = .ok (m', r) →
    m' = { m with num_substreams := m'.num_substreams } := by
  intro fuel
  induction fuel with
  | zero => intro m x δ m' r h; simp [stream_update_dep_length] at h
  | succ n ih =>
    intro m x δ m' r h
    simp only [stream_update_dep_length] at h
    split at h
    · cases h
    · split at h
      · have e := ih _ _ _ _ _ h
        rw [e]
      · simp only [Except.ok.injEq, Prod.mk.injEq] at h
        rw [← h.1]

theorem dep_insert_sum_loop_frame : ∀ (fuel : Nat) (m : Mem) (s : Nat) (x : Option Nat)
    (m' : Mem), dep_insert_sum_loop fuel m s x = .ok m' →
    m' = { m with num_substreams := m'.num_substreams } := by
  intro fuel
  induction fuel with
  | zero =>
    intro m s x m' h
    cases x with
    | none =>
      simp only [dep_insert_sum_loop, Except.ok.injEq] at h
      rw [← h]
    | some c => simp [dep_insert_sum_loop] at h
  | succ n ih =>
    intro m s x m' h
    cases x with
    | none =>
      simp only [dep_insert_sum_loop, Except.ok.injEq] at h
      rw [← h]
    | some c =>
      simp only [dep_insert_sum_loop] at h
      have e := ih _ _ _ _ h
      rw [e]

theorem dep_remove_root_loop_frame : ∀ (fuel : Nat) (m : Mem) (x : Option Nat) (m' : Mem),
    dep_remove_root_loop fuel m x = .ok m' →
    m' = { m with
      dep_prev := m'.dep_prev
      sib_prev := m'.sib_prev
      sib_next := m'.sib_next } := by
  intro fuel
  induction fuel with
  | zero =>
    intro m x m' h
    cases x with
    | none =>
      simp only [dep_remove_root_loop, Except.ok.injEq] at h
      rw [← h]
    | some c => simp [dep_remove_root_loop] at h
  | succ n ih =>
    intro m x m' h
    cases x with
    | none =>
      simp only [dep_remove_root_loop, Except.ok.injEq] at h
      rw [← h]
    | some c =>
      simp only [dep_remove_root_loop] at h
      have e := ih _ _ _ h
      rw [e]

theorem dep_insert_sameData {fuel : Nat} {m m' : Mem} {p s : Nat}
    (h : nghttp2_stream_dep_insert fuel m p s = .ok m') : m.data s = none ∧ SameData m m' := by
  unfold nghttp2_stream_dep_insert at h
  by_cases hd : m.data s = none
  · refine ⟨hd, ?_⟩
    rw [if_neg (by simp [hd])] at h
    unfold SameData
    cases hdn : m.dep_next p with
    | none =>
      simp only [hdn] at h
      split at h
      · cases h
      · next m6 r h6 =>
        simp only [Except.ok.injEq] at h
        subst h
        have e := stream_update_dep_length_frame _ _ _ _ _ _ h6
        rw [e]
    | some first =>
      simp only [hdn] at h
      cases hl : dep_insert_sum_loop fuel m s (some first) with
      | error e => simp [hl] at h
      | ok m1 =>
        have e1 := dep_insert_sum_loop_frame _ _ _ _ _ hl
        have hdn1 : m1.dep_next p = some first := by rw [e1]; exact hdn
        simp only [hl, hdn1, Function.update_same] at h
        split at h
        · cases h
        · next m6 r h6 =>
          simp only [Except.ok.injEq] at h
          subst h
          have e := stream_update_dep_length_frame _ _ _ _ _ _ h6
          rw [e, e1]
  · rw [if_pos hd] at h
    cases h

theorem dep_add_sameData {fuel : Nat} {m m' : Mem} {p s : Nat}
    (h : nghttp2_stream_dep_add fuel m p s = .ok m') : m.data s = none ∧ SameData m m' := by
  unfold nghttp2_stream_dep_add at h
  by_cases hd : m.data s = none
  · refine ⟨hd, ?_⟩
    rw [if_neg (by simp [hd])] at h
    unfold SameData
    cases hl : stream_update_dep_length fuel m p 1 with
    | error e => simp [hl] at h
    | ok x =>
      obtain ⟨m1, r⟩ := x
      have e1 := stream_update_dep_length_frame _ _ _ _ _ _ hl
      simp only [hl] at h
      split at h
      · simp only [Except.ok.injEq] at h
        subst h
        rw [e1]
      · split at h
        · cases h
        · simp only [Except.ok.injEq] at h
          subst h
          rw [e1]
  · rw [if_pos hd] at h
    cases h

theorem dep_remove_unlink_frame {fuel : Nat} {m m' : Mem} {s : Nat} {dn : Option Nat}
    (h : dep_remove_unlink fuel m s = .ok (m', dn)) :
    m' = { m with
      dep_prev := m'.dep_prev
      dep_next := m'.dep_next
      sib_prev := m'.sib_prev
      sib_next := m'.sib_next } := by
  unfold dep_remove_unlink at h
  cases h1 : m.sib_prev s with
  | some prev =>
    simp only [h1] at h
    cases h2 : m.dep_next s with
    | some dep_next =>
      simp only [h2, Except.ok.injEq, Prod.mk.injEq] at h
      rw [← h.1]
    | none =>
      simp only [h2] at h
      cases h3 : m.sib_next s with
      | some n =>
        simp only [h3, Except.ok.injEq, Prod.mk.injEq] at h
        rw [← h.1]
      | none =>
        simp only [h3, Except.ok.injEq, Prod.mk.injEq] at h
        rw [← h.1]
  | none =>
    simp only [h1] at h
    cases h2 : m.dep_prev s with
    | some prev =>
      simp only [h2] at h
      cases h3 : m.dep_next s with
      | some dep_next =>
        simp only [h3, Except.ok.injEq, Prod.mk.injEq] at h
        rw [← h.1]
      | none =>
        simp only [h3] at h
        cases h4 : m.sib_next s with
        | some n =>
          simp only [h4, Except.ok.injEq, Prod.mk.injEq] at h
          rw [← h.1]
        | none =>
          simp only [h4, Except.ok.injEq, Prod.mk.injEq] at h
          rw [← h.1]
    | none =>
      simp only [h2] at h
      cases h3 : dep_remove_root_loop fuel m (m.dep_next s) with
      | error e => simp [h3] at h
      | ok m1 =>
        simp only [h3, Except.ok.injEq, Prod.mk.injEq] at h
        have e := dep_remove_root_loop_frame _ _ _ _ h3
        rw [← h.1, e]

theorem dep_remove_sameData {fuel : Nat} {m m' : Mem} {s : Nat}
    (h : nghttp2_stream_dep_remove fuel m s = .ok m') : SameData m m' := by
  unfold nghttp2_stream_dep_remove at h
  unfold SameData
  cases h0 : stream_first_sib fuel m s with
  | error e => simp [h0] at h
  | ok prev =>
    simp only [h0] at h
    -- the memory after the update of the counts
    have key : ∀ m1 : Mem, m1 = { m with num_substreams := m1.num_substreams } →
        (match dep_remove_unlink fuel m1 s with
          | Except.error e => Except.error e
          | Except.ok (m2, dep_next) =>
            match
              (match dep_next, m2.sib_next s with
                | some dn, some next =>
                  match stream_last_sib fuel m2 dn with
                  | Except.error e => Except.error e
                  | Except.ok last =>
                    Except.ok { ({ m2 with
                      sib_next := Function.update m2.sib_next last (some next) } : Mem) with
                      sib_prev := Function.update m2.sib_prev next (some last) }
                | _, _ => Except.ok m2 : Except Fault Mem) with
            | Except.error e => Except.error e
            | Except.ok m4 =>
              Except.ok { m4 with
                num_substreams := Function.update m4.num_substreams s 1
                dep_prev := Function.update m4.dep_prev s none
                dep_next := Function.update m4.dep_next s none
                sib_prev := Function.update m4.sib_prev s none
                sib_next := Function.update m4.sib_next s none }) = Except.ok m' →
        m' = { m with
          dep_prev := m'.dep_prev
          dep_next := m'.dep_next
          sib_prev := m'.sib_prev
          sib_next := m'.sib_next
          num_substreams := m'.num_substreams } := by
      intro m1 e1 h
      cases h2 : dep_remove_unlink fuel m1 s with
      | error e => simp [h2] at h
      | ok x =>
        obtain ⟨m2, dn⟩ := x
        have e2 := dep_remove_unlink_frame h2
        simp only [h2] at h
        have key2 : ∀ m4 : Mem, m4 = { m2 with
            sib_prev := m4.sib_prev
            sib_next := m4.sib_next } →
            ({ m4 with
                num_substreams := Function.update m4.num_substreams s 1
                dep_prev := Function.update m4.dep_prev s none
                dep_next := Function.update m4.dep_next s none
                sib_prev := Function.update m4.sib_prev s none
                sib_next := Function.update m4.sib_next s none } : Mem) = m' →
            m' = { m with
              dep_prev := m'.dep_prev
              dep_next := m'.dep_next
              sib_prev := m'.sib_prev
              sib_next := m'.sib_next
              num_substreams := m'.num_substreams } := by
          intro m4 e4 h'
          rw [← h', e4, e2, e1]
        cases dn with
        | none =>
          simp only [Except.ok.injEq] at h
          exact key2 m2 rfl h
        | some d =>
          cases h3 : m2.sib_next s with
          | none =>
            simp only [h3, Except.ok.injEq] at h
            exact key2 m2 rfl h
          | some next =>
            simp only [h3] at h
            cases h4 : stream_last_sib fuel m2 d with
            | error e => simp [h4] at h
            | ok last =>
              simp only [h4, Except.ok.injEq] at h
              exact key2 { ({ m2 with
                  sib_next := Function.update m2.sib_next last (some next) } : Mem) with
                  sib_prev := Function.update m2.sib_prev next (some last) } rfl h
    cases h1 : m.dep_prev prev with
    | none =>
      simp only [h1] at h
      exact key m rfl h
    | some parent =>
      simp only [h1] at h
      cases h2 : stream_update_dep_length fuel m parent (-1) with
      | error e => simp [h2] at h
      | ok x =>
        obtain ⟨m1, r⟩ := x
        simp only [h2] at h
        exact key m1 (stream_update_dep_length_frame _ _ _ _ _ _ h2) h

theorem dep_remove_subtree_sameData {fuel : Nat} {m m' : Mem} {s : Nat}
    (h : nghttp2_stream_dep_remove_subtree fuel m s = .ok m') : SameData m m' := by
  unfold nghttp2_stream_dep_remove_subtree at h
  unfold SameData
  have key : ∀ m4 : Mem, m4 = { m with
        dep_prev := m4.dep_prev
        dep_next := m4.dep_next
        sib_prev := m4.sib_prev
        sib_next := m4.sib_next
        num_substreams := m4.num_substreams } →
      ({ m4 with
        sib_prev := Function.update m4.sib_prev s none
        sib_next := Function.update m4.sib_next s none
        dep_prev := Function.update m4.dep_prev s none } : Mem) = m' →
      m' = { m with
        dep_prev := m'.dep_prev
        dep_next := m'.dep_next
        sib_prev := m'.sib_prev
        sib_next := m'.sib_next
        num_substreams := m'.num_substreams } := by
    intro m4 e4 h'
    rw [← h', e4]
  cases h1 : m.sib_prev s with
  | some prev =>
    simp only [h1] at h
    -- the memory after the sibling links are closed
    have key1 : ∀ m2 : Mem, m2 = { m with sib_prev := m2.sib_prev, sib_next := m2.sib_next } →
        (match
          (match stream_first_sib fuel m2 prev with
            | Except.error e => Except.error e
            | Except.ok first =>
              match m2.dep_prev first with
              | some parent =>
                match stream_update_dep_length fuel m2 parent (-m2.num_substreams s) with
                | Except.error e => Except.error e
                | Except.ok (m3, _) => Except.ok m3
              | none => Except.ok m2 : Except Fault Mem) with
          | Except.error e => Except.error e
          | Except.ok m4 =>
            Except.ok ({ m4 with
              sib_prev := Function.update m4.sib_prev s none
              sib_next := Function.update m4.sib_next s none
              dep_prev := Function.update m4.dep_prev s none } : Mem)) = Except.ok m' →
        m' = { m with
          dep_prev := m'.dep_prev
          dep_next := m'.dep_next
          sib_prev := m'.sib_prev
          sib_next := m'.sib_next
          num_substreams := m'.num_substreams } := by
      intro m2 e2 h
      cases h3 : stream_first_sib fuel m2 prev with
      | error e => simp [h3] at h
      | ok first =>
        simp only [h3] at h
        cases h4 : m2.dep_prev first with
        | none =>
          simp only [h4, Except.ok.injEq] at h
          exact key m2 (by rw [e2]) h
        | some parent =>
          simp only [h4] at h
          cases h5 : stream_update_dep_length fuel m2 parent (-m2.num_substreams s) with
          | error e => simp [h5] at h
          | ok x =>
            obtain ⟨m3, r⟩ := x
            simp only [h5, Except.ok.injEq] at h
            have e3 := stream_update_dep_length_frame _ _ _ _ _ _ h5
            exact key m3 (by rw [e3, e2]) h
    cases h2 : m.sib_next s with
    | none =>
      simp only [h2, Function.update_same] at h
      exact key1 _ rfl h
    | some n =>
      simp only [h2, Function.update_same] at h
      exact key1 _ rfl h
  | none =>
    simp only [h1] at h
    cases h2 : m.dep_prev s with
    | none =>
      simp only [h2, Except.ok.injEq] at h
      exact key m rfl h
    | some prev =>
      simp only [h2] at h
      have key1 : ∀ m2 : Mem, m2 = { m with
            dep_prev := m2.dep_prev, dep_next := m2.dep_next, sib_prev := m2.sib_prev } →
          (match
            (match stream_update_dep_length fuel m2 prev (-m2.num_substreams s) with
              | Except.error e => Except.error e
              | Except.ok (m3, _) => Except.ok m3 : Except Fault Mem) with
            | Except.error e => Except.error e
            | Except.ok m4 =>
              Except.ok ({ m4 with
                sib_prev := Function.update m4.sib_prev s none
                sib_next := Function.update m4.sib_next s none
                dep_prev := Function.update m4.dep_prev s none } : Mem)) = Except.ok m' →
          m' = { m with
            dep_prev := m'.dep_prev
            dep_next := m'.dep_next
            sib_prev := m'.sib_prev
            sib_next := m'.sib_next
            num_substreams := m'.num_substreams } := by
        intro m2 e2 h
        cases h5 : stream_update_dep_length fuel m2 prev (-m2.num_substreams s) with
        | error e => simp [h5] at h
        | ok x =>
          obtain ⟨m3, r⟩ := x
          simp only [h5, Except.ok.injEq] at h
          have e3 := stream_update_dep_length_frame _ _ _ _ _ _ h5
          exact key m3 (by rw [e3, e2]) h
      cases h3 : m.sib_next s with
      | none =>
        simp only [h3] at h
        exact key1 _ rfl h
      | some n =>
        simp only [h3] at h
        exact key1 _ rfl h

/-! ### The scheduling operations as a demotion followed by a top-search -/

theorem attach_data_run {fuel : Nat} {m m' : Mem} {x : Nat} {data : Option Nat} {rv : Int}
    (h : nghttp2_stream_attach_data fuel m x data = .ok (m', rv)) :
    m.data x = none ∧ m.deferred_data x = none ∧
    ∃ (m2 : Mem) (r : Nat),
      m2 = { m with
        data := Function.update m.data x data
        dpri := m2.dpri } ∧
      Demoted { m with
        data := Function.update m.data x data
        dpri := Function.update m.dpri x NGHTTP2_STREAM_DPRI_REST } m2 ∧
      stream_update_dep_set_top fuel m2 (some r) = .ok (m', rv) := by
  unfold nghttp2_stream_attach_data at h
  by_cases hd : m.data x = none
  · by_cases hdd : m.deferred_data x = none
    · refine ⟨hd, hdd, ?_⟩
      rw [if_neg (by simp [hd]), if_neg (by simp [hdd])] at h
      unfold stream_update_dep_on_attach_data at h
      simp only [] at h
      cases h2 : stream_update_dep_set_rest fuel { m with
          data := Function.update m.data x data
          dpri := Function.update m.dpri x NGHTTP2_STREAM_DPRI_REST } (m.dep_next x) with
      | error e => simp [h2] at h
      | ok m2 =>
        simp only [h2] at h
        obtain ⟨e2, hdem⟩ := set_rest_demoted _ _ _ _ h2
        cases h3 : nghttp2_stream_get_dep_root fuel m2 x with
        | error e => simp [h3] at h
        | ok r =>
          simp only [h3] at h
          cases h4 : stream_update_dep_set_top fuel m2 (some r) with
          | error e => simp [h4] at h
          | ok y =>
            obtain ⟨m3, rv3⟩ := y
            simp only [h4] at h
            refine ⟨m2, r, by rw [e2], hdem, ?_⟩
            by_cases hrv : rv3 = 0
            · subst hrv
              simp only [ne_eq, not_true_eq_false, if_false, Except.ok.injEq,
                Prod.mk.injEq] at h
              rw [← h.1, ← h.2]
              exact h4
            · simp only [ne_eq, hrv, not_false_eq_true, if_true, Except.ok.injEq,
                Prod.mk.injEq] at h
              rw [← h.1, ← h.2]
              exact h4
    · rw [if_neg (by simp [hd]), if_pos hdd] at h
      cases h
  · rw [if_pos hd] at h
    cases h

theorem detach_data_run {fuel : Nat} {m m' : Mem} {x : Nat} {rv : Int}
    (h : nghttp2_stream_detach_data fuel m x = .ok (m', rv)) :
    ∃ l, (l = none ∨ (l = m.dep_next x ∧ m.dpri x = NGHTTP2_STREAM_DPRI_TOP)) ∧
      stream_update_dep_set_top fuel { m with
        data := Function.update m.data x none
        dpri := Function.update m.dpri x NGHTTP2_STREAM_DPRI_NO_DATA } l = .ok (m', rv) := by
  unfold nghttp2_stream_detach_data stream_update_dep_on_detach_data at h
  simp only [] at h
  by_cases hx : m.dpri x = NGHTTP2_STREAM_DPRI_TOP
  · rw [if_neg (by simp [hx])] at h
    exact ⟨m.dep_next x, Or.inr ⟨rfl, hx⟩, h⟩
  · rw [if_pos hx] at h
    refine ⟨none, Or.inl rfl, ?_⟩
    rw [← h]
    cases fuel <;> rfl

theorem detach_deferred_data_run {fuel : Nat} {m m' : Mem} {x : Nat} {rv : Int}
    (h : nghttp2_stream_detach_deferred_data fuel m x = .ok (m', rv)) :
    m.data x = none ∧ ∃ d, m.deferred_data x = some d ∧
      nghttp2_stream_attach_data fuel { m with
        deferred_data := Function.update m.deferred_data x none
        deferred_flags := Function.update m.deferred_flags x NGHTTP2_DEFERRED_NONE } x
        (some d) = .ok (m', rv) := by
  unfold nghttp2_stream_detach_deferred_data at h
  by_cases hd : m.data x = none
  · rw [if_neg (by simp [hd])] at h
    cases hdd : m.deferred_data x with
    | none => simp [hdd] at h
    | some d =>
      rw [if_neg (by simp [hdd])] at h
      simp only [hdd] at h
      exact ⟨hd, d, rfl, h⟩
  · rw [if_pos hd] at h
    cases h

theorem dep_make_root_run {fuel : Nat} {m m' : Mem} {g : Option Nat} {s : Nat} {rv : Int}
    (h : nghttp2_stream_dep_make_root fuel m g s = .ok (m', rv)) :
    ∃ m1, stream_update_dep_set_rest_stream_group fuel m (some s) g = .ok m1 ∧
      stream_update_dep_set_top fuel m1 (some s) = .ok (m', rv) := by
  unfold nghttp2_stream_dep_make_root at h
  cases h1 : stream_update_dep_set_rest_stream_group fuel m (some s) g with
  | error e => simp [h1] at h
  | ok m1 =>
    simp only [h1] at h
    exact ⟨m1, rfl, h⟩

theorem dep_add_subtree_run {fuel : Nat} {m m' : Mem} {p s : Nat} {rv : Int}
    (h : nghttp2_stream_dep_add_subtree fuel m p s = .ok (m', rv)) :
    ∃ (m1 m4 : Mem) (r : Nat),
      stream_update_dep_set_rest_stream_group fuel m (some s) (m.stream_group p) = .ok m1 ∧
      m4 = { m1 with
        dep_prev := m4.dep_prev
        dep_next := m4.dep_next
        sib_prev := m4.sib_prev
        sib_next := m4.sib_next
        num_substreams := m4.num_substreams } ∧
      stream_update_dep_set_top fuel m4 (some r) = .ok (m', rv) := by
  unfold nghttp2_stream_dep_add_subtree at h
  cases h1 : stream_update_dep_set_rest_stream_group fuel m (some s) (m.stream_group p) with
  | error e => simp [h1] at h
  | ok m1 =>
    simp only [h1] at h
    have key : ∀ m3 : Mem, m3 = { m1 with
          dep_prev := m3.dep_prev
          dep_next := m3.dep_next
          sib_prev := m3.sib_prev
          sib_next := m3.sib_next } →
        (match stream_update_dep_length fuel m3 p (m3.num_substreams s) with
          | Except.error e => Except.error e
          | Except.ok (m4, root_stream) =>
            stream_update_dep_set_top fuel m4 (some root_stream)) = Except.ok (m', rv) →
        ∃ (m4 : Mem) (r : Nat),
          m4 = { m1 with
            dep_prev := m4.dep_prev
            dep_next := m4.dep_next
            sib_prev := m4.sib_prev
            sib_next := m4.sib_next
            num_substreams := m4.num_substreams } ∧
          stream_update_dep_set_top fuel m4 (some r) = .ok (m', rv) := by
      intro m3 e3 h
      cases h4 : stream_update_dep_length fuel m3 p (m3.num_substreams s) with
      | error e => simp [h4] at h
      | ok y =>
        obtain ⟨m4, r⟩ := y
        simp only [h4] at h
        have e4 := stream_update_dep_length_frame _ _ _ _ _ _ h4
        exact ⟨m4, r, by rw [e4, e3], h⟩
    cases h2 : m1.dep_next p with
    | none =>
      simp only [h2] at h
      obtain ⟨m4, r, e4, hr⟩ := key _ rfl h
      exact ⟨m1, m4, r, rfl, e4, hr⟩
    | some first =>
      simp only [h2] at h
      cases h3 : stream_last_sib fuel m1 first with
      | error e => simp [h3] at h
      | ok last =>
        simp only [h3] at h
        obtain ⟨m4, r, e4, hr⟩ := key _ rfl h
        exact ⟨m1, m4, r, rfl, e4, hr⟩

theorem dep_insert_subtree_run {fuel : Nat} {m m' : Mem} {p s : Nat} {rv : Int}
    (h : nghttp2_stream_dep_insert_subtree fuel m p s = .ok (m', rv)) :
    ∃ (m1 m9 : Mem) (r : Nat),
      stream_update_dep_set_rest_stream_group fuel m (some s) (m.stream_group p) = .ok m1 ∧
      m9 = { m1 with
        dep_prev := m9.dep_prev
        dep_next := m9.dep_next
        sib_prev := m9.sib_prev
        sib_next := m9.sib_next
        num_substreams := m9.num_substreams
        dpri := m9.dpri } ∧
      (∀ y, m9.dpri y = m1.dpri y ∨
        (m1.dpri y = NGHTTP2_STREAM_DPRI_TOP ∧ m9.dpri y = NGHTTP2_STREAM_DPRI_REST)) ∧
      stream_update_dep_set_top fuel m9 (some r) = .ok (m', rv) := by
  unfold nghttp2_stream_dep_insert_subtree at h
  simp only [] at h
  cases h1 : stream_update_dep_set_rest_stream_group fuel m (some s) (m.stream_group p) with
  | error e => simp [h1] at h
  | ok m1 =>
    simp only [h1] at h
    have key : ∀ m8 : Mem,
        (match stream_update_dep_length fuel m8 p (m.num_substreams s) with
          | Except.error e => Except.error e
          | Except.ok (m9, root_stream) =>
            stream_update_dep_set_top fuel m9 (some root_stream)) = Except.ok (m', rv) →
        m8 = { m1 with
          dep_prev := m8.dep_prev
          dep_next := m8.dep_next
          sib_prev := m8.sib_prev
          sib_next := m8.sib_next
          num_substreams := m8.num_substreams
          dpri := m8.dpri } →
        (∀ y, m8.dpri y = m1.dpri y ∨
          (m1.dpri y = NGHTTP2_STREAM_DPRI_TOP ∧ m8.dpri y = NGHTTP2_STREAM_DPRI_REST)) →
        ∃ (m9 : Mem) (r : Nat),
          m9 = { m1 with
            dep_prev := m9.dep_prev
            dep_next := m9.dep_next
            sib_prev := m9.sib_prev
            sib_next := m9.sib_next
            num_substreams := m9.num_substreams
            dpri := m9.dpri } ∧
          (∀ y, m9.dpri y = m1.dpri y ∨
            (m1.dpri y = NGHTTP2_STREAM_DPRI_TOP ∧ m9.dpri y = NGHTTP2_STREAM_DPRI_REST)) ∧
          stream_update_dep_set_top fuel m9 (some r) = .ok (m', rv) := by
      intro m8 h e8 hd8
      cases h9 : stream_update_dep_length fuel m8 p (m.num_substreams s) with
      | error e => simp [h9] at h
      | ok y =>
        obtain ⟨m9, r⟩ := y
        simp only [h9] at h
        have e9 := stream_update_dep_length_frame _ _ _ _ _ _ h9
        have ed : m9.dpri = m8.dpri := by rw [e9]
        exact ⟨m9, r, by rw [e9, e8], by rw [ed]; exact hd8, h⟩
    cases h2 : m1.dep_next p with
    | none =>
      simp only [h2] at h
      obtain ⟨m9, r, e9, hd9, hr⟩ := key _ h rfl (fun _ => Or.inl rfl)
      exact ⟨m1, m9, r, rfl, e9, hd9, hr⟩
    | some dn =>
      simp only [h2] at h
      cases h3 : dep_insert_sum_loop fuel m1 s (some dn) with
      | error e => simp [h3] at h
      | ok m2 =>
        simp only [h3] at h
        have e2 := dep_insert_sum_loop_frame _ _ _ _ _ h3
        cases h4 : stream_update_dep_set_rest fuel m2 (some dn) with
        | error e => simp [h4] at h
        | ok m3 =>
          simp only [h4] at h
          obtain ⟨e3, hdem⟩ := set_rest_demoted _ _ _ _ h4
          have hd3 : ∀ y, m3.dpri y = m1.dpri y ∨
              (m1.dpri y = NGHTTP2_STREAM_DPRI_TOP ∧ m3.dpri y = NGHTTP2_STREAM_DPRI_REST) := by
            have ed : m2.dpri = m1.dpri := by rw [e2]
            intro y
            have := hdem.2.2.2.2.2 y
            rw [ed] at this
            exact this
          have e31 : m3 = { m1 with
              num_substreams := m3.num_substreams
              dpri := m3.dpri } := by rw [e3, e2]
          cases h5 : Function.update m3.dep_next p (some s) s with
          | none =>
            simp only [h5] at h
            obtain ⟨m9, r, e9, hd9, hr⟩ := key _ h (by
              show _ = ({ m1 with
                dep_prev := _
                dep_next := _
                sib_prev := m3.sib_prev
                sib_next := m3.sib_next
                num_substreams := m3.num_substreams
                dpri := m3.dpri } : Mem)
              rw [e31]) hd3
            exact ⟨m1, m9, r, rfl, e9, hd9, hr⟩
          | some first =>
            simp only [h5] at h
            cases h6 : stream_last_sib fuel { ({ m3 with
                dep_next := Function.update m3.dep_next p (some s) } : Mem) with
                dep_prev := Function.update m3.dep_prev s (some p) } first with
            | error e => simp [h6] at h
            | ok last =>
              simp only [h6] at h
              obtain ⟨m9, r, e9, hd9, hr⟩ := key _ h (by
                show _ = ({ m1 with
                  dep_prev := _
                  dep_next := _
                  sib_prev := _
                  sib_next := _
                  num_substreams := m3.num_substreams
                  dpri := m3.dpri } : Mem)
                rw [e31]) hd3
              exact ⟨m1, m9, r, rfl, e9, hd9, hr⟩

theorem Returns.run {α : Type} {run : Nat → Except Fault α} {r : α} (h : Returns run r) :
    ∃ fuel, run fuel = .ok r := by
  obtain ⟨F, hF⟩ := h
  exact ⟨F, hF F (le_refl F)⟩

/-- What an attach does: the stream gets its item and becomes REST, then
streams are demoted, then the top-search runs. -/
theorem attach_data_effect {fuel : Nat} {m m' : Mem} {x d : Nat} {rv : Int}
    (h : nghttp2_stream_attach_data fuel m x (some d) = .ok (m', rv)) :
    ∃ m0 m1 pushed, Setup m m0 ∧ Demoted m0 m1 ∧ Promoted m1 m' rv pushed := by
  obtain ⟨hd, hdd, m2, r, -, hdem, hrun⟩ := attach_data_run h
  obtain ⟨pushed, hp⟩ := set_top_promoted _ _ _ _ _ hrun
  exact ⟨_, m2, pushed, Setup.attach x d hd hdd, hdem, hp⟩

theorem detach_data_effect {fuel : Nat} {m m' : Mem} {x : Nat} {rv : Int}
    (h : nghttp2_stream_detach_data fuel m x = .ok (m', rv)) :
    ∃ m0 m1 pushed, Setup m m0 ∧ Demoted m0 m1 ∧ Promoted m1 m' rv pushed := by
  obtain ⟨l, -, hrun⟩ := detach_data_run h
  obtain ⟨pushed, hp⟩ := set_top_promoted _ _ _ _ _ hrun
  exact ⟨_, _, pushed, Setup.detach x, Demoted.same _, hp⟩

theorem dep_make_root_effect {fuel : Nat} {m m' : Mem} {g : Option Nat} {s : Nat} {rv : Int}
    (h : nghttp2_stream_dep_make_root fuel m g s = .ok (m', rv)) :
    ∃ m0 m1 pushed, Setup m m0 ∧ Demoted m0 m1 ∧ Promoted m1 m' rv pushed := by
  obtain ⟨m1, h1, hrun⟩ := dep_make_root_run h
  obtain ⟨pushed, hp⟩ := set_top_promoted _ _ _ _ _ hrun
  exact ⟨m, m1, pushed, Setup.idle, set_rest_stream_group_demoted _ _ _ _ _ h1, hp⟩

theorem dep_add_subtree_effect {fuel : Nat} {m m' : Mem} {p s : Nat} {rv : Int}
    (h : nghttp2_stream_dep_add_subtree fuel m p s = .ok (m', rv)) :
    ∃ m0 m1 pushed, Setup m m0 ∧ Demoted m0 m1 ∧ Promoted m1 m' rv pushed := by
  obtain ⟨m1, m4, r, h1, e4, hrun⟩ := dep_add_subtree_run h
  obtain ⟨pushed, hp⟩ := set_top_promoted _ _ _ _ _ hrun
  refine ⟨m, m4, pushed, Setup.idle, ?_, hp⟩
  exact (set_rest_stream_group_demoted _ _ _ _ _ h1).comp (Demoted.of_sameData e4)

theorem dep_insert_subtree_effect {fuel : Nat} {m m' : Mem} {p s : Nat} {rv : Int}
    (h : nghttp2_stream_dep_insert_subtree fuel m p s = .ok (m', rv)) :
    ∃ m0 m1 pushed, Setup m m0 ∧ Demoted m0 m1 ∧ Promoted m1 m' rv pushed := by
  obtain ⟨m1, m9, r, h1, e9, hd9, hrun⟩ := dep_insert_subtree_run h
  obtain ⟨pushed, hp⟩ := set_top_promoted _ _ _ _ _ hrun
  refine ⟨m, m9, pushed, Setup.idle, ?_, hp⟩
  refine (set_rest_stream_group_demoted _ _ _ _ _ h1).comp ?_
  exact ⟨by rw [e9], by rw [e9], by rw [e9], by rw [e9], by rw [e9], hd9⟩

theorem effect_of_sameData {m m' : Mem} (h : SameData m m') :
    ∃ m0 m1 pushed, Setup m m0 ∧ Demoted m0 m1 ∧ Promoted m1 m' 0 pushed :=
  ⟨m, m', [], Setup.idle, Demoted.of_sameData h, Promoted.nothing _⟩

/-- Every successful operation of the dependency and scheduling interface is
a setup, followed by demotions, followed by a top-search. -/
theorem SchedOp.effect {m m' : Mem} (h : SchedOp m m') :
    ∃ m0 m1 rv pushed, Setup m m0 ∧ Demoted m0 m1 ∧ Promoted m1 m' rv pushed := by
  cases h with
  | attach_data x d hr =>
    obtain ⟨fuel, hrun⟩ := hr.run
    obtain ⟨m0, m1, pushed, h⟩ := attach_data_effect hrun
    exact ⟨m0, m1, 0, pushed, h⟩
  | detach_data x hr =>
    obtain ⟨fuel, hrun⟩ := hr.run
    obtain ⟨m0, m1, pushed, h⟩ := detach_data_effect hrun
    exact ⟨m0, m1, 0, pushed, h⟩
  | dep_insert p s hr =>
    obtain ⟨fuel, hrun⟩ := hr.run
    obtain ⟨m0, m1, pushed, h⟩ := effect_of_sameData (dep_insert_sameData hrun).2
    exact ⟨m0, m1, 0, pushed, h⟩
  | dep_add p s hr =>
    obtain ⟨fuel, hrun⟩ := hr.run
    obtain ⟨m0, m1, pushed, h⟩ := effect_of_sameData (dep_add_sameData hrun).2
    exact ⟨m0, m1, 0, pushed, h⟩
  | dep_remove s hr =>
    obtain ⟨fuel, hrun⟩ := hr.run
    obtain ⟨m0, m1, pushed, h⟩ := effect_of_sameData (dep_remove_sameData hrun)
    exact ⟨m0, m1, 0, pushed, h⟩
  | dep_insert_subtree p s hr =>
    obtain ⟨fuel, hrun⟩ := hr.run
    obtain ⟨m0, m1, pushed, h⟩ := dep_insert_subtree_effect hrun
    exact ⟨m0, m1, 0, pushed, h⟩
  | dep_add_subtree p s hr =>
    obtain ⟨fuel, hrun⟩ := hr.run
    obtain ⟨m0, m1, pushed, h⟩ := dep_add_subtree_effect hrun
    exact ⟨m0, m1, 0, pushed, h⟩
  | dep_remove_subtree s hr =>
    obtain ⟨fuel, hrun⟩ := hr.run
    obtain ⟨m0, m1, pushed, h⟩ := effect_of_sameData (dep_remove_subtree_sameData hrun)
    exact ⟨m0, m1, 0, pushed, h⟩
  | dep_make_root g s hr =>
    obtain ⟨fuel, hrun⟩ := hr.run
    obtain ⟨m0, m1, pushed, h⟩ := dep_make_root_effect hrun
    exact ⟨m0, m1, 0, pushed, h⟩

/-- Every public operation is a setup, followed by demotions, followed by a
top-search. -/
theorem PublicOp.effect_any {m m' : Mem} (h : PublicOp m m') :
    ∃ m0 m1 rv pushed, (Setup m m0 ∨ SetupDeferred m m0) ∧ Demoted m0 m1 ∧
      Promoted m1 m' rv pushed := by
  cases h with
  | attach_data x d rv hr =>
    obtain ⟨fuel, hrun⟩ := hr.run
    obtain ⟨m0, m1, pushed, h1, h2⟩ := attach_data_effect hrun
    exact ⟨m0, m1, rv, pushed, Or.inl h1, h2⟩
  | detach_data x rv hr =>
    obtain ⟨fuel, hrun⟩ := hr.run
    obtain ⟨m0, m1, pushed, h1, h2⟩ := detach_data_effect hrun
    exact ⟨m0, m1, rv, pushed, Or.inl h1, h2⟩
  | defer_data x d flags hrun =>
    unfold nghttp2_stream_defer_data at hrun
    by_cases hd : m.data x = none
    · rw [if_pos hd] at hrun; cases hrun
    · rw [if_neg hd] at hrun
      by_cases hd2 : m.data x = some d
      · rw [if_neg (by simp [hd2])] at hrun
        by_cases hdd : m.deferred_data x = none
        · rw [if_neg (by simp [hdd])] at hrun
          simp only [Except.ok.injEq] at hrun
          subst hrun
          exact ⟨_, _, 0, [], Or.inr (SetupDeferred.defer x d flags hd2 hdd), Demoted.same _,
            Promoted.nothing _⟩
        · rw [if_pos hdd] at hrun; cases hrun
      · rw [if_pos hd2] at hrun; cases hrun
  | detach_deferred_data x rv hr =>
    obtain ⟨fuel, hrun⟩ := hr.run
    obtain ⟨hd, d, hdd, hrun'⟩ := detach_deferred_data_run hrun
    obtain ⟨-, -, m2, r, -, hdem, hrun2⟩ := attach_data_run hrun'
    obtain ⟨pushed, hp⟩ := set_top_promoted _ _ _ _ _ hrun2
    exact ⟨_, m2, rv, pushed, Or.inr (SetupDeferred.resume x d hd hdd), hdem, hp⟩
  | dep_insert p s hr =>
    obtain ⟨fuel, hrun⟩ := hr.run
    obtain ⟨m0, m1, pushed, h1, h2⟩ := effect_of_sameData (dep_insert_sameData hrun).2
    exact ⟨m0, m1, 0, pushed, Or.inl h1, h2⟩
  | dep_add p s hr =>
    obtain ⟨fuel, hrun⟩ := hr.run
    obtain ⟨m0, m1, pushed, h1, h2⟩ := effect_of_sameData (dep_add_sameData hrun).2
    exact ⟨m0, m1, 0, pushed, Or.inl h1, h2⟩
  | dep_remove s hr =>
    obtain ⟨fuel, hrun⟩ := hr.run
    obtain ⟨m0, m1, pushed, h1, h2⟩ := effect_of_sameData (dep_remove_sameData hrun)
    exact ⟨m0, m1, 0, pushed, Or.inl h1, h2⟩
  | dep_insert_subtree p s rv hr =>
    obtain ⟨fuel, hrun⟩ := hr.run
    obtain ⟨m0, m1, pushed, h1, h2⟩ := dep_insert_subtree_effect hrun
    exact ⟨m0, m1, rv, pushed, Or.inl h1, h2⟩
  | dep_add_subtree p s rv hr =>
    obtain ⟨fuel, hrun⟩ := hr.run
    obtain ⟨m0, m1, pushed, h1, h2⟩ := dep_add_subtree_effect hrun
    exact ⟨m0, m1, rv, pushed, Or.inl h1, h2⟩
  | dep_remove_subtree s hr =>
    obtain ⟨fuel, hrun⟩ := hr.run
    obtain ⟨m0, m1, pushed, h1, h2⟩ := effect_of_sameData (dep_remove_subtree_sameData hrun)
    exact ⟨m0, m1, 0, pushed, Or.inl h1, h2⟩
  | dep_make_root g s rv hr =>
    obtain ⟨fuel, hrun⟩ := hr.run
    obtain ⟨m0, m1, pushed, h1, h2⟩ := dep_make_root_effect hrun
    exact ⟨m0, m1, rv, pushed, Or.inl h1, h2⟩

theorem allFresh_mem_init : AllFresh mem_init :=
  ⟨fun _ => ⟨rfl, rfl, rfl⟩, fun _ => rfl⟩

theorem TopQueued.of_allFresh {m : Mem} (h : AllFresh m) : TopQueued m := by
  refine ⟨fun d => by rw [h.2 d]; exact Nat.zero_le 1, fun s hs => ?_⟩
  rw [(h.1 s).2.2] at hs
  cases hs

theorem TopQueued.setup {m m0 : Mem} (h : TopQueued m) (hs : Setup m m0) : TopQueued m0 := by
  cases hs with
  | idle => exact h
  | attach x d hd hdd =>
    refine ⟨h.1, fun s hs => ?_⟩
    by_cases hsx : s = x
    · subst hsx
      simp at hs
    · simp only [Function.update_noteq hsx] at hs ⊢
      exact h.2 s hs
  | detach x =>
    refine ⟨h.1, fun s hs => ?_⟩
    by_cases hsx : s = x
    · subst hsx
      simp at hs
    · simp only [Function.update_noteq hsx] at hs ⊢
      exact h.2 s hs

theorem TopQueued.demoted {m m' : Mem} (h : TopQueued m) (hd : Demoted m m') :
    TopQueued m' := by
  obtain ⟨e1, -, -, e4, -, e6⟩ := hd
  refine ⟨fun d => by rw [e4]; exact h.1 d, fun s hs => ?_⟩
  rw [e1, e4]
  rcases e6 s with k | ⟨-, k⟩
  · exact h.2 s (k ▸ hs)
  · rw [k] at hs
    cases hs

theorem TopQueued.promoted {m m' : Mem} {rv : Int} {pushed : List Nat} (h : TopQueued m)
    (hp : Promoted m m' rv pushed) : TopQueued m' := by
  have hle : ∀ d, m'.queued d ≤ 1 := by
    intro d
    rw [hp.queued d]
    split
    · exact le_refl 1
    · exact h.1 d
  refine ⟨hle, fun s hs => ?_⟩
  rw [hp.data]
  rcases hp.mono s with k | ⟨k, -⟩
  · obtain ⟨d, hd, hq⟩ := h.2 s (k ▸ hs)
    refine ⟨d, hd, ?_⟩
    rw [hp.queued d, hq]
    split <;> rfl
  · obtain ⟨d, hd, hq⟩ := hp.promoted s k hs
    refine ⟨d, hd, ?_⟩
    have := hle d
    omega

theorem TopQueued.step {m m' : Mem} (h : TopQueued m) (hs : SchedOp m m') : TopQueued m' := by
  obtain ⟨m0, m1, rv, pushed, h0, h1, h2⟩ := hs.effect
  exact ((h.setup h0).demoted h1).promoted h2

theorem TopQueued.reach {m0 m : Mem} (h : TopQueued m0) (hr : SchedReach m0 m) :
    TopQueued m := by
  induction hr with
  | init => exact h
  | step m1 m2 _ hs ih => exact ih.step hs

theorem DataDpri.init {m : Mem} (h : AllFresh m) : DataDpri m := by
  intro s
  obtain ⟨h1, -, h3⟩ := h.1 s
  exact ⟨fun k => absurd h1 k, fun k => absurd h3 k⟩

theorem DataDpri.on_setup {m m0 : Mem} (h : DataDpri m) (hs : Setup m m0) : DataDpri m0 := by
  cases hs with
  | idle => exact h
  | attach x d hd hdd =>
    intro s
    by_cases hsx : s = x
    · subst hsx
      simp
    · simp only [Function.update_noteq hsx]
      exact h s
  | detach x =>
    intro s
    by_cases hsx : s = x
    · subst hsx
      simp
    · simp only [Function.update_noteq hsx]
      exact h s

theorem DataDpri.on_setupDeferred {m m0 : Mem} (h : DataDpri m) (hs : SetupDeferred m m0) :
    DataDpri m0 := by
  cases hs with
  | defer x d flags hd hdd =>
    intro s
    by_cases hsx : s = x
    · subst hsx
      simp
    · simp only [Function.update_noteq hsx]
      exact h s
  | resume x d hd hdd =>
    intro s
    by_cases hsx : s = x
    · subst hsx
      simp
    · simp only [Function.update_noteq hsx]
      exact h s

theorem DataDpri.on_demoted {m m' : Mem} (h : DataDpri m) (hd : Demoted m m') : DataDpri m' := by
  obtain ⟨e1, e2, -, -, -, e6⟩ := hd
  intro s
  rw [e1, e2]
  rcases e6 s with k | ⟨k, k'⟩
  · rw [k]
    exact h s
  · rw [k']
    have := (h s).2 (by rw [k]; decide)
    exact ⟨fun _ => by decide, fun _ => this⟩

theorem DataDpri.on_promoted {m m' : Mem} {rv : Int} {pushed : List Nat} (h : DataDpri m)
    (hp : Promoted m m' rv pushed) : DataDpri m' := by
  intro s
  rw [hp.data, hp.deferred_data]
  rcases hp.mono s with k | ⟨k, k'⟩
  · rw [k]
    exact h s
  · rw [k']
    have := (h s).2 (by rw [k]; decide)
    exact ⟨fun _ => by decide, fun _ => this⟩

theorem DataDpri.on_step {m m' : Mem} (h : DataDpri m) (hs : PublicOp m m') : DataDpri m' := by
  obtain ⟨m0, m1, rv, pushed, h0, h1, h2⟩ := hs.effect_any
  rcases h0 with h0 | h0
  · exact ((h.on_setup h0).on_demoted h1).on_promoted h2
  · exact ((h.on_setupDeferred h0).on_demoted h1).on_promoted h2

theorem DataDpri.on_reach {m0 m : Mem} (h : DataDpri m0) (hr : PublicReach m0 m) :
    DataDpri m := by
  induction hr with
  | init => exact h
  | step m1 m2 _ hs ih => exact ih.on_step hs

/-- The top-search dereferences `data` only at REST streams: when every REST
stream has data, it never faults on a null item. -/
theorem set_top_no_null_deref : ∀ (fuel : Nat) (m : Mem) (x : Option Nat),
    (∀ s, m.dpri s = NGHTTP2_STREAM_DPRI_REST → m.data s ≠ none) →
    stream_update_dep_set_top fuel m x ≠ .error .null_deref := by
  intro fuel
  induction fuel with
  | zero =>
    intro m x _ h
    cases x <;> simp [stream_update_dep_set_top] at h
  | succ n ih =>
    intro m x hm h
    cases x with
    | none => simp [stream_update_dep_set_top] at h
    | some c =>
      unfold stream_update_dep_set_top at h
      cases hc : m.dpri c with
      | NGHTTP2_STREAM_DPRI_TOP =>
        simp only [hc] at h
        exact ih _ _ hm h
      | NGHTTP2_STREAM_DPRI_REST =>
        simp only [hc] at h
        cases hd : m.data c with
        | none => exact hm c hc hd
        | some d =>
          simp only [hd] at h
          have key : ∀ m2 : Mem, m2.data = m.data →
              m2.dpri = Function.update m.dpri c NGHTTP2_STREAM_DPRI_TOP →
              ∀ s, m2.dpri s = NGHTTP2_STREAM_DPRI_REST → m2.data s ≠ none := by
            intro m2 e1 e2 s hs
            rw [e1]
            rw [e2] at hs
            by_cases hsc : s = c
            · subst hsc
              simp at hs
            · rw [Function.update_noteq hsc] at hs
              exact hm s hs
          split at h
          · split at h
            · cases h
            · refine ih _ _ ?_ h
              exact key _ rfl rfl
          · refine ih _ _ ?_ h
            exact key _ rfl rfl
      | NGHTTP2_STREAM_DPRI_NO_DATA =>
        simp only [hc] at h
        cases h1 : stream_update_dep_set_top n m (m.sib_next c) with
        | error e =>
          simp only [h1] at h
          cases h
          exact ih _ _ hm h1
        | ok r =>
          obtain ⟨m1, rv⟩ := r
          simp only [h1] at h
          split at h
          · cases h
          · obtain ⟨pushed, hp⟩ := set_top_promoted _ _ _ _ _ h1
            refine ih _ _ ?_ h
            intro s hs
            rw [hp.data]
            rcases hp.mono s with k | ⟨-, k⟩
            · exact hm s (k ▸ hs)
            · rw [k] at hs
              cases hs

theorem returns_memQ1 :
    Returns (fun fuel => nghttp2_stream_attach_data fuel memA 2 (some 12)) (memQ1, 0) := by
  refine ⟨3, fun fuel hf => ?_⟩
  obtain ⟨k, rfl⟩ : ∃ k, fuel = k + 3 := ⟨fuel - 3, by omega⟩
  rfl

theorem returns_memQ :
    Returns (fun fuel => nghttp2_stream_attach_data fuel memQ1 1 (some 11)) (memQ, 0) := by
  refine ⟨2, fun fuel hf => ?_⟩
  obtain ⟨k, rfl⟩ : ∃ k, fuel = k + 2 := ⟨fuel - 2, by omega⟩
  rfl

theorem schedReach_memQ : SchedReach mem_init memQ :=
  SchedReach.step memQ1 memQ
    (SchedReach.step memA memQ1
      (SchedReach.step mem_init memA SchedReach.init (SchedOp.dep_add 1 2 returns_memA))
      (SchedOp.attach_data 2 12 returns_memQ1))
    (SchedOp.attach_data 1 11 returns_memQ)

/-- C13, counterexample: after `dep_add(1, 2)`, `attach_data(2, item 12)` and
`attach_data(1, item 11)` from fresh streams, all successful, stream 2 holds
item 12 whose queued flag is 1, but stream 2 is REST, not TOP. -/
theorem C13_counterexample :
    AllFresh mem_init ∧ SchedReach mem_init memQ ∧ memQ.data 2 = some 12 ∧
      memQ.queued 12 = 1 ∧ memQ.dpri 2 = NGHTTP2_STREAM_DPRI_REST ∧
      ¬ (memQ.queued 12 = 1 ↔ memQ.dpri 2 = NGHTTP2_STREAM_DPRI_TOP) :=
  ⟨allFresh_mem_init, schedReach_memQ, by decide, by decide, by decide, by decide⟩

/-- C13 (amended): starting from fresh streams (no data, `dpri = NO_DATA`) and
items with `queued = 0`, after every sequence of successful operations
(attach_data, detach_data, dep_insert, dep_add, dep_remove, the subtree
operations, dep_make_root), every stream whose `dpri` is TOP has a non-null
data item whose `queued` flag is 1. -/
theorem C13_queued_of_top (m0 m : Mem) (h0 : AllFresh m0) (hr : SchedReach m0 m) :
    ∀ s, m.dpri s = NGHTTP2_STREAM_DPRI_TOP → ∃ d, m.data s = some d ∧ m.queued d = 1 :=
  ((TopQueued.of_allFresh h0).reach hr).2

/-- C13 at the memory reached by `dep_add(1, 2)`, `attach_data(2, item 12)`,
`attach_data(1, item 11)`: stream 1 is TOP there. -/
theorem C13_queued_of_top_witness :
    memQ.dpri 1 = NGHTTP2_STREAM_DPRI_TOP ∧ ∃ d, memQ.data 1 = some d ∧ memQ.queued d = 1 :=
  ⟨by decide,
    C13_queued_of_top mem_init memQ allFresh_mem_init schedReach_memQ 1 (by decide)⟩

theorem returns_memD1 :
    Returns (fun fuel => nghttp2_stream_attach_data fuel mem_init 1 (some 11)) (memD1, 0) := by
  refine ⟨2, fun fuel hf => ?_⟩
  obtain ⟨k, rfl⟩ : ∃ k, fuel = k + 2 := ⟨fuel - 2, by omega⟩
  rfl

theorem publicReach_memD : PublicReach mem_init memD :=
  PublicReach.step memD1 memD
    (PublicReach.step mem_init memD1 PublicReach.init
      (PublicOp.attach_data 1 11 0 returns_memD1))
    (PublicOp.defer_data 1 11 1 rfl)

/-- C17, counterexample: after `attach_data(1, item 11)` and
`defer_data(1, item 11, 1)` from fresh streams, both within their asserted
preconditions, stream 1 has `data = null` but `dpri = TOP`. -/
theorem C17_counterexample :
    AllFresh mem_init ∧ PublicReach mem_init memD ∧ memD.data 1 = none ∧
      memD.dpri 1 = NGHTTP2_STREAM_DPRI_TOP ∧
      ¬ (memD.dpri 1 = NGHTTP2_STREAM_DPRI_NO_DATA ↔ memD.data 1 = none) :=
  ⟨allFresh_mem_init, publicReach_memD, by decide, by decide, by decide⟩

/-- C17 (amended): starting from fresh streams, after every sequence of
public operations that return (attach_data, detach_data, defer_data,
detach_deferred_data, dep_insert, dep_add, dep_remove, the subtree
operations, dep_make_root), every stream with `data ≠ null` has
`dpri ≠ NO_DATA`, and every stream with `dpri ≠ NO_DATA` has `data ≠ null` or
`deferred_data ≠ null`; hence, whenever no stream has deferred data,
`dpri = NO_DATA` iff `data = null` for every stream, and a top-search from
any stream never dereferences a null data item. -/
theorem C17_data_dpri (m0 m : Mem) (h0 : AllFresh m0) (hr : PublicReach m0 m) :
    (∀ s, (m.data s ≠ none → m.dpri s ≠ NGHTTP2_STREAM_DPRI_NO_DATA) ∧
      (m.dpri s ≠ NGHTTP2_STREAM_DPRI_NO_DATA →
        m.data s ≠ none ∨ m.deferred_data s ≠ none)) ∧
    ((∀ s, m.deferred_data s = none) →
      (∀ s, m.dpri s = NGHTTP2_STREAM_DPRI_NO_DATA ↔ m.data s = none) ∧
      ∀ fuel x, stream_update_dep_set_top fuel m x ≠ .error .null_deref) := by
  have hd : DataDpri m := (DataDpri.init h0).on_reach hr
  refine ⟨hd, fun hnd => ?_⟩
  have hiff : ∀ s, m.dpri s = NGHTTP2_STREAM_DPRI_NO_DATA ↔ m.data s = none := by
    intro s
    constructor
    · intro h
      by_contra hc
      exact (hd s).1 hc h
    · intro h
      by_contra hc
      rcases (hd s).2 hc with k | k
      · exact k h
      · exact k (hnd s)
  refine ⟨hiff, fun fuel x => set_top_no_null_deref fuel m x ?_⟩
  intro s hs hdn
  rw [← hiff s, hs] at hdn
  cases hdn

/-- C17 at the memory reached by `attach_data(1, item 11)` and
`defer_data(1, item 11, 1)`. -/
theorem C17_data_dpri_witness :
    (∀ s, (memD.data s ≠ none → memD.dpri s ≠ NGHTTP2_STREAM_DPRI_NO_DATA) ∧
      (memD.dpri s ≠ NGHTTP2_STREAM_DPRI_NO_DATA →
        memD.data s ≠ none ∨ memD.deferred_data s ≠ none)) ∧
    ((∀ s, memD.deferred_data s = none) →
      (∀ s, memD.dpri s = NGHTTP2_STREAM_DPRI_NO_DATA ↔ memD.data s = none) ∧
      ∀ fuel x, stream_update_dep_set_top fuel memD x ≠ .error .null_deref) :=
  C17_data_dpri mem_init memD allFresh_mem_init publicReach_memD

theorem returns_memE1 :
    Returns (fun fuel => nghttp2_stream_attach_data fuel memA 1 (some 11)) (memE1, 0) := by
  refine ⟨3, fun fuel hf => ?_⟩
  obtain ⟨k, rfl⟩ : ∃ k, fuel = k + 3 := ⟨fuel - 3, by omega⟩
  rfl

theorem returns_memE2 :
    Returns (fun fuel => nghttp2_stream_attach_data fuel memE1 2 (some 12)) (memE2, 0) := by
  refine ⟨3, fun fuel hf => ?_⟩
  obtain ⟨k, rfl⟩ : ∃ k, fuel = k + 3 := ⟨fuel - 3, by omega⟩
  rfl

/-- Deferring the item of a REST stream leaves a REST stream without data: a
later `detach_data` of its TOP parent dereferences the null item, with any
fuel. -/
theorem defer_rest_null_deref :
    PublicReach mem_init memE ∧ memE.dpri 2 = NGHTTP2_STREAM_DPRI_REST ∧ memE.data 2 = none ∧
      ∀ k, nghttp2_stream_detach_data (k + 1) memE 1 = .error .null_deref :=
  ⟨PublicReach.step memE2 memE
    (PublicReach.step memE1 memE2
      (PublicReach.step memA memE1
        (PublicReach.step mem_init memA PublicReach.init (PublicOp.dep_add 1 2 returns_memA))
        (PublicOp.attach_data 1 11 0 returns_memE1))
      (PublicOp.attach_data 2 12 0 returns_memE2))
    (PublicOp.defer_data 2 12 1 rfl), by decide, by decide, fun _ => rfl⟩

theorem Searched.carry {m m2 : Mem} (hs : m2.sib_next = m.sib_next)
    (hd : m2.dep_next = m.dep_next)
    (hn : ∀ y, m.dpri y = NGHTTP2_STREAM_DPRI_NO_DATA → m2.dpri y = NGHTTP2_STREAM_DPRI_NO_DATA)
    {l : Option Nat} {y : Nat} (h : Searched m l y) : Searched m2 l y := by
  induction h with
  | head c => exact Searched.head c
  | sib c y _ ih =>
    refine Searched.sib c y ?_
    rw [hs]
    exact ih
  | child c y hc _ ih =>
    refine Searched.child c y (hn c hc) ?_
    rw [hd]
    exact ih

theorem Promoted.no_data_iff {m m' : Mem} {rv : Int} {pushed : List Nat}
    (hp : Promoted m m' rv pushed) (y : Nat) :
    m'.dpri y = NGHTTP2_STREAM_DPRI_NO_DATA ↔ m.dpri y = NGHTTP2_STREAM_DPRI_NO_DATA := by
  rcases hp.mono y with k | ⟨k, k'⟩
  · rw [k]
  · rw [k, k']
    constructor <;> intro h <;> cases h

theorem Promoted.not_rest {m m' : Mem} {rv : Int} {pushed : List Nat}
    (hp : Promoted m m' rv pushed) {y : Nat} (h : m.dpri y ≠ NGHTTP2_STREAM_DPRI_REST) :
    m'.dpri y ≠ NGHTTP2_STREAM_DPRI_REST := by
  rcases hp.mono y with k | ⟨k, -⟩
  · rw [k]
    exact h
  · exact absurd k h

theorem Promoted.rest_before {m m' : Mem} {rv : Int} {pushed : List Nat}
    (hp : Promoted m m' rv pushed) {y : Nat} (h : m'.dpri y = NGHTTP2_STREAM_DPRI_REST) :
    m.dpri y = NGHTTP2_STREAM_DPRI_REST := by
  by_contra hc
  exact hp.not_rest hc h

/-- A returning top-search with result 0 leaves no searched stream REST; with
a non-zero result, a searched stream is still REST, its item has `queued = 0`,
and a push of that item fails with exactly this result. -/
theorem set_top_search : ∀ (fuel : Nat) (m : Mem) (x : Option Nat) (m' : Mem) (rv : Int),
    stream_update_dep_set_top fuel m x = .ok (m', rv) →
    (rv = 0 → ∀ y, Searched m x y → m'.dpri y ≠ NGHTTP2_STREAM_DPRI_REST) ∧
    (rv ≠ 0 → ∃ s d, Searched m x s ∧ m.dpri s = NGHTTP2_STREAM_DPRI_REST ∧
      m'.dpri s = NGHTTP2_STREAM_DPRI_REST ∧ m.data s = some d ∧ m'.queued d = 0 ∧
      nghttp2_pq_push m'.pq d = (m'.pq, rv)) := by
  intro fuel
  induction fuel with
  | zero =>
    intro m x m' rv h
    cases x with
    | none =>
      simp only [stream_update_dep_set_top, Except.ok.injEq, Prod.mk.injEq] at h
      refine ⟨fun _ y hy => (nomatch hy), fun hrv => absurd h.2.symm hrv⟩
    | some c => simp [stream_update_dep_set_top] at h
  | succ n ih =>
    intro m x m' rv h
    cases x with
    | none =>
      simp only [stream_update_dep_set_top, Except.ok.injEq, Prod.mk.injEq] at h
      refine ⟨fun _ y hy => (nomatch hy), fun hrv => absurd h.2.symm hrv⟩
    | some c =>
      -- a promotion of `c` followed by the search of its siblings
      have key : ∀ m2 : Mem, stream_update_dep_set_top n m2 (m2.sib_next c) = .ok (m', rv) →
          m2.sib_next = m.sib_next → m2.dep_next = m.dep_next → m2.data = m.data →
          m2.dpri = Function.update m.dpri c NGHTTP2_STREAM_DPRI_TOP →
          m.dpri c ≠ NGHTTP2_STREAM_DPRI_NO_DATA →
          (rv = 0 → ∀ y, Searched m (some c) y → m'.dpri y ≠ NGHTTP2_STREAM_DPRI_REST) ∧
          (rv ≠ 0 → ∃ s d, Searched m (some c) s ∧ m.dpri s = NGHTTP2_STREAM_DPRI_REST ∧
            m'.dpri s = NGHTTP2_STREAM_DPRI_REST ∧ m.data s = some d ∧ m'.queued d = 0 ∧
            nghttp2_pq_push m'.pq d = (m'.pq, rv)) := by
        intro m2 h2 es ed edata edpri hc
        obtain ⟨pushed, hp⟩ := set_top_promoted _ _ _ _ _ h2
        obtain ⟨ihA, ihB⟩ := ih _ _ _ _ h2
        have hn : ∀ y, m.dpri y = NGHTTP2_STREAM_DPRI_NO_DATA →
            m2.dpri y = NGHTTP2_STREAM_DPRI_NO_DATA := by
          intro y hy
          rw [edpri]
          by_cases hyc : y = c
          · subst hyc
            exact absurd hy hc
          · rw [Function.update_noteq hyc]
            exact hy
        have hn' : ∀ y, m2.dpri y = NGHTTP2_STREAM_DPRI_NO_DATA →
            m.dpri y = NGHTTP2_STREAM_DPRI_NO_DATA := by
          intro y hy
          rw [edpri] at hy
          by_cases hyc : y = c
          · subst hyc
            simp at hy
          · rw [Function.update_noteq hyc] at hy
            exact hy
        constructor
        · intro hrv y hy
          cases hy with
          | head =>
            refine hp.not_rest ?_
            rw [edpri]
            simp
          | sib _ _ hy' =>
            refine ihA hrv y ?_
            rw [es]
            exact Searched.carry es ed hn hy'
          | child _ _ hc' _ => exact absurd hc' hc
        · intro hrv
          obtain ⟨s, d, hs, h1, h2', h3, h4, h5⟩ := ihB hrv
          refine ⟨s, d, ?_, ?_, h2', ?_, h4, h5⟩
          · refine Searched.sib c s ?_
            rw [es] at hs
            exact Searched.carry es.symm ed.symm hn' hs
          · rw [edpri] at h1
            by_cases hsc : s = c
            · subst hsc
              simp at h1
            · rw [Function.update_noteq hsc] at h1
              exact h1
          · rw [← edata]
            exact h3
      unfold stream_update_dep_set_top at h
      cases hc : m.dpri c with
      | NGHTTP2_STREAM_DPRI_TOP =>
        simp only [hc] at h
        refine key m h rfl rfl rfl ?_ (by rw [hc]; decide)
        funext y
        by_cases hyc : y = c
        · subst hyc
          simp [hc]
        · rw [Function.update_noteq hyc]
      | NGHTTP2_STREAM_DPRI_REST =>
        simp only [hc] at h
        cases hd : m.data c with
        | none => simp [hd] at h
        | some d =>
          simp only [hd] at h
          by_cases hq : m.queued d = 0
          · rw [if_pos hq] at h
            rcases pq_push_cases m.pq d with ⟨hroom, hpush⟩ | ⟨hroom, hpush⟩
            · simp only [hpush] at h
              rw [if_pos (by decide)] at h
              simp only [Except.ok.injEq, Prod.mk.injEq] at h
              obtain ⟨e1, e2⟩ := h
              subst e1
              subst e2
              refine ⟨fun hrv => absurd hrv (by decide), fun _ => ?_⟩
              exact ⟨c, d, Searched.head c, hc, hc, hd, hq, hpush⟩
            · simp only [hpush] at h
              rw [if_neg (by decide)] at h
              exact key _ h rfl rfl rfl rfl (by rw [hc]; decide)
          · rw [if_neg hq] at h
            exact key _ h rfl rfl rfl rfl (by rw [hc]; decide)
      | NGHTTP2_STREAM_DPRI_NO_DATA =>
        simp only [hc] at h
        cases h1 : stream_update_dep_set_top n m (m.sib_next c) with
        | error e => simp [h1] at h
        | ok r =>
          obtain ⟨m1, rv1⟩ := r
          simp only [h1] at h
          obtain ⟨p1, hp1⟩ := set_top_promoted _ _ _ _ _ h1
          obtain ⟨ihA1, ihB1⟩ := ih _ _ _ _ h1
          by_cases hrv1 : rv1 = 0
          · rw [if_neg (by simpa using hrv1)] at h
            obtain ⟨p2, hp2⟩ := set_top_promoted _ _ _ _ _ h
            obtain ⟨ihA2, ihB2⟩ := ih _ _ _ _ h
            have hf1 := set_top_frame _ _ _ _ _ h1
            have es : m1.sib_next = m.sib_next := by rw [hf1]
            have ed : m1.dep_next = m.dep_next := by rw [hf1]
            constructor
            · intro hrv y hy
              cases hy with
              | head =>
                refine hp2.not_rest (hp1.not_rest ?_)
                rw [hc]
                decide
              | sib _ _ hy' => exact hp2.not_rest (ihA1 hrv1 y hy')
              | child _ _ _ hy' =>
                refine ihA2 hrv y ?_
                rw [ed]
                exact Searched.carry es ed (fun z hz => (hp1.no_data_iff z).2 hz) hy'
            · intro hrv
              obtain ⟨s, d, hs, k1, k2, k3, k4, k5⟩ := ihB2 hrv
              refine ⟨s, d, ?_, hp1.rest_before k1, k2, ?_, k4, k5⟩
              · refine Searched.child c s hc ?_
                rw [ed] at hs
                exact Searched.carry es.symm ed.symm (fun z hz => (hp1.no_data_iff z).1 hz) hs
              · rw [← hp1.data]
                exact k3
          · rw [if_pos (by simpa using hrv1)] at h
            simp only [Except.ok.injEq, Prod.mk.injEq] at h
            obtain ⟨e1, e2⟩ := h
            subst e1
            subst e2
            refine ⟨fun hrv => absurd hrv hrv1, fun hrv => ?_⟩
            obtain ⟨s, d, hs, k⟩ := ihB1 hrv
            exact ⟨s, d, Searched.sib c s hs, k⟩

/-- Where the top-search of each of the six scheduling operations starts. -/
theorem attach_data_search {fuel : Nat} {m m' : Mem} {x : Nat} {data : Option Nat} {rv : Int}
    (h : nghttp2_stream_attach_data fuel m x data = .ok (m', rv)) :
    ∃ m1 l, stream_update_dep_set_top fuel m1 l = .ok (m', rv) ∧ m1.pq = m.pq ∧
      m1.queued = m.queued := by
  obtain ⟨-, -, m2, r, -, hdem, hrun⟩ := attach_data_run h
  exact ⟨m2, some r, hrun, hdem.2.2.2.2.1, hdem.2.2.2.1⟩

theorem detach_data_search {fuel : Nat} {m m' : Mem} {x : Nat} {rv : Int}
    (h : nghttp2_stream_detach_data fuel m x = .ok (m', rv)) :
    ∃ m1 l, stream_update_dep_set_top fuel m1 l = .ok (m', rv) ∧ m1.pq = m.pq ∧
      m1.queued = m.queued := by
  obtain ⟨l, -, hrun⟩ := detach_data_run h
  exact ⟨_, l, hrun, rfl, rfl⟩

theorem detach_deferred_data_search {fuel : Nat} {m m' : Mem} {x : Nat} {rv : Int}
    (h : nghttp2_stream_detach_deferred_data fuel m x = .ok (m', rv)) :
    ∃ m1 l, stream_update_dep_set_top fuel m1 l = .ok (m', rv) ∧ m1.pq = m.pq ∧
      m1.queued = m.queued := by
  obtain ⟨-, d, -, hrun⟩ := detach_deferred_data_run h
  obtain ⟨m1, l, h1, h2, h3⟩ := attach_data_search hrun
  exact ⟨m1, l, h1, h2, h3⟩

theorem dep_make_root_search {fuel : Nat} {m m' : Mem} {g : Option Nat} {s : Nat} {rv : Int}
    (h : nghttp2_stream_dep_make_root fuel m g s = .ok (m', rv)) :
    ∃ m1 l, stream_update_dep_set_top fuel m1 l = .ok (m', rv) ∧ m1.pq = m.pq ∧
      m1.queued = m.queued := by
  obtain ⟨m1, h1, hrun⟩ := dep_make_root_run h
  have hdem := set_rest_stream_group_demoted _ _ _ _ _ h1
  exact ⟨m1, some s, hrun, hdem.2.2.2.2.1, hdem.2.2.2.1⟩

theorem dep_add_subtree_search {fuel : Nat} {m m' : Mem} {p s : Nat} {rv : Int}
    (h : nghttp2_stream_dep_add_subtree fuel m p s = .ok (m', rv)) :
    ∃ m1 l, stream_update_dep_set_top fuel m1 l = .ok (m', rv) ∧ m1.pq = m.pq ∧
      m1.queued = m.queued := by
  obtain ⟨m1, m4, r, h1, e4, hrun⟩ := dep_add_subtree_run h
  have hdem := (set_rest_stream_group_demoted _ _ _ _ _ h1).comp (Demoted.of_sameData e4)
  exact ⟨m4, some r, hrun, hdem.2.2.2.2.1, hdem.2.2.2.1⟩

theorem dep_insert_subtree_search {fuel : Nat} {m m' : Mem} {p s : Nat} {rv : Int}
    (h : nghttp2_stream_dep_insert_subtree fuel m p s = .ok (m', rv)) :
    ∃ m1 l, stream_update_dep_set_top fuel m1 l = .ok (m', rv) ∧ m1.pq = m.pq ∧
      m1.queued = m.queued := by
  obtain ⟨m1, m9, r, h1, e9, -, hrun⟩ := dep_insert_subtree_run h
  have hdem := set_rest_stream_group_demoted _ _ _ _ _ h1
  refine ⟨m9, some r, hrun, ?_, ?_⟩
  · rw [e9]; exact hdem.2.2.2.2.1
  · rw [e9]; exact hdem.2.2.2.1

/-- A top-search keeps the queued flags of the queue, pushes no item that is
in the queue, and so keeps the queue free of duplicates. -/
theorem QueuedFlags.after_search {m m' : Mem} {rv : Int} {pushed : List Nat}
    (hq : QueuedFlags m) (hp : Promoted m m' rv pushed) :
    QueuedFlags m' ∧ (∀ d ∈ pushed, d ∉ m.pq.q) ∧ (m.pq.q.Nodup → m'.pq.q.Nodup) := by
  have hfresh : ∀ d ∈ pushed, d ∉ m.pq.q := by
    intro d hd hdq
    have h1 := hq d hdq
    rw [hp.fresh d hd] at h1
    cases h1
  refine ⟨?_, hfresh, ?_⟩
  · intro d hd
    rw [hp.q] at hd
    rw [hp.queued d]
    by_cases hdp : d ∈ pushed
    · rw [if_pos hdp]
    · rw [if_neg hdp]
      rcases List.mem_append.1 hd with k | k
      · exact hq d k
      · exact absurd k hdp
  · intro hn
    rw [hp.q]
    refine List.Nodup.append hn hp.nodup ?_
    intro d hd1 hd2
    exact hfresh d hd2 hd1

theorem QueuedFlags.after_op {m m1 m' : Mem} {fuel : Nat} {l : Option Nat} {rv : Int}
    (hq : QueuedFlags m)
    (h : stream_update_dep_set_top fuel m1 l = .ok (m', rv) ∧ m1.pq = m.pq ∧
      m1.queued = m.queued) :
    (m.pq.q.Nodup → m'.pq.q.Nodup) ∧ QueuedFlags m' := by
  obtain ⟨hrun, e1, e2⟩ := h
  obtain ⟨pushed, hp⟩ := set_top_promoted _ _ _ _ _ hrun
  have hq1 : QueuedFlags m1 := by
    intro d hd
    rw [e2]
    rw [e1] at hd
    exact hq d hd
  obtain ⟨h1, -, h3⟩ := hq1.after_search hp
  refine ⟨?_, h1⟩
  rw [← e1]
  exact h3

/-- What a returning top-search says about failure. -/
theorem set_top_outcome {fuel : Nat} {m1 m' : Mem} {l : Option Nat} {rv : Int}
    (h : stream_update_dep_set_top fuel m1 l = .ok (m', rv)) (hflag : ∀ d, m1.queued d ≤ 1) :
    (rv ≠ 0 ↔ ∃ s d, Searched m1 l s ∧ m1.dpri s = NGHTTP2_STREAM_DPRI_REST ∧
      m'.dpri s = NGHTTP2_STREAM_DPRI_REST ∧ m'.data s = some d ∧ m'.queued d = 0 ∧
      nghttp2_pq_push m'.pq d = (m'.pq, rv)) ∧
    (∀ s, m1.dpri s = NGHTTP2_STREAM_DPRI_REST → m'.dpri s = NGHTTP2_STREAM_DPRI_TOP →
      ∃ d, m'.data s = some d ∧ m'.queued d = 1) := by
  obtain ⟨pushed, hp⟩ := set_top_promoted _ _ _ _ _ h
  obtain ⟨hA, hB⟩ := set_top_search _ _ _ _ _ h
  refine ⟨⟨fun hrv => ?_, fun hex hrv => ?_⟩, fun s hs hs' => ?_⟩
  · obtain ⟨s, d, k1, k2, k3, k4, k5, k6⟩ := hB hrv
    exact ⟨s, d, k1, k2, k3, by rw [hp.data]; exact k4, k5, k6⟩
  · obtain ⟨s, d, k1, -, k3, -⟩ := hex
    exact hA hrv s k1 k3
  · obtain ⟨d, hd, hq⟩ := hp.promoted s hs hs'
    refine ⟨d, by rw [hp.data]; exact hd, ?_⟩
    have h1 := hp.queued d
    have h2 := hflag d
    by_cases hdp : d ∈ pushed
    · rw [if_pos hdp] at h1
      exact h1
    · rw [if_neg hdp] at h1
      omega

/-- C14: when every item in the queue has `queued = 1`, a returning call of
the top-search appends to the queue a duplicate-free list of items none of
which was in the queue (so a duplicate-free queue stays duplicate-free, and
every item in it has `queued = 1`); for a stream that it promotes from REST
to TOP it pushes the stream's item if and only if that item had `queued = 0`,
and every pushed item is the item of a promoted stream and has `queued = 1`
afterwards.  Hence the queue stays duplicate-free, with `queued = 1` on its
items, after the top-search and after attach_data, detach_data,
detach_deferred_data, dep_insert_subtree, dep_add_subtree and
dep_make_root. -/
theorem C14_no_duplicate_enqueue (m m' : Mem) (hq : ∀ d ∈ m.pq.q, m.queued d = 1) :
    (∀ fuel x rv, stream_update_dep_set_top fuel m x = .ok (m', rv) →
      ∃ pushed, m'.pq.q = m.pq.q ++ pushed ∧ pushed.Nodup ∧ (∀ d ∈ pushed, d ∉ m.pq.q) ∧
        (∀ s d, m.dpri s = NGHTTP2_STREAM_DPRI_REST → m'.dpri s = NGHTTP2_STREAM_DPRI_TOP →
          m.data s = some d → (d ∈ pushed ↔ m.queued d = 0) ∧ m'.queued d ≠ 0) ∧
        (∀ d ∈ pushed, m'.queued d = 1 ∧ ∃ s, m.dpri s = NGHTTP2_STREAM_DPRI_REST ∧
          m'.dpri s = NGHTTP2_STREAM_DPRI_TOP ∧ m.data s = some d)) ∧
    (∀ fuel rv,
      ((∃ x, stream_update_dep_set_top fuel m x = .ok (m', rv)) ∨
        (∃ x d, nghttp2_stream_attach_data fuel m x d = .ok (m', rv)) ∨
        (∃ x, nghttp2_stream_detach_data fuel m x = .ok (m', rv)) ∨
        (∃ x, nghttp2_stream_detach_deferred_data fuel m x = .ok (m', rv)) ∨
        (∃ p s, nghttp2_stream_dep_insert_subtree fuel m p s = .ok (m', rv)) ∨
        (∃ p s, nghttp2_stream_dep_add_subtree fuel m p s = .ok (m', rv)) ∨
        (∃ g s, nghttp2_stream_dep_make_root fuel m g s = .ok (m', rv))) →
      (m.pq.q.Nodup → m'.pq.q.Nodup) ∧ ∀ d ∈ m'.pq.q, m'.queued d = 1) := by
  have hq' : QueuedFlags m := hq
  constructor
  · intro fuel x rv h
    obtain ⟨pushed, hp⟩ := set_top_promoted _ _ _ _ _ h
    refine ⟨pushed, hp.q, hp.nodup, (hq'.after_search hp).2.1, ?_, ?_⟩
    · intro s d hs hs' hd
      obtain ⟨d', hd', hne⟩ := hp.promoted s hs hs'
      rw [hd] at hd'
      cases hd'
      refine ⟨⟨fun hdp => hp.fresh d hdp, fun h0 => ?_⟩, hne⟩
      by_contra hdp
      have h1 := hp.queued d
      rw [if_neg hdp, h0] at h1
      exact hne h1
    · intro d hd
      refine ⟨?_, hp.owner d hd⟩
      rw [hp.queued d, if_pos hd]
  · intro fuel rv h
    rcases h with ⟨x, h⟩ | ⟨x, d, h⟩ | ⟨x, h⟩ | ⟨x, h⟩ | ⟨p, s, h⟩ | ⟨p, s, h⟩ | ⟨g, s, h⟩
    · exact hq'.after_op ⟨h, rfl, rfl⟩
    · obtain ⟨m1, l, h1⟩ := attach_data_search h
      exact hq'.after_op h1
    · obtain ⟨m1, l, h1⟩ := detach_data_search h
      exact hq'.after_op h1
    · obtain ⟨m1, l, h1⟩ := detach_deferred_data_search h
      exact hq'.after_op h1
    · obtain ⟨m1, l, h1⟩ := dep_insert_subtree_search h
      exact hq'.after_op h1
    · obtain ⟨m1, l, h1⟩ := dep_add_subtree_search h
      exact hq'.after_op h1
    · obtain ⟨m1, l, h1⟩ := dep_make_root_search h
      exact hq'.after_op h1

/-- C14 at the top-search of `attach_data(1, item 11)` on the forest `1 -> 2`
whose stream 2 is TOP with item 12 in the queue, and at that `attach_data`
itself. -/
theorem C14_no_duplicate_enqueue_witness :
    (∀ d ∈ memS.pq.q, memS.queued d = 1) ∧
    (∃ pushed, memQ.pq.q = memS.pq.q ++ pushed ∧ pushed.Nodup ∧
      (∀ d ∈ pushed, d ∉ memS.pq.q) ∧
      (∀ s d, memS.dpri s = NGHTTP2_STREAM_DPRI_REST → memQ.dpri s = NGHTTP2_STREAM_DPRI_TOP →
        memS.data s = some d → (d ∈ pushed ↔ memS.queued d = 0) ∧ memQ.queued d ≠ 0) ∧
      (∀ d ∈ pushed, memQ.queued d = 1 ∧ ∃ s, memS.dpri s = NGHTTP2_STREAM_DPRI_REST ∧
        memQ.dpri s = NGHTTP2_STREAM_DPRI_TOP ∧ memS.data s = some d)) ∧
    (∀ d ∈ memQ1.pq.q, memQ1.queued d = 1) ∧
    ((memQ1.pq.q.Nodup → memQ.pq.q.Nodup) ∧ ∀ d ∈ memQ.pq.q, memQ.queued d = 1) :=
  ⟨by decide,
    (C14_no_duplicate_enqueue memS memQ (by decide)).1 3 (some 1) 0 rfl,
    by decide,
    (C14_no_duplicate_enqueue memQ1 memQ (by decide)).2 2 0
      (Or.inr (Or.inl ⟨1, some 11, rfl⟩))⟩

theorem Promotion.not_failed {m' : Mem} {e : Nat × Nat × Option Int} (h : Promotion m' e) :
    ¬ ∃ c, e.2.2 = some c ∧ c ≠ 0 := by
  rintro ⟨c, hc, hne⟩
  rcases h.1 with k | k
  · rw [k] at hc
    cases hc
  · rw [k] at hc
    cases hc
    exact hne rfl

theorem PushLog.nil (m' : Mem) : PushLog m' 0 [] :=
  ⟨⟨fun h => absurd rfl h, fun ⟨_, he, _⟩ => (nomatch he)⟩,
    Or.inl ⟨rfl, fun _ he => (nomatch he)⟩⟩

theorem PushLog.append {m' : Mem} {rv : Int} {log1 log2 : List (Nat × Nat × Option Int)}
    (h1 : ∀ e ∈ log1, Promotion m' e) (h2 : PushLog m' rv log2) :
    PushLog m' rv (log1 ++ log2) := by
  obtain ⟨hiff, hd⟩ := h2
  refine ⟨?_, ?_⟩
  · rw [hiff]
    constructor
    · rintro ⟨e, he, hc⟩
      exact ⟨e, List.mem_append.2 (Or.inr he), hc⟩
    · rintro ⟨e, he, hc⟩
      rcases List.mem_append.1 he with k | k
      · exact absurd hc (h1 e k).not_failed
      · exact ⟨e, k, hc⟩
  · rcases hd with ⟨hrv, hall⟩ | ⟨hrv, pre, s, d, hlog, hpre, hs⟩
    · refine Or.inl ⟨hrv, fun e he => ?_⟩
      rcases List.mem_append.1 he with k | k
      · exact h1 e k
      · exact hall e k
    · refine Or.inr ⟨hrv, log1 ++ pre, s, d, by rw [hlog, List.append_assoc], fun e he => ?_, hs⟩
      rcases List.mem_append.1 he with k | k
      · exact h1 e k
      · exact hpre e k

theorem PushLog.cons {m' : Mem} {rv : Int} {e : Nat × Nat × Option Int}
    {log : List (Nat × Nat × Option Int)} (h1 : Promotion m' e) (h2 : PushLog m' rv log) :
    PushLog m' rv (e :: log) :=
  @PushLog.append m' rv [e] log (fun e' he' => by
    rw [List.mem_singleton] at he'
    rw [he']
    exact h1) h2

